import Mathlib

/-!
# Panoramix mixed graph: patches, decomposition, spanning-tree reduction, depth optimizer

A shallow embedding of `src/core/mixed_graph.cpp`, and of the sort-and-sweep step that merges
angle spans in `src/rec/views_net.cpp`.

* Handles (`MGUnaryHandle`, `MGBinaryHandle`) are indices into the element arrays of the graph.
* `std::unordered_map<Handle, T>` is an association list with one entry per key; `m.at(k)` is
  `mapAt`, `Contains(m, k)` is `Contains`, `m[k] = v` is `mapSet`.
* `double` is modelled by exact rationals.
* A C++ exception or an out-of-range access is the result `none`.
* `assert` is compiled out (release build); the asserted facts are stated as theorems instead.
-/

namespace Panoramix

/-! ## Containers -/

/-- The call `m.at(k)` of an unordered map: the value bound to `k`, or `none` (it throws). -/
def mapAt {β : Type} : List (Nat × β) → Nat → Option β
  | [], _ => none
  | (k', v) :: t, k => if k' = k then some v else mapAt t k

/-- The test `Contains(m, k)`: whether key `k` is bound in the map. -/
def Contains {β : Type} (m : List (Nat × β)) (k : Nat) : Bool := (mapAt m k).isSome

/-- The assignment `m[k] = v`: overwrite the entry of `k` or add one. -/
def mapSet {β : Type} : List (Nat × β) → Nat → β → List (Nat × β)
  | [], k, v => [(k, v)]
  | (k', v') :: t, k, v => if k' = k then (k, v) :: t else (k', v') :: mapSet t k v

/-- The keys of a map, in iteration order. -/
def mapKeys {β : Type} (m : List (Nat × β)) : List Nat := m.map Prod.fst

/-- The read `m[k]` of a map to `int`: a key that is not bound reads as the default `0`. -/
def mapGetD (m : List (Nat × Nat)) (k : Nat) : Nat := (mapAt m k).getD 0

/-- The update `v[i] = f(v[i])` of a `std::vector`; an index past the end is `none`. -/
def vecModify {α : Type} (f : α → Option α) : List α → Nat → Option (List α)
  | [], _ => none
  | a :: t, 0 => (f a).map (fun a' => a' :: t)
  | a :: t, i + 1 => (vecModify f t i).map (fun t' => a :: t')

/-! ## Data model -/

abbrev MGUnaryHandle := Nat
abbrev MGBinaryHandle := Nat

/-- A direction or point of 3-space (`Vec3`). -/
abbrev Vec3 := ℚ × ℚ × ℚ

/-- The kind of a unary element (`MGUnary::Type`). -/
inductive MGUnaryType where
  | Region
  | Line
  deriving DecidableEq, Repr

/-- The relation kind of a binary element (`MGBinary::Type`). -/
inductive MGBinaryType where
  | RegionRegionConnection
  | RegionLineConnection
  | LineLineIntersection
  | LineLineIncidence
  | RegionRegionOverlapping
  deriving DecidableEq, Repr

/-- One primitive of the graph (`MGUnary`). -/
structure MGUnary where
  type : MGUnaryType
  normalizedCorners : List Vec3
  normalizedCenter : Vec3
  lineClaz : Int
  deriving DecidableEq, Repr

/-- One relation of the graph (`MGBinary`). -/
structure MGBinary where
  type : MGBinaryType
  weight : ℚ
  normalizedAnchors : List Vec3
  importanceRatioInRelatedUnaries : ℚ × ℚ
  deriving DecidableEq, Repr

/-- The depth binding of a unary element (`MGUnaryVariable`); `vars` is the member
`variables`, a reserved word here. -/
structure MGUnaryVariable where
  vars : List ℚ
  fixed : Bool
  deriving DecidableEq, Repr

/-- The binding of a binary element (`MGBinaryVariable`). -/
structure MGBinaryVariable where
  enabled : Bool
  deriving DecidableEq, Repr

abbrev MGUnaryVarTable := List (MGUnaryHandle × MGUnaryVariable)
abbrev MGBinaryVarTable := List (MGBinaryHandle × MGBinaryVariable)

/-- The constraint graph (`MixedGraph`): the unary elements, and the binary elements each with
its two lower handles `lowers.front()` and `lowers.back()`. Handles are positions. -/
structure MixedGraph where
  unaries : List MGUnary
  binaries : List (MGBinary × (MGUnaryHandle × MGUnaryHandle))
  deriving DecidableEq, Repr

/-- A sub-graph with its own bindings (`MGPatch`). -/
structure MGPatch where
  uhs : List (MGUnaryHandle × MGUnaryVariable)
  bhs : List (MGBinaryHandle × MGBinaryVariable)
  deriving DecidableEq, Repr

namespace MixedGraph

/-- The handles of `mg.elements<0>()`. -/
def unaryHandles (mg : MixedGraph) : List MGUnaryHandle := List.range mg.unaries.length

/-- The handles of `mg.elements<1>()`. -/
def binaryHandles (mg : MixedGraph) : List MGBinaryHandle := List.range mg.binaries.length

/-- The two ends `mg.topo(bh).lowers` of a binary handle (`none` for a handle that is not one
of the graph). -/
def lowers (mg : MixedGraph) (bh : MGBinaryHandle) : Option (MGUnaryHandle × MGUnaryHandle) :=
  (mg.binaries.get? bh).map Prod.snd

/-- The end pair with the default `(0, 0)` when the handle is not one of the graph. -/
def lowersD (mg : MixedGraph) (bh : MGBinaryHandle) : MGUnaryHandle × MGUnaryHandle :=
  (mg.lowers bh).getD (0, 0)

/-- The set `mg.topo(uh).uppers`: the binary handles that have `uh` as one of their ends, in
increasing order. -/
def uppers (mg : MixedGraph) (uh : MGUnaryHandle) : List MGBinaryHandle :=
  mg.binaryHandles.filter (fun bh => decide ((mg.lowersD bh).1 = uh ∨ (mg.lowersD bh).2 = uh))

/-- The other end of `bh` seen from `uh`:
`anotherUh = lowers.front(); if (anotherUh == uh) anotherUh = lowers.back();`. -/
def anotherUh (mg : MixedGraph) (bh : MGBinaryHandle) (uh : MGUnaryHandle) : MGUnaryHandle :=
  if (mg.lowersD bh).1 = uh then (mg.lowersD bh).2 else (mg.lowersD bh).1

/-- Every binary element joins two unary handles of the graph (the precondition of `add`). -/
def WF (mg : MixedGraph) : Prop :=
  ∀ e ∈ mg.binaries, e.2.1 < mg.unaries.length ∧ e.2.2 < mg.unaries.length

instance (mg : MixedGraph) : Decidable mg.WF := by
  unfold WF; infer_instance

end MixedGraph

/-- A map has one entry per key. -/
def KeysNodup {β : Type} (m : List (Nat × β)) : Prop := (mapKeys m).Nodup

/-- The patch is a pair of maps: one entry per handle. -/
def MGPatch.WF (p : MGPatch) : Prop := KeysNodup p.uhs ∧ KeysNodup p.bhs

/-! ## Patch validators and constructors -/

/-- The validator `BinaryHandlesAreValidInPatch` of Invariant A. -/
def BinaryHandlesAreValidInPatch (mg : MixedGraph) (patch : MGPatch) : Bool :=
  patch.bhs.all (fun bhv =>
    !(!Contains patch.uhs (mg.lowersD bhv.1).1 || !Contains patch.uhs (mg.lowersD bhv.1).2))

/-- The constructor `MakePatchOnBinary`. -/
def MakePatchOnBinary (mg : MixedGraph) (bh : MGBinaryHandle)
    (unaryVars : MGUnaryVarTable) (binaryVars : MGBinaryVarTable) : Option MGPatch := do
  let bv ← mapAt binaryVars bh
  let bhs := mapSet [] bh bv
  let uhs ← mg.lowers bh
  let v0 ← mapAt unaryVars uhs.1
  let m0 := mapSet [] uhs.1 v0
  let v1 ← mapAt unaryVars uhs.2
  let m1 := mapSet m0 uhs.2 v1
  pure { uhs := m1, bhs := bhs }

/-- The constructor `MakeStarPatchAroundUnary`. The binding written for the opposite end is
`unaryVars.at(uh)`, as in the source. -/
def MakeStarPatchAroundUnary (mg : MixedGraph) (uh : MGUnaryHandle)
    (unaryVars : MGUnaryVarTable) (binaryVars : MGBinaryVarTable) : Option MGPatch := do
  let v ← mapAt unaryVars uh
  let patch : MGPatch := { uhs := mapSet [] uh v, bhs := [] }
  (mg.uppers uh).foldlM (fun (patch : MGPatch) bh => do
    let another := mg.anotherUh bh uh
    let bv ← mapAt binaryVars bh
    let uv ← mapAt unaryVars uh
    pure { uhs := mapSet patch.uhs another uv, bhs := mapSet patch.bhs bh bv }) patch

/-! ## Connected components -/

/-- The inner loop of a breadth-first visit: every neighbour that is not yet marked is pushed on
the queue and marked. The state is the pair (queue, marked vertices). -/
def bfsPush (s : List Nat × List Nat) (vn : Nat) : List Nat × List Nat :=
  if vn ∈ s.2 then s else (s.1 ++ [vn], s.2 ++ [vn])

/-- Modelled from the spec: the breadth-first traversal of `core::ConnectedComponents`
(`algorithms.hpp` is not part of the sources at hand). One traversal pops the queue until it is
empty, reports each popped vertex and enqueues its unmarked neighbours. The first argument bounds
the number of iterations of the loop; `none` means the bound was hit. The result is the pair
(marked vertices, popped vertices in order). -/
def bfs (neighbors : Nat → List Nat) : Nat → List Nat → List Nat → List Nat →
    Option (List Nat × List Nat)
  | 0, _, _, _ => none
  | _ + 1, [], visited, out => some (visited, out)
  | fuel + 1, v :: q, visited, out =>
      let s := (neighbors v).foldl bfsPush (q, visited)
      bfs neighbors fuel s.1 s.2 (out ++ [v])

/-- Modelled from the spec: the root loop of `core::ConnectedComponents`. Every root that is not
yet marked starts a traversal with the next component id; the callback receives
`(vertex, component id)` for every vertex the traversal pops. The state is (marked vertices,
next id, callback arguments so far). -/
def ccLoop (neighbors : Nat → List Nat) (fuel : Nat) :
    List Nat → List Nat → Nat → List (Nat × Nat) → Option (Nat × List (Nat × Nat))
  | [], _, cid, calls => some (cid, calls)
  | r :: rest, visited, cid, calls =>
      if r ∈ visited then ccLoop neighbors fuel rest visited cid calls
      else
        match bfs neighbors fuel [r] (visited ++ [r]) [] with
        | none => none
        | some (visited', out) =>
            ccLoop neighbors fuel rest visited' (cid + 1) (calls ++ out.map (fun v => (v, cid)))

/-- Modelled from the spec: `core::ConnectedComponents(vertsBegin, vertsEnd, neighbors, callback)`
("maximal connected components using union-find/BFS"). It returns the number of components and
the list of callback invocations `(vertex, component id)`. `fuel` bounds the length of one
traversal; the callers pass the number of graph nodes plus one. -/
def ConnectedComponents (fuel : Nat) (verts : List Nat) (neighbors : Nat → List Nat) :
    Option (Nat × List (Nat × Nat)) :=
  ccLoop neighbors fuel verts [] 0 []

/-- The callback `ccids[uh] = ccid` run over the invocations. -/
def recordCcids (calls : List (Nat × Nat)) : List (Nat × Nat) :=
  calls.foldl (fun ccids c => mapSet ccids c.1 c.2) []

/-- The empty patch of `std::vector<MGPatch> patches(ccNum)`. -/
def emptyPatch : MGPatch := { uhs := [], bhs := [] }

/-- The neighbours lambda of `SplitMixedGraphIntoPatches`: the opposite ends of all binary
handles around `uh`. -/
def graphNeighbors (mg : MixedGraph) (uh : MGUnaryHandle) : List MGUnaryHandle :=
  (mg.uppers uh).foldl (fun neighbors bh => neighbors ++ [mg.anotherUh bh uh]) []

/-- The statement `patches[ccid].uhs[uh] = table.at(uh)`. -/
def assignUnary (table : MGUnaryVarTable) (patches : List MGPatch) (uh : MGUnaryHandle)
    (ccid : Nat) : Option (List MGPatch) := do
  let uv ← mapAt table uh
  vecModify (fun p => some { p with uhs := mapSet p.uhs uh uv }) patches ccid

/-- The statement `patches[ccid].bhs[bh] = table.at(bh)`. -/
def assignBinary (table : MGBinaryVarTable) (patches : List MGPatch) (bh : MGBinaryHandle)
    (ccid : Nat) : Option (List MGPatch) := do
  let bv ← mapAt table bh
  vecModify (fun p => some { p with bhs := mapSet p.bhs bh bv }) patches ccid

/-- The decomposition `SplitMixedGraphIntoPatches`. -/
def SplitMixedGraphIntoPatches (mg : MixedGraph)
    (unaryVars : MGUnaryVarTable) (binaryVars : MGBinaryVarTable) : Option (List MGPatch) := do
  let uhs := mg.unaryHandles
  let (ccNum, calls) ← ConnectedComponents (mg.unaries.length + 1) uhs (graphNeighbors mg)
  let ccids := recordCcids calls
  let patches := List.replicate ccNum emptyPatch
  let patches ← ccids.foldlM (fun patches uhccid =>
    assignUnary unaryVars patches uhccid.1 uhccid.2) patches
  mg.binaryHandles.foldlM (fun patches bh => do
    let uhs ← mg.lowers bh
    assignBinary binaryVars patches bh (mapGetD ccids uhs.1)) patches

/-- The neighbours lambda of `SplitPatch`: opposite ends of the patch's handles around `uh` that
the predicate accepts. -/
def patchNeighbors (mg : MixedGraph) (patch : MGPatch) (useBh : MGBinaryHandle → Bool)
    (uh : MGUnaryHandle) : List MGUnaryHandle :=
  (mg.uppers uh).foldl (fun neighbors bh =>
    if !Contains patch.bhs bh then neighbors
    else if !useBh bh then neighbors
    else neighbors ++ [mg.anotherUh bh uh]) []

/-- The decomposition `SplitPatch`. The last loop runs over all binary handles of the graph and
reads `ccids[...]` with the default `0` for an end that has no component id. -/
def SplitPatch (mg : MixedGraph) (patch : MGPatch) (useBh : MGBinaryHandle → Bool) :
    Option (List MGPatch) := do
  let uhs := mapKeys patch.uhs
  let (ccNum, calls) ← ConnectedComponents (mg.unaries.length + 1) uhs
    (patchNeighbors mg patch useBh)
  let ccids := recordCcids calls
  let patches := List.replicate ccNum emptyPatch
  let patches ← ccids.foldlM (fun patches uhccid =>
    assignUnary patch.uhs patches uhccid.1 uhccid.2) patches
  mg.binaryHandles.foldlM (fun patches bh => do
    let uhs ← mg.lowers bh
    if mapGetD ccids uhs.1 = mapGetD ccids uhs.2 then
      assignBinary patch.bhs patches bh (mapGetD ccids uhs.1)
    else pure patches) patches

/-! ## Specification vocabulary -/

/-- The link relation of a neighbours function: `y` is listed among the neighbours of `x`. -/
def NbRel (nb : Nat → List Nat) (x y : Nat) : Prop := y ∈ nb x

/-- The state of the component loop after some traversals: every vertex is reported once, the
reported vertices are closed under links, ids are below the next id, two reported vertices carry
the same id exactly when a chain of links joins them, and every id below the next is in use. -/
structure CCInv (nb : Nat → List Nat) (cid : Nat) (calls : List (Nat × Nat)) : Prop where
  nodup : (calls.map Prod.fst).Nodup
  closed : ∀ x ∈ calls.map Prod.fst, ∀ y ∈ nb x, y ∈ calls.map Prod.fst
  lt : ∀ c ∈ calls, c.2 < cid
  same : ∀ c ∈ calls, ∀ d ∈ calls,
    (c.2 = d.2 ↔ Relation.ReflTransGen (NbRel nb) c.1 d.1)
  nonempty : ∀ i < cid, ∃ c ∈ calls, c.2 = i

/-- Two nodes are the two ends of one binary handle of the graph. -/
def GraphLink (mg : MixedGraph) (x y : MGUnaryHandle) : Prop :=
  ∃ bh ends, mg.lowers bh = some ends ∧
    ((ends.1 = x ∧ ends.2 = y) ∨ (ends.2 = x ∧ ends.1 = y))

/-- Two nodes are the two ends of one binary handle whose entry in the table is enabled. -/
def EnabledGraphLink (mg : MixedGraph) (binaryVars : MGBinaryVarTable)
    (x y : MGUnaryHandle) : Prop :=
  ∃ bh ends bv, mg.lowers bh = some ends ∧ mapAt binaryVars bh = some bv ∧ bv.enabled = true ∧
    ((ends.1 = x ∧ ends.2 = y) ∨ (ends.2 = x ∧ ends.1 = y))

/-- Two nodes are the two ends of one binary handle bound in the patch. -/
def PatchLink (mg : MixedGraph) (p : MGPatch) (x y : MGUnaryHandle) : Prop :=
  ∃ bh ends, Contains p.bhs bh = true ∧ mg.lowers bh = some ends ∧
    ((ends.1 = x ∧ ends.2 = y) ∨ (ends.2 = x ∧ ends.1 = y))

/-- Two nodes are the two ends of one binary handle bound in the patch with an enabled
binding. -/
def EnabledPatchLink (mg : MixedGraph) (p : MGPatch) (x y : MGUnaryHandle) : Prop :=
  ∃ bh ends bv, mapAt p.bhs bh = some bv ∧ bv.enabled = true ∧ mg.lowers bh = some ends ∧
    ((ends.1 = x ∧ ends.2 = y) ∨ (ends.2 = x ∧ ends.1 = y))

/-- Invariant A: every binary handle bound in the patch is a handle of the graph and both its
ends are bound in the patch. -/
def InvariantA (mg : MixedGraph) (p : MGPatch) : Prop :=
  ∀ bh, Contains p.bhs bh = true →
    ∃ ends, mg.lowers bh = some ends ∧ Contains p.uhs ends.1 = true ∧
      Contains p.uhs ends.2 = true

/-- The nodes of the patch are one connected component when every binary handle bound in the
patch is a link (what `UnariesAreConnectedInPatch` looks at: it never reads `enabled`). -/
def NodesConnected (mg : MixedGraph) (p : MGPatch) : Prop :=
  ∀ x y, Contains p.uhs x = true → Contains p.uhs y = true →
    Relation.ReflTransGen (PatchLink mg p) x y

/-- Invariant B as the specification words it: the nodes of the patch are one connected
component when only the bound handles with an enabled binding are links. -/
def NodesConnectedEnabled (mg : MixedGraph) (p : MGPatch) : Prop :=
  ∀ x y, Contains p.uhs x = true → Contains p.uhs y = true →
    Relation.ReflTransGen (EnabledPatchLink mg p) x y

/-- The binding tables cover the graph: every handle has an entry. -/
def TablesCover (mg : MixedGraph) (unaryVars : MGUnaryVarTable)
    (binaryVars : MGBinaryVarTable) : Prop :=
  (∀ uh, uh < mg.unaries.length → Contains unaryVars uh = true) ∧
  (∀ bh, bh < mg.binaries.length → Contains binaryVars bh = true)

/-! ## Example data -/

/-- A region element used in the examples. -/
def exUnary : MGUnary :=
  { type := MGUnaryType.Region, normalizedCorners := [], normalizedCenter := (0, 0, 1),
    lineClaz := -1 }

/-- A region-region relation without anchors used in the topological examples. -/
def exBinary : MGBinary :=
  { type := MGBinaryType.RegionRegionConnection, weight := 1, normalizedAnchors := [],
    importanceRatioInRelatedUnaries := (0, 0) }

/-- Two nodes joined by one binary element. -/
def twoNodeGraph : MixedGraph :=
  { unaries := [exUnary, exUnary], binaries := [(exBinary, (0, 1))] }

/-- Unary bindings for the two nodes. -/
def twoNodeUnaryVars : MGUnaryVarTable :=
  [(0, { vars := [], fixed := false }), (1, { vars := [], fixed := false })]

/-- The binding table in which the only binary element is disabled. -/
def disabledBinaryVars : MGBinaryVarTable := [(0, { enabled := false })]

/-- The binding table in which the only binary element is enabled. -/
def enabledBinaryVars : MGBinaryVarTable := [(0, { enabled := true })]

/-! ## Minimum spanning tree -/

/-- Insertion of one edge into a list ordered by the comparator. -/
def insertSorted (lt : Nat → Nat → Bool) (e : Nat) : List Nat → List Nat
  | [] => [e]
  | a :: t => if lt e a then e :: a :: t else a :: insertSorted lt e t

/-- Modelled from the spec: the ordering of the edges by the supplied comparator ("lower =
preferred") that a Kruskal-style construction starts with. -/
def sortBy (lt : Nat → Nat → Bool) (l : List Nat) : List Nat :=
  l.foldr (insertSorted lt) []

/-- The relabelling of a Kruskal step: every vertex whose set id is `toid` gets `fromid`. -/
def mergeSets (ids : List (Nat × Nat)) (fromid toid : Nat) : List (Nat × Nat) :=
  ids.map (fun e => if e.2 = toid then (e.1, fromid) else e)

/-- Modelled from the spec: the greedy loop of `core::MinimumSpanningTree` ("standard greedy MST
construction (Kruskal-style)"). The edges come in comparator order; an edge whose two ends carry
different set ids is kept and the two sets are merged. The state is (set ids, kept edges). -/
def kruskalLoop (vertsGetter : Nat → Nat × Nat) :
    List Nat → List (Nat × Nat) → List Nat → List Nat
  | [], _, out => out
  | e :: rest, ids, out =>
      let fromid := mapGetD ids (vertsGetter e).1
      let toid := mapGetD ids (vertsGetter e).2
      if fromid ≠ toid then
        kruskalLoop vertsGetter rest (mergeSets ids fromid toid) (out ++ [e])
      else kruskalLoop vertsGetter rest ids out

/-- Modelled from the spec: `core::MinimumSpanningTree(verts, edges, out, vertsGetter, compare)`
(`algorithms.hpp` is not part of the sources at hand). Every vertex starts in its own set, the
set id being its position. The result is the list written to the output iterator. -/
def MinimumSpanningTree (verts edges : List Nat) (vertsGetter : Nat → Nat × Nat)
    (compare : Nat → Nat → Bool) : List Nat :=
  kruskalLoop vertsGetter (sortBy compare edges) (verts.zip (List.range verts.length)) []

/-- The reducer `MinimumSpanningTreePatch`. -/
def MinimumSpanningTreePatch (mg : MixedGraph) (patch : MGPatch)
    (compareBh : MGBinaryHandle → MGBinaryHandle → Bool) : Option MGPatch := do
  let uhs := mapKeys patch.uhs
  let bhs := mapKeys patch.bhs
  let bhsReserved := MinimumSpanningTree uhs bhs (fun bh => mg.lowersD bh) compareBh
  let mstBhs ← bhsReserved.foldlM (fun (m : List (MGBinaryHandle × MGBinaryVariable)) bh => do
    let bv ← mapAt patch.bhs bh
    pure (mapSet m bh bv)) []
  pure { uhs := patch.uhs, bhs := mstBhs }

/-- The comparator is a strict total order on the listed handles. -/
def StrictTotalOn (lt : Nat → Nat → Bool) (l : List Nat) : Prop :=
  (∀ a ∈ l, lt a a = false) ∧
  (∀ a ∈ l, ∀ b ∈ l, ∀ c ∈ l, lt a b = true → lt b c = true → lt a c = true) ∧
  (∀ a ∈ l, ∀ b ∈ l, a ≠ b → lt a b = true ∨ lt b a = true)

/-- Two vertices are the two ends of one of the listed edges. -/
def ListLink (vertsGetter : Nat → Nat × Nat) (l : List Nat) (x y : Nat) : Prop :=
  ∃ e ∈ l, (vertsGetter e = (x, y) ∨ vertsGetter e = (y, x))

/-- A triangle: three nodes, three binary elements 0-1, 1-2, 0-2. -/
def triangleGraph : MixedGraph :=
  { unaries := [exUnary, exUnary, exUnary],
    binaries := [(exBinary, (0, 1)), (exBinary, (1, 2)), (exBinary, (0, 2))] }

/-- The patch that covers the triangle. -/
def trianglePatch : MGPatch :=
  { uhs := [(0, { vars := [], fixed := false }), (1, { vars := [], fixed := false }),
      (2, { vars := [], fixed := false })],
    bhs := [(0, { enabled := true }), (1, { enabled := true }), (2, { enabled := true })] }

/-- The triangle patch with handle 2 = (0, 2) disabled: the enabled handles 0 and 1 join the
three nodes. -/
def mixedTrianglePatch : MGPatch :=
  { uhs := trianglePatch.uhs,
    bhs := [(0, { enabled := true }), (1, { enabled := true }), (2, { enabled := false })] }

/-- The spanning tree of the triangle under the order "higher handle first": the disabled
handle 2 and the enabled handle 1. -/
def mixedTriangleTree : MGPatch :=
  { uhs := trianglePatch.uhs, bhs := [(2, { enabled := false }), (1, { enabled := true })] }

/-! ## Unary variables: inverse depth -/

/-- The geometry helpers that `mixed_graph.cpp` calls and that live elsewhere:
`norm(DistanceBetweenTwoLines(...).second.first)` for a line element (its depth ratio at a
direction) and `normalize`. -/
structure Geometry where
  lineDepthRatio : Vec3 → MGUnary → List Vec3 → ℚ
  normalize : Vec3 → Vec3

/-- The product `a.dot(b)`. -/
def dot (a b : Vec3) : ℚ := a.1 * b.1 + a.2.1 * b.2.1 + a.2.2 * b.2.2

/-- The product `a.cross(b)`. -/
def cross (a b : Vec3) : Vec3 :=
  (a.2.1 * b.2.2 - a.2.2 * b.2.1, a.2.2 * b.1 - a.1 * b.2.2, a.1 * b.2.1 - a.2.1 * b.1)

/-- The triple product of three directions; it is not zero exactly when they are linearly
independent. -/
def det3 (a1 a2 a3 : Vec3) : ℚ := dot a1 (cross a2 a3)

/-- The method `MGUnaryVariable::variableCoeffsForInverseDepthAtDirection`. -/
def MGUnaryVariable.variableCoeffsForInverseDepthAtDirection (geo : Geometry)
    (_self : MGUnaryVariable) (direction : Vec3) (unary : MGUnary) (vps : List Vec3) : List ℚ :=
  match unary.type with
  | MGUnaryType.Region => [direction.1, direction.2.1, direction.2.2]
  | MGUnaryType.Line => [1 / geo.lineDepthRatio direction unary vps]

/-- The method `MGUnaryVariable::inverseDepthAtDirection`; reading a parameter that is not there
is `none`. -/
def MGUnaryVariable.inverseDepthAtDirection (geo : Geometry) (self : MGUnaryVariable)
    (direction : Vec3) (unary : MGUnary) (vps : List Vec3) : Option ℚ :=
  match unary.type with
  | MGUnaryType.Region => do
      let v0 ← self.vars.get? 0
      let v1 ← self.vars.get? 1
      let v2 ← self.vars.get? 2
      pure (v0 * direction.1 + v1 * direction.2.1 + v2 * direction.2.2)
  | MGUnaryType.Line => do
      let v0 ← self.vars.get? 0
      pure (v0 / geo.lineDepthRatio direction unary vps)

/-- The element data `mg.data(uh)`. -/
def MixedGraph.dataU (mg : MixedGraph) (uh : MGUnaryHandle) : Option MGUnary :=
  mg.unaries.get? uh

/-- The element data `mg.data(bh)`. -/
def MixedGraph.dataB (mg : MixedGraph) (bh : MGBinaryHandle) : Option MGBinary :=
  (mg.binaries.get? bh).map Prod.fst

/-! ## Necessary anchors -/

/-- The loop of `NecessaryAnchorsForBinary` over the interior anchors `k = 1 .. size - 2`: the
largest `|alignDir . anchor_k|` seen so far and its index (`0.0` and `-1` at the start). -/
def maxOffsetAnchor (alignDir : Vec3) (anchors : List Vec3) : ℚ × Int :=
  (List.range' 1 (anchors.length - 2)).foldl (fun (acc : ℚ × Int) k =>
    let dotProd := |dot alignDir (anchors.getD k (0, 0, 0))|
    if dotProd > acc.1 then (dotProd, (k : Int)) else acc) (0, -1)

/-- The selection `NecessaryAnchorsForBinary`. -/
def NecessaryAnchorsForBinary (geo : Geometry) (mg : MixedGraph) (bh : MGBinaryHandle) :
    Option (List Vec3) := do
  let b ← mg.dataB bh
  match b.type with
  | MGBinaryType.LineLineIncidence => pure b.normalizedAnchors
  | MGBinaryType.LineLineIntersection => pure b.normalizedAnchors
  | MGBinaryType.RegionRegionOverlapping => do
      let a0 ← b.normalizedAnchors.get? 0
      let a1 ← b.normalizedAnchors.get? 1
      let a2 ← b.normalizedAnchors.get? 2
      pure [a0, a1, a2]
  | MGBinaryType.RegionLineConnection => do
      let front ← b.normalizedAnchors.head?
      let back ← b.normalizedAnchors.getLast?
      pure [front, back]
  | MGBinaryType.RegionRegionConnection => do
      let front ← b.normalizedAnchors.head?
      let back ← b.normalizedAnchors.getLast?
      let alignDir := geo.normalize (cross front back)
      let r := maxOffsetAnchor alignDir b.normalizedAnchors
      if r.1 > 1 / 1000 then do
        let mid ← b.normalizedAnchors.get? r.2.toNat
        pure [front, mid, back]
      else pure [front, back]

/-! ## Sparse linear systems -/

/-- An `Eigen::SparseMatrix<double>`: its size and the inserted coefficients
`(row, column, value)`. -/
structure SparseMatrix where
  rows : Nat
  cols : Nat
  entries : List (Nat × Nat × ℚ)
  deriving DecidableEq, Repr

namespace SparseMatrix

/-- The state after `M.resize(rows, cols)`. -/
def resize (rows cols : Nat) : SparseMatrix := { rows := rows, cols := cols, entries := [] }

/-- The statement `M.insert(r, c) = v`: the position must be inside the matrix and not yet
filled. -/
def insert (M : SparseMatrix) (r c : Nat) (v : ℚ) : Option SparseMatrix :=
  if r < M.rows ∧ c < M.cols ∧ M.entries.all (fun e => !(e.1 == r && e.2.1 == c)) then
    some { M with entries := M.entries ++ [(r, c, v)] }
  else none

/-- The product `W * A` of two sparse matrices. -/
def mul (W A : SparseMatrix) : SparseMatrix :=
  { rows := W.rows, cols := A.cols,
    entries := W.entries.flatMap (fun w =>
      (A.entries.filter (fun a => a.1 == w.2.1)).map (fun a => (w.1, a.2.1, w.2.2 * a.2.2))) }

/-- The product `W * B` of a sparse matrix and a dense vector. -/
def mulVec (W : SparseMatrix) (B : List ℚ) : List ℚ :=
  (List.range W.rows).map (fun r =>
    ((W.entries.filter (fun e => e.1 == r)).map (fun e => e.2.2 * B.getD e.2.1 0)).sum)

/-- Row `r` of the matrix applied to the vector `x`. -/
def rowDot (M : SparseMatrix) (r : Nat) (x : List ℚ) : ℚ :=
  ((M.entries.filter (fun e => e.1 == r)).map (fun e => e.2.2 * x.getD e.2.1 0)).sum

end SparseMatrix

/-- The assignment `B(i) = v` of a dense vector; an index past the end is `none`. -/
def vecSet (B : List ℚ) (i : Nat) (v : ℚ) : Option (List ℚ) :=
  if i < B.length then some (B.set i v) else none

/-- The numerical solver `Eigen::SparseQR`: whether `compute(M)` succeeds, and the result of
`solve(rhs)` when it succeeds. -/
structure SparseQR where
  compute : SparseMatrix → Bool
  solve : SparseMatrix → List ℚ → Option (List ℚ)

/-- The vector `x` solves the system `M x = b`. -/
def Solves (M : SparseMatrix) (b x : List ℚ) : Prop :=
  x.length = M.cols ∧ ∀ r, r < M.rows → M.rowDot r x = b.getD r 0

/-- The squared residual of `x` in the system `M x = b`. -/
def residual (M : SparseMatrix) (b x : List ℚ) : ℚ :=
  ((List.range M.rows).map (fun r => (M.rowDot r x - b.getD r 0) ^ 2)).sum

/-- The contract of a least-squares solver: what it returns has as many entries as the matrix
has columns and its squared residual is minimal. -/
def SparseQR.LeastSquares (solver : SparseQR) : Prop :=
  ∀ M b x, solver.solve M b = some x →
    x.length = M.cols ∧ ∀ y : List ℚ, y.length = M.cols → residual M b x ≤ residual M b y

/-! ## Depth optimizer: least squares -/

/-- The members of `MGPatchDepthsOptimizerInternalEigen`. -/
structure MGPatchDepthsOptimizerInternalEigen where
  A : SparseMatrix
  W : SparseMatrix
  B : List ℚ
  useWeights : Bool
  uh2varStartPosition : List (MGUnaryHandle × Nat)
  bh2consStartPosition : List (MGBinaryHandle × Nat)
  appliedBinaryAnchors : List (MGBinaryHandle × List Vec3)
  deriving DecidableEq, Repr

namespace MGPatchDepthsOptimizerInternalEigen

/-- The object after `new MGPatchDepthsOptimizerInternalEigen`: the containers are empty; the
member `useWeights` has no initializer, its value is whatever the argument says. -/
def fresh (indeterminate : Bool) : MGPatchDepthsOptimizerInternalEigen :=
  { A := SparseMatrix.resize 0 0, W := SparseMatrix.resize 0 0, B := [],
    useWeights := indeterminate, uh2varStartPosition := [], bh2consStartPosition := [],
    appliedBinaryAnchors := [] }

/-- Lines 940-957 of `initialize`: the start position of every non-fixed node. The state is
(`uh2varStartPosition`, `varNum`, `hasFixedUnary`). -/
def assignVarStarts (patch : MGPatch) : List (MGUnaryHandle × Nat) × Nat × Bool :=
  patch.uhs.foldl (fun (s : List (MGUnaryHandle × Nat) × Nat × Bool) uhv =>
    if uhv.2.fixed then (s.1, s.2.1, true)
    else (mapSet s.1 uhv.1 s.2.1, s.2.1 + uhv.2.vars.length, s.2.2)) ([], 0, false)

/-- Lines 959-981 of `initialize`: the first row and the necessary anchors of every enabled
handle with a non-fixed end. The state is (`bh2consStartPosition`, `appliedBinaryAnchors`,
`consNum`). -/
def countConstraints (geo : Geometry) (mg : MixedGraph) (patch : MGPatch)
    (uh2var : List (MGUnaryHandle × Nat)) (hasFixedUnary : Bool) :
    Option (List (MGBinaryHandle × Nat) × List (MGBinaryHandle × List Vec3) × Nat) :=
  patch.bhs.foldlM (fun (s : List (MGBinaryHandle × Nat) × List (MGBinaryHandle × List Vec3) × Nat)
      bhv =>
    if !bhv.2.enabled then pure s
    else do
      let ends ← mg.lowers bhv.1
      let u1IsFixed := !Contains uh2var ends.1
      let u2IsFixed := !Contains uh2var ends.2
      if u1IsFixed && u2IsFixed then pure s
      else do
        let anchors ← NecessaryAnchorsForBinary geo mg bhv.1
        pure (mapSet s.1 bhv.1 s.2.2, mapSet s.2.1 bhv.1 anchors, s.2.2 + anchors.length))
    ([], [], if !hasFixedUnary then 1 else 0)

/-- The loop `for i: A.insert(eid, start + i) = sign * coeffs[i]`. -/
def insertCoeffs (A : SparseMatrix) (eid start : Nat) (sign : ℚ) (coeffs : List ℚ) :
    Option SparseMatrix :=
  (List.range coeffs.length).foldlM (fun (A : SparseMatrix) i =>
    A.insert eid (start + i) (sign * coeffs.getD i 0)) A

/-- The equation system under construction: `A`, `W`, `B` and the row counter `eid`. -/
structure Equations where
  A : SparseMatrix
  W : SparseMatrix
  B : List ℚ
  eid : Nat
  deriving DecidableEq, Repr

/-- Lines 992-1006 of `initialize`: the scale equation on the first node of the patch, written
when no node is fixed. -/
def writeScaleEquation (geo : Geometry) (mg : MixedGraph) (patch : MGPatch) (vps : List Vec3)
    (uh2var : List (MGUnaryHandle × Nat)) (eq : Equations) : Option Equations := do
  let uhv ← patch.uhs.head?
  let u ← mg.dataU uhv.1
  let coeffs := uhv.2.variableCoeffsForInverseDepthAtDirection geo u.normalizedCenter u vps
  let start ← mapAt uh2var uhv.1
  let A ← insertCoeffs eq.A eq.eid start 1 coeffs
  let B ← vecSet eq.B eq.eid 1
  let W ← eq.W.insert eq.eid eq.eid 1
  pure { A := A, W := W, B := B, eid := eq.eid + 1 }

/-- Lines 1032-1063 of `initialize`: the row of one anchor of one handle. -/
def writeAnchorEquation (geo : Geometry) (vps : List Vec3) (weight : ℚ)
    (u1 u2 : MGUnary) (u1Var u2Var : MGUnaryVariable) (u1Start u2Start : Option Nat)
    (eq : Equations) (a : Vec3) : Option Equations := do
  let B ← vecSet eq.B eq.eid 0
  let W ← eq.W.insert eq.eid eq.eid weight
  let (A, B) ← (match u1Start with
    | none => do
        let inverseDepthAtA ← u1Var.inverseDepthAtDirection geo a u1 vps
        let B ← vecSet B eq.eid (-inverseDepthAtA)
        pure (eq.A, B)
    | some start => do
        let A ← insertCoeffs eq.A eq.eid start 1
          (u1Var.variableCoeffsForInverseDepthAtDirection geo a u1 vps)
        pure (A, B) : Option (SparseMatrix × List ℚ))
  let (A, B) ← (match u2Start with
    | none => do
        let inverseDepthAtA ← u2Var.inverseDepthAtDirection geo a u2 vps
        let B ← vecSet B eq.eid inverseDepthAtA
        pure (A, B)
    | some start => do
        let A ← insertCoeffs A eq.eid start (-1)
          (u2Var.variableCoeffsForInverseDepthAtDirection geo a u2 vps)
        pure (A, B) : Option (SparseMatrix × List ℚ))
  pure { A := A, W := W, B := B, eid := eq.eid + 1 }

/-- Lines 1007-1064 of `initialize`: the rows of all enabled handles with a non-fixed end. -/
def writeBinaryEquations (geo : Geometry) (mg : MixedGraph) (patch : MGPatch) (vps : List Vec3)
    (uh2var : List (MGUnaryHandle × Nat)) (applied : List (MGBinaryHandle × List Vec3))
    (eq : Equations) : Option Equations :=
  patch.bhs.foldlM (fun (eq : Equations) bhv =>
    if !bhv.2.enabled then pure eq
    else do
      let ends ← mg.lowers bhv.1
      let u1 ← mg.dataU ends.1
      let u2 ← mg.dataU ends.2
      let u1IsFixed := !Contains uh2var ends.1
      let u2IsFixed := !Contains uh2var ends.2
      if u1IsFixed && u2IsFixed then pure eq
      else do
        let u1Var ← mapAt patch.uhs ends.1
        let u2Var ← mapAt patch.uhs ends.2
        let b ← mg.dataB bhv.1
        let anchors ← mapAt applied bhv.1
        anchors.foldlM (writeAnchorEquation geo vps b.weight u1 u2 u1Var u2Var
          (mapAt uh2var ends.1) (mapAt uh2var ends.2)) eq) eq

/-- The method `MGPatchDepthsOptimizerInternalEigen::initialize` (spelled `initialise`, the
other spelling is a reserved word here). The argument `useWeights` is
not stored: the member of the same name keeps the value it had. The patch is only read. -/
def initialise (geo : Geometry) (self : MGPatchDepthsOptimizerInternalEigen) (mg : MixedGraph)
    (patch : MGPatch) (vps : List Vec3) (_useWeights : Bool) :
    Option MGPatchDepthsOptimizerInternalEigen := do
  let starts := assignVarStarts patch
  let uh2var := starts.1
  let varNum := starts.2.1
  let hasFixedUnary := starts.2.2
  let (bh2cons, applied, consNum) ← countConstraints geo mg patch uh2var hasFixedUnary
  let eq : Equations :=
    { A := SparseMatrix.resize consNum varNum, W := SparseMatrix.resize consNum consNum,
      B := List.replicate consNum 0, eid := 0 }
  let eq ← (if !hasFixedUnary then writeScaleEquation geo mg patch vps uh2var eq
    else pure eq : Option Equations)
  let eq ← writeBinaryEquations geo mg patch vps uh2var applied eq
  pure { self with A := eq.A, W := eq.W, B := eq.B, uh2varStartPosition := uh2var,
                   bh2consStartPosition := bh2cons, appliedBinaryAnchors := applied }

/-- The matrix handed to `solver.compute`: `useWeights ? WA : A`. -/
def solvedMatrix (self : MGPatchDepthsOptimizerInternalEigen) : SparseMatrix :=
  if self.useWeights then self.W.mul self.A else self.A

/-- The right-hand side handed to `solver.solve`: `useWeights ? WB : B`. -/
def solvedRhs (self : MGPatchDepthsOptimizerInternalEigen) : List ℚ :=
  if self.useWeights then self.W.mulVec self.B else self.B

/-- The back-substitution loop of `optimize` for one node: a node with a start position gets
`variables[i] = X(start + i)`. -/
def writeBack (uh2var : List (MGUnaryHandle × Nat)) (X : List ℚ)
    (uhv : MGUnaryHandle × MGUnaryVariable) : Option (MGUnaryHandle × MGUnaryVariable) :=
  if !Contains uh2var uhv.1 then some uhv
  else do
    let start ← mapAt uh2var uhv.1
    let vars ← (List.range uhv.2.vars.length).mapM (fun i => X.get? (start + i))
    some (uhv.1, { uhv.2 with vars := vars })

/-- The method `MGPatchDepthsOptimizerInternalEigen::optimize`: the returned flag and the patch
afterwards. -/
def optimize (solver : SparseQR) (self : MGPatchDepthsOptimizerInternalEigen)
    (patch : MGPatch) : Option (Bool × MGPatch) :=
  if !solver.compute self.solvedMatrix then some (false, patch)
  else
    match solver.solve self.solvedMatrix self.solvedRhs with
    | none => some (false, patch)
    | some X => do
        let uhs ← patch.uhs.mapM (writeBack self.uh2varStartPosition X)
        some (true, { patch with uhs := uhs })

end MGPatchDepthsOptimizerInternalEigen

/-! ## Depth optimizer: linear programming -/

/-- The members of `MGPatchDepthsOptimizerInternalMosek` that `initialize` computes, and the
sizes it hands to `MSK_maketask` (the calls into the Mosek library are not modelled). -/
structure MGPatchDepthsOptimizerInternalMosek where
  uh2varStartPosition : List (MGUnaryHandle × Nat)
  bh2consStartPosition : List (MGBinaryHandle × Nat)
  appliedBinaryAnchors : List (MGBinaryHandle × List Vec3)
  uhFixed : List (MGUnaryHandle × Bool)
  uhCCs : List (Nat × List MGUnaryHandle)
  uhCCIds : List (MGUnaryHandle × Nat)
  varNum : Nat
  consNum : Nat
  deriving DecidableEq, Repr

namespace MGPatchDepthsOptimizerInternalMosek

/-- The object after `new MGPatchDepthsOptimizerInternalMosek`. -/
def fresh : MGPatchDepthsOptimizerInternalMosek :=
  { uh2varStartPosition := [], bh2consStartPosition := [], appliedBinaryAnchors := [],
    uhFixed := [], uhCCs := [], uhCCIds := [], varNum := 0, consNum := 0 }

/-- Lines 631-646: the necessary anchors of every enabled handle with an end that has a start
position, looked up in `uh2varStartPosition` as it is at that point. -/
def collectAnchors (geo : Geometry) (mg : MixedGraph) (patch : MGPatch)
    (uh2var : List (MGUnaryHandle × Nat)) (applied : List (MGBinaryHandle × List Vec3)) :
    Option (List (MGBinaryHandle × List Vec3)) :=
  patch.bhs.foldlM (fun (applied : List (MGBinaryHandle × List Vec3)) bhv =>
    if !bhv.2.enabled then pure applied
    else do
      let ends ← mg.lowers bhv.1
      let _u1 ← mg.dataU ends.1
      let _u2 ← mg.dataU ends.2
      let u1IsFixed := !Contains uh2var ends.1
      let u2IsFixed := !Contains uh2var ends.2
      if u1IsFixed && u2IsFixed then pure applied
      else do
        let anchors ← NecessaryAnchorsForBinary geo mg bhv.1
        pure (mapSet applied bhv.1 anchors)) applied

/-- The neighbours lambda of lines 656-670: opposite ends over handles with exactly three
applied anchors. -/
def strongNeighbors (mg : MixedGraph) (patch : MGPatch)
    (applied : List (MGBinaryHandle × List Vec3)) (uh : MGUnaryHandle) : List MGUnaryHandle :=
  (mg.uppers uh).foldl (fun neighbors bh =>
    if !Contains applied bh then neighbors
    else if ((mapAt applied bh).getD []).length != 3 then neighbors
    else if !Contains patch.uhs uh then neighbors
    else neighbors ++ [mg.anotherUh bh uh]) []

/-- The callback of lines 671-674: `uhCCs[ccId].push_back(uh); uhCCIds[uh] = ccId;`. -/
def recordCC (s : List (Nat × List MGUnaryHandle) × List (MGUnaryHandle × Nat))
    (c : MGUnaryHandle × Nat) : List (Nat × List MGUnaryHandle) × List (MGUnaryHandle × Nat) :=
  (mapSet s.1 c.2 (((mapAt s.1 c.2).getD []) ++ [c.1]), mapSet s.2 c.1 c.2)

/-- Lines 681-694: the sum of the parameter triples of the fixed nodes of one component and
their number. -/
def sumFixed (patch : MGPatch) (uhs : List MGUnaryHandle) : Option (Vec3 × Nat) :=
  uhs.foldlM (fun (acc : Vec3 × Nat) uh => do
    let uhVar ← mapAt patch.uhs uh
    if uhVar.fixed then do
      let v0 ← uhVar.vars.get? 0
      let v1 ← uhVar.vars.get? 1
      let v2 ← uhVar.vars.get? 2
      pure ((acc.1.1 + v0, acc.1.2.1 + v1, acc.1.2.2 + v2), acc.2 + 1)
    else pure acc) ((0, 0, 0), 0)

/-- Lines 695-704: when the component has a fixed node, every non-fixed node of it gets the
mean triple and every node of it is marked fixed. The state is (patch, `uhFixed`). -/
def spreadFixed (abc : Vec3) (fixedNum : Nat) (uhs : List MGUnaryHandle)
    (s : MGPatch × List (MGUnaryHandle × Bool)) :
    Option (MGPatch × List (MGUnaryHandle × Bool)) :=
  if fixedNum = 0 then pure s
  else
    let mean : Vec3 := (abc.1 / fixedNum, abc.2.1 / fixedNum, abc.2.2 / fixedNum)
    uhs.foldlM (fun (s : MGPatch × List (MGUnaryHandle × Bool)) uh => do
      let uhVar ← mapAt s.1.uhs uh
      let patch := if !uhVar.fixed then
          { s.1 with uhs := mapSet s.1.uhs uh { uhVar with vars := [mean.1, mean.2.1, mean.2.2] } }
        else s.1
      pure (patch, mapSet s.2 uh true)) s

/-- Lines 678-705: the spreading step over all components. -/
def spreadAll (uhCCs : List (Nat × List MGUnaryHandle))
    (s : MGPatch × List (MGUnaryHandle × Bool)) :
    Option (MGPatch × List (MGUnaryHandle × Bool)) :=
  uhCCs.foldlM (fun (s : MGPatch × List (MGUnaryHandle × Bool)) cc => do
    let r ← sumFixed s.1 cc.2
    spreadFixed r.1 r.2 cc.2 s) s

/-- Lines 709-723: the start positions; the nodes of one component share the variables of its
first node. The state is (`uh2varStartPosition`, `varNum`). -/
def assignVarStarts (patch : MGPatch) (uhFixed : List (MGUnaryHandle × Bool))
    (uhCCs : List (Nat × List MGUnaryHandle)) (uhCCIds : List (MGUnaryHandle × Nat)) :
    Option (List (MGUnaryHandle × Nat) × Nat) :=
  patch.uhs.foldlM (fun (s : List (MGUnaryHandle × Nat) × Nat) uhv => do
    let isFixed ← mapAt uhFixed uhv.1
    if isFixed then pure s
    else do
      let ccId ← mapAt uhCCIds uhv.1
      let cc ← mapAt uhCCs ccId
      let firstUhInThisCC ← cc.head?
      if firstUhInThisCC = uhv.1 then
        pure (mapSet s.1 uhv.1 s.2, s.2 + uhv.2.vars.length)
      else do
        let start ← mapAt s.1 firstUhInThisCC
        pure (mapSet s.1 uhv.1 start, s.2)) ([], 0)

/-- Lines 725-742: the first constraint row of every enabled handle with a non-fixed end. The
read `appliedBinaryAnchors[bh]` of a handle without an entry makes an empty entry and reads it.
The state is (`bh2consStartPosition`, `appliedBinaryAnchors`, `consNum`). -/
def countConstraints (mg : MixedGraph) (patch : MGPatch)
    (uhFixed : List (MGUnaryHandle × Bool)) (applied : List (MGBinaryHandle × List Vec3)) :
    Option (List (MGBinaryHandle × Nat) × List (MGBinaryHandle × List Vec3) × Nat) :=
  patch.bhs.foldlM (fun (s : List (MGBinaryHandle × Nat) × List (MGBinaryHandle × List Vec3) × Nat)
      bhv =>
    if !bhv.2.enabled then pure s
    else do
      let ends ← mg.lowers bhv.1
      let _u1 ← mg.dataU ends.1
      let _u2 ← mg.dataU ends.2
      let u1IsFixed ← mapAt uhFixed ends.1
      let u2IsFixed ← mapAt uhFixed ends.2
      if u1IsFixed && u2IsFixed then pure s
      else
        let anchors := (mapAt s.2.1 bhv.1).getD []
        pure (mapSet s.1 bhv.1 s.2.2, mapSet s.2.1 bhv.1 anchors, s.2.2 + anchors.length))
    ([], applied, 0)

/-- The method `MGPatchDepthsOptimizerInternalMosek::initialize` (spelled `initialise`): the
object and the patch afterwards. -/
def initialise (geo : Geometry) (self : MGPatchDepthsOptimizerInternalMosek) (mg : MixedGraph)
    (patch : MGPatch) (_vps : List Vec3) (_useWeights : Bool) :
    Option (MGPatchDepthsOptimizerInternalMosek × MGPatch) := do
  let uhFixed := patch.uhs.foldl (fun (m : List (MGUnaryHandle × Bool)) uhv =>
    mapSet m uhv.1 uhv.2.fixed) self.uhFixed
  let applied ← collectAnchors geo mg patch self.uh2varStartPosition self.appliedBinaryAnchors
  let (_, calls) ← ConnectedComponents (mg.unaries.length + 1) (mapKeys patch.uhs)
    (strongNeighbors mg patch applied)
  let ccs := calls.foldl recordCC (self.uhCCs, self.uhCCIds)
  let (patch, uhFixed) ← spreadAll ccs.1 (patch, uhFixed)
  let (uh2var, varNum) ← assignVarStarts patch uhFixed ccs.1 ccs.2
  let (bh2cons, applied, consNum) ← countConstraints mg patch uhFixed applied
  pure ({ uh2varStartPosition := uh2var, bh2consStartPosition := bh2cons,
          appliedBinaryAnchors := applied, uhFixed := uhFixed, uhCCs := ccs.1,
          uhCCIds := ccs.2, varNum := varNum + consNum, consNum := consNum * 2 }, patch)

/-- The method `MGPatchDepthsOptimizerInternalMosek::optimize`: `return false;`. -/
def optimize (_self : MGPatchDepthsOptimizerInternalMosek) (patch : MGPatch) :
    Option (Bool × MGPatch) :=
  some (false, patch)

end MGPatchDepthsOptimizerInternalMosek

/-! ## The optimizer object -/

/-- The choice `MGPatchDepthsOptimizer::Algorithm`. -/
inductive Algorithm where
  | EigenSparseQR
  | MosekLinearProgramming
  deriving DecidableEq, Repr

/-- The member `_internal`: one of the two implementations. -/
inductive OptimizerInternal where
  | eigen (data : MGPatchDepthsOptimizerInternalEigen)
  | mosek (data : MGPatchDepthsOptimizerInternalMosek)
  deriving DecidableEq, Repr

/-- The object `MGPatchDepthsOptimizer`: its implementation and the patch it refers to, in the
state the patch is in. -/
structure MGPatchDepthsOptimizer where
  internal : OptimizerInternal
  patch : MGPatch
  deriving DecidableEq, Repr

namespace MGPatchDepthsOptimizer

/-- The constructor `MGPatchDepthsOptimizer(mg, patch, vanishingPoints, useWeights, at)`.
`indeterminate` is the value the uninitialised member `useWeights` of a new least-squares
implementation happens to hold. -/
def create (geo : Geometry) (indeterminate : Bool) (mg : MixedGraph) (patch : MGPatch)
    (vanishingPoints : List Vec3) (useWeights : Bool) (alg : Algorithm) :
    Option MGPatchDepthsOptimizer :=
  match alg with
  | Algorithm.MosekLinearProgramming => do
      let r ← MGPatchDepthsOptimizerInternalMosek.initialise geo
        MGPatchDepthsOptimizerInternalMosek.fresh mg patch vanishingPoints useWeights
      pure { internal := OptimizerInternal.mosek r.1, patch := r.2 }
  | Algorithm.EigenSparseQR => do
      let r ← MGPatchDepthsOptimizerInternalEigen.initialise geo
        (MGPatchDepthsOptimizerInternalEigen.fresh indeterminate) mg patch vanishingPoints
        useWeights
      pure { internal := OptimizerInternal.eigen r, patch := patch }

/-- The method `MGPatchDepthsOptimizer::optimize`: the returned flag and the patch afterwards. -/
def optimize (solver : SparseQR) (self : MGPatchDepthsOptimizer) : Option (Bool × MGPatch) :=
  match self.internal with
  | OptimizerInternal.eigen data => data.optimize solver self.patch
  | OptimizerInternal.mosek data => data.optimize self.patch

end MGPatchDepthsOptimizer

/-! ## Example data for the optimizer -/

/-- Geometry helpers for the examples. -/
def exGeometry : Geometry :=
  { lineDepthRatio := fun _ _ _ => 1, normalize := fun v => v }

/-- A cross-view overlap relation of weight 2 with the three axis directions as its first
anchors. -/
def exOverlap : MGBinary :=
  { type := MGBinaryType.RegionRegionOverlapping, weight := 2,
    normalizedAnchors := [(1, 0, 0), (0, 1, 0), (0, 0, 1), (1, 0, 0)],
    importanceRatioInRelatedUnaries := (1, 1) }

/-- Two regions joined by the overlap relation. -/
def overlapGraph : MixedGraph :=
  { unaries := [exUnary, exUnary], binaries := [(exOverlap, (0, 1))] }

/-- Node 0 is fixed to the plane `z = 1`, node 1 is free. -/
def overlapPatch : MGPatch :=
  { uhs := [(0, { vars := [0, 0, 1], fixed := true }), (1, { vars := [1, 1, 1], fixed := false })],
    bhs := [(0, { enabled := true })] }

/-- A solver for the examples: it accepts a system exactly when the given vector solves it. -/
def checkingSolver (x0 : List ℚ) : SparseQR :=
  { compute := fun _ => true,
    solve := fun M b =>
      if x0.length = M.cols ∧ (List.range M.rows).all (fun r => M.rowDot r x0 == b.getD r 0)
      then some x0 else none }

/-- A solver for the examples that always answers with the given vector. -/
def constantSolver (x0 : List ℚ) : SparseQR :=
  { compute := fun _ => true, solve := fun _ _ => some x0 }

/-- A solver for the examples whose `compute` reports failure. -/
def failingSolver : SparseQR :=
  { compute := fun _ => false, solve := fun _ _ => none }

/-! ## Walks, validators, importance ratios and row equations -/

/-- The edges of the list, taken in order, lead from `x` to `y`. -/
def IsWalk (vertsGetter : Nat → Nat × Nat) : List Nat → Nat → Nat → Prop
  | [], x, y => x = y
  | e :: p, x, y => ∃ z, (vertsGetter e = (x, z) ∨ vertsGetter e = (z, x)) ∧
      IsWalk vertsGetter p z y

/-- A tree path of a patch from `x` to `y`: a walk along binary handles bound in the patch that
uses no handle twice. -/
def IsTreePath (mg : MixedGraph) (p : MGPatch) (path : List MGBinaryHandle)
    (x y : MGUnaryHandle) : Prop :=
  path.Nodup ∧ (∀ bh ∈ path, Contains p.bhs bh = true) ∧ IsWalk mg.lowersD path x y

/-- The spanning tree of the triangle under the order of the handle numbers. -/
def triangleTree : MGPatch :=
  { uhs := trianglePatch.uhs, bhs := [(0, { enabled := true }), (1, { enabled := true })] }

/-- Two nodes are the two ends of one binary handle bound in the patch that the predicate
accepts. -/
def AcceptedPatchLink (mg : MixedGraph) (p : MGPatch) (useBh : MGBinaryHandle → Bool)
    (x y : MGUnaryHandle) : Prop :=
  ∃ bh ends, Contains p.bhs bh = true ∧ useBh bh = true ∧ mg.lowers bh = some ends ∧
    ((ends.1 = x ∧ ends.2 = y) ∨ (ends.2 = x ∧ ends.1 = y))

/-- A patch of the triangle that binds handle 0 = (0, 1) but only node 0. -/
def danglingPatch : MGPatch :=
  { uhs := [(0, { vars := [], fixed := false })], bhs := [(0, { enabled := true })] }

/-- Modelled from the spec: `core::BreadthFirstSearch(vertsBegin, vertsEnd, neighbors, callback)`
(`algorithms.hpp` is not part of the sources at hand), the "breadth-first traversal" with which
the validator checks that the nodes are a single component. The traversal starts at the first
vertex of the range and hands every vertex it pops to the callback; the callback of the validator
always answers `true` (go on). The result is the list of vertices handed to the callback; `fuel`
bounds the number of iterations, the caller passes the number of graph nodes plus one. -/
def BreadthFirstSearch (fuel : Nat) (verts : List Nat) (neighbors : Nat → List Nat) :
    Option (List Nat) :=
  match verts with
  | [] => some []
  | r :: _ => (bfs neighbors fuel [r] [r] []).map Prod.snd

/-- The neighbours lambda of `UnariesAreConnectedInPatch`: the opposite ends of the binary
handles around `uh` that are bound in the patch. -/
def boundNeighbors (mg : MixedGraph) (patch : MGPatch) (uh : MGUnaryHandle) :
    List MGUnaryHandle :=
  (mg.uppers uh).foldl (fun neighbors bh =>
    if Contains patch.bhs bh then neighbors ++ [mg.anotherUh bh uh] else neighbors) []

/-- The validator `UnariesAreConnectedInPatch`. -/
def UnariesAreConnectedInPatch (mg : MixedGraph) (patch : MGPatch) : Option Bool := do
  let visited := patch.uhs.foldl (fun (visited : List (MGUnaryHandle × Bool)) uhv =>
    mapSet visited uhv.1 false) []
  let uhs := mapKeys patch.uhs
  let called ← BreadthFirstSearch (mg.unaries.length + 1) uhs (boundNeighbors mg patch)
  let visited := called.foldl (fun (visited : List (MGUnaryHandle × Bool)) uh =>
    mapSet visited uh true) visited
  pure (visited.all (fun v => v.2))

/-- The two-node patch whose only binary handle is bound disabled. -/
def disabledEdgePatch : MGPatch := { uhs := twoNodeUnaryVars, bhs := disabledBinaryVars }

/-- The triangle patch with handle 0 only: node 2 is cut off. -/
def splitTrianglePatch : MGPatch :=
  { uhs := trianglePatch.uhs, bhs := [(0, { enabled := true })] }

/-- The dot product of a coefficient vector with a parameter vector. -/
def listDot (coeffs params : List ℚ) : ℚ :=
  ((coeffs.zip params).map (fun cp => cp.1 * cp.2)).sum

/-- The number of parameters of a binding by the kind of its element: the plane equation of a
region has 3, the inverse centre depth of a line has 1. -/
def paramCount : MGUnaryType → Nat
  | MGUnaryType.Region => 3
  | MGUnaryType.Line => 1

/-- A line element used in the examples. -/
def exLine : MGUnary :=
  { type := MGUnaryType.Line, normalizedCorners := [(1, 0, 0), (0, 1, 0)],
    normalizedCenter := (0, 0, 1), lineClaz := 0 }

/-- The statement `weight * normalizedAnchors.size()` of the importance pass. -/
def MGBinary.anchorWeight (b : MGBinary) : ℚ := b.weight * (b.normalizedAnchors.length : ℚ)

/-- The first loop of the importance pass of `BuildMixedGraph` (lines 260-264): the vector
`unaryWeightSums`, to which every binary element adds `weight * |anchors|` at the position of
its first end and again at the position of its second end. -/
def unaryWeightSums (mg : MixedGraph) : Option (List ℚ) :=
  mg.binaries.foldlM (fun (sums : List ℚ) b => do
    let sums ← vecModify (fun s => some (s + b.1.anchorWeight)) sums b.2.1
    vecModify (fun s => some (s + b.1.anchorWeight)) sums b.2.2)
    (List.replicate mg.unaries.length 0)

/-- The function `BuildMixedGraph` from line 258 on. The loops before that line fill the graph
with `mg.add` from the views and the feature graphs of the image pipeline; `assembled` is the
graph they leave. The rest of the body computes the importance ratios of every binary element
(its `weight * |anchors|` divided by the sum at each end; a quotient by a zero sum, not a number
in floating point, reads as the rational quotient `0`) and enables every binary element in
`binaryVars`. The result is the returned graph and the table. -/
def BuildMixedGraph (assembled : MixedGraph) (binaryVars : MGBinaryVarTable) :
    Option (MixedGraph × MGBinaryVarTable) := do
  let sums ← unaryWeightSums assembled
  let binaries ← assembled.binaries.mapM (fun b => do
    let s1 ← sums.get? b.2.1
    let s2 ← sums.get? b.2.2
    pure ({ b.1 with importanceRatioInRelatedUnaries :=
      (b.1.anchorWeight / s1, b.1.anchorWeight / s2) }, b.2))
  let mg : MixedGraph := { assembled with binaries := binaries }
  let binaryVars := mg.binaryHandles.foldl (fun (t : MGBinaryVarTable) bh =>
    mapSet t bh { enabled := true }) binaryVars
  pure (mg, binaryVars)

/-- The sum `importanceRatioSum` that the debug block of `BuildMixedGraph` (lines 272-281)
computes for one node: over the binary handles around the node, the ratio at the end where the
node sits (`u.topo.hd == mg.topo(bh).lowers[0] ? 0 : 1`). -/
def importanceRatioSum (mg : MixedGraph) (uh : MGUnaryHandle) : ℚ :=
  (mg.uppers uh).foldl (fun (s : ℚ) bh =>
    match mg.binaries.get? bh with
    | some b =>
        s + (if uh = b.2.1 then b.1.importanceRatioInRelatedUnaries.1
             else b.1.importanceRatioInRelatedUnaries.2)
    | none => s) 0

/-- What the construction loops leave for one view with one region of three contour points and
nothing else: one node, no binary element. -/
def isolatedRegionGraph : MixedGraph :=
  { unaries := [{ type := MGUnaryType.Region,
                  normalizedCorners := [(1, 0, 0), (0, 1, 0), (0, 0, 1)],
                  normalizedCenter := (0, 0, 1), lineClaz := -1 }],
    binaries := [] }

/-- The part of a candidate vector that belongs to a node: `n` entries from position `start` (an
entry past the end reads as 0). -/
def sliceOf (x : List ℚ) (start n : Nat) : List ℚ :=
  (List.range n).map (fun i => x.getD (start + i) 0)

/-- The inverse depth of one end of a relation at a direction for a candidate parameter vector
`x`: an end with a start position (non-fixed) reads its parameters from its slice of `x`, an end
without one (fixed) reads its stored parameters. -/
def candidateInverseDepth (geo : Geometry) (vps : List Vec3)
    (uh2var : List (MGUnaryHandle × Nat)) (x : List ℚ) (uh : MGUnaryHandle) (u : MGUnary)
    (uVar : MGUnaryVariable) (a : Vec3) : Option ℚ :=
  match mapAt uh2var uh with
  | none => uVar.inverseDepthAtDirection geo a u vps
  | some start =>
      MGUnaryVariable.inverseDepthAtDirection geo
        { uVar with vars := sliceOf x start uVar.vars.length } a u vps

/-- The sum of `coefficient * x(column)` over a list of matrix coefficients. -/
def entriesDot (E : List (Nat × Nat × ℚ)) (x : List ℚ) : ℚ :=
  (E.map (fun e => e.2.2 * x.getD e.2.1 0)).sum

/-- Row `r` of a system under construction: its coefficients in `A`, its coefficients in `W` and
its right-hand side `B(r)`. -/
def MGPatchDepthsOptimizerInternalEigen.Equations.row
    (eq : MGPatchDepthsOptimizerInternalEigen.Equations) (r : Nat) :
    List (Nat × Nat × ℚ) × List (Nat × Nat × ℚ) × ℚ :=
  (eq.A.entries.filter (fun e => e.1 == r), eq.W.entries.filter (fun e => e.1 == r),
    eq.B.getD r 0)

/-- The equation that a row carries for the anchor `a` of a relation between the ends `ends`:
its weight is the weight of the relation, and for every candidate vector the row applied to the
candidate minus the right-hand side is the inverse depth of the first end minus the inverse
depth of the second end at `a`. -/
def RowEquation (geo : Geometry) (vps : List Vec3) (uh2var : List (MGUnaryHandle × Nat))
    (weight : ℚ) (ends : MGUnaryHandle × MGUnaryHandle) (u1 u2 : MGUnary)
    (u1Var u2Var : MGUnaryVariable) (a : Vec3) (r : Nat)
    (row : List (Nat × Nat × ℚ) × List (Nat × Nat × ℚ) × ℚ) : Prop :=
  row.2.1 = [(r, r, weight)] ∧
  ∀ x : List ℚ, ∃ d1 d2,
    candidateInverseDepth geo vps uh2var x ends.1 u1 u1Var a = some d1 ∧
    candidateInverseDepth geo vps uh2var x ends.2 u2 u2Var a = some d2 ∧
    entriesDot row.1 x - row.2.2 = d1 - d2

/-- One iteration of the loop of `countConstraints` (lines 964-981 of `initialize`). -/
def MGPatchDepthsOptimizerInternalEigen.countStep (geo : Geometry) (mg : MixedGraph)
    (uh2var : List (MGUnaryHandle × Nat))
    (s : List (MGBinaryHandle × Nat) × List (MGBinaryHandle × List Vec3) × Nat)
    (bhv : MGBinaryHandle × MGBinaryVariable) :
    Option (List (MGBinaryHandle × Nat) × List (MGBinaryHandle × List Vec3) × Nat) :=
  if !bhv.2.enabled then pure s
  else do
    let ends ← mg.lowers bhv.1
    let u1IsFixed := !Contains uh2var ends.1
    let u2IsFixed := !Contains uh2var ends.2
    if u1IsFixed && u2IsFixed then pure s
    else do
      let anchors ← NecessaryAnchorsForBinary geo mg bhv.1
      pure (mapSet s.1 bhv.1 s.2.2, mapSet s.2.1 bhv.1 anchors, s.2.2 + anchors.length)

/-- One iteration of the loop of `writeBinaryEquations` (lines 1007-1064 of `initialize`). -/
def MGPatchDepthsOptimizerInternalEigen.writeStep (geo : Geometry) (mg : MixedGraph)
    (patch : MGPatch) (vps : List Vec3) (uh2var : List (MGUnaryHandle × Nat))
    (applied : List (MGBinaryHandle × List Vec3))
    (eq : MGPatchDepthsOptimizerInternalEigen.Equations)
    (bhv : MGBinaryHandle × MGBinaryVariable) :
    Option MGPatchDepthsOptimizerInternalEigen.Equations :=
  if !bhv.2.enabled then pure eq
  else do
    let ends ← mg.lowers bhv.1
    let u1 ← mg.dataU ends.1
    let u2 ← mg.dataU ends.2
    let u1IsFixed := !Contains uh2var ends.1
    let u2IsFixed := !Contains uh2var ends.2
    if u1IsFixed && u2IsFixed then pure eq
    else do
      let u1Var ← mapAt patch.uhs ends.1
      let u2Var ← mapAt patch.uhs ends.2
      let b ← mg.dataB bhv.1
      let anchors ← mapAt applied bhv.1
      anchors.foldlM (MGPatchDepthsOptimizerInternalEigen.writeAnchorEquation geo vps b.weight
        u1 u2 u1Var u2Var (mapAt uh2var ends.1) (mapAt uh2var ends.2)) eq

/-! ## The size of the least-squares system -/

/-- The total number of parameters of the non-fixed nodes in a list of node bindings. -/
def freeParamCount (l : List (MGUnaryHandle × MGUnaryVariable)) : Nat :=
  (l.map (fun uhv => if uhv.2.fixed then 0 else uhv.2.vars.length)).sum

/-- A patch of three nodes for the numbering examples: node 0 free with three parameters, node 1
fixed, node 2 free with one parameter. -/
def numberingPatch : MGPatch :=
  { uhs := [(0, { vars := [1, 1, 1], fixed := false }), (1, { vars := [0, 0, 1], fixed := true }),
      (2, { vars := [1], fixed := false })],
    bhs := [] }

/-- Whether a node is bound non-fixed in the patch. -/
def isFreeNode (patch : MGPatch) (uh : MGUnaryHandle) : Bool :=
  match mapAt patch.uhs uh with
  | some v => !v.fixed
  | none => false

/-- The number of rows that a list of binary bindings asks for: the number of necessary anchors
of every enabled handle with at least one free end. -/
def edgeRowCountOn (geo : Geometry) (mg : MixedGraph) (free : MGUnaryHandle → Bool)
    (l : List (MGBinaryHandle × MGBinaryVariable)) : Nat :=
  (l.map (fun bhv =>
    if bhv.2.enabled then
      match mg.lowers bhv.1 with
      | some ends =>
          if free ends.1 || free ends.2 then
            ((NecessaryAnchorsForBinary geo mg bhv.1).getD []).length
          else 0
      | none => 0
    else 0)).sum

/-- The sum, over the enabled binary handles of the patch with at least one non-fixed end, of
the number of necessary anchors of the handle. -/
def edgeRowCount (geo : Geometry) (mg : MixedGraph) (patch : MGPatch) : Nat :=
  edgeRowCountOn geo mg (isFreeNode patch) patch.bhs

/-- Both nodes of the two-region graph free, joined by the enabled overlap relation. -/
def freeOverlapPatch : MGPatch :=
  { uhs := [(0, { vars := [0, 0, 1], fixed := false }), (1, { vars := [1, 1, 1], fixed := false })],
    bhs := [(0, { enabled := true })] }

/-! ## Example relations for the selection of anchors -/

/-- A region-region connection with a kinked boundary: the interior anchor lies off the plane
through the first and the last anchor. -/
def kinkedConnection : MGBinary :=
  { type := MGBinaryType.RegionRegionConnection, weight := 1,
    normalizedAnchors := [(1, 0, 0), (0, 0, 1), (0, 1, 0)],
    importanceRatioInRelatedUnaries := (1, 1) }

/-- Two regions joined by the kinked connection. -/
def kinkedGraph : MixedGraph :=
  { unaries := [exUnary, exUnary], binaries := [(kinkedConnection, (0, 1))] }

/-! ## The anchors sampled for a cross-view overlap relation -/

/-- The running state of the sampling loops of `BuildMixedGraph` (lines 205-245): the four
anchors of the overlap relation and the extreme projections seen so far. A bound that still
holds its initial value (`numeric_limits<double>::max()` for a minimum, `lowest()` for a
maximum) is `none`: every projection of a direction lies below the one and above the other. -/
structure OverlapSamples where
  anchors : List Vec3
  minx : Option ℚ
  miny : Option ℚ
  maxx : Option ℚ
  maxy : Option ℚ
  deriving DecidableEq, Repr

/-- The test `d < min`. -/
def belowMin (d : ℚ) : Option ℚ → Bool
  | none => true
  | some m => decide (d < m)

/-- The test `d > max`. -/
def aboveMax (d : ℚ) : Option ℚ → Bool
  | none => true
  | some m => decide (d > m)

/-- The body of the loops over the corners of a region (lines 211-227 and 229-245 of
`BuildMixedGraph`). -/
def sampleCorner (x y : Vec3) (s : OverlapSamples) (a : Vec3) : OverlapSamples :=
  let dx := dot a x
  let dy := dot a y
  let s : OverlapSamples :=
    if belowMin dx s.minx then { s with anchors := s.anchors.set 0 a, minx := some dx }
    else if aboveMax dx s.maxx then { s with anchors := s.anchors.set 1 a, maxx := some dx }
    else s
  if belowMin dy s.miny then { s with anchors := s.anchors.set 2 a, miny := some dy }
  else if aboveMax dy s.maxy then { s with anchors := s.anchors.set 3 a, maxy := some dy }
  else s

/-- Lines 205-245 of `BuildMixedGraph`: the anchors stored for a cross-view overlap relation,
from the sum `z` of the two centres, the proposed axes `x` and `y` and the corners of the two
regions. -/
def overlapAnchors (x y z : Vec3) (corners1 corners2 : List Vec3) : List Vec3 :=
  (corners2.foldl (sampleCorner x y) (corners1.foldl (sampleCorner x y)
    { anchors := List.replicate 4 z, minx := none, miny := none, maxx := none,
      maxy := none })).anchors

/-- What the sampling loops keep for the minima: once a corner has been visited, anchor 0 is a
visited corner whose projection onto `x` is the stored minimum and is least among the visited
corners, and anchor 2 likewise for `y`. -/
def MinTracked (x y : Vec3) (visited : List Vec3) (s : OverlapSamples) : Prop :=
  s.anchors.length = 4 ∧
  (visited = [] → s.minx = none ∧ s.miny = none) ∧
  (visited ≠ [] →
    (∃ a ∈ visited, s.anchors.get? 0 = some a ∧ s.minx = some (dot a x) ∧
      ∀ c ∈ visited, dot a x ≤ dot c x) ∧
    (∃ a ∈ visited, s.anchors.get? 2 = some a ∧ s.miny = some (dot a y) ∧
      ∀ c ∈ visited, dot a y ≤ dot c y))

/-- An overlap relation whose stored anchors are sampled from the corners
`(-2/3, -2/3, 1/3)`, `(3/5, 0, 4/5)` of the one region and `(0, 3/5, 4/5)` of the other, with
the axes `(1, 0, 0)` and `(0, 1, 0)`. -/
def sampledOverlap : MGBinary :=
  { type := MGBinaryType.RegionRegionOverlapping, weight := 100,
    normalizedAnchors := overlapAnchors (1, 0, 0) (0, 1, 0) (0, 0, 2)
      [(-2/3, -2/3, 1/3), (3/5, 0, 4/5)] [(0, 3/5, 4/5)],
    importanceRatioInRelatedUnaries := (1, 1) }

/-- Two regions joined by the sampled overlap relation. -/
def sampledOverlapGraph : MixedGraph :=
  { unaries := [exUnary, exUnary], binaries := [(sampledOverlap, (0, 1))] }

/-! ## Example relations between lines and regions -/

/-- A line-line incidence with three anchors. -/
def exIncidence : MGBinary :=
  { type := MGBinaryType.LineLineIncidence, weight := 1,
    normalizedAnchors := [(1, 0, 0), (0, 0, 1), (0, 1, 0)],
    importanceRatioInRelatedUnaries := (1, 1) }

/-- A region-line connection with three anchors. -/
def exContact : MGBinary :=
  { type := MGBinaryType.RegionLineConnection, weight := 1,
    normalizedAnchors := [(1, 0, 0), (0, 0, 1), (0, 1, 0)],
    importanceRatioInRelatedUnaries := (1, 1) }

/-- A region and two lines: the lines are incident, the region touches the first line. -/
def contactGraph : MixedGraph :=
  { unaries := [exUnary, exLine, exLine],
    binaries := [(exIncidence, (1, 2)), (exContact, (0, 1))] }

/-! ## Merging of the angle spans of colinear lines (views_net.cpp) -/

/-- The constant `M_PI`: the double nearest to pi. -/
def M_PI : ℚ := 884279719003555 / 281474976710656

/-- The statements that append the span `(curFrom, curTo)` to the merged spans (views_net.cpp,
lines 624-628 and 634-639): a span of at least `M_PI` is broken in two halves. -/
def pushSpan (mergedLineAngleSegments : List (ℚ × ℚ)) (curFrom curTo : ℚ) : List (ℚ × ℚ) :=
  if curTo - curFrom ≥ M_PI then
    mergedLineAngleSegments ++
      [(curFrom, (curFrom + curTo) / 2), ((curFrom + curTo) / 2, curTo)]
  else mergedLineAngleSegments ++ [(curFrom, curTo)]

/-- The body of the sweep over the sorted spans (views_net.cpp, lines 620-632). The state is
(`mergedLineAngleSegments`, `curFrom`, `curTo`). -/
def sweepStep (s : List (ℚ × ℚ) × ℚ × ℚ) (lineAngle : ℚ × ℚ) : List (ℚ × ℚ) × ℚ × ℚ :=
  if lineAngle.1 ≤ s.2.2 then (s.1, s.2.1, lineAngle.2)
  else (pushSpan s.1 s.2.1 s.2.2, lineAngle.1, lineAngle.2)

/-- The sort-and-sweep step of `MergeColinearSpatialLinesAndAppendIncidenceConstraints`
(views_net.cpp, lines 609-639): `std::sort` with the comparator `a1.first < a2.first` puts the
spans in ascending order of their start angle (an insertion sort here: a span goes in front of
the first span that does not start before it), then they are swept once; `front()` of an empty
vector is `none`. -/
def mergeLineAngleSegments (lineAngleSegments : List (ℚ × ℚ)) : Option (List (ℚ × ℚ)) := do
  let sorted := lineAngleSegments.insertionSort (fun a1 a2 => ¬ a2.1 < a1.1)
  let front ← sorted.head?
  let s := sorted.foldl sweepStep ([], front.1, front.2)
  pure (pushSpan s.1 s.2.1 s.2.2)

/-- The merged spans are in order: every span ends where or before every later span starts, and
no span ends before it starts. -/
def SpansOrdered (spans : List (ℚ × ℚ)) : Prop :=
  spans.Pairwise (fun m m' => m.2 ≤ m'.1) ∧ ∀ m ∈ spans, m.1 ≤ m.2

/-! ## The patches the linear-programming optimizer accepts -/

/-- The patches on which the linear-programming `initialise` runs through: one entry per node,
every node of the patch a node of the graph, both ends of every enabled binary handle of the
patch bound in the patch, and three parameters at every fixed node. -/
def MosekReady (mg : MixedGraph) (patch : MGPatch) : Prop :=
  KeysNodup patch.uhs ∧
  (∀ uh ∈ mapKeys patch.uhs, uh < mg.unaries.length) ∧
  (∀ bhv ∈ patch.bhs, bhv.2.enabled = true → ∃ ends, mg.lowers bhv.1 = some ends ∧
    Contains patch.uhs ends.1 = true ∧ Contains patch.uhs ends.2 = true) ∧
  (∀ uhv ∈ patch.uhs, uhv.2.fixed = true → 3 ≤ uhv.2.vars.length)

/-! ## Container lemmas -/

theorem mapAt_mapSet {β : Type} (m : List (Nat × β)) (k : Nat) (v : β) (k' : Nat) :
    mapAt (mapSet m k v) k' = if k = k' then some v else mapAt m k' := by
  induction m with
  | nil => simp [mapSet, mapAt]
  | cons e t ih =>
    obtain ⟨k0, v0⟩ := e
    by_cases h : k0 = k
    · subst h
      by_cases h' : k0 = k' <;> simp [mapSet, mapAt, h']
    · by_cases h' : k0 = k'
      · subst h'
        simp [mapSet, mapAt, h, Ne.symm h]
      · simp [mapSet, mapAt, h, h', ih]

theorem contains_iff_mem_keys {β : Type} (m : List (Nat × β)) (k : Nat) :
    Contains m k = true ↔ k ∈ mapKeys m := by
  induction m with
  | nil => simp [Contains, mapAt, mapKeys]
  | cons e t ih =>
    obtain ⟨k0, v0⟩ := e
    by_cases h : k0 = k
    · simp [Contains, mapAt, mapKeys, h]
    · have : ¬ k = k0 := fun h' => h h'.symm
      simp only [Contains, mapAt, h, if_false, mapKeys, List.map_cons, List.mem_cons, this,
        false_or]
      exact ih

theorem mapAt_isSome_iff {β : Type} (m : List (Nat × β)) (k : Nat) :
    (mapAt m k).isSome = true ↔ k ∈ mapKeys m := contains_iff_mem_keys m k

theorem mapAt_eq_some_of_mem {β : Type} (m : List (Nat × β)) (hn : KeysNodup m) (k : Nat) (v : β)
    (h : (k, v) ∈ m) : mapAt m k = some v := by
  induction m with
  | nil => simp at h
  | cons e t ih =>
    obtain ⟨k0, v0⟩ := e
    simp only [KeysNodup, mapKeys, List.map_cons, List.nodup_cons] at hn
    rcases List.mem_cons.1 h with h | h
    · cases h; simp [mapAt]
    · have hk : k ∈ t.map Prod.fst := List.mem_map.2 ⟨(k, v), h, rfl⟩
      have : k0 ≠ k := fun e => hn.1 (e ▸ hk)
      simp only [mapAt, this, if_false]
      exact ih hn.2 h

theorem mem_of_mapAt_eq_some {β : Type} (m : List (Nat × β)) (k : Nat) (v : β)
    (h : mapAt m k = some v) : (k, v) ∈ m := by
  induction m with
  | nil => simp [mapAt] at h
  | cons e t ih =>
    obtain ⟨k0, v0⟩ := e
    by_cases hk : k0 = k
    · simp only [mapAt, hk, if_true, Option.some.injEq] at h
      simp [hk, h]
    · simp only [mapAt, hk, if_false] at h
      exact List.mem_cons_of_mem _ (ih h)

theorem mapKeys_mapSet_of_mem {β : Type} (m : List (Nat × β)) (k : Nat) (v : β)
    (h : k ∈ mapKeys m) : mapKeys (mapSet m k v) = mapKeys m := by
  induction m with
  | nil => simp [mapKeys] at h
  | cons e t ih =>
    obtain ⟨k0, v0⟩ := e
    by_cases hk : k0 = k
    · simp [mapSet, mapKeys, hk]
    · have : k ∈ mapKeys t := by
        simp only [mapKeys, List.map_cons, List.mem_cons] at h
        rcases h with h | h
        · exact absurd h.symm hk
        · exact h
      simp only [mapSet, hk, if_false, mapKeys, List.map_cons, List.cons.injEq, true_and]
      exact ih this

theorem mapSet_of_not_mem {β : Type} (m : List (Nat × β)) (k : Nat) (v : β)
    (h : k ∉ mapKeys m) : mapSet m k v = m ++ [(k, v)] := by
  induction m with
  | nil => simp [mapSet]
  | cons e t ih =>
    obtain ⟨k0, v0⟩ := e
    simp only [mapKeys, List.map_cons, List.mem_cons, not_or] at h
    have hk : k0 ≠ k := fun e => h.1 e.symm
    simp only [mapSet, hk, if_false, List.cons_append, List.cons.injEq, true_and]
    exact ih h.2

theorem keysNodup_mapSet {β : Type} (m : List (Nat × β)) (k : Nat) (v : β)
    (h : KeysNodup m) : KeysNodup (mapSet m k v) := by
  by_cases hk : k ∈ mapKeys m
  · unfold KeysNodup; rw [mapKeys_mapSet_of_mem m k v hk]; exact h
  · rw [mapSet_of_not_mem m k v hk]
    unfold KeysNodup mapKeys at *
    rw [List.map_append, List.nodup_append]
    refine ⟨h, by simp, ?_⟩
    intro a ha hb
    simp at hb
    subst hb
    exact hk ha

theorem mem_mapKeys_mapSet {β : Type} (m : List (Nat × β)) (k : Nat) (v : β) (k' : Nat) :
    k' ∈ mapKeys (mapSet m k v) ↔ k' = k ∨ k' ∈ mapKeys m := by
  rw [← contains_iff_mem_keys, ← contains_iff_mem_keys, Contains, Contains, mapAt_mapSet]
  by_cases h : k = k'
  · simp [h]
  · have : ¬ k' = k := fun e => h e.symm
    simp [h, this]

theorem vecModify_length {α : Type} (f : α → Option α) (l : List α) (i : Nat) (l' : List α)
    (h : vecModify f l i = some l') : l'.length = l.length := by
  induction l generalizing i l' with
  | nil => simp [vecModify] at h
  | cons a t ih =>
    cases i with
    | zero =>
      simp only [vecModify, Option.map_eq_some'] at h
      obtain ⟨a', _, rfl⟩ := h
      simp
    | succ i =>
      simp only [vecModify, Option.map_eq_some'] at h
      obtain ⟨t', ht, rfl⟩ := h
      simp [ih i t' ht]

theorem vecModify_get {α : Type} (f : α → Option α) (l : List α) (i : Nat) (l' : List α)
    (h : vecModify f l i = some l') :
    ∃ a a', l.get? i = some a ∧ f a = some a' ∧ l'.get? i = some a' ∧
      ∀ j, j ≠ i → l'.get? j = l.get? j := by
  induction l generalizing i l' with
  | nil => simp [vecModify] at h
  | cons a t ih =>
    cases i with
    | zero =>
      simp only [vecModify, Option.map_eq_some'] at h
      obtain ⟨a', ha, rfl⟩ := h
      refine ⟨a, a', rfl, ha, rfl, ?_⟩
      intro j hj
      cases j with
      | zero => exact absurd rfl hj
      | succ j => rfl
    | succ i =>
      simp only [vecModify, Option.map_eq_some'] at h
      obtain ⟨t', ht, rfl⟩ := h
      obtain ⟨b, b', h1, h2, h3, h4⟩ := ih i t' ht
      refine ⟨b, b', by simpa using h1, h2, by simpa using h3, ?_⟩
      intro j hj
      cases j with
      | zero => rfl
      | succ j =>
        have : j ≠ i := fun e => hj (by rw [e])
        simpa using h4 j this

theorem vecModify_isSome {α : Type} (f : α → Option α) (l : List α) (i : Nat)
    (hi : i < l.length) (hf : ∀ a, (f a).isSome = true) : (vecModify f l i).isSome = true := by
  induction l generalizing i with
  | nil => simp at hi
  | cons a t ih =>
    cases i with
    | zero =>
      simp only [vecModify, Option.isSome_map']
      exact hf a
    | succ i =>
      simp only [vecModify, Option.isSome_map']
      exact ih i (by simpa using hi)

/-! ## Breadth-first traversal and connected components -/

theorem foldl_bfsPush (ns q vis : List Nat) (hnd : vis.Nodup) :
    ∃ fresh, ns.foldl bfsPush (q, vis) = (q ++ fresh, vis ++ fresh) ∧ (vis ++ fresh).Nodup ∧
      (∀ x ∈ fresh, x ∈ ns) ∧ (∀ x ∈ ns, x ∈ vis ++ fresh) := by
  induction ns generalizing q vis with
  | nil => exact ⟨[], by simp, by simpa, by simp, by simp⟩
  | cons a t ih =>
    simp only [List.foldl_cons]
    by_cases ha : a ∈ vis
    · have e : bfsPush (q, vis) a = (q, vis) := by simp [bfsPush, ha]
      rw [e]
      obtain ⟨fresh, h1, h2, h3, h4⟩ := ih q vis hnd
      refine ⟨fresh, h1, h2, fun x hx => List.mem_cons_of_mem _ (h3 x hx), ?_⟩
      intro x hx
      rcases List.mem_cons.1 hx with rfl | hx
      · exact List.mem_append_left _ ha
      · exact h4 x hx
    · have e : bfsPush (q, vis) a = (q ++ [a], vis ++ [a]) := by simp [bfsPush, ha]
      rw [e]
      have hnd' : (vis ++ [a]).Nodup := by
        rw [List.nodup_append]
        refine ⟨hnd, by simp, ?_⟩
        intro x hx hx'
        simp at hx'
        subst hx'
        exact ha hx
      obtain ⟨fresh, h1, h2, h3, h4⟩ := ih (q ++ [a]) (vis ++ [a]) hnd'
      refine ⟨a :: fresh, by simpa using h1, by simpa using h2, ?_, ?_⟩
      · intro x hx
        rcases List.mem_cons.1 hx with rfl | hx
        · exact List.mem_cons_self _ _
        · exact List.mem_cons_of_mem _ (h3 x hx)
      · intro x hx
        rcases List.mem_cons.1 hx with rfl | hx
        · simp
        · have := h4 x hx
          simpa using this

theorem bfs_spec (nb : Nat → List Nat) (vis0 : List Nat) (r : Nat) :
    ∀ (fuel : Nat) (q vis out : List Nat) (res : List Nat × List Nat),
      vis = vis0 ++ out ++ q → vis.Nodup →
      (∀ x ∈ out, ∀ y ∈ nb x, y ∈ vis) →
      (∀ x ∈ out ++ q, Relation.ReflTransGen (NbRel nb) r x) →
      bfs nb fuel q vis out = some res →
      ∃ out', res = (vis0 ++ out', out') ∧ (vis0 ++ out').Nodup ∧
        (∀ x ∈ out', ∀ y ∈ nb x, y ∈ vis0 ++ out') ∧
        (∀ x ∈ out', Relation.ReflTransGen (NbRel nb) r x) ∧
        (∀ x ∈ out ++ q, x ∈ out') := by
  intro fuel
  induction fuel with
  | zero => intro q vis out res _ _ _ _ h; simp [bfs] at h
  | succ fuel ih =>
    intro q vis out res hJ1 hJ2 hJ3 hJ4 h
    cases q with
    | nil =>
      simp only [bfs, Option.some.injEq] at h
      subst h
      refine ⟨out, by simp [hJ1], by simpa [hJ1] using hJ2, ?_, ?_, by simp⟩
      · intro x hx y hy
        have := hJ3 x hx y hy
        simpa [hJ1] using this
      · intro x hx
        exact hJ4 x (by simpa using hx)
    | cons v q =>
      simp only [bfs] at h
      obtain ⟨fresh, h1, h2, h3, h4⟩ := foldl_bfsPush (nb v) q vis hJ2
      rw [h1] at h
      have hv : Relation.ReflTransGen (NbRel nb) r v := hJ4 v (by simp)
      obtain ⟨out', e1, e2, e3, e4, e5⟩ := ih (q ++ fresh) (vis ++ fresh) (out ++ [v]) res
        (by simp [hJ1]) h2
        (by
          intro x hx y hy
          rcases List.mem_append.1 hx with hx | hx
          · exact List.mem_append_left _ (hJ3 x hx y hy)
          · simp at hx
            subst hx
            exact h4 y hy)
        (by
          intro x hx
          simp only [List.mem_append, List.mem_singleton] at hx
          rcases hx with (hx | hx) | (hx | hx)
          · exact hJ4 x (by simp [hx])
          · subst hx; exact hv
          · exact hJ4 x (by simp [hx])
          · exact Relation.ReflTransGen.tail hv (h3 x hx))
        h
      refine ⟨out', e1, e2, e3, e4, ?_⟩
      intro x hx
      apply e5
      simp only [List.mem_append, List.mem_cons, List.mem_singleton] at hx ⊢
      tauto

theorem nodup_lt_length_le (l : List Nat) (n : Nat) (hnd : l.Nodup) (hlt : ∀ x ∈ l, x < n) :
    l.length ≤ n := by
  have h1 : l.toFinset ⊆ Finset.range n := by
    intro x hx
    simp only [List.mem_toFinset] at hx
    simpa using hlt x hx
  have h2 := Finset.card_le_card h1
  rw [List.toFinset_card_of_nodup hnd] at h2
  simpa using h2

theorem bfs_isSome (nb : Nat → List Nat) (n : Nat) (hnb : ∀ x, ∀ y ∈ nb x, y < n) :
    ∀ (fuel : Nat) (q vis out : List Nat), vis.Nodup → (∀ x ∈ vis, x < n) →
      n + q.length + 1 ≤ fuel + vis.length → (bfs nb fuel q vis out).isSome = true := by
  intro fuel
  induction fuel with
  | zero =>
    intro q vis out hnd hlt hf
    have := nodup_lt_length_le vis n hnd hlt
    omega
  | succ fuel ih =>
    intro q vis out hnd hlt hf
    cases q with
    | nil => simp [bfs]
    | cons v q =>
      simp only [bfs]
      obtain ⟨fresh, h1, h2, h3, h4⟩ := foldl_bfsPush (nb v) q vis hnd
      rw [h1]
      apply ih _ _ _ h2
      · intro x hx
        rcases List.mem_append.1 hx with hx | hx
        · exact hlt x hx
        · exact hnb v x (h3 x hx)
      · simp only [List.length_append, List.length_cons] at hf ⊢
        omega

theorem reach_closed (nb : Nat → List Nat) (P : Nat → Prop)
    (hP : ∀ x, P x → ∀ y ∈ nb x, P y) (x y : Nat)
    (h : Relation.ReflTransGen (NbRel nb) x y) (hx : P x) : P y := by
  induction h with
  | refl => exact hx
  | tail _ hbc ih => exact hP _ ih _ hbc

theorem reach_symm (nb : Nat → List Nat) (hs : ∀ x y, y ∈ nb x → x ∈ nb y) (x y : Nat)
    (h : Relation.ReflTransGen (NbRel nb) x y) : Relation.ReflTransGen (NbRel nb) y x := by
  induction h with
  | refl => exact Relation.ReflTransGen.refl
  | tail _ hbc ih => exact Relation.ReflTransGen.head (hs _ _ hbc) ih

theorem ccLoop_spec (nb : Nat → List Nat) (hs : ∀ x y, y ∈ nb x → x ∈ nb y) (fuel : Nat) :
    ∀ (roots vis : List Nat) (cid : Nat) (calls : List (Nat × Nat)) (res : Nat × List (Nat × Nat)),
      vis = calls.map Prod.fst → CCInv nb cid calls →
      ccLoop nb fuel roots vis cid calls = some res →
      CCInv nb res.1 res.2 ∧ (∀ r ∈ roots, r ∈ res.2.map Prod.fst) ∧
        (∀ c ∈ calls, c ∈ res.2) ∧
        (∀ c ∈ res.2, c ∈ calls ∨ ∃ r ∈ roots, Relation.ReflTransGen (NbRel nb) r c.1) := by
  intro roots
  induction roots with
  | nil =>
    intro vis cid calls res _ hinv h
    simp only [ccLoop, Option.some.injEq] at h
    subst h
    exact ⟨hinv, by simp, fun c hc => hc, fun c hc => Or.inl hc⟩
  | cons r rest ih =>
    intro vis cid calls res hvis hinv h
    by_cases hr : r ∈ vis
    · simp only [ccLoop, hr, if_true] at h
      obtain ⟨a1, a2, a3, a4⟩ := ih vis cid calls res hvis hinv h
      refine ⟨a1, ?_, a3, ?_⟩
      · intro x hx
        rcases List.mem_cons.1 hx with rfl | hx
        · rw [hvis] at hr
          obtain ⟨c, hc, rfl⟩ := List.mem_map.1 hr
          exact List.mem_map.2 ⟨c, a3 c hc, rfl⟩
        · exact a2 x hx
      · intro c hc
        rcases a4 c hc with h' | ⟨r', hr', h'⟩
        · exact Or.inl h'
        · exact Or.inr ⟨r', List.mem_cons_of_mem _ hr', h'⟩
    · simp only [ccLoop, hr, if_false] at h
      cases hb : bfs nb fuel [r] (vis ++ [r]) [] with
      | none => simp [hb] at h
      | some p =>
        obtain ⟨vis', out⟩ := p
        simp only [hb] at h
        have hnd : (vis ++ [r]).Nodup := by
          rw [List.nodup_append]
          refine ⟨hvis ▸ hinv.nodup, by simp, ?_⟩
          intro x hx hx'
          simp at hx'
          subst hx'
          exact hr hx
        obtain ⟨out', e1, e2, e3, e4, e5⟩ := bfs_spec nb vis r fuel [r] (vis ++ [r]) [] (vis', out)
          (by simp) hnd (by simp) (by
            intro x hx
            simp at hx
            subst hx
            exact Relation.ReflTransGen.refl) hb
        simp only [Prod.mk.injEq] at e1
        obtain ⟨ev, eo⟩ := e1
        subst eo
        have hrout : r ∈ out := e5 r (by simp)
        have hdisj : ∀ x, x ∈ vis → x ∈ out → False := by
          intro x hx hx'
          exact (List.nodup_append.1 e2).2.2 hx hx'
        have hvisclosed : ∀ x, x ∈ vis → ∀ y ∈ nb x, y ∈ vis := by
          intro x hx y hy
          rw [hvis] at hx ⊢
          exact hinv.closed x hx y hy
        have hkeys : (calls ++ out.map (fun v => (v, cid))).map Prod.fst = vis ++ out := by
          simp [hvis, Function.comp_def]
        have hinv' : CCInv nb (cid + 1) (calls ++ out.map (fun v => (v, cid))) := by
          refine ⟨by rw [hkeys]; exact e2, ?_, ?_, ?_, ?_⟩
          · intro x hx y hy
            rw [hkeys] at hx ⊢
            rcases List.mem_append.1 hx with hx | hx
            · exact List.mem_append_left _ (hvisclosed x hx y hy)
            · exact e3 x hx y hy
          · intro c hc
            rcases List.mem_append.1 hc with hc | hc
            · exact Nat.lt_succ_of_lt (hinv.lt c hc)
            · obtain ⟨v, _, rfl⟩ := List.mem_map.1 hc
              exact Nat.lt_succ_self _
          · intro c hc d hd
            rcases List.mem_append.1 hc with hc | hc <;> rcases List.mem_append.1 hd with hd | hd
            · exact hinv.same c hc d hd
            · obtain ⟨w, hw, rfl⟩ := List.mem_map.1 hd
              have hcv : c.1 ∈ vis := by rw [hvis]; exact List.mem_map.2 ⟨c, hc, rfl⟩
              constructor
              · intro e
                have := hinv.lt c hc
                simp only at e
                omega
              · intro hre
                exact absurd (reach_closed nb (· ∈ vis) hvisclosed _ _ hre hcv)
                  (fun h' => hdisj w h' hw)
            · obtain ⟨w, hw, rfl⟩ := List.mem_map.1 hc
              have hdv : d.1 ∈ vis := by rw [hvis]; exact List.mem_map.2 ⟨d, hd, rfl⟩
              constructor
              · intro e
                have := hinv.lt d hd
                simp only at e
                omega
              · intro hre
                exact absurd (reach_closed nb (· ∈ vis) hvisclosed _ _
                  (reach_symm nb hs _ _ hre) hdv) (fun h' => hdisj w h' hw)
            · obtain ⟨w, hw, rfl⟩ := List.mem_map.1 hc
              obtain ⟨w', hw', rfl⟩ := List.mem_map.1 hd
              simp only [true_iff]
              exact Relation.ReflTransGen.trans (reach_symm nb hs _ _ (e4 w hw)) (e4 w' hw')
          · intro i hi
            rcases Nat.lt_succ_iff_lt_or_eq.1 hi with hi | rfl
            · obtain ⟨c, hc, e⟩ := hinv.nonempty i hi
              exact ⟨c, List.mem_append_left _ hc, e⟩
            · exact ⟨(r, i), List.mem_append_right _ (List.mem_map.2 ⟨r, hrout, rfl⟩), rfl⟩
        obtain ⟨a1, a2, a3, a4⟩ := ih vis' (cid + 1) _ res (by rw [hkeys, ev]) hinv' h
        refine ⟨a1, ?_, fun c hc => a3 c (List.mem_append_left _ hc), ?_⟩
        · intro x hx
          rcases List.mem_cons.1 hx with rfl | hx
          · exact List.mem_map.2 ⟨(x, cid), a3 _ (List.mem_append_right _
              (List.mem_map.2 ⟨x, hrout, rfl⟩)), rfl⟩
          · exact a2 x hx
        · intro c hc
          rcases a4 c hc with h' | ⟨r', hr', h'⟩
          · rcases List.mem_append.1 h' with h' | h'
            · exact Or.inl h'
            · obtain ⟨w, hw, rfl⟩ := List.mem_map.1 h'
              exact Or.inr ⟨r, List.mem_cons_self _ _, e4 w hw⟩
          · exact Or.inr ⟨r', List.mem_cons_of_mem _ hr', h'⟩

theorem ccLoop_isSome (nb : Nat → List Nat) (n : Nat) (hnb : ∀ x, ∀ y ∈ nb x, y < n)
    (fuel : Nat) (hfuel : n + 1 ≤ fuel) :
    ∀ (roots vis : List Nat) (cid : Nat) (calls : List (Nat × Nat)),
      vis.Nodup → (∀ x ∈ vis, x < n) → (∀ r ∈ roots, r < n) →
      (ccLoop nb fuel roots vis cid calls).isSome = true := by
  intro roots
  induction roots with
  | nil => intro vis cid calls _ _ _; simp [ccLoop]
  | cons r rest ih =>
    intro vis cid calls hnd hlt hroots
    by_cases hr : r ∈ vis
    · simp only [ccLoop, hr, if_true]
      exact ih vis cid calls hnd hlt (fun x hx => hroots x (List.mem_cons_of_mem _ hx))
    · simp only [ccLoop, hr, if_false]
      have hnd' : (vis ++ [r]).Nodup := by
        rw [List.nodup_append]
        refine ⟨hnd, by simp, ?_⟩
        intro x hx hx'
        simp at hx'
        subst hx'
        exact hr hx
      have hrn : r < n := hroots r (List.mem_cons_self _ _)
      have hlt' : ∀ x ∈ vis ++ [r], x < n := by
        intro x hx
        rcases List.mem_append.1 hx with hx | hx
        · exact hlt x hx
        · simp at hx; subst hx; exact hrn
      have hsome := bfs_isSome nb n hnb fuel [r] (vis ++ [r]) [] hnd' hlt'
        (by simp only [List.length_append, List.length_cons, List.length_nil]; omega)
      cases hb : bfs nb fuel [r] (vis ++ [r]) [] with
      | none => simp [hb] at hsome
      | some p =>
        obtain ⟨vis', out⟩ := p
        simp only []
        obtain ⟨out', e1, e2, _, e4, _⟩ := bfs_spec nb vis r fuel [r] (vis ++ [r]) [] (vis', out)
          (by simp) hnd' (by simp) (by
            intro x hx
            simp at hx
            subst hx
            exact Relation.ReflTransGen.refl) hb
        simp only [Prod.mk.injEq] at e1
        obtain ⟨ev, eo⟩ := e1
        subst eo
        apply ih
        · rw [ev]; exact e2
        · intro x hx
          rw [ev] at hx
          rcases List.mem_append.1 hx with hx | hx
          · exact hlt x hx
          · exact reach_closed nb (· < n) (fun a _ b hb => hnb a b hb) _ _ (e4 x hx) hrn
        · exact fun x hx => hroots x (List.mem_cons_of_mem _ hx)

theorem recordCcids_eq (calls : List (Nat × Nat)) (hnd : (calls.map Prod.fst).Nodup) :
    recordCcids calls = calls := by
  have key : ∀ (l acc : List (Nat × Nat)), ((acc ++ l).map Prod.fst).Nodup →
      l.foldl (fun ccids c => mapSet ccids c.1 c.2) acc = acc ++ l := by
    intro l
    induction l with
    | nil => intro acc _; simp
    | cons c t ih =>
      intro acc h
      simp only [List.foldl_cons]
      have hc : c.1 ∉ mapKeys acc := by
        intro hmem
        rw [List.map_append, List.nodup_append] at h
        exact h.2.2 hmem (by simp)
      rw [mapSet_of_not_mem acc c.1 c.2 hc, ih (acc ++ [(c.1, c.2)]) (by simpa using h)]
      simp
  simpa [recordCcids] using key calls [] (by simpa using hnd)

/-! ## Graph topology -/

theorem lowers_some_lt (mg : MixedGraph) (bh : Nat) (ends : Nat × Nat)
    (h : mg.lowers bh = some ends) : bh < mg.binaries.length := by
  unfold MixedGraph.lowers at h
  by_contra hlt
  rw [List.get?_eq_none.2 (Nat.le_of_not_lt hlt)] at h
  simp at h

theorem lowers_of_lt (mg : MixedGraph) (bh : Nat) (h : bh < mg.binaries.length) :
    ∃ ends, mg.lowers bh = some ends := by
  unfold MixedGraph.lowers
  rw [List.get?_eq_get h]
  exact ⟨_, rfl⟩

theorem lowersD_of_lowers (mg : MixedGraph) (bh : Nat) (ends : Nat × Nat)
    (h : mg.lowers bh = some ends) : mg.lowersD bh = ends := by
  simp [MixedGraph.lowersD, h]

theorem lowers_lt_of_wf (mg : MixedGraph) (hwf : mg.WF) (bh : Nat) (ends : Nat × Nat)
    (h : mg.lowers bh = some ends) : ends.1 < mg.unaries.length ∧ ends.2 < mg.unaries.length := by
  unfold MixedGraph.lowers at h
  simp only [Option.map_eq_some'] at h
  obtain ⟨e, he, rfl⟩ := h
  exact hwf e (List.get?_mem he)

theorem mem_uppers (mg : MixedGraph) (uh bh : Nat) :
    bh ∈ mg.uppers uh ↔ ∃ ends, mg.lowers bh = some ends ∧ (ends.1 = uh ∨ ends.2 = uh) := by
  unfold MixedGraph.uppers MixedGraph.binaryHandles
  simp only [List.mem_filter, List.mem_range, decide_eq_true_eq]
  constructor
  · rintro ⟨hlt, h⟩
    obtain ⟨ends, he⟩ := lowers_of_lt mg bh hlt
    rw [lowersD_of_lowers mg bh ends he] at h
    exact ⟨ends, he, h⟩
  · rintro ⟨ends, he, h⟩
    rw [lowersD_of_lowers mg bh ends he]
    exact ⟨lowers_some_lt mg bh ends he, h⟩

theorem foldl_append_eq {α : Type} (g : List Nat → α → List Nat) (h : α → List Nat)
    (hg : ∀ acc b, g acc b = acc ++ h b) (l : List α) (init : List Nat) :
    l.foldl g init = init ++ l.flatMap h := by
  induction l generalizing init with
  | nil => simp
  | cons a t ih => simp [List.foldl_cons, hg, ih, List.append_assoc]

theorem mem_graphNeighbors (mg : MixedGraph) (x y : Nat) :
    y ∈ graphNeighbors mg x ↔ GraphLink mg x y := by
  unfold graphNeighbors
  rw [foldl_append_eq _ (fun bh => [mg.anotherUh bh x]) (fun _ _ => rfl)]
  simp only [List.nil_append, List.mem_flatMap, List.mem_singleton]
  constructor
  · rintro ⟨bh, hbh, rfl⟩
    obtain ⟨ends, he, hx⟩ := (mem_uppers mg x bh).1 hbh
    refine ⟨bh, ends, he, ?_⟩
    unfold MixedGraph.anotherUh
    rw [lowersD_of_lowers mg bh ends he]
    by_cases h1 : ends.1 = x
    · simp [h1]
    · rcases hx with hx | hx
      · exact absurd hx h1
      · simp [h1, hx]
  · rintro ⟨bh, ends, he, h⟩
    refine ⟨bh, (mem_uppers mg x bh).2 ⟨ends, he, ?_⟩, ?_⟩
    · rcases h with h | h
      · exact Or.inl h.1
      · exact Or.inr h.1
    · unfold MixedGraph.anotherUh
      rw [lowersD_of_lowers mg bh ends he]
      by_cases h1 : ends.1 = x
      · rw [if_pos h1]
        rcases h with h | h
        · exact h.2.symm
        · exact h.2.symm.trans (h1.trans h.1.symm)
      · rw [if_neg h1]
        rcases h with h | h
        · exact absurd h.1 h1
        · exact h.2.symm

theorem mem_patchNeighbors (mg : MixedGraph) (patch : MGPatch) (useBh : Nat → Bool)
    (x y : Nat) :
    y ∈ patchNeighbors mg patch useBh x ↔
      ∃ bh ends, Contains patch.bhs bh = true ∧ useBh bh = true ∧ mg.lowers bh = some ends ∧
        ((ends.1 = x ∧ ends.2 = y) ∨ (ends.2 = x ∧ ends.1 = y)) := by
  unfold patchNeighbors
  rw [foldl_append_eq _ (fun bh => if !Contains patch.bhs bh then []
      else if !useBh bh then [] else [mg.anotherUh bh x])
    (by intro acc b; by_cases h1 : Contains patch.bhs b = true <;>
          by_cases h2 : useBh b = true <;> simp [h1, h2])]
  simp only [List.nil_append, List.mem_flatMap]
  constructor
  · rintro ⟨bh, hbh, hy⟩
    obtain ⟨ends, he, hx⟩ := (mem_uppers mg x bh).1 hbh
    by_cases h1 : Contains patch.bhs bh = true
    · by_cases h2 : useBh bh = true
      · simp only [h1, h2, Bool.not_true, Bool.false_eq_true, if_false,
          List.mem_singleton] at hy
        refine ⟨bh, ends, h1, h2, he, ?_⟩
        subst hy
        unfold MixedGraph.anotherUh
        rw [lowersD_of_lowers mg bh ends he]
        by_cases h1 : ends.1 = x
        · simp [h1]
        · rcases hx with hx | hx
          · exact absurd hx h1
          · simp [h1, hx]
      · simp [h1, h2] at hy
    · simp [h1] at hy
  · rintro ⟨bh, ends, h1, h2, he, h⟩
    refine ⟨bh, (mem_uppers mg x bh).2 ⟨ends, he, ?_⟩, ?_⟩
    · rcases h with h | h
      · exact Or.inl h.1
      · exact Or.inr h.1
    · simp only [h1, h2, Bool.not_true, Bool.false_eq_true, if_false, List.mem_singleton]
      unfold MixedGraph.anotherUh
      rw [lowersD_of_lowers mg bh ends he]
      by_cases h1 : ends.1 = x
      · rw [if_pos h1]
        rcases h with h | h
        · exact h.2.symm
        · exact h.2.symm.trans (h1.trans h.1.symm)
      · rw [if_neg h1]
        rcases h with h | h
        · exact absurd h.1 h1
        · exact h.2.symm

theorem graphLink_symm (mg : MixedGraph) (x y : Nat) (h : GraphLink mg x y) :
    GraphLink mg y x := by
  obtain ⟨bh, ends, he, h⟩ := h
  exact ⟨bh, ends, he, by tauto⟩

theorem graphNeighbors_symm (mg : MixedGraph) (x y : Nat) (h : y ∈ graphNeighbors mg x) :
    x ∈ graphNeighbors mg y :=
  (mem_graphNeighbors mg y x).2 (graphLink_symm mg x y ((mem_graphNeighbors mg x y).1 h))

theorem patchNeighbors_symm (mg : MixedGraph) (patch : MGPatch) (useBh : Nat → Bool)
    (x y : Nat) (h : y ∈ patchNeighbors mg patch useBh x) :
    x ∈ patchNeighbors mg patch useBh y := by
  rw [mem_patchNeighbors] at h ⊢
  obtain ⟨bh, ends, h1, h2, he, h⟩ := h
  exact ⟨bh, ends, h1, h2, he, by tauto⟩

theorem graphNeighbors_lt (mg : MixedGraph) (hwf : mg.WF) (x y : Nat)
    (h : y ∈ graphNeighbors mg x) : y < mg.unaries.length := by
  obtain ⟨bh, ends, he, h⟩ := (mem_graphNeighbors mg x y).1 h
  have := lowers_lt_of_wf mg hwf bh ends he
  rcases h with h | h
  · rw [← h.2]; exact this.2
  · rw [← h.2]; exact this.1

theorem nbRel_graphNeighbors (mg : MixedGraph) : NbRel (graphNeighbors mg) = GraphLink mg := by
  funext x y
  exact propext (mem_graphNeighbors mg x y)

/-! ## The two assignment loops of the decompositions -/

theorem foldlM_assignUnary (tbl : MGUnaryVarTable) :
    ∀ (calls : List (Nat × Nat)) (ps0 ps : List MGPatch),
      calls.foldlM (fun patches uhccid => assignUnary tbl patches uhccid.1 uhccid.2) ps0 = some ps →
      ps.length = ps0.length ∧
      (∀ c ∈ calls, (mapAt tbl c.1).isSome = true ∧ c.2 < ps0.length) ∧
      ∀ i p0, ps0.get? i = some p0 → ∃ p, ps.get? i = some p ∧ p.bhs = p0.bhs ∧
        ∀ v, mapAt p.uhs v = if (v, i) ∈ calls then mapAt tbl v else mapAt p0.uhs v := by
  intro calls
  induction calls with
  | nil =>
    intro ps0 ps h
    simp only [List.foldlM_nil, pure, Option.some.injEq] at h
    subst h
    exact ⟨rfl, by simp, fun i p0 h => ⟨p0, h, rfl, by simp⟩⟩
  | cons c t ih =>
    intro ps0 ps h
    simp only [List.foldlM_cons, Option.bind_eq_bind, Option.bind_eq_some] at h
    obtain ⟨ps1, h1, h2⟩ := h
    simp only [assignUnary, Option.bind_eq_bind, Option.bind_eq_some] at h1
    obtain ⟨uv, huv, hm⟩ := h1
    obtain ⟨hl, hc, hget⟩ := ih ps1 ps h2
    have hl1 := vecModify_length _ _ _ _ hm
    obtain ⟨a, a', ha, hfa, ha', hother⟩ := vecModify_get _ _ _ _ hm
    simp only [Option.some.injEq] at hfa
    refine ⟨hl.trans hl1, ?_, ?_⟩
    · intro d hd
      rcases List.mem_cons.1 hd with rfl | hd
      · refine ⟨by simp [huv], ?_⟩
        by_contra hlt
        rw [List.get?_eq_none.2 (Nat.le_of_not_lt hlt)] at ha
        simp at ha
      · have := hc d hd
        rw [hl1] at this
        exact this
    · intro i p0 hp0
      by_cases hi : i = c.2
      · subst hi
        rw [hp0] at ha
        simp only [Option.some.injEq] at ha
        subst ha
        obtain ⟨p, hp, hb, hv⟩ := hget c.2 a' ha'
        refine ⟨p, hp, by rw [hb, ← hfa], ?_⟩
        intro v
        rw [hv v, ← hfa]
        simp only [mapAt_mapSet, List.mem_cons]
        by_cases hvt : (v, c.2) ∈ t
        · simp [hvt]
        · by_cases hvc : c.1 = v
          · subst hvc
            simp [huv]
          · have : ¬ (v, c.2) = c := by
              intro e
              exact hvc (by rw [← e])
            simp [hvt, hvc, this]
      · have hp1 : ps1.get? i = some p0 := by rw [hother i hi]; exact hp0
        obtain ⟨p, hp, hb, hv⟩ := hget i p0 hp1
        refine ⟨p, hp, hb, ?_⟩
        intro v
        rw [hv v]
        have : ¬ (v, i) = c := by
          intro e
          exact hi (by rw [← e])
        simp [this]

theorem foldlM_assignBinary (mg : MixedGraph) (tbl : MGBinaryVarTable)
    (cond : Nat × Nat → Bool) (idx : Nat × Nat → Nat)
    (step : List MGPatch → Nat → Option (List MGPatch))
    (hstep : ∀ ps bh, step ps bh = (mg.lowers bh).bind (fun ends =>
      if cond ends = true then assignBinary tbl ps bh (idx ends) else some ps)) :
    ∀ (l : List Nat) (ps0 ps : List MGPatch),
      l.foldlM step ps0 = some ps →
      ps.length = ps0.length ∧
      (∀ bh ∈ l, ∃ ends, mg.lowers bh = some ends ∧
        (cond ends = true → (mapAt tbl bh).isSome = true ∧ idx ends < ps0.length)) ∧
      ∀ i p0, ps0.get? i = some p0 → ∃ p, ps.get? i = some p ∧ p.uhs = p0.uhs ∧
        ∀ bh, mapAt p.bhs bh =
          if bh ∈ l ∧ ∃ ends, mg.lowers bh = some ends ∧ cond ends = true ∧ idx ends = i
          then mapAt tbl bh else mapAt p0.bhs bh := by
  intro l
  induction l with
  | nil =>
    intro ps0 ps h
    simp only [List.foldlM_nil, pure, Option.some.injEq] at h
    subst h
    exact ⟨rfl, by simp, fun i p0 h => ⟨p0, h, rfl, by simp⟩⟩
  | cons b t ih =>
    intro ps0 ps h
    simp only [List.foldlM_cons, Option.bind_eq_bind, Option.bind_eq_some] at h
    obtain ⟨ps1, h1, h2⟩ := h
    rw [hstep] at h1
    simp only [Option.bind_eq_some] at h1
    obtain ⟨ends, hends, h1⟩ := h1
    obtain ⟨hl, hc, hget⟩ := ih ps1 ps h2
    by_cases hcond : cond ends = true
    · simp only [hcond, if_true, assignBinary, Option.bind_eq_bind, Option.bind_eq_some] at h1
      obtain ⟨bv, hbv, hm⟩ := h1
      have hl1 := vecModify_length _ _ _ _ hm
      obtain ⟨a, a', ha, hfa, ha', hother⟩ := vecModify_get _ _ _ _ hm
      simp only [Option.some.injEq] at hfa
      refine ⟨hl.trans hl1, ?_, ?_⟩
      · intro d hd
        rcases List.mem_cons.1 hd with rfl | hd
        · refine ⟨ends, hends, fun _ => ⟨by simp [hbv], ?_⟩⟩
          by_contra hlt
          rw [List.get?_eq_none.2 (Nat.le_of_not_lt hlt)] at ha
          simp at ha
        · have := hc d hd
          rw [hl1] at this
          exact this
      · intro i p0 hp0
        by_cases hi : i = idx ends
        · subst hi
          rw [hp0] at ha
          simp only [Option.some.injEq] at ha
          subst ha
          obtain ⟨p, hp, hb, hv⟩ := hget (idx ends) a' ha'
          refine ⟨p, hp, by rw [hb, ← hfa], ?_⟩
          intro bh
          rw [hv bh, ← hfa]
          simp only [mapAt_mapSet, List.mem_cons]
          by_cases hvt : bh ∈ t ∧ ∃ ends', mg.lowers bh = some ends' ∧ cond ends' = true ∧
              idx ends' = idx ends
          · have : (bh = b ∨ bh ∈ t) ∧ ∃ ends', mg.lowers bh = some ends' ∧
                cond ends' = true ∧ idx ends' = idx ends := ⟨Or.inr hvt.1, hvt.2⟩
            rw [if_pos hvt, if_pos this]
          · rw [if_neg hvt]
            by_cases hvc : b = bh
            · subst hvc
              have : (b = b ∨ b ∈ t) ∧ ∃ ends', mg.lowers b = some ends' ∧
                  cond ends' = true ∧ idx ends' = idx ends :=
                ⟨Or.inl rfl, ends, hends, hcond, rfl⟩
              rw [if_pos rfl, if_pos this, hbv]
            · have : ¬ ((bh = b ∨ bh ∈ t) ∧ ∃ ends', mg.lowers bh = some ends' ∧
                  cond ends' = true ∧ idx ends' = idx ends) := by
                rintro ⟨h' | h', h''⟩
                · exact hvc h'.symm
                · exact hvt ⟨h', h''⟩
              rw [if_neg hvc, if_neg this]
        · have hp1 : ps1.get? i = some p0 := by rw [hother i hi]; exact hp0
          obtain ⟨p, hp, hb, hv⟩ := hget i p0 hp1
          refine ⟨p, hp, hb, ?_⟩
          intro bh
          rw [hv bh]
          by_cases hvt : bh ∈ t ∧ ∃ ends', mg.lowers bh = some ends' ∧ cond ends' = true ∧
              idx ends' = i
          · have : (bh ∈ b :: t) ∧ ∃ ends', mg.lowers bh = some ends' ∧
                cond ends' = true ∧ idx ends' = i := ⟨List.mem_cons_of_mem _ hvt.1, hvt.2⟩
            rw [if_pos hvt, if_pos this]
          · have : ¬ ((bh ∈ b :: t) ∧ ∃ ends', mg.lowers bh = some ends' ∧
                cond ends' = true ∧ idx ends' = i) := by
              rintro ⟨h', h''⟩
              rcases List.mem_cons.1 h' with rfl | h'
              · obtain ⟨ends', e1, e2, e3⟩ := h''
                rw [hends] at e1
                simp only [Option.some.injEq] at e1
                subst e1
                exact hi e3.symm
              · exact hvt ⟨h', h''⟩
            rw [if_neg hvt, if_neg this]
    · simp only [hcond, Bool.false_eq_true, if_false, Option.some.injEq] at h1
      subst h1
      refine ⟨hl, ?_, ?_⟩
      · intro d hd
        rcases List.mem_cons.1 hd with rfl | hd
        · exact ⟨ends, hends, fun h' => absurd h' hcond⟩
        · exact hc d hd
      · intro i p0 hp0
        obtain ⟨p, hp, hb, hv⟩ := hget i p0 hp0
        refine ⟨p, hp, hb, ?_⟩
        intro bh
        rw [hv bh]
        by_cases hvt : bh ∈ t ∧ ∃ ends', mg.lowers bh = some ends' ∧ cond ends' = true ∧
            idx ends' = i
        · have : (bh ∈ b :: t) ∧ ∃ ends', mg.lowers bh = some ends' ∧
              cond ends' = true ∧ idx ends' = i := ⟨List.mem_cons_of_mem _ hvt.1, hvt.2⟩
          rw [if_pos hvt, if_pos this]
        · have : ¬ ((bh ∈ b :: t) ∧ ∃ ends', mg.lowers bh = some ends' ∧
              cond ends' = true ∧ idx ends' = i) := by
            rintro ⟨h', h''⟩
            rcases List.mem_cons.1 h' with rfl | h'
            · obtain ⟨ends', e1, e2, e3⟩ := h''
              rw [hends] at e1
              simp only [Option.some.injEq] at e1
              subst e1
              exact hcond e2
            · exact hvt ⟨h', h''⟩
          rw [if_neg hvt, if_neg this]

theorem foldlM_assignUnary_isSome (tbl : MGUnaryVarTable) :
    ∀ (calls : List (Nat × Nat)) (ps0 : List MGPatch),
      (∀ c ∈ calls, (mapAt tbl c.1).isSome = true ∧ c.2 < ps0.length) →
      (calls.foldlM (fun patches uhccid => assignUnary tbl patches uhccid.1 uhccid.2)
        ps0).isSome = true := by
  intro calls
  induction calls with
  | nil => intro ps0 _; simp [pure]
  | cons c t ih =>
    intro ps0 h
    obtain ⟨h1, h2⟩ := h c (List.mem_cons_self _ _)
    obtain ⟨uv, huv⟩ := Option.isSome_iff_exists.1 h1
    have hm := vecModify_isSome (fun p => some { p with uhs := mapSet p.uhs c.1 uv }) ps0 c.2 h2
      (fun _ => rfl)
    obtain ⟨ps1, hps1⟩ := Option.isSome_iff_exists.1 hm
    have hl := vecModify_length _ _ _ _ hps1
    have hstep : assignUnary tbl ps0 c.1 c.2 = some ps1 := by
      simp [assignUnary, huv, hps1]
    simp only [List.foldlM_cons, hstep, Option.bind_eq_bind, Option.some_bind]
    apply ih
    intro d hd
    rw [hl]
    exact h d (List.mem_cons_of_mem _ hd)

theorem foldlM_assignBinary_isSome (mg : MixedGraph) (tbl : MGBinaryVarTable)
    (cond : Nat × Nat → Bool) (idx : Nat × Nat → Nat)
    (step : List MGPatch → Nat → Option (List MGPatch))
    (hstep : ∀ ps bh, step ps bh = (mg.lowers bh).bind (fun ends =>
      if cond ends = true then assignBinary tbl ps bh (idx ends) else some ps)) :
    ∀ (l : List Nat) (ps0 : List MGPatch),
      (∀ bh ∈ l, ∃ ends, mg.lowers bh = some ends ∧
        (cond ends = true → (mapAt tbl bh).isSome = true ∧ idx ends < ps0.length)) →
      (l.foldlM step ps0).isSome = true := by
  intro l
  induction l with
  | nil => intro ps0 _; simp [pure]
  | cons b t ih =>
    intro ps0 h
    obtain ⟨ends, hends, hc⟩ := h b (List.mem_cons_self _ _)
    by_cases hcond : cond ends = true
    · obtain ⟨h1, h2⟩ := hc hcond
      obtain ⟨bv, hbv⟩ := Option.isSome_iff_exists.1 h1
      have hm := vecModify_isSome (fun p => some { p with bhs := mapSet p.bhs b bv }) ps0
        (idx ends) h2 (fun _ => rfl)
      obtain ⟨ps1, hps1⟩ := Option.isSome_iff_exists.1 hm
      have hl := vecModify_length _ _ _ _ hps1
      have hs : step ps0 b = some ps1 := by
        rw [hstep]; simp [hends, hcond, assignBinary, hbv, hps1]
      simp only [List.foldlM_cons, hs, Option.bind_eq_bind, Option.some_bind]
      apply ih
      intro d hd
      rw [hl]
      exact h d (List.mem_cons_of_mem _ hd)
    · have hs : step ps0 b = some ps0 := by
        rw [hstep]; simp [hends, hcond]
      simp only [List.foldlM_cons, hs, Option.bind_eq_bind, Option.some_bind]
      apply ih
      intro d hd
      exact h d (List.mem_cons_of_mem _ hd)

theorem get?_replicate_emptyPatch (n i : Nat) (p : MGPatch)
    (h : (List.replicate n emptyPatch).get? i = some p) : p = emptyPatch ∧ i < n := by
  have hi : i < n := by
    by_contra hlt
    rw [List.get?_eq_none.2 (by simpa using Nat.le_of_not_lt hlt)] at h
    simp at h
  rw [List.get?_eq_getElem?, List.getElem?_replicate] at h
  simp only [hi, if_true, Option.some.injEq] at h
  exact ⟨h.symm, hi⟩

theorem mapGetD_of_mem (calls : List (Nat × Nat)) (hnd : (calls.map Prod.fst).Nodup)
    (v c : Nat) (h : (v, c) ∈ calls) : mapGetD calls v = c := by
  simp [mapGetD, mapAt_eq_some_of_mem calls hnd v c h]

theorem mem_unique_cid (calls : List (Nat × Nat)) (hnd : (calls.map Prod.fst).Nodup)
    (v c c' : Nat) (h : (v, c) ∈ calls) (h' : (v, c') ∈ calls) : c = c' := by
  have h1 := mapAt_eq_some_of_mem calls hnd v c h
  have h2 := mapAt_eq_some_of_mem calls hnd v c' h'
  rw [h1] at h2
  exact Option.some.inj h2

/-- What `SplitMixedGraphIntoPatches` returns, in terms of the component ids. -/
theorem split_spec (mg : MixedGraph) (hwf : mg.WF) (uv : MGUnaryVarTable)
    (bv : MGBinaryVarTable) (ps : List MGPatch)
    (h : SplitMixedGraphIntoPatches mg uv bv = some ps) :
    ∃ ccNum calls, CCInv (graphNeighbors mg) ccNum calls ∧
      (∀ v, v ∈ calls.map Prod.fst ↔ v < mg.unaries.length) ∧
      ps.length = ccNum ∧
      (∀ c ∈ calls, (mapAt uv c.1).isSome = true) ∧
      (∀ bh, bh < mg.binaries.length → (mapAt bv bh).isSome = true) ∧
      ∀ i p, ps.get? i = some p →
        (∀ v, mapAt p.uhs v = if (v, i) ∈ calls then mapAt uv v else none) ∧
        (∀ bh, mapAt p.bhs bh =
          if ∃ ends, mg.lowers bh = some ends ∧ mapGetD calls ends.1 = i
          then mapAt bv bh else none) := by
  unfold SplitMixedGraphIntoPatches at h
  simp only [Option.bind_eq_bind, Option.bind_eq_some] at h
  obtain ⟨⟨ccNum, calls⟩, hcc, ps1, hu, hb⟩ := h
  simp only at hu hb
  unfold ConnectedComponents at hcc
  obtain ⟨hinv, hroots, -, hreach⟩ := ccLoop_spec (graphNeighbors mg) (graphNeighbors_symm mg)
    _ _ [] 0 [] (ccNum, calls) rfl
    ⟨by simp, by simp, by simp, by simp, by simp⟩ hcc
  simp only at hinv hroots hreach
  rw [recordCcids_eq calls hinv.nodup] at hu hb
  obtain ⟨hl1, hc1, hg1⟩ := foldlM_assignUnary uv calls _ ps1 hu
  obtain ⟨hl2, hc2, hg2⟩ := foldlM_assignBinary mg bv (fun _ => true)
    (fun ends => mapGetD calls ends.1) _ (by intro ps bh; simp) _ _ ps hb
  refine ⟨ccNum, calls, hinv, ?_, ?_, fun c hc => (hc1 c hc).1, ?_, ?_⟩
  · intro v
    constructor
    · intro hv
      obtain ⟨c, hc, rfl⟩ := List.mem_map.1 hv
      rcases hreach c hc with h' | ⟨r, hr, h'⟩
      · simp at h'
      · have hr' : r < mg.unaries.length := by
          simpa [MixedGraph.unaryHandles] using hr
        exact reach_closed (graphNeighbors mg) (· < mg.unaries.length)
          (fun a _ b hb => graphNeighbors_lt mg hwf a b hb) _ _ h' hr'
    · intro hv
      exact hroots v (by simpa [MixedGraph.unaryHandles] using hv)
  · rw [hl2, hl1]; simp
  · intro bh hbh
    obtain ⟨ends, _, h'⟩ := hc2 bh (by simpa [MixedGraph.binaryHandles] using hbh)
    exact (h' rfl).1
  · intro i p hp
    have hi : i < ps.length := by
      by_contra hlt
      rw [List.get?_eq_none.2 (Nat.le_of_not_lt hlt)] at hp
      simp at hp
    have hi0 : i < (List.replicate ccNum emptyPatch).length := by rw [← hl1, ← hl2]; exact hi
    obtain ⟨p1, hp1, hb1, hv1⟩ := hg1 i emptyPatch (by
      rw [List.get?_eq_get hi0]; simp)
    obtain ⟨p2, hp2, hb2, hv2⟩ := hg2 i p1 hp1
    rw [hp] at hp2
    simp only [Option.some.injEq] at hp2
    subst hp2
    constructor
    · intro v
      rw [hb2, hv1 v]
      simp [emptyPatch, mapAt]
    · intro bh
      rw [hv2 bh, hb1]
      by_cases hc : ∃ ends, mg.lowers bh = some ends ∧ mapGetD calls ends.1 = i
      · have : bh ∈ mg.binaryHandles ∧ ∃ ends, mg.lowers bh = some ends ∧
            (fun _ => true) ends = true ∧ mapGetD calls ends.1 = i := by
          obtain ⟨ends, he, hce⟩ := hc
          exact ⟨by simpa [MixedGraph.binaryHandles] using lowers_some_lt mg bh ends he,
            ends, he, rfl, hce⟩
        rw [if_pos hc, if_pos this]
      · have : ¬ (bh ∈ mg.binaryHandles ∧ ∃ ends, mg.lowers bh = some ends ∧
            (fun _ => true) ends = true ∧ mapGetD calls ends.1 = i) := by
          rintro ⟨_, ends, he, _, hce⟩
          exact hc ⟨ends, he, hce⟩
        rw [if_neg hc, if_neg this]
        simp [emptyPatch, mapAt]

/-- On a well-formed graph with covering tables `SplitMixedGraphIntoPatches` returns. -/
theorem split_isSome (mg : MixedGraph) (hwf : mg.WF) (uv : MGUnaryVarTable)
    (bv : MGBinaryVarTable) (hcov : TablesCover mg uv bv) :
    ∃ ps, SplitMixedGraphIntoPatches mg uv bv = some ps := by
  have hnb : ∀ x, ∀ y ∈ graphNeighbors mg x, y < mg.unaries.length :=
    fun x y hy => graphNeighbors_lt mg hwf x y hy
  have hsome := ccLoop_isSome (graphNeighbors mg) mg.unaries.length hnb
    (mg.unaries.length + 1) (Nat.le_refl _) mg.unaryHandles [] 0 [] (by simp) (by simp)
    (by intro r hr; simpa [MixedGraph.unaryHandles] using hr)
  obtain ⟨⟨ccNum, calls⟩, hcc⟩ := Option.isSome_iff_exists.1 hsome
  obtain ⟨hinv, hroots, -, hreach⟩ := ccLoop_spec (graphNeighbors mg) (graphNeighbors_symm mg)
    _ _ [] 0 [] (ccNum, calls) rfl
    ⟨by simp, by simp, by simp, by simp, by simp⟩ hcc
  simp only at hinv hroots hreach
  have hkeys : ∀ c ∈ calls, c.1 < mg.unaries.length := by
    intro c hc
    rcases hreach c hc with h' | ⟨r, hr, h'⟩
    · simp at h'
    · have hr' : r < mg.unaries.length := by
        simpa [MixedGraph.unaryHandles] using hr
      exact reach_closed (graphNeighbors mg) (· < mg.unaries.length)
        (fun a _ b hb => hnb a b hb) _ _ h' hr'
  have hu := foldlM_assignUnary_isSome uv calls (List.replicate ccNum emptyPatch) (by
    intro c hc
    exact ⟨hcov.1 c.1 (hkeys c hc), by simpa using hinv.lt c hc⟩)
  obtain ⟨ps1, hps1⟩ := Option.isSome_iff_exists.1 hu
  obtain ⟨hl1, -, -⟩ := foldlM_assignUnary uv calls _ ps1 hps1
  have hb := foldlM_assignBinary_isSome mg bv (fun _ => true)
    (fun ends => mapGetD calls ends.1)
    (fun patches bh => do
      let uhs ← mg.lowers bh
      assignBinary bv patches bh (mapGetD calls uhs.1))
    (by intro ps bh; simp) mg.binaryHandles ps1 (by
      intro bh hbh
      have hlt : bh < mg.binaries.length := by simpa [MixedGraph.binaryHandles] using hbh
      obtain ⟨ends, he⟩ := lowers_of_lt mg bh hlt
      refine ⟨ends, he, fun _ => ⟨hcov.2 bh hlt, ?_⟩⟩
      have h1 := (lowers_lt_of_wf mg hwf bh ends he).1
      obtain ⟨c, hc, hc1⟩ := List.mem_map.1 (hroots ends.1
        (by simpa [MixedGraph.unaryHandles] using h1))
      have hmem : (ends.1, c.2) ∈ calls := by rw [← hc1]; exact hc
      show mapGetD calls ends.1 < ps1.length
      rw [mapGetD_of_mem calls hinv.nodup _ _ hmem, hl1]
      simpa using hinv.lt c hc)
  obtain ⟨ps, hps⟩ := Option.isSome_iff_exists.1 hb
  refine ⟨ps, ?_⟩
  unfold SplitMixedGraphIntoPatches ConnectedComponents
  simp only [Option.bind_eq_bind, Option.bind_eq_some]
  refine ⟨(ccNum, calls), hcc, ps1, ?_, ?_⟩
  · simp only [recordCcids_eq calls hinv.nodup]
    exact hps1
  · simp only [recordCcids_eq calls hinv.nodup]
    exact hps

theorem foldlM_inv {σ α : Type} (f : σ → α → Option σ) (P : σ → Prop)
    (hP : ∀ s a s', P s → f s a = some s' → P s') :
    ∀ (l : List α) (s s' : σ), P s → l.foldlM f s = some s' → P s' := by
  intro l
  induction l with
  | nil =>
    intro s s' hs h
    simp only [List.foldlM_nil, pure, Option.some.injEq] at h
    exact h ▸ hs
  | cons a t ih =>
    intro s s' hs h
    simp only [List.foldlM_cons, Option.bind_eq_bind, Option.bind_eq_some] at h
    obtain ⟨s1, h1, h2⟩ := h
    exact ih s1 s' (hP s a s1 hs h1) h2

theorem vecModify_forall {α : Type} (f : α → Option α) (P : α → Prop)
    (hf : ∀ a a', P a → f a = some a' → P a') (l : List α) (i : Nat) (l' : List α)
    (hl : ∀ a ∈ l, P a) (h : vecModify f l i = some l') : ∀ a ∈ l', P a := by
  induction l generalizing i l' with
  | nil => simp [vecModify] at h
  | cons a t ih =>
    cases i with
    | zero =>
      simp only [vecModify, Option.map_eq_some'] at h
      obtain ⟨a', ha, rfl⟩ := h
      intro b hb
      rcases List.mem_cons.1 hb with rfl | hb
      · exact hf a _ (hl a (List.mem_cons_self _ _)) ha
      · exact hl b (List.mem_cons_of_mem _ hb)
    | succ i =>
      simp only [vecModify, Option.map_eq_some'] at h
      obtain ⟨t', ht, rfl⟩ := h
      intro b hb
      rcases List.mem_cons.1 hb with rfl | hb
      · exact hl _ (List.mem_cons_self _ _)
      · exact ih i t' (fun c hc => hl c (List.mem_cons_of_mem _ hc)) ht b hb

theorem assignUnary_wf (tbl : MGUnaryVarTable) (ps ps' : List MGPatch) (uh ccid : Nat)
    (hwf : ∀ p ∈ ps, p.WF) (h : assignUnary tbl ps uh ccid = some ps') : ∀ p ∈ ps', p.WF := by
  simp only [assignUnary, Option.bind_eq_bind, Option.bind_eq_some] at h
  obtain ⟨uv, _, hm⟩ := h
  refine vecModify_forall _ MGPatch.WF ?_ ps ccid ps' hwf hm
  intro a a' ha hfa
  simp only [Option.some.injEq] at hfa
  subst hfa
  exact ⟨keysNodup_mapSet _ _ _ ha.1, ha.2⟩

theorem assignBinary_wf (tbl : MGBinaryVarTable) (ps ps' : List MGPatch) (bh ccid : Nat)
    (hwf : ∀ p ∈ ps, p.WF) (h : assignBinary tbl ps bh ccid = some ps') : ∀ p ∈ ps', p.WF := by
  simp only [assignBinary, Option.bind_eq_bind, Option.bind_eq_some] at h
  obtain ⟨uv, _, hm⟩ := h
  refine vecModify_forall _ MGPatch.WF ?_ ps ccid ps' hwf hm
  intro a a' ha hfa
  simp only [Option.some.injEq] at hfa
  subst hfa
  exact ⟨ha.1, keysNodup_mapSet _ _ _ ha.2⟩

theorem replicate_emptyPatch_wf (n : Nat) : ∀ p ∈ List.replicate n emptyPatch, p.WF := by
  intro p hp
  rw [List.eq_of_mem_replicate hp]
  simp [MGPatch.WF, KeysNodup, mapKeys, emptyPatch]

/-- Every patch built by `SplitMixedGraphIntoPatches` has one entry per handle. -/
theorem split_wf (mg : MixedGraph) (uv : MGUnaryVarTable)
    (bv : MGBinaryVarTable) (ps : List MGPatch)
    (h : SplitMixedGraphIntoPatches mg uv bv = some ps) : ∀ p ∈ ps, p.WF := by
  unfold SplitMixedGraphIntoPatches at h
  simp only [Option.bind_eq_bind, Option.bind_eq_some] at h
  obtain ⟨⟨ccNum, calls⟩, hcc, ps1, hu, hb⟩ := h
  simp only at hu hb
  have h1 := foldlM_inv _ (fun ps : List MGPatch => ∀ p ∈ ps, p.WF)
    (fun s a s' hs hf => assignUnary_wf uv s s' a.1 a.2 hs hf) _ _ ps1
    (replicate_emptyPatch_wf ccNum) hu
  refine foldlM_inv _ (fun ps : List MGPatch => ∀ p ∈ ps, p.WF) ?_ _ _ ps h1 hb
  intro s a s' hs hf
  simp only [Option.bind_eq_some] at hf
  obtain ⟨ends, _, hf⟩ := hf
  exact assignBinary_wf bv s s' a _ hs hf

theorem contains_eq_true_iff {β : Type} (m : List (Nat × β)) (k : Nat) :
    Contains m k = true ↔ ∃ v, mapAt m k = some v := by
  unfold Contains
  exact Option.isSome_iff_exists

theorem eq_nil_of_mapAt_none {β : Type} (m : List (Nat × β)) (h : ∀ k, mapAt m k = none) :
    m = [] := by
  cases m with
  | nil => rfl
  | cons e t =>
    have := h e.1
    simp [mapAt] at this

theorem cc_reach_same (nb : Nat → List Nat) (ccNum : Nat) (calls : List (Nat × Nat))
    (hinv : CCInv nb ccNum calls) (x y c : Nat) (hx : (x, c) ∈ calls)
    (hr : Relation.ReflTransGen (NbRel nb) x y) : (y, c) ∈ calls := by
  have hxk : x ∈ calls.map Prod.fst := List.mem_map.2 ⟨(x, c), hx, rfl⟩
  have hyk := reach_closed nb (· ∈ calls.map Prod.fst) (fun a ha b hb => hinv.closed a ha b hb)
    x y hr hxk
  obtain ⟨d, hd, hd1⟩ := List.mem_map.1 hyk
  have := (hinv.same (x, c) hx d hd).2 (by rw [hd1]; exact hr)
  simp only at this
  have e : d = (y, c) := by
    rw [this, ← hd1]
  rw [← e]
  exact hd

theorem get?_lt {α : Type} (l : List α) (i : Nat) (a : α) (h : l.get? i = some a) :
    i < l.length := by
  by_contra hlt
  rw [List.get?_eq_none.2 (Nat.le_of_not_lt hlt)] at h
  simp at h

theorem get?_of_lt {α : Type} (l : List α) (i : Nat) (h : i < l.length) :
    ∃ a, l.get? i = some a := ⟨_, List.get?_eq_get h⟩

/-! ## Claims on `SplitMixedGraphIntoPatches` -/

/-- C3: on every well-formed graph with covering binding tables, `SplitMixedGraphIntoPatches`
returns patches whose node sets are pairwise disjoint and cover exactly the graph nodes (every
node of the graph is bound in exactly one returned patch, every bound node is a graph node,
each patch holds one entry per handle), and each node is bound to its own entry of the unary
table. -/
theorem split_nodes_partition (mg : MixedGraph) (uv : MGUnaryVarTable) (bv : MGBinaryVarTable)
    (hwf : mg.WF) (hcov : TablesCover mg uv bv) :
    ∃ ps, SplitMixedGraphIntoPatches mg uv bv = some ps ∧
      (∀ p ∈ ps, p.WF) ∧
      (∀ uh, uh < mg.unaries.length →
        ∃! i, ∃ p, ps.get? i = some p ∧ Contains p.uhs uh = true) ∧
      (∀ i p uh, ps.get? i = some p → Contains p.uhs uh = true →
        uh < mg.unaries.length ∧ mapAt p.uhs uh = mapAt uv uh) := by
  obtain ⟨ps, hps⟩ := split_isSome mg hwf uv bv hcov
  obtain ⟨ccNum, calls, hinv, hkeys, hlen, huv, -, hget⟩ := split_spec mg hwf uv bv ps hps
  refine ⟨ps, hps, split_wf mg uv bv ps hps, ?_, ?_⟩
  · intro uh huh
    obtain ⟨c, hc, hc1⟩ := List.mem_map.1 ((hkeys uh).2 huh)
    have hmem : (uh, c.2) ∈ calls := by rw [← hc1]; exact hc
    obtain ⟨p, hp⟩ := get?_of_lt ps c.2 (by rw [hlen]; exact hinv.lt c hc)
    refine ⟨c.2, ⟨p, hp, ?_⟩, ?_⟩
    · unfold Contains
      rw [(hget c.2 p hp).1 uh, if_pos hmem]
      have := huv c hc
      rw [hc1] at this
      exact this
    · rintro j ⟨q, hq, hcq⟩
      unfold Contains at hcq
      rw [(hget j q hq).1 uh] at hcq
      by_cases hj : (uh, j) ∈ calls
      · exact mem_unique_cid calls hinv.nodup uh j c.2 hj hmem
      · simp [hj] at hcq
  · intro i p uh hp hc
    unfold Contains at hc
    rw [(hget i p hp).1 uh] at hc ⊢
    by_cases hj : (uh, i) ∈ calls
    · exact ⟨(hkeys uh).1 (List.mem_map.2 ⟨(uh, i), hj, rfl⟩), by rw [if_pos hj]⟩
    · simp [hj] at hc

/-- C3 on the two-node graph. -/
theorem split_nodes_partition_witness :
    twoNodeGraph.WF ∧ TablesCover twoNodeGraph twoNodeUnaryVars enabledBinaryVars ∧
    ∃ ps, SplitMixedGraphIntoPatches twoNodeGraph twoNodeUnaryVars enabledBinaryVars = some ps ∧
      (∀ p ∈ ps, p.WF) ∧
      (∀ uh, uh < twoNodeGraph.unaries.length →
        ∃! i, ∃ p, ps.get? i = some p ∧ Contains p.uhs uh = true) ∧
      (∀ i p uh, ps.get? i = some p → Contains p.uhs uh = true →
        uh < twoNodeGraph.unaries.length ∧ mapAt p.uhs uh = mapAt twoNodeUnaryVars uh) :=
  ⟨by decide, by unfold TablesCover; decide,
    split_nodes_partition twoNodeGraph twoNodeUnaryVars enabledBinaryVars (by decide)
      (by unfold TablesCover; decide)⟩

theorem split_edge_ends (mg : MixedGraph) (hwf : mg.WF) (ccNum : Nat)
    (calls : List (Nat × Nat)) (hinv : CCInv (graphNeighbors mg) ccNum calls)
    (hkeys : ∀ v, v ∈ calls.map Prod.fst ↔ v < mg.unaries.length)
    (bh : Nat) (ends : Nat × Nat) (he : mg.lowers bh = some ends) :
    (ends.1, mapGetD calls ends.1) ∈ calls ∧ (ends.2, mapGetD calls ends.1) ∈ calls := by
  have h1 := (lowers_lt_of_wf mg hwf bh ends he).1
  obtain ⟨c, hc, hc1⟩ := List.mem_map.1 ((hkeys ends.1).2 h1)
  have hmem : (ends.1, c.2) ∈ calls := by rw [← hc1]; exact hc
  rw [mapGetD_of_mem calls hinv.nodup _ _ hmem]
  refine ⟨hmem, cc_reach_same _ ccNum calls hinv ends.1 ends.2 c.2 hmem ?_⟩
  apply Relation.ReflTransGen.single
  exact (mem_graphNeighbors mg ends.1 ends.2).2 ⟨bh, ends, he, Or.inl ⟨rfl, rfl⟩⟩

/-- C4 as stated fails: on the two-node graph whose only binary element is disabled, the
returned patch binds that disabled element. -/
theorem split_keeps_disabled_edge :
    SplitMixedGraphIntoPatches twoNodeGraph twoNodeUnaryVars disabledBinaryVars =
      some [{ uhs := twoNodeUnaryVars, bhs := disabledBinaryVars }] ∧
    ¬ (∀ ps p bh, SplitMixedGraphIntoPatches twoNodeGraph twoNodeUnaryVars disabledBinaryVars =
        some ps → p ∈ ps → Contains p.bhs bh = true →
        ∃ b, mapAt disabledBinaryVars bh = some b ∧ b.enabled = true) := by
  have h : SplitMixedGraphIntoPatches twoNodeGraph twoNodeUnaryVars disabledBinaryVars =
      some [{ uhs := twoNodeUnaryVars, bhs := disabledBinaryVars }] := by decide
  refine ⟨h, ?_⟩
  intro hall
  obtain ⟨b, hb, hen⟩ := hall _ { uhs := twoNodeUnaryVars, bhs := disabledBinaryVars } 0 h
    (List.mem_singleton.2 rfl) (by decide)
  have hb' : mapAt disabledBinaryVars 0 = some { enabled := false } := by decide
  rw [hb'] at hb
  cases hb
  exact absurd hen (by decide)

/-- C4 (amended): on every well-formed graph with covering binding tables, the edge sets of the
patches returned by `SplitMixedGraphIntoPatches` are pairwise disjoint and their union is the set
of all binary handles of the graph, enabled or not: each handle of the graph is bound in exactly
one patch, that patch binds both its ends, the binding is the table entry, and nothing that is
not a handle of the graph is bound. -/
theorem split_edges_partition (mg : MixedGraph) (uv : MGUnaryVarTable) (bv : MGBinaryVarTable)
    (hwf : mg.WF) (hcov : TablesCover mg uv bv) :
    ∃ ps, SplitMixedGraphIntoPatches mg uv bv = some ps ∧
      (∀ bh, bh < mg.binaries.length →
        ∃! i, ∃ p, ps.get? i = some p ∧ Contains p.bhs bh = true) ∧
      (∀ i p bh, ps.get? i = some p → Contains p.bhs bh = true →
        ∃ ends, mg.lowers bh = some ends ∧ Contains p.uhs ends.1 = true ∧
          Contains p.uhs ends.2 = true ∧ mapAt p.bhs bh = mapAt bv bh) := by
  obtain ⟨ps, hps⟩ := split_isSome mg hwf uv bv hcov
  obtain ⟨ccNum, calls, hinv, hkeys, hlen, huv, hbv, hget⟩ := split_spec mg hwf uv bv ps hps
  refine ⟨ps, hps, ?_, ?_⟩
  · intro bh hbh
    obtain ⟨ends, he⟩ := lowers_of_lt mg bh hbh
    obtain ⟨h1, -⟩ := split_edge_ends mg hwf ccNum calls hinv hkeys bh ends he
    obtain ⟨p, hp⟩ := get?_of_lt ps (mapGetD calls ends.1) (by rw [hlen]; exact hinv.lt _ h1)
    refine ⟨mapGetD calls ends.1, ⟨p, hp, ?_⟩, ?_⟩
    · unfold Contains
      rw [(hget _ p hp).2 bh, if_pos ⟨ends, he, rfl⟩]
      exact hbv bh hbh
    · rintro j ⟨q, hq, hcq⟩
      unfold Contains at hcq
      rw [(hget j q hq).2 bh] at hcq
      by_cases hj : ∃ ends, mg.lowers bh = some ends ∧ mapGetD calls ends.1 = j
      · obtain ⟨ends', he', hj⟩ := hj
        rw [he] at he'
        cases he'
        exact hj.symm
      · simp [hj] at hcq
  · intro i p bh hp hc
    unfold Contains at hc
    rw [(hget i p hp).2 bh] at hc ⊢
    by_cases hj : ∃ ends, mg.lowers bh = some ends ∧ mapGetD calls ends.1 = i
    · obtain ⟨ends, he, hi⟩ := hj
      obtain ⟨h1, h2⟩ := split_edge_ends mg hwf ccNum calls hinv hkeys bh ends he
      rw [hi] at h1 h2
      refine ⟨ends, he, ?_, ?_, by rw [if_pos ⟨ends, he, hi⟩]⟩
      · unfold Contains
        rw [(hget i p hp).1 ends.1, if_pos h1]
        exact huv (ends.1, i) h1
      · unfold Contains
        rw [(hget i p hp).1 ends.2, if_pos h2]
        exact huv (ends.2, i) h2
    · simp [hj] at hc

/-- C4 (amended) on the two-node graph with its binary element disabled. -/
theorem split_edges_partition_witness :
    twoNodeGraph.WF ∧ TablesCover twoNodeGraph twoNodeUnaryVars disabledBinaryVars ∧
    ∃ ps, SplitMixedGraphIntoPatches twoNodeGraph twoNodeUnaryVars disabledBinaryVars = some ps ∧
      (∀ bh, bh < twoNodeGraph.binaries.length →
        ∃! i, ∃ p, ps.get? i = some p ∧ Contains p.bhs bh = true) ∧
      (∀ i p bh, ps.get? i = some p → Contains p.bhs bh = true →
        ∃ ends, twoNodeGraph.lowers bh = some ends ∧ Contains p.uhs ends.1 = true ∧
          Contains p.uhs ends.2 = true ∧ mapAt p.bhs bh = mapAt disabledBinaryVars bh) :=
  ⟨by decide, by unfold TablesCover; decide,
    split_edges_partition twoNodeGraph twoNodeUnaryVars disabledBinaryVars (by decide)
      (by unfold TablesCover; decide)⟩

theorem no_enabledGraphLink_disabled (x y : Nat) :
    ¬ EnabledGraphLink twoNodeGraph disabledBinaryVars x y := by
  rintro ⟨bh, ends, b, he, hb, hen, -⟩
  have hlt := lowers_some_lt _ _ _ he
  have h0 : bh = 0 := by
    simp [twoNodeGraph] at hlt
    exact hlt
  subst h0
  have hb' : mapAt disabledBinaryVars 0 = some { enabled := false } := by decide
  rw [hb'] at hb
  cases hb
  exact absurd hen (by decide)

/-- C5 as stated fails: on the two-node graph whose only binary element is disabled, nodes 0
and 1 are returned in one patch although no chain of enabled elements joins them. -/
theorem split_joins_over_disabled_edge :
    (∃ ps p, SplitMixedGraphIntoPatches twoNodeGraph twoNodeUnaryVars disabledBinaryVars =
        some ps ∧ p ∈ ps ∧ Contains p.uhs 0 = true ∧ Contains p.uhs 1 = true) ∧
    ¬ Relation.ReflTransGen (EnabledGraphLink twoNodeGraph disabledBinaryVars) 0 1 := by
  refine ⟨⟨[{ uhs := twoNodeUnaryVars, bhs := disabledBinaryVars }],
    { uhs := twoNodeUnaryVars, bhs := disabledBinaryVars }, by decide,
    List.mem_singleton.2 rfl, by decide, by decide⟩, ?_⟩
  intro h
  rcases Relation.ReflTransGen.cases_head h with h | ⟨c, hc, -⟩
  · exact absurd h (by decide)
  · exact no_enabledGraphLink_disabled 0 c hc

/-- C5 (amended): on every well-formed graph with covering binding tables, two graph nodes are
placed in the same returned patch if and only if a chain of binary elements of the graph,
enabled or not, joins them; a node with no incident binary element is returned as a patch that
binds that node alone and no binary handle. -/
theorem split_same_patch_iff_path (mg : MixedGraph) (uv : MGUnaryVarTable)
    (bv : MGBinaryVarTable) (hwf : mg.WF) (hcov : TablesCover mg uv bv) :
    ∃ ps, SplitMixedGraphIntoPatches mg uv bv = some ps ∧
      (∀ x y, x < mg.unaries.length → y < mg.unaries.length →
        ((∃ i p, ps.get? i = some p ∧ Contains p.uhs x = true ∧ Contains p.uhs y = true) ↔
          Relation.ReflTransGen (GraphLink mg) x y)) ∧
      (∀ x, x < mg.unaries.length → (∀ y, ¬ GraphLink mg x y) →
        ∃ i p, ps.get? i = some p ∧ (∀ v, Contains p.uhs v = true ↔ v = x) ∧ p.bhs = []) := by
  obtain ⟨ps, hps⟩ := split_isSome mg hwf uv bv hcov
  obtain ⟨ccNum, calls, hinv, hkeys, hlen, huv, hbv, hget⟩ := split_spec mg hwf uv bv ps hps
  have hcont : ∀ i p v, ps.get? i = some p → (Contains p.uhs v = true ↔ (v, i) ∈ calls) := by
    intro i p v hp
    unfold Contains
    rw [(hget i p hp).1 v]
    by_cases hj : (v, i) ∈ calls
    · simp only [hj, if_true, iff_true]
      exact huv (v, i) hj
    · simp [hj]
  refine ⟨ps, hps, ?_, ?_⟩
  · intro x y hx hy
    rw [← nbRel_graphNeighbors]
    constructor
    · rintro ⟨i, p, hp, hcx, hcy⟩
      have h1 := (hcont i p x hp).1 hcx
      have h2 := (hcont i p y hp).1 hcy
      exact (hinv.same (x, i) h1 (y, i) h2).1 rfl
    · intro hr
      obtain ⟨c, hc, hc1⟩ := List.mem_map.1 ((hkeys x).2 hx)
      have hmem : (x, c.2) ∈ calls := by rw [← hc1]; exact hc
      have hmem' := cc_reach_same _ ccNum calls hinv x y c.2 hmem hr
      obtain ⟨p, hp⟩ := get?_of_lt ps c.2 (by rw [hlen]; exact hinv.lt c hc)
      exact ⟨c.2, p, hp, (hcont _ p x hp).2 hmem, (hcont _ p y hp).2 hmem'⟩
  · intro x hx hno
    obtain ⟨c, hc, hc1⟩ := List.mem_map.1 ((hkeys x).2 hx)
    have hmem : (x, c.2) ∈ calls := by rw [← hc1]; exact hc
    obtain ⟨p, hp⟩ := get?_of_lt ps c.2 (by rw [hlen]; exact hinv.lt c hc)
    have honly : ∀ v, (v, c.2) ∈ calls → v = x := by
      intro v hv
      have hr := (hinv.same (x, c.2) hmem (v, c.2) hv).1 rfl
      rw [nbRel_graphNeighbors] at hr
      rcases Relation.ReflTransGen.cases_head hr with h | ⟨z, hz, -⟩
      · exact h.symm
      · exact absurd hz (hno z)
    refine ⟨c.2, p, hp, ?_, ?_⟩
    · intro v
      rw [hcont _ p v hp]
      constructor
      · exact honly v
      · rintro rfl; exact hmem
    · apply eq_nil_of_mapAt_none
      intro bh
      rw [(hget _ p hp).2 bh]
      by_cases hj : ∃ ends, mg.lowers bh = some ends ∧ mapGetD calls ends.1 = c.2
      · exfalso
        obtain ⟨ends, he, hi⟩ := hj
        obtain ⟨h1, -⟩ := split_edge_ends mg hwf ccNum calls hinv hkeys bh ends he
        rw [hi] at h1
        have := honly _ h1
        exact hno ends.2 ⟨bh, ends, he, Or.inl ⟨this, rfl⟩⟩
      · rw [if_neg hj]

/-- C5 (amended) on the two-node graph with its binary element disabled. -/
theorem split_same_patch_iff_path_witness :
    twoNodeGraph.WF ∧ TablesCover twoNodeGraph twoNodeUnaryVars disabledBinaryVars ∧
    ∃ ps, SplitMixedGraphIntoPatches twoNodeGraph twoNodeUnaryVars disabledBinaryVars = some ps ∧
      (∀ x y, x < twoNodeGraph.unaries.length → y < twoNodeGraph.unaries.length →
        ((∃ i p, ps.get? i = some p ∧ Contains p.uhs x = true ∧ Contains p.uhs y = true) ↔
          Relation.ReflTransGen (GraphLink twoNodeGraph) x y)) ∧
      (∀ x, x < twoNodeGraph.unaries.length → (∀ y, ¬ GraphLink twoNodeGraph x y) →
        ∃ i p, ps.get? i = some p ∧ (∀ v, Contains p.uhs v = true ↔ v = x) ∧ p.bhs = []) :=
  ⟨by decide, by unfold TablesCover; decide,
    split_same_patch_iff_path twoNodeGraph twoNodeUnaryVars disabledBinaryVars (by decide)
      (by unfold TablesCover; decide)⟩

/-! ## `SplitPatch` -/

/-- What `SplitPatch` returns on a patch that satisfies Invariant A, in terms of the component
ids. -/
theorem splitPatch_spec (mg : MixedGraph) (patch : MGPatch) (useBh : Nat → Bool)
    (hA : InvariantA mg patch) (ps : List MGPatch)
    (h : SplitPatch mg patch useBh = some ps) :
    ∃ ccNum calls, CCInv (patchNeighbors mg patch useBh) ccNum calls ∧
      (∀ v, v ∈ calls.map Prod.fst ↔ Contains patch.uhs v = true) ∧
      ps.length = ccNum ∧
      (∀ bh ends, mg.lowers bh = some ends → mapGetD calls ends.1 = mapGetD calls ends.2 →
        (mapAt patch.bhs bh).isSome = true) ∧
      ∀ i p, ps.get? i = some p →
        (∀ v, mapAt p.uhs v = if (v, i) ∈ calls then mapAt patch.uhs v else none) ∧
        (∀ bh, mapAt p.bhs bh =
          if ∃ ends, mg.lowers bh = some ends ∧
            mapGetD calls ends.1 = mapGetD calls ends.2 ∧ mapGetD calls ends.1 = i
          then mapAt patch.bhs bh else none) := by
  unfold SplitPatch at h
  simp only [Option.bind_eq_bind, Option.bind_eq_some] at h
  obtain ⟨⟨ccNum, calls⟩, hcc, ps1, hu, hb⟩ := h
  simp only at hu hb
  unfold ConnectedComponents at hcc
  obtain ⟨hinv, hroots, -, hreach⟩ := ccLoop_spec (patchNeighbors mg patch useBh)
    (patchNeighbors_symm mg patch useBh) _ _ [] 0 [] (ccNum, calls) rfl
    ⟨by simp, by simp, by simp, by simp, by simp⟩ hcc
  simp only at hinv hroots hreach
  rw [recordCcids_eq calls hinv.nodup] at hu hb
  obtain ⟨hl1, hc1, hg1⟩ := foldlM_assignUnary patch.uhs calls _ ps1 hu
  obtain ⟨hl2, hc2, hg2⟩ := foldlM_assignBinary mg patch.bhs
    (fun ends => decide (mapGetD calls ends.1 = mapGetD calls ends.2))
    (fun ends => mapGetD calls ends.1) _ (by
      intro ps bh
      cases mg.lowers bh with
      | none => rfl
      | some ends =>
        by_cases hc : mapGetD calls ends.1 = mapGetD calls ends.2 <;> simp [hc]) _ _ ps hb
  refine ⟨ccNum, calls, hinv, ?_, ?_, ?_, ?_⟩
  · intro v
    constructor
    · intro hv
      obtain ⟨c, hc, rfl⟩ := List.mem_map.1 hv
      rcases hreach c hc with h' | ⟨r, hr, h'⟩
      · simp at h'
      · have hr' : Contains patch.uhs r = true := (contains_iff_mem_keys _ _).2 hr
        refine reach_closed (patchNeighbors mg patch useBh) (fun v => Contains patch.uhs v = true)
          ?_ _ _ h' hr'
        intro a _ b hb
        obtain ⟨bh, ends, hcb, -, he, hab⟩ := (mem_patchNeighbors mg patch useBh a b).1 hb
        obtain ⟨ends', he', h1, h2⟩ := hA bh hcb
        rw [he] at he'
        cases he'
        rcases hab with hab | hab
        · rw [← hab.2]; exact h2
        · rw [← hab.2]; exact h1
    · intro hv
      exact hroots v ((contains_iff_mem_keys _ _).1 hv)
  · rw [hl2, hl1]; simp
  · intro bh ends he hceq
    obtain ⟨ends', he', h'⟩ := hc2 bh (by
      simpa [MixedGraph.binaryHandles] using lowers_some_lt mg bh ends he)
    rw [he] at he'
    cases he'
    exact (h' (by simpa using hceq)).1
  · intro i p hp
    have hi : i < ps.length := get?_lt ps i p hp
    have hi0 : i < (List.replicate ccNum emptyPatch).length := by rw [← hl1, ← hl2]; exact hi
    obtain ⟨p1, hp1, hb1, hv1⟩ := hg1 i emptyPatch (by
      rw [List.get?_eq_get hi0]; simp)
    obtain ⟨p2, hp2, hb2, hv2⟩ := hg2 i p1 hp1
    rw [hp] at hp2
    simp only [Option.some.injEq] at hp2
    subst hp2
    constructor
    · intro v
      rw [hb2, hv1 v]
      simp [emptyPatch, mapAt]
    · intro bh
      rw [hv2 bh, hb1]
      by_cases hc : ∃ ends, mg.lowers bh = some ends ∧
          mapGetD calls ends.1 = mapGetD calls ends.2 ∧ mapGetD calls ends.1 = i
      · have : bh ∈ mg.binaryHandles ∧ ∃ ends, mg.lowers bh = some ends ∧
            (fun ends : Nat × Nat => decide (mapGetD calls ends.1 = mapGetD calls ends.2)) ends
              = true ∧ mapGetD calls ends.1 = i := by
          obtain ⟨ends, he, hce, hi'⟩ := hc
          exact ⟨by simpa [MixedGraph.binaryHandles] using lowers_some_lt mg bh ends he,
            ends, he, by simpa using hce, hi'⟩
        rw [if_pos hc, if_pos this]
      · have : ¬ (bh ∈ mg.binaryHandles ∧ ∃ ends, mg.lowers bh = some ends ∧
            (fun ends : Nat × Nat => decide (mapGetD calls ends.1 = mapGetD calls ends.2)) ends
              = true ∧ mapGetD calls ends.1 = i) := by
          rintro ⟨_, ends, he, hce, hi'⟩
          exact hc ⟨ends, he, by simpa using hce, hi'⟩
        rw [if_neg hc, if_neg this]
        simp [emptyPatch, mapAt]

/-- Invariant A for the patches of `SplitPatch`. -/
theorem splitPatch_invariantA (mg : MixedGraph) (patch : MGPatch) (useBh : Nat → Bool)
    (hA : InvariantA mg patch) (ps : List MGPatch)
    (h : SplitPatch mg patch useBh = some ps) : ∀ p ∈ ps, InvariantA mg p := by
  obtain ⟨ccNum, calls, hinv, hkeys, hlen, hbs, hget⟩ := splitPatch_spec mg patch useBh hA ps h
  intro p hp bh hc
  obtain ⟨i, hi⟩ := List.get?_of_mem hp
  unfold Contains at hc
  rw [(hget i p hi).2 bh] at hc
  by_cases hj : ∃ ends, mg.lowers bh = some ends ∧
      mapGetD calls ends.1 = mapGetD calls ends.2 ∧ mapGetD calls ends.1 = i
  · obtain ⟨ends, he, heq, hidx⟩ := hj
    rw [if_pos ⟨ends, he, heq, hidx⟩] at hc
    obtain ⟨ends', he', h1, h2⟩ := hA bh hc
    rw [he] at he'
    cases he'
    have mem_of : ∀ v, Contains patch.uhs v = true → mapGetD calls v = i →
        Contains p.uhs v = true := by
      intro v hv hvi
      obtain ⟨c, hc', hc1⟩ := List.mem_map.1 ((hkeys v).2 hv)
      have hmem : (v, c.2) ∈ calls := by rw [← hc1]; exact hc'
      rw [mapGetD_of_mem calls hinv.nodup _ _ hmem] at hvi
      rw [hvi] at hmem
      unfold Contains
      rw [(hget i p hi).1 v, if_pos hmem]
      exact hv
    exact ⟨ends, he, mem_of _ h1 hidx, mem_of _ h2 (heq ▸ hidx)⟩
  · simp [hj] at hc

/-- The nodes of every patch of `SplitPatch` are connected through the binary handles bound in
that patch. -/
theorem splitPatch_connected (mg : MixedGraph) (patch : MGPatch) (useBh : Nat → Bool)
    (hA : InvariantA mg patch) (ps : List MGPatch)
    (h : SplitPatch mg patch useBh = some ps) : ∀ p ∈ ps, NodesConnected mg p := by
  obtain ⟨ccNum, calls, hinv, hkeys, hlen, hbs, hget⟩ := splitPatch_spec mg patch useBh hA ps h
  intro p hp x y hx hy
  obtain ⟨i, hi⟩ := List.get?_of_mem hp
  have hcont : ∀ v, Contains p.uhs v = true → (v, i) ∈ calls := by
    intro v hv
    unfold Contains at hv
    rw [(hget i p hi).1 v] at hv
    by_cases hj : (v, i) ∈ calls
    · exact hj
    · simp [hj] at hv
  have hxi := hcont x hx
  have hyi := hcont y hy
  have hr := (hinv.same (x, i) hxi (y, i) hyi).1 rfl
  simp only at hr
  clear hy hyi
  induction hr with
  | refl => exact Relation.ReflTransGen.refl
  | tail hab hbc ih =>
    rename_i b c
    have hbi := cc_reach_same _ ccNum calls hinv x b i hxi hab
    have hci := cc_reach_same _ ccNum calls hinv x c i hxi
      (Relation.ReflTransGen.tail hab hbc)
    refine Relation.ReflTransGen.tail ih ?_
    obtain ⟨bh, ends, hcb, -, he, hends⟩ := (mem_patchNeighbors mg patch useBh b c).1 hbc
    have h1 : mapGetD calls ends.1 = i ∧ mapGetD calls ends.2 = i := by
      rcases hends with hends | hends
      · rw [hends.1, hends.2]
        exact ⟨mapGetD_of_mem calls hinv.nodup _ _ hbi, mapGetD_of_mem calls hinv.nodup _ _ hci⟩
      · rw [hends.1, hends.2]
        exact ⟨mapGetD_of_mem calls hinv.nodup _ _ hci, mapGetD_of_mem calls hinv.nodup _ _ hbi⟩
    refine ⟨bh, ends, ?_, he, hends⟩
    unfold Contains
    rw [(hget i p hi).2 bh, if_pos ⟨ends, he, h1.1.trans h1.2.symm, h1.1⟩]
    exact hcb

/-! ## Invariants of the decomposition and of the patch constructors -/

theorem foldlM_inv_mem {σ α : Type} (f : σ → α → Option σ) (P : σ → Prop) :
    ∀ (l : List α) (s s' : σ), (∀ s a s', a ∈ l → P s → f s a = some s' → P s') →
      P s → l.foldlM f s = some s' → P s' := by
  intro l
  induction l with
  | nil =>
    intro s s' _ hs h
    simp only [List.foldlM_nil, pure, Option.some.injEq] at h
    exact h ▸ hs
  | cons a t ih =>
    intro s s' hP hs h
    simp only [List.foldlM_cons, Option.bind_eq_bind, Option.bind_eq_some] at h
    obtain ⟨s1, h1, h2⟩ := h
    exact ih s1 s' (fun s a s' ha => hP s a s' (List.mem_cons_of_mem _ ha))
      (hP s a s1 (List.mem_cons_self _ _) hs h1) h2

theorem contains_mapSet {β : Type} (m : List (Nat × β)) (k : Nat) (v : β) (k' : Nat) :
    Contains (mapSet m k v) k' = true ↔ k' = k ∨ Contains m k' = true := by
  rw [contains_iff_mem_keys, contains_iff_mem_keys, mem_mapKeys_mapSet]

theorem contains_nil {β : Type} (k : Nat) : Contains ([] : List (Nat × β)) k = false := rfl

/-- Invariant A for the patches of `SplitMixedGraphIntoPatches`. -/
theorem split_invariantA (mg : MixedGraph) (hwf : mg.WF) (uv : MGUnaryVarTable)
    (bv : MGBinaryVarTable) (ps : List MGPatch)
    (h : SplitMixedGraphIntoPatches mg uv bv = some ps) : ∀ p ∈ ps, InvariantA mg p := by
  obtain ⟨ccNum, calls, hinv, hkeys, hlen, huv, hbv, hget⟩ := split_spec mg hwf uv bv ps h
  intro p hp bh hc
  obtain ⟨i, hi⟩ := List.get?_of_mem hp
  unfold Contains at hc
  rw [(hget i p hi).2 bh] at hc
  by_cases hj : ∃ ends, mg.lowers bh = some ends ∧ mapGetD calls ends.1 = i
  · obtain ⟨ends, he, hidx⟩ := hj
    obtain ⟨h1, h2⟩ := split_edge_ends mg hwf ccNum calls hinv hkeys bh ends he
    rw [hidx] at h1 h2
    refine ⟨ends, he, ?_, ?_⟩
    · unfold Contains
      rw [(hget i p hi).1 ends.1, if_pos h1]
      exact huv (ends.1, i) h1
    · unfold Contains
      rw [(hget i p hi).1 ends.2, if_pos h2]
      exact huv (ends.2, i) h2
  · simp [hj] at hc

/-- The nodes of every patch of `SplitMixedGraphIntoPatches` are connected through the binary
handles bound in that patch. -/
theorem split_connected (mg : MixedGraph) (hwf : mg.WF) (uv : MGUnaryVarTable)
    (bv : MGBinaryVarTable) (ps : List MGPatch)
    (h : SplitMixedGraphIntoPatches mg uv bv = some ps) : ∀ p ∈ ps, NodesConnected mg p := by
  obtain ⟨ccNum, calls, hinv, hkeys, hlen, huv, hbv, hget⟩ := split_spec mg hwf uv bv ps h
  intro p hp x y hx hy
  obtain ⟨i, hi⟩ := List.get?_of_mem hp
  have hcont : ∀ v, Contains p.uhs v = true → (v, i) ∈ calls := by
    intro v hv
    unfold Contains at hv
    rw [(hget i p hi).1 v] at hv
    by_cases hj : (v, i) ∈ calls
    · exact hj
    · simp [hj] at hv
  have hxi := hcont x hx
  have hyi := hcont y hy
  have hr := (hinv.same (x, i) hxi (y, i) hyi).1 rfl
  simp only at hr
  clear hy hyi
  induction hr with
  | refl => exact Relation.ReflTransGen.refl
  | tail hab hbc ih =>
    rename_i b c
    have hbi := cc_reach_same _ ccNum calls hinv x b i hxi hab
    refine Relation.ReflTransGen.tail ih ?_
    obtain ⟨bh, ends, he, hends⟩ := (mem_graphNeighbors mg b c).1 hbc
    obtain ⟨h1, -⟩ := split_edge_ends mg hwf ccNum calls hinv hkeys bh ends he
    have hci := cc_reach_same _ ccNum calls hinv x c i hxi
      (Relation.ReflTransGen.tail hab hbc)
    have hidx : mapGetD calls ends.1 = i := by
      rcases hends with hends | hends
      · rw [hends.1]; exact mapGetD_of_mem calls hinv.nodup _ _ hbi
      · rw [hends.2]; exact mapGetD_of_mem calls hinv.nodup _ _ hci
    refine ⟨bh, ends, ?_, he, hends⟩
    unfold Contains
    rw [(hget i p hi).2 bh, if_pos ⟨ends, he, hidx⟩]
    exact hbv bh (lowers_some_lt mg bh ends he)

/-- What `MakePatchOnBinary` returns. -/
theorem makePatchOnBinary_spec (mg : MixedGraph) (bh : Nat) (uv : MGUnaryVarTable)
    (bv : MGBinaryVarTable) (p : MGPatch) (h : MakePatchOnBinary mg bh uv bv = some p) :
    ∃ ends b v0 v1, mg.lowers bh = some ends ∧ mapAt bv bh = some b ∧
      mapAt uv ends.1 = some v0 ∧ mapAt uv ends.2 = some v1 ∧
      p = { uhs := mapSet (mapSet [] ends.1 v0) ends.2 v1, bhs := mapSet [] bh b } := by
  unfold MakePatchOnBinary at h
  simp only [Option.bind_eq_bind, Option.bind_eq_some, pure, Option.some.injEq] at h
  obtain ⟨b, hb, ends, he, v0, hv0, v1, hv1, rfl⟩ := h
  exact ⟨ends, b, v0, v1, he, hb, hv0, hv1, rfl⟩

theorem makePatchOnBinary_invariantA (mg : MixedGraph) (bh : Nat) (uv : MGUnaryVarTable)
    (bv : MGBinaryVarTable) (p : MGPatch) (h : MakePatchOnBinary mg bh uv bv = some p) :
    InvariantA mg p := by
  obtain ⟨ends, b, v0, v1, he, -, -, -, rfl⟩ := makePatchOnBinary_spec mg bh uv bv p h
  intro bh' hc
  simp only [contains_mapSet, contains_nil, Bool.false_eq_true, or_false] at hc
  subst hc
  refine ⟨ends, he, ?_, ?_⟩
  · simp [contains_mapSet]
  · simp [contains_mapSet]

theorem makePatchOnBinary_connected (mg : MixedGraph) (bh : Nat) (uv : MGUnaryVarTable)
    (bv : MGBinaryVarTable) (p : MGPatch) (h : MakePatchOnBinary mg bh uv bv = some p) :
    NodesConnected mg p := by
  obtain ⟨ends, b, v0, v1, he, -, -, -, rfl⟩ := makePatchOnBinary_spec mg bh uv bv p h
  have hl1 : PatchLink mg { uhs := mapSet (mapSet [] ends.1 v0) ends.2 v1, bhs := mapSet [] bh b }
      ends.1 ends.2 := ⟨bh, ends, by simp [contains_mapSet], he, Or.inl ⟨rfl, rfl⟩⟩
  have hl2 : PatchLink mg { uhs := mapSet (mapSet [] ends.1 v0) ends.2 v1, bhs := mapSet [] bh b }
      ends.2 ends.1 := ⟨bh, ends, by simp [contains_mapSet], he, Or.inr ⟨rfl, rfl⟩⟩
  intro x y hx hy
  simp only [contains_mapSet, contains_nil, Bool.false_eq_true, or_false] at hx hy
  rcases hx with rfl | rfl <;> rcases hy with rfl | rfl
  · exact Relation.ReflTransGen.refl
  · exact Relation.ReflTransGen.single hl2
  · exact Relation.ReflTransGen.single hl1
  · exact Relation.ReflTransGen.refl

/-- What the loop of `MakeStarPatchAroundUnary` maintains: the centre is bound, every bound
binary handle has both ends bound, every bound node is the centre or is linked to it. -/
theorem makeStar_inv (mg : MixedGraph) (uh : Nat) (uv : MGUnaryVarTable)
    (bv : MGBinaryVarTable) (p : MGPatch) (h : MakeStarPatchAroundUnary mg uh uv bv = some p) :
    Contains p.uhs uh = true ∧ InvariantA mg p ∧
      ∀ v, Contains p.uhs v = true → v = uh ∨ PatchLink mg p uh v := by
  unfold MakeStarPatchAroundUnary at h
  simp only [Option.bind_eq_bind, Option.bind_eq_some] at h
  obtain ⟨v0, hv0, hfold⟩ := h
  refine foldlM_inv_mem _ (fun p : MGPatch => Contains p.uhs uh = true ∧ InvariantA mg p ∧
      ∀ v, Contains p.uhs v = true → v = uh ∨ PatchLink mg p uh v) (mg.uppers uh) _ p ?_ ?_ hfold
  · intro s bh s' hbh ⟨h1, h2, h3⟩ hstep
    simp only [Option.bind_eq_bind, Option.bind_eq_some, pure, Option.some.injEq] at hstep
    obtain ⟨b, hb, u, hu, rfl⟩ := hstep
    obtain ⟨ends, he, hends⟩ := (mem_uppers mg uh bh).1 hbh
    have hanother : (ends.1 = uh ∧ ends.2 = mg.anotherUh bh uh) ∨
        (ends.2 = uh ∧ ends.1 = mg.anotherUh bh uh) := by
      unfold MixedGraph.anotherUh
      rw [lowersD_of_lowers mg bh ends he]
      by_cases h' : ends.1 = uh
      · left; simp [h']
      · right
        rcases hends with hends | hends
        · exact absurd hends h'
        · simp [h', hends]
    refine ⟨?_, ?_, ?_⟩
    · simp only [contains_mapSet]; exact Or.inr h1
    · intro bh' hc
      simp only [contains_mapSet] at hc ⊢
      rcases hc with rfl | hc
      · refine ⟨ends, he, ?_, ?_⟩
        · rcases hanother with ha | ha
          · right; rw [ha.1]; exact h1
          · left; exact ha.2
        · rcases hanother with ha | ha
          · left; exact ha.2
          · right; rw [ha.1]; exact h1
      · obtain ⟨ends', he', e1, e2⟩ := h2 bh' hc
        exact ⟨ends', he', Or.inr e1, Or.inr e2⟩
    · intro v hv
      simp only [contains_mapSet] at hv
      rcases hv with rfl | hv
      · right
        exact ⟨bh, ends, by simp [contains_mapSet], he, hanother⟩
      · rcases h3 v hv with rfl | ⟨bh', ends', c1, c2, c3⟩
        · left; rfl
        · right
          exact ⟨bh', ends', by simp only [contains_mapSet]; exact Or.inr c1, c2, c3⟩
  · refine ⟨by simp [contains_mapSet], ?_, ?_⟩
    · intro bh hc
      simp [Contains, mapAt] at hc
    · intro v hv
      simp only [contains_mapSet, contains_nil, Bool.false_eq_true, or_false] at hv
      exact Or.inl hv

theorem patchLink_symm (mg : MixedGraph) (p : MGPatch) (x y : Nat) (h : PatchLink mg p x y) :
    PatchLink mg p y x := by
  obtain ⟨bh, ends, hc, he, h⟩ := h
  exact ⟨bh, ends, hc, he, by tauto⟩

theorem makeStar_connected (mg : MixedGraph) (uh : Nat) (uv : MGUnaryVarTable)
    (bv : MGBinaryVarTable) (p : MGPatch) (h : MakeStarPatchAroundUnary mg uh uv bv = some p) :
    NodesConnected mg p := by
  obtain ⟨-, -, h3⟩ := makeStar_inv mg uh uv bv p h
  intro x y hx hy
  have hxu : Relation.ReflTransGen (PatchLink mg p) x uh := by
    rcases h3 x hx with rfl | hl
    · exact Relation.ReflTransGen.refl
    · exact Relation.ReflTransGen.single (patchLink_symm mg p _ _ hl)
  have huy : Relation.ReflTransGen (PatchLink mg p) uh y := by
    rcases h3 y hy with rfl | hl
    · exact Relation.ReflTransGen.refl
    · exact Relation.ReflTransGen.single hl
  exact hxu.trans huy

/-! ## Minimum spanning tree -/

theorem insertSorted_perm (lt : Nat → Nat → Bool) (e : Nat) (l : List Nat) :
    (insertSorted lt e l).Perm (e :: l) := by
  induction l with
  | nil => simp [insertSorted]
  | cons a t ih =>
    by_cases h : lt e a = true
    · simp [insertSorted, h]
    · simp only [insertSorted, h, Bool.false_eq_true, if_false]
      exact (List.Perm.cons a ih).trans (List.Perm.swap e a t)

theorem sortBy_perm (lt : Nat → Nat → Bool) (l : List Nat) : (sortBy lt l).Perm l := by
  induction l with
  | nil => simp [sortBy]
  | cons a t ih =>
    have : sortBy lt (a :: t) = insertSorted lt a (sortBy lt t) := rfl
    rw [this]
    exact (insertSorted_perm lt a _).trans (List.Perm.cons a ih)

theorem mapKeys_mergeSets (ids : List (Nat × Nat)) (f t : Nat) :
    mapKeys (mergeSets ids f t) = mapKeys ids := by
  induction ids with
  | nil => rfl
  | cons e rest ih =>
    simp only [mergeSets, mapKeys, List.map_cons, List.map_map] at ih ⊢
    by_cases h : e.2 = t <;> simp [h, ih]

theorem mapAt_mergeSets (ids : List (Nat × Nat)) (f t v : Nat) :
    mapAt (mergeSets ids f t) v = (mapAt ids v).map (fun l => if l = t then f else l) := by
  induction ids with
  | nil => rfl
  | cons e rest ih =>
    obtain ⟨k, l⟩ := e
    have e : mergeSets ((k, l) :: rest) f t =
        (if l = t then (k, f) else (k, l)) :: mergeSets rest f t := rfl
    rw [e]
    by_cases h : l = t
    · rw [if_pos h]
      by_cases hk : k = v
      · simp [mapAt, hk, h]
      · simp [mapAt, hk, ih]
    · rw [if_neg h]
      by_cases hk : k = v
      · simp [mapAt, hk, h]
      · simp [mapAt, hk, ih]

theorem mapGetD_mergeSets (ids : List (Nat × Nat)) (f t v : Nat) (hv : v ∈ mapKeys ids) :
    mapGetD (mergeSets ids f t) v = if mapGetD ids v = t then f else mapGetD ids v := by
  obtain ⟨l, hl⟩ := (contains_eq_true_iff ids v).1 ((contains_iff_mem_keys ids v).2 hv)
  simp [mapGetD, mapAt_mergeSets, hl]

theorem mapGetD_mem_snd (ids : List (Nat × Nat)) (v : Nat) (hv : v ∈ mapKeys ids) :
    mapGetD ids v ∈ ids.map Prod.snd := by
  obtain ⟨l, hl⟩ := (contains_eq_true_iff ids v).1 ((contains_iff_mem_keys ids v).2 hv)
  have := mem_of_mapAt_eq_some ids v l hl
  simp only [mapGetD, hl, Option.getD_some]
  exact List.mem_map.2 ⟨(v, l), this, rfl⟩

theorem snd_mergeSets (ids : List (Nat × Nat)) (f t : Nat) :
    (mergeSets ids f t).map Prod.snd = (ids.map Prod.snd).map (fun l => if l = t then f else l) := by
  induction ids with
  | nil => rfl
  | cons e rest ih =>
    unfold mergeSets at ih ⊢
    by_cases h : e.2 = t <;> simp [h, ih]

theorem card_labels_mergeSets (ids : List (Nat × Nat)) (f t : Nat)
    (hf : f ∈ ids.map Prod.snd) (ht : t ∈ ids.map Prod.snd) (hne : f ≠ t) :
    ((mergeSets ids f t).map Prod.snd).toFinset.card + 1 =
      (ids.map Prod.snd).toFinset.card := by
  have himg : ((mergeSets ids f t).map Prod.snd).toFinset =
      (ids.map Prod.snd).toFinset.erase t := by
    ext l
    rw [snd_mergeSets]
    simp only [List.mem_toFinset, List.mem_map, Finset.mem_erase]
    constructor
    · rintro ⟨l0, ⟨e, he, rfl⟩, hl⟩
      by_cases h : e.2 = t
      · rw [if_pos h] at hl
        subst hl
        exact ⟨hne, by simpa using hf⟩
      · rw [if_neg h] at hl
        subst hl
        exact ⟨h, ⟨e, he, rfl⟩⟩
    · rintro ⟨hl, e, he, rfl⟩
      exact ⟨e.2, ⟨e, he, rfl⟩, by rw [if_neg hl]⟩
  rw [himg, Finset.card_erase_of_mem (by simpa using ht)]
  have : 0 < (ids.map Prod.snd).toFinset.card :=
    Finset.card_pos.2 ⟨t, by simpa using ht⟩
  omega

theorem listLink_mono (ends : Nat → Nat × Nat) (l l' : List Nat) (h : ∀ e ∈ l, e ∈ l')
    (x y : Nat) (hr : Relation.ReflTransGen (ListLink ends l) x y) :
    Relation.ReflTransGen (ListLink ends l') x y := by
  refine Relation.ReflTransGen.mono ?_ hr
  rintro a b ⟨e, he, h'⟩
  exact ⟨e, h e he, h'⟩

theorem listLink_reach_symm (ends : Nat → Nat × Nat) (l : List Nat) (x y : Nat)
    (hr : Relation.ReflTransGen (ListLink ends l) x y) :
    Relation.ReflTransGen (ListLink ends l) y x := by
  induction hr with
  | refl => exact Relation.ReflTransGen.refl
  | tail _ hbc ih =>
    obtain ⟨e, he, h'⟩ := hbc
    exact Relation.ReflTransGen.head ⟨e, he, h'.symm⟩ ih

/-- The greedy loop: what it maintains and what holds once all edges are processed. -/
theorem kruskalLoop_spec (ends : Nat → Nat × Nat) (V : List Nat) :
    ∀ (es : List Nat) (ids : List (Nat × Nat)) (out : List Nat),
      mapKeys ids = V →
      (∀ e ∈ es, (ends e).1 ∈ V ∧ (ends e).2 ∈ V) →
      (∀ x ∈ V, ∀ y ∈ V, mapGetD ids x = mapGetD ids y →
        Relation.ReflTransGen (ListLink ends out) x y) →
      (ids.map Prod.snd).toFinset.card + out.length = V.length →
      ∃ ids' kept, kruskalLoop ends es ids out = out ++ kept ∧ kept.Sublist es ∧
        mapKeys ids' = V ∧
        (∀ x ∈ V, ∀ y ∈ V, mapGetD ids' x = mapGetD ids' y →
          Relation.ReflTransGen (ListLink ends (out ++ kept)) x y) ∧
        (ids'.map Prod.snd).toFinset.card + (out ++ kept).length = V.length ∧
        (∀ e ∈ es, mapGetD ids' (ends e).1 = mapGetD ids' (ends e).2) ∧
        (∀ x ∈ V, ∀ y ∈ V, mapGetD ids x = mapGetD ids y →
          mapGetD ids' x = mapGetD ids' y) := by
  intro es
  induction es with
  | nil =>
    intro ids out hk _ hs hc
    exact ⟨ids, [], by simp [kruskalLoop], List.Sublist.refl _, hk, by simpa using hs,
      by simpa using hc, by simp, fun _ _ _ _ h => h⟩
  | cons e rest ih =>
    intro ids out hk hends hs hc
    obtain ⟨ha, hb⟩ := hends e (List.mem_cons_self _ _)
    have hrest : ∀ e' ∈ rest, (ends e').1 ∈ V ∧ (ends e').2 ∈ V :=
      fun e' he' => hends e' (List.mem_cons_of_mem _ he')
    by_cases hne : mapGetD ids (ends e).1 = mapGetD ids (ends e).2
    · obtain ⟨ids', kept, h1, h2, h3, h4, h5, h6, h7⟩ := ih ids out hk hrest hs hc
      refine ⟨ids', kept, ?_, List.Sublist.cons e h2, h3, h4, h5, ?_, h7⟩
      · simp only [kruskalLoop, hne, ne_eq, not_true_eq_false, if_false]
        exact h1
      · intro e' he'
        rcases List.mem_cons.1 he' with rfl | he'
        · exact h7 _ ha _ hb hne
        · exact h6 e' he'
    · have hlab : ∀ v ∈ V, mapGetD (mergeSets ids (mapGetD ids (ends e).1)
          (mapGetD ids (ends e).2)) v =
          if mapGetD ids v = mapGetD ids (ends e).2 then mapGetD ids (ends e).1
          else mapGetD ids v :=
        fun v hv => mapGetD_mergeSets ids _ _ v (hk ▸ hv)
      have hlink : ListLink ends (out ++ [e]) (ends e).1 (ends e).2 :=
        ⟨e, by simp, Or.inl rfl⟩
      have hlink' : ListLink ends (out ++ [e]) (ends e).2 (ends e).1 :=
        ⟨e, by simp, Or.inr rfl⟩
      have hold : ∀ x ∈ V, ∀ y ∈ V, mapGetD ids x = mapGetD ids y →
          Relation.ReflTransGen (ListLink ends (out ++ [e])) x y :=
        fun x hx y hy h => listLink_mono ends out _ (fun a ha => List.mem_append_left _ ha) x y
          (hs x hx y hy h)
      obtain ⟨ids', kept, h1, h2, h3, h4, h5, h6, h7⟩ := ih
        (mergeSets ids (mapGetD ids (ends e).1) (mapGetD ids (ends e).2)) (out ++ [e])
        (by rw [mapKeys_mergeSets]; exact hk) hrest
        (by
          intro x hx y hy hxy
          rw [hlab x hx, hlab y hy] at hxy
          by_cases hxb : mapGetD ids x = mapGetD ids (ends e).2
          · by_cases hyb : mapGetD ids y = mapGetD ids (ends e).2
            · exact hold x hx y hy (hxb.trans hyb.symm)
            · rw [if_pos hxb, if_neg hyb] at hxy
              exact ((hold x hx _ hb hxb).trans (Relation.ReflTransGen.single hlink')).trans
                (hold _ ha y hy hxy)
          · by_cases hyb : mapGetD ids y = mapGetD ids (ends e).2
            · rw [if_neg hxb, if_pos hyb] at hxy
              exact ((hold x hx _ ha hxy).trans (Relation.ReflTransGen.single hlink)).trans
                (hold _ hb y hy hyb.symm)
            · rw [if_neg hxb, if_neg hyb] at hxy
              exact hold x hx y hy hxy)
        (by
          have := card_labels_mergeSets ids _ _ (mapGetD_mem_snd ids _ (hk ▸ ha))
            (mapGetD_mem_snd ids _ (hk ▸ hb)) hne
          simp only [List.length_append, List.length_singleton]
          omega)
      have hmono : ∀ x ∈ V, ∀ y ∈ V, mapGetD ids x = mapGetD ids y →
          mapGetD ids' x = mapGetD ids' y := by
        intro x hx y hy hxy
        apply h7 x hx y hy
        rw [hlab x hx, hlab y hy, hxy]
      refine ⟨ids', e :: kept, ?_, List.Sublist.cons₂ e h2, h3, ?_, ?_, ?_, hmono⟩
      · simp only [kruskalLoop, ne_eq, hne, not_false_eq_true, if_true]
        rw [h1]
        simp
      · simpa using h4
      · simpa using h5
      · intro e' he'
        rcases List.mem_cons.1 he' with rfl | he'
        · apply h7 _ ha _ hb
          rw [hlab _ ha, hlab _ hb, if_neg hne, if_pos rfl]
        · exact h6 e' he'

theorem initial_ids_inj (V : List Nat) (x y : Nat) (hx : x ∈ V) (hy : y ∈ V)
    (h : mapGetD (V.zip (List.range V.length)) x = mapGetD (V.zip (List.range V.length)) y) :
    x = y := by
  have hk : mapKeys (V.zip (List.range V.length)) = V := by
    unfold mapKeys
    exact List.map_fst_zip _ _ (by simp)
  have hs : (V.zip (List.range V.length)).map Prod.snd = List.range V.length :=
    List.map_snd_zip _ _ (by simp)
  obtain ⟨i, hi⟩ := (contains_eq_true_iff _ x).1 ((contains_iff_mem_keys _ x).2 (hk ▸ hx))
  obtain ⟨j, hj⟩ := (contains_eq_true_iff _ y).1 ((contains_iff_mem_keys _ y).2 (hk ▸ hy))
  simp only [mapGetD, hi, hj, Option.getD_some] at h
  subst h
  have h1 := mem_of_mapAt_eq_some _ _ _ hi
  have h2 := mem_of_mapAt_eq_some _ _ _ hj
  have hnd : ((V.zip (List.range V.length)).map Prod.snd).Nodup := by
    rw [hs]; exact List.nodup_range _
  have := List.inj_on_of_nodup_map hnd h1 h2 rfl
  exact congrArg Prod.fst this

/-- What `MinimumSpanningTree` returns on a connected input. -/
theorem minimumSpanningTree_spec (ends : Nat → Nat × Nat) (V E : List Nat)
    (cmp : Nat → Nat → Bool) (hV : V.Nodup)
    (hE : ∀ e ∈ E, (ends e).1 ∈ V ∧ (ends e).2 ∈ V)
    (hconn : ∀ x ∈ V, ∀ y ∈ V, Relation.ReflTransGen (ListLink ends E) x y) :
    (MinimumSpanningTree V E ends cmp).Sublist (sortBy cmp E) ∧
    (MinimumSpanningTree V E ends cmp).length = V.length - 1 ∧
    ∀ x ∈ V, ∀ y ∈ V,
      Relation.ReflTransGen (ListLink ends (MinimumSpanningTree V E ends cmp)) x y := by
  have hperm := sortBy_perm cmp E
  have hk : mapKeys (V.zip (List.range V.length)) = V := by
    unfold mapKeys
    exact List.map_fst_zip _ _ (by simp)
  have hs : (V.zip (List.range V.length)).map Prod.snd = List.range V.length :=
    List.map_snd_zip _ _ (by simp)
  obtain ⟨ids', kept, h1, h2, h3, h4, h5, h6, -⟩ := kruskalLoop_spec ends V (sortBy cmp E)
    (V.zip (List.range V.length)) [] hk
    (fun e he => hE e (hperm.mem_iff.1 he))
    (by
      intro x hx y hy hxy
      rw [initial_ids_inj V x y hx hy hxy])
    (by
      rw [hs, List.toFinset_card_of_nodup (List.nodup_range _)]
      simp)
  simp only [List.nil_append] at h1 h4 h5
  have hres : MinimumSpanningTree V E ends cmp = kept := h1
  rw [hres]
  have hsame : ∀ x ∈ V, ∀ y ∈ V, mapGetD ids' x = mapGetD ids' y := by
    intro x hx y hy
    have hr := hconn x hx y hy
    clear hy
    induction hr with
    | refl => rfl
    | tail _ hbc ih =>
      obtain ⟨e, he, hl⟩ := hbc
      have := h6 e (hperm.mem_iff.2 he)
      rcases hl with hl | hl
      · rw [hl] at this
        exact ih.trans this
      · rw [hl] at this
        exact ih.trans this.symm
  refine ⟨h2, ?_, fun x hx y hy => h4 x hx y hy (hsame x hx y hy)⟩
  cases hVe : V with
  | nil =>
    rw [hVe] at h5
    simp only [List.length_nil] at h5 ⊢
    omega
  | cons x0 t =>
    have hx0 : x0 ∈ V := by rw [hVe]; exact List.mem_cons_self _ _
    have hsub : (ids'.map Prod.snd).toFinset ⊆ {mapGetD ids' x0} := by
      intro l hl
      simp only [List.mem_toFinset, List.mem_map] at hl
      obtain ⟨c, hc, rfl⟩ := hl
      have hcV : c.1 ∈ V := by
        rw [← h3]; exact List.mem_map.2 ⟨c, hc, rfl⟩
      have hnd : KeysNodup ids' := by unfold KeysNodup; rw [h3]; exact hV
      have hget : mapGetD ids' c.1 = c.2 := by
        simp [mapGetD, mapAt_eq_some_of_mem ids' hnd c.1 c.2 hc]
      rw [Finset.mem_singleton, ← hget]
      exact hsame _ hcV _ hx0
    have hle : (ids'.map Prod.snd).toFinset.card ≤ 1 := by
      simpa using Finset.card_le_card hsub
    have hpos : 0 < (ids'.map Prod.snd).toFinset.card :=
      Finset.card_pos.2 ⟨mapGetD ids' x0, by
        simpa using mapGetD_mem_snd ids' x0 (h3 ▸ hx0)⟩
    rw [← hVe]
    omega

theorem foldlM_rebind {β : Type} (tbl : List (Nat × β)) :
    ∀ (l : List Nat) (acc : List (Nat × β)), (∀ bh ∈ l, Contains tbl bh = true) →
      ∃ m, l.foldlM (fun (m : List (Nat × β)) bh => do
          let bv ← mapAt tbl bh
          pure (mapSet m bh bv)) acc = some m ∧
        (∀ k, mapAt m k = if k ∈ l then mapAt tbl k else mapAt acc k) ∧
        ((mapKeys acc ++ l).Nodup → mapKeys m = mapKeys acc ++ l) := by
  intro l
  induction l with
  | nil => intro acc _; exact ⟨acc, rfl, by simp, by simp⟩
  | cons b t ih =>
    intro acc h
    obtain ⟨bv, hbv⟩ := (contains_eq_true_iff tbl b).1 (h b (List.mem_cons_self _ _))
    obtain ⟨m, hm, hget, hkeys⟩ := ih (mapSet acc b bv)
      (fun bh hbh => h bh (List.mem_cons_of_mem _ hbh))
    refine ⟨m, ?_, ?_, ?_⟩
    · simp only [List.foldlM_cons, hbv, Option.bind_eq_bind, Option.some_bind, pure]
      exact hm
    · intro k
      rw [hget k, mapAt_mapSet]
      by_cases hk : k ∈ t
      · simp [hk]
      · by_cases hkb : b = k
        · subst hkb; simp [hk, hbv]
        · have : ¬ k = b := fun e => hkb e.symm
          simp [hk, hkb, this]
    · intro hnd
      have hb : b ∉ mapKeys acc := by
        intro hmem
        exact (List.nodup_append.1 hnd).2.2 hmem (List.mem_cons_self _ _)
      have e : mapKeys (mapSet acc b bv) = mapKeys acc ++ [b] := by
        rw [mapSet_of_not_mem acc b bv hb]; simp [mapKeys]
      rw [hkeys (by rw [e]; simpa using hnd), e]
      simp

/-- What `MinimumSpanningTreePatch` returns on a patch that satisfies Invariant A and whose nodes
are connected through its bound handles. -/
theorem mstPatch_spec (mg : MixedGraph) (patch : MGPatch) (compareBh : Nat → Nat → Bool)
    (hwf : patch.WF) (hA : InvariantA mg patch) (hB : NodesConnected mg patch) :
    ∃ mst, MinimumSpanningTreePatch mg patch compareBh = some mst ∧
      mst.uhs = patch.uhs ∧ KeysNodup mst.bhs ∧
      mst.bhs.length = patch.uhs.length - 1 ∧
      (∀ bh, Contains mst.bhs bh = true →
        Contains patch.bhs bh = true ∧ mapAt mst.bhs bh = mapAt patch.bhs bh) ∧
      InvariantA mg mst ∧ NodesConnected mg mst := by
  have hE : ∀ e ∈ mapKeys patch.bhs,
      (mg.lowersD e).1 ∈ mapKeys patch.uhs ∧ (mg.lowersD e).2 ∈ mapKeys patch.uhs := by
    intro e he
    obtain ⟨ends, hl, h1, h2⟩ := hA e ((contains_iff_mem_keys _ _).2 he)
    rw [lowersD_of_lowers mg e ends hl]
    exact ⟨(contains_iff_mem_keys _ _).1 h1, (contains_iff_mem_keys _ _).1 h2⟩
  have hconn : ∀ x ∈ mapKeys patch.uhs, ∀ y ∈ mapKeys patch.uhs,
      Relation.ReflTransGen (ListLink mg.lowersD (mapKeys patch.bhs)) x y := by
    intro x hx y hy
    refine Relation.ReflTransGen.mono ?_ (hB x y ((contains_iff_mem_keys _ _).2 hx)
      ((contains_iff_mem_keys _ _).2 hy))
    rintro a b ⟨bh, ends, hc, hl, hab⟩
    refine ⟨bh, (contains_iff_mem_keys _ _).1 hc, ?_⟩
    rw [lowersD_of_lowers mg bh ends hl]
    rcases hab with hab | hab
    · left; exact Prod.ext hab.1 hab.2
    · right; exact Prod.ext hab.2 hab.1
  obtain ⟨hsub, hlen, hreach⟩ := minimumSpanningTree_spec mg.lowersD (mapKeys patch.uhs)
    (mapKeys patch.bhs) compareBh hwf.1 hE hconn
  have hperm := sortBy_perm compareBh (mapKeys patch.bhs)
  have hmem : ∀ bh ∈ MinimumSpanningTree (mapKeys patch.uhs) (mapKeys patch.bhs) mg.lowersD
      compareBh, bh ∈ mapKeys patch.bhs :=
    fun bh hbh => hperm.mem_iff.1 (hsub.subset hbh)
  have hnd : (MinimumSpanningTree (mapKeys patch.uhs) (mapKeys patch.bhs) mg.lowersD
      compareBh).Nodup := hsub.nodup (hperm.nodup_iff.2 hwf.2)
  obtain ⟨m, hm, hget, hkeys⟩ := foldlM_rebind patch.bhs _ []
    (fun bh hbh => (contains_iff_mem_keys _ _).2 (hmem bh hbh))
  have hkeys' : mapKeys m = MinimumSpanningTree (mapKeys patch.uhs) (mapKeys patch.bhs)
      mg.lowersD compareBh := hkeys hnd
  have hcontains : ∀ bh, Contains m bh = true ↔
      bh ∈ MinimumSpanningTree (mapKeys patch.uhs) (mapKeys patch.bhs) mg.lowersD compareBh := by
    intro bh
    rw [contains_iff_mem_keys, hkeys']
  have hInvA : InvariantA mg { uhs := patch.uhs, bhs := m } := by
    intro bh hc
    exact hA bh ((contains_iff_mem_keys _ _).2 (hmem bh ((hcontains bh).1 hc)))
  refine ⟨{ uhs := patch.uhs, bhs := m }, ?_, rfl, ?_, ?_, ?_, hInvA, ?_⟩
  · unfold MinimumSpanningTreePatch
    simp only [Option.bind_eq_bind, Option.bind_eq_some, pure, Option.some.injEq]
    exact ⟨m, hm, rfl⟩
  · unfold KeysNodup
    rw [hkeys']
    exact hnd
  · have : m.length = (mapKeys m).length := by simp [mapKeys]
    rw [this, hkeys', hlen]
    simp [mapKeys]
  · intro bh hc
    have hin := (hcontains bh).1 hc
    refine ⟨(contains_iff_mem_keys _ _).2 (hmem bh hin), ?_⟩
    rw [hget bh, if_pos hin]
  · intro x y hx hy
    refine Relation.ReflTransGen.mono ?_ (hreach x ((contains_iff_mem_keys _ _).1 hx) y
      ((contains_iff_mem_keys _ _).1 hy))
    rintro a b ⟨bh, hbh, hl⟩
    obtain ⟨ends, hlow, -, -⟩ := hA bh ((contains_iff_mem_keys _ _).2 (hmem bh hbh))
    rw [lowersD_of_lowers mg bh ends hlow] at hl
    refine ⟨bh, ends, (hcontains bh).2 hbh, hlow, ?_⟩
    rcases hl with hl | hl
    · left; rw [hl]; exact ⟨rfl, rfl⟩
    · right; rw [hl]; exact ⟨rfl, rfl⟩

theorem kruskalLoop_sublist (ends : Nat → Nat × Nat) :
    ∀ (es : List Nat) (ids : List (Nat × Nat)) (out : List Nat),
      ∃ kept, kruskalLoop ends es ids out = out ++ kept ∧ kept.Sublist es := by
  intro es
  induction es with
  | nil => intro ids out; exact ⟨[], by simp [kruskalLoop], List.Sublist.refl _⟩
  | cons e rest ih =>
    intro ids out
    by_cases hne : mapGetD ids (ends e).1 = mapGetD ids (ends e).2
    · obtain ⟨kept, h1, h2⟩ := ih ids out
      refine ⟨kept, ?_, List.Sublist.cons e h2⟩
      simp only [kruskalLoop, hne, ne_eq, not_true_eq_false, if_false]
      exact h1
    · obtain ⟨kept, h1, h2⟩ := ih (mergeSets ids (mapGetD ids (ends e).1)
        (mapGetD ids (ends e).2)) (out ++ [e])
      refine ⟨e :: kept, ?_, List.Sublist.cons₂ e h2⟩
      simp only [kruskalLoop, ne_eq, hne, not_false_eq_true, if_true]
      rw [h1]
      simp

theorem minimumSpanningTree_subset (ends : Nat → Nat × Nat) (V E : List Nat)
    (cmp : Nat → Nat → Bool) : ∀ e ∈ MinimumSpanningTree V E ends cmp, e ∈ E := by
  intro e he
  obtain ⟨kept, h1, h2⟩ := kruskalLoop_sublist ends (sortBy cmp E)
    (V.zip (List.range V.length)) []
  unfold MinimumSpanningTree at he
  rw [h1] at he
  exact (sortBy_perm cmp E).mem_iff.1 (h2.subset (by simpa using he))

/-- `MinimumSpanningTreePatch` always returns; the result has the node bindings of the input
and binds only handles of the input, each with its input binding. -/
theorem mstPatch_basic (mg : MixedGraph) (patch : MGPatch) (compareBh : Nat → Nat → Bool) :
    ∃ mst, MinimumSpanningTreePatch mg patch compareBh = some mst ∧ mst.uhs = patch.uhs ∧
      ∀ bh, Contains mst.bhs bh = true →
        Contains patch.bhs bh = true ∧ mapAt mst.bhs bh = mapAt patch.bhs bh := by
  have hmem := minimumSpanningTree_subset mg.lowersD (mapKeys patch.uhs) (mapKeys patch.bhs)
    compareBh
  obtain ⟨m, hm, hget, -⟩ := foldlM_rebind patch.bhs _ []
    (fun bh hbh => (contains_iff_mem_keys _ _).2 (hmem bh hbh))
  refine ⟨{ uhs := patch.uhs, bhs := m }, ?_, rfl, ?_⟩
  · unfold MinimumSpanningTreePatch
    simp only [Option.bind_eq_bind, Option.bind_eq_some, pure, Option.some.injEq]
    exact ⟨m, hm, rfl⟩
  · intro bh hc
    unfold Contains at hc
    simp only [hget bh] at hc ⊢
    by_cases hin : bh ∈ MinimumSpanningTree (mapKeys patch.uhs) (mapKeys patch.bhs)
        mg.lowersD compareBh
    · rw [if_pos hin]
      exact ⟨(contains_iff_mem_keys _ _).2 (hmem bh hin), rfl⟩
    · rw [if_neg hin] at hc
      simp [mapAt] at hc

theorem mstPatch_invariantA (mg : MixedGraph) (patch : MGPatch) (compareBh : Nat → Nat → Bool)
    (hA : InvariantA mg patch) (mst : MGPatch)
    (h : MinimumSpanningTreePatch mg patch compareBh = some mst) : InvariantA mg mst := by
  obtain ⟨mst', h', hu, hb⟩ := mstPatch_basic mg patch compareBh
  rw [h] at h'
  cases h'
  intro bh hc
  obtain ⟨ends, he, h1, h2⟩ := hA bh (hb bh hc).1
  exact ⟨ends, he, by rw [hu]; exact h1, by rw [hu]; exact h2⟩

theorem invariantA_of_valid (mg : MixedGraph) (p : MGPatch)
    (hlt : ∀ bh ∈ mapKeys p.bhs, bh < mg.binaries.length)
    (h : BinaryHandlesAreValidInPatch mg p = true) : InvariantA mg p := by
  intro bh hc
  have hk := (contains_iff_mem_keys _ _).1 hc
  obtain ⟨ends, he⟩ := lowers_of_lt mg bh (hlt bh hk)
  obtain ⟨e, hmem, he1⟩ := List.mem_map.1 hk
  unfold BinaryHandlesAreValidInPatch at h
  have := List.all_eq_true.1 h e hmem
  rw [he1, lowersD_of_lowers mg bh ends he] at this
  simp only [Bool.not_or, Bool.not_not, Bool.and_eq_true] at this
  exact ⟨ends, he, this.1, this.2⟩

theorem nodesConnected_of_star (mg : MixedGraph) (p : MGPatch) (c : Nat)
    (h : ∀ v ∈ mapKeys p.uhs, v = c ∨ PatchLink mg p c v) : NodesConnected mg p := by
  intro x y hx hy
  have hxu : Relation.ReflTransGen (PatchLink mg p) x c := by
    rcases h x ((contains_iff_mem_keys _ _).1 hx) with rfl | hl
    · exact Relation.ReflTransGen.refl
    · exact Relation.ReflTransGen.single (patchLink_symm mg p _ _ hl)
  have huy : Relation.ReflTransGen (PatchLink mg p) c y := by
    rcases h y ((contains_iff_mem_keys _ _).1 hy) with rfl | hl
    · exact Relation.ReflTransGen.refl
    · exact Relation.ReflTransGen.single hl
  exact hxu.trans huy

theorem nodesConnected_of_enabled (mg : MixedGraph) (p : MGPatch)
    (h : NodesConnectedEnabled mg p) : NodesConnected mg p := by
  intro x y hx hy
  refine Relation.ReflTransGen.mono ?_ (h x y hx hy)
  rintro a b ⟨bh, ends, bv, h1, -, h3, h4⟩
  exact ⟨bh, ends, (contains_eq_true_iff _ _).2 ⟨bv, h1⟩, h3, h4⟩

theorem trianglePatch_wf : trianglePatch.WF := by
  unfold MGPatch.WF KeysNodup; decide

theorem trianglePatch_invariantA : InvariantA triangleGraph trianglePatch :=
  invariantA_of_valid _ _ (by decide) (by decide)

theorem trianglePatch_connected : NodesConnected triangleGraph trianglePatch := by
  apply nodesConnected_of_star _ _ 0
  intro v hv
  have hv' : v = 0 ∨ v = 1 ∨ v = 2 := by simpa [mapKeys, trianglePatch] using hv
  rcases hv' with rfl | rfl | rfl
  · exact Or.inl rfl
  · exact Or.inr ⟨0, (0, 1), by decide, by decide, Or.inl ⟨rfl, rfl⟩⟩
  · exact Or.inr ⟨2, (0, 2), by decide, by decide, Or.inl ⟨rfl, rfl⟩⟩

/-! ## Claims on the patch invariants and on the spanning-tree reducer -/

/-- C1: Invariant A closure. On a well-formed graph every patch returned by
`SplitMixedGraphIntoPatches`, by `SplitPatch` (from a patch satisfying Invariant A), by
`MakePatchOnBinary`, by `MakeStarPatchAroundUnary` and by `MinimumSpanningTreePatch` (from a
patch satisfying Invariant A) satisfies Invariant A: every binary handle bound in the patch has
both of its end nodes bound in the same patch. -/
theorem invariantA_closure (mg : MixedGraph) (hwf : mg.WF) :
    (∀ uv bv ps, SplitMixedGraphIntoPatches mg uv bv = some ps → ∀ p ∈ ps, InvariantA mg p) ∧
    (∀ patch useBh ps, InvariantA mg patch → SplitPatch mg patch useBh = some ps →
      ∀ p ∈ ps, InvariantA mg p) ∧
    (∀ bh uv bv p, MakePatchOnBinary mg bh uv bv = some p → InvariantA mg p) ∧
    (∀ uh uv bv p, MakeStarPatchAroundUnary mg uh uv bv = some p → InvariantA mg p) ∧
    (∀ patch compareBh mst, InvariantA mg patch →
      MinimumSpanningTreePatch mg patch compareBh = some mst → InvariantA mg mst) :=
  ⟨fun uv bv ps h => split_invariantA mg hwf uv bv ps h,
   fun patch useBh ps hA h => splitPatch_invariantA mg patch useBh hA ps h,
   fun bh uv bv p h => makePatchOnBinary_invariantA mg bh uv bv p h,
   fun uh uv bv p h => (makeStar_inv mg uh uv bv p h).2.1,
   fun patch compareBh mst hA h => mstPatch_invariantA mg patch compareBh hA mst h⟩

/-- C1 on the triangle graph: each of the five operations returns there, and what it returns
satisfies Invariant A. -/
theorem invariantA_closure_witness :
    triangleGraph.WF ∧
    (∃ ps, SplitMixedGraphIntoPatches triangleGraph trianglePatch.uhs trianglePatch.bhs = some ps ∧
      ∀ p ∈ ps, InvariantA triangleGraph p) ∧
    (∃ ps, SplitPatch triangleGraph trianglePatch (fun bh => bh != 2) = some ps ∧
      ∀ p ∈ ps, InvariantA triangleGraph p) ∧
    (∃ p, MakePatchOnBinary triangleGraph 1 trianglePatch.uhs trianglePatch.bhs = some p ∧
      InvariantA triangleGraph p) ∧
    (∃ p, MakeStarPatchAroundUnary triangleGraph 1 trianglePatch.uhs trianglePatch.bhs = some p ∧
      InvariantA triangleGraph p) ∧
    (∃ mst, MinimumSpanningTreePatch triangleGraph trianglePatch (fun a b => decide (a < b)) =
      some mst ∧ InvariantA triangleGraph mst) := by
  have h := invariantA_closure triangleGraph (by decide)
  refine ⟨by decide, ?_, ?_, ?_, ?_, ?_⟩
  · obtain ⟨ps, hps⟩ := Option.isSome_iff_exists.1 (by decide :
      (SplitMixedGraphIntoPatches triangleGraph trianglePatch.uhs trianglePatch.bhs).isSome = true)
    exact ⟨ps, hps, h.1 _ _ ps hps⟩
  · obtain ⟨ps, hps⟩ := Option.isSome_iff_exists.1 (by decide :
      (SplitPatch triangleGraph trianglePatch (fun bh => bh != 2)).isSome = true)
    exact ⟨ps, hps, h.2.1 _ _ ps trianglePatch_invariantA hps⟩
  · obtain ⟨p, hp⟩ := Option.isSome_iff_exists.1 (by decide :
      (MakePatchOnBinary triangleGraph 1 trianglePatch.uhs trianglePatch.bhs).isSome = true)
    exact ⟨p, hp, h.2.2.1 _ _ _ p hp⟩
  · obtain ⟨p, hp⟩ := Option.isSome_iff_exists.1 (by decide :
      (MakeStarPatchAroundUnary triangleGraph 1 trianglePatch.uhs trianglePatch.bhs).isSome = true)
    exact ⟨p, hp, h.2.2.2.1 _ _ _ p hp⟩
  · obtain ⟨p, hp⟩ := Option.isSome_iff_exists.1 (by decide :
      (MinimumSpanningTreePatch triangleGraph trianglePatch
        (fun a b => decide (a < b))).isSome = true)
    exact ⟨p, hp, h.2.2.2.2 _ _ p trianglePatch_invariantA hp⟩

theorem no_enabledPatchLink_disabled (x y : Nat) :
    ¬ EnabledPatchLink twoNodeGraph { uhs := twoNodeUnaryVars, bhs := disabledBinaryVars } x y := by
  rintro ⟨bh, ends, b, hb, hen, -, -⟩
  by_cases h0 : bh = 0
  · subst h0
    have hb' : mapAt disabledBinaryVars 0 = some { enabled := false } := by decide
    simp only at hb
    rw [hb'] at hb
    cases hb
    exact absurd hen (by decide)
  · have : ¬ 0 = bh := fun e => h0 e.symm
    simp [disabledBinaryVars, mapAt, this] at hb

/-- C2 as stated fails: on the two-node graph whose only binary element is disabled,
`SplitMixedGraphIntoPatches` returns one patch that holds both nodes, and these are not
connected when only enabled bindings are links. -/
theorem split_patch_not_connected_by_enabled :
    SplitMixedGraphIntoPatches twoNodeGraph twoNodeUnaryVars disabledBinaryVars =
      some [{ uhs := twoNodeUnaryVars, bhs := disabledBinaryVars }] ∧
    ¬ NodesConnectedEnabled twoNodeGraph { uhs := twoNodeUnaryVars, bhs := disabledBinaryVars } := by
  refine ⟨by decide, ?_⟩
  intro h
  have h01 := h 0 1 (by decide) (by decide)
  rcases Relation.ReflTransGen.cases_head h01 with h' | ⟨c, hc, -⟩
  · exact absurd h' (by decide)
  · exact no_enabledPatchLink_disabled 0 c hc

/-- C2 (amended): closure of connectivity. On a well-formed graph every patch returned by
`SplitMixedGraphIntoPatches`, by `SplitPatch` (from a patch satisfying Invariant A), by
`MakePatchOnBinary`, by `MakeStarPatchAroundUnary` and by `MinimumSpanningTreePatch` (from a
connected patch satisfying Invariant A) has its nodes in a single connected component when the
binary handles bound in the patch, enabled or not, are the links. -/
theorem connectivity_closure (mg : MixedGraph) (hwf : mg.WF) :
    (∀ uv bv ps, SplitMixedGraphIntoPatches mg uv bv = some ps →
      ∀ p ∈ ps, NodesConnected mg p) ∧
    (∀ patch useBh ps, InvariantA mg patch → SplitPatch mg patch useBh = some ps →
      ∀ p ∈ ps, NodesConnected mg p) ∧
    (∀ bh uv bv p, MakePatchOnBinary mg bh uv bv = some p → NodesConnected mg p) ∧
    (∀ uh uv bv p, MakeStarPatchAroundUnary mg uh uv bv = some p → NodesConnected mg p) ∧
    (∀ patch compareBh mst, patch.WF → InvariantA mg patch → NodesConnected mg patch →
      MinimumSpanningTreePatch mg patch compareBh = some mst → NodesConnected mg mst) := by
  refine ⟨fun uv bv ps h => split_connected mg hwf uv bv ps h,
   fun patch useBh ps hA h => splitPatch_connected mg patch useBh hA ps h,
   fun bh uv bv p h => makePatchOnBinary_connected mg bh uv bv p h,
   fun uh uv bv p h => makeStar_connected mg uh uv bv p h, ?_⟩
  intro patch compareBh mst hw hA hB h
  obtain ⟨mst', h', -, -, -, -, -, hconn⟩ := mstPatch_spec mg patch compareBh hw hA hB
  rw [h] at h'
  cases h'
  exact hconn

/-- C2 (amended) on the triangle graph: each of the five operations returns there, and what it
returns is connected through its bound handles. -/
theorem connectivity_closure_witness :
    triangleGraph.WF ∧
    (∃ ps, SplitMixedGraphIntoPatches triangleGraph trianglePatch.uhs trianglePatch.bhs = some ps ∧
      ∀ p ∈ ps, NodesConnected triangleGraph p) ∧
    (∃ ps, SplitPatch triangleGraph trianglePatch (fun bh => bh != 2) = some ps ∧
      ∀ p ∈ ps, NodesConnected triangleGraph p) ∧
    (∃ p, MakePatchOnBinary triangleGraph 1 trianglePatch.uhs trianglePatch.bhs = some p ∧
      NodesConnected triangleGraph p) ∧
    (∃ p, MakeStarPatchAroundUnary triangleGraph 1 trianglePatch.uhs trianglePatch.bhs = some p ∧
      NodesConnected triangleGraph p) ∧
    (∃ mst, MinimumSpanningTreePatch triangleGraph trianglePatch (fun a b => decide (a < b)) =
      some mst ∧ NodesConnected triangleGraph mst) := by
  have h := connectivity_closure triangleGraph (by decide)
  refine ⟨by decide, ?_, ?_, ?_, ?_, ?_⟩
  · obtain ⟨ps, hps⟩ := Option.isSome_iff_exists.1 (by decide :
      (SplitMixedGraphIntoPatches triangleGraph trianglePatch.uhs trianglePatch.bhs).isSome = true)
    exact ⟨ps, hps, h.1 _ _ ps hps⟩
  · obtain ⟨ps, hps⟩ := Option.isSome_iff_exists.1 (by decide :
      (SplitPatch triangleGraph trianglePatch (fun bh => bh != 2)).isSome = true)
    exact ⟨ps, hps, h.2.1 _ _ ps trianglePatch_invariantA hps⟩
  · obtain ⟨p, hp⟩ := Option.isSome_iff_exists.1 (by decide :
      (MakePatchOnBinary triangleGraph 1 trianglePatch.uhs trianglePatch.bhs).isSome = true)
    exact ⟨p, hp, h.2.2.1 _ _ _ p hp⟩
  · obtain ⟨p, hp⟩ := Option.isSome_iff_exists.1 (by decide :
      (MakeStarPatchAroundUnary triangleGraph 1 trianglePatch.uhs trianglePatch.bhs).isSome = true)
    exact ⟨p, hp, h.2.2.2.1 _ _ _ p hp⟩
  · obtain ⟨p, hp⟩ := Option.isSome_iff_exists.1 (by decide :
      (MinimumSpanningTreePatch triangleGraph trianglePatch
        (fun a b => decide (a < b))).isSome = true)
    exact ⟨p, hp, h.2.2.2.2 _ _ p trianglePatch_wf trianglePatch_invariantA
      trianglePatch_connected hp⟩

theorem lt_strictTotalOn (l : List Nat) : StrictTotalOn (fun a b => decide (a < b)) l := by
  refine ⟨?_, ?_, ?_⟩
  · intro a _; simp
  · intro a _ b _ c _ h1 h2
    simp only [decide_eq_true_eq] at h1 h2 ⊢
    omega
  · intro a _ b _ hne
    simp only [decide_eq_true_eq]
    omega

theorem gt_strictTotalOn (l : List Nat) : StrictTotalOn (fun a b => decide (a > b)) l := by
  refine ⟨?_, ?_, ?_⟩
  · intro a _; simp
  · intro a _ b _ c _ h1 h2
    simp only [gt_iff_lt, decide_eq_true_eq] at h1 h2 ⊢
    omega
  · intro a _ b _ hne
    simp only [gt_iff_lt, decide_eq_true_eq]
    omega

/-- The triangle patch whose handle 2 is disabled satisfies Invariant B as the specification
words it: handles 0 and 1 are enabled and join the three nodes. -/
theorem mixedTrianglePatch_enabled_connected :
    NodesConnectedEnabled triangleGraph mixedTrianglePatch := by
  have l01 : EnabledPatchLink triangleGraph mixedTrianglePatch 0 1 :=
    ⟨0, (0, 1), { enabled := true }, rfl, rfl, rfl, Or.inl ⟨rfl, rfl⟩⟩
  have l10 : EnabledPatchLink triangleGraph mixedTrianglePatch 1 0 :=
    ⟨0, (0, 1), { enabled := true }, rfl, rfl, rfl, Or.inr ⟨rfl, rfl⟩⟩
  have l12 : EnabledPatchLink triangleGraph mixedTrianglePatch 1 2 :=
    ⟨1, (1, 2), { enabled := true }, rfl, rfl, rfl, Or.inl ⟨rfl, rfl⟩⟩
  have l21 : EnabledPatchLink triangleGraph mixedTrianglePatch 2 1 :=
    ⟨1, (1, 2), { enabled := true }, rfl, rfl, rfl, Or.inr ⟨rfl, rfl⟩⟩
  have hcases : ∀ v, Contains mixedTrianglePatch.uhs v = true → v = 0 ∨ v = 1 ∨ v = 2 := by
    intro v hv
    by_contra hn
    push_neg at hn
    simp [mixedTrianglePatch, trianglePatch, Contains, mapAt, Ne.symm hn.1, Ne.symm hn.2.1,
      Ne.symm hn.2.2] at hv
  have hto : ∀ v, Contains mixedTrianglePatch.uhs v = true →
      Relation.ReflTransGen (EnabledPatchLink triangleGraph mixedTrianglePatch) 0 v ∧
      Relation.ReflTransGen (EnabledPatchLink triangleGraph mixedTrianglePatch) v 0 := by
    intro v hv
    rcases hcases v hv with rfl | rfl | rfl
    · exact ⟨Relation.ReflTransGen.refl, Relation.ReflTransGen.refl⟩
    · exact ⟨Relation.ReflTransGen.single l01, Relation.ReflTransGen.single l10⟩
    · exact ⟨(Relation.ReflTransGen.single l01).tail l12,
        (Relation.ReflTransGen.single l21).tail l10⟩
  intro x y hx hy
  exact (hto x hx).2.trans (hto y hy).1

/-- In the patch that keeps handle 2 = (0, 2) disabled and handle 1 = (1, 2) enabled, no enabled
link leaves node 0. -/
theorem no_enabledPatchLink_from_zero (y : Nat) :
    ¬ EnabledPatchLink triangleGraph mixedTriangleTree 0 y := by
  rintro ⟨bh, ends, b, hb, hen, hl, hends⟩
  by_cases h2 : bh = 2
  · subst h2
    have hb' : mapAt mixedTriangleTree.bhs 2 = some { enabled := false } := by decide
    rw [hb'] at hb
    cases hb
    exact absurd hen (by decide)
  · by_cases h1 : bh = 1
    · subst h1
      have hl' : triangleGraph.lowers 1 = some (1, 2) := by decide
      rw [hl'] at hl
      cases hl
      rcases hends with ⟨e, -⟩ | ⟨e, -⟩
      · exact absurd e (by decide)
      · exact absurd e (by decide)
    · have n2 : ¬ 2 = bh := fun e => h2 e.symm
      have n1 : ¬ 1 = bh := fun e => h1 e.symm
      simp [mixedTriangleTree, trianglePatch, mapAt, n1, n2] at hb

/-- C10 as stated fails: the triangle patch with handles 0 = (0, 1) and 1 = (1, 2) enabled and
handle 2 = (0, 2) disabled has three nodes and satisfies Invariants A and B, and "higher handle
first" is a strict total order on its handles; `MinimumSpanningTreePatch` keeps handles 2 and 1
with their bindings, and in the returned patch node 0 is joined to the others by the disabled
handle 2 only: the returned patch does not satisfy Invariant B. -/
theorem mstPatch_keeps_disabled_edge :
    mixedTrianglePatch.WF ∧ InvariantA triangleGraph mixedTrianglePatch ∧
    NodesConnectedEnabled triangleGraph mixedTrianglePatch ∧
    StrictTotalOn (fun a b => decide (a > b)) (mapKeys mixedTrianglePatch.bhs) ∧
    MinimumSpanningTreePatch triangleGraph mixedTrianglePatch (fun a b => decide (a > b)) =
      some mixedTriangleTree ∧
    mixedTriangleTree.bhs = [(2, { enabled := false }), (1, { enabled := true })] ∧
    ¬ NodesConnectedEnabled triangleGraph mixedTriangleTree := by
  refine ⟨⟨by unfold KeysNodup; decide, by unfold KeysNodup; decide⟩,
    invariantA_of_valid _ _ (by decide) (by decide), mixedTrianglePatch_enabled_connected,
    gt_strictTotalOn _, by decide, rfl, ?_⟩
  intro h
  have h01 := h 0 1 (by decide) (by decide)
  rcases Relation.ReflTransGen.cases_head h01 with h' | ⟨c, hc, -⟩
  · exact absurd h' (by decide)
  · exact no_enabledPatchLink_from_zero c hc

/-- C10 (amended): for every patch with K node bindings (one entry per handle) that satisfies
Invariant A and whose nodes are connected through its bound handles, as they are in every patch
that satisfies Invariant B, and for every comparator, a strict total order or not,
`MinimumSpanningTreePatch` returns a patch with exactly the node bindings of the input and
exactly K - 1 binary handles, each of them bound in the input and carrying its input binding,
enabled or not, and the nodes of the returned patch are connected when every bound handle,
enabled or not, is a link. -/
theorem mstPatch_size_and_connected (mg : MixedGraph) (patch : MGPatch)
    (compareBh : Nat → Nat → Bool) (hwf : patch.WF) (hA : InvariantA mg patch)
    (hB : NodesConnected mg patch) :
    ∃ mst, MinimumSpanningTreePatch mg patch compareBh = some mst ∧
      mst.uhs = patch.uhs ∧ KeysNodup mst.bhs ∧
      mst.bhs.length = patch.uhs.length - 1 ∧
      (∀ bh, Contains mst.bhs bh = true →
        Contains patch.bhs bh = true ∧ mapAt mst.bhs bh = mapAt patch.bhs bh) ∧
      NodesConnected mg mst := by
  obtain ⟨mst, h1, h2, h3, h4, h5, -, h7⟩ := mstPatch_spec mg patch compareBh hwf hA hB
  exact ⟨mst, h1, h2, h3, h4, h5, h7⟩

/-- The amended C10 on the triangle with handle 2 disabled (K = 3) and the order "higher handle
first": handles 2 and 1 are kept, and the nodes are connected through them. -/
theorem mstPatch_size_and_connected_witness :
    mixedTrianglePatch.WF ∧ InvariantA triangleGraph mixedTrianglePatch ∧
    NodesConnected triangleGraph mixedTrianglePatch ∧
    ∃ mst, MinimumSpanningTreePatch triangleGraph mixedTrianglePatch
        (fun a b => decide (a > b)) = some mst ∧
      mst.uhs = mixedTrianglePatch.uhs ∧ KeysNodup mst.bhs ∧
      mst.bhs.length = mixedTrianglePatch.uhs.length - 1 ∧
      (∀ bh, Contains mst.bhs bh = true →
        Contains mixedTrianglePatch.bhs bh = true ∧
          mapAt mst.bhs bh = mapAt mixedTrianglePatch.bhs bh) ∧
      NodesConnected triangleGraph mst :=
  ⟨⟨by unfold KeysNodup; decide, by unfold KeysNodup; decide⟩,
    invariantA_of_valid _ _ (by decide) (by decide),
    nodesConnected_of_enabled _ _ mixedTrianglePatch_enabled_connected,
    mstPatch_size_and_connected triangleGraph mixedTrianglePatch (fun a b => decide (a > b))
      ⟨by unfold KeysNodup; decide, by unfold KeysNodup; decide⟩
      (invariantA_of_valid _ _ (by decide) (by decide))
      (nodesConnected_of_enabled _ _ mixedTrianglePatch_enabled_connected)⟩

/-! ## Depth optimizer: least squares -/

theorem assignVarStarts_contains_aux (l : List (MGUnaryHandle × MGUnaryVariable)) :
    ∀ (s : List (MGUnaryHandle × Nat) × Nat × Bool) (uh : Nat),
      Contains (l.foldl (fun (s : List (MGUnaryHandle × Nat) × Nat × Bool) uhv =>
        if uhv.2.fixed then (s.1, s.2.1, true)
        else (mapSet s.1 uhv.1 s.2.1, s.2.1 + uhv.2.vars.length, s.2.2)) s).1 uh = true ↔
      (Contains s.1 uh = true ∨ ∃ var, (uh, var) ∈ l ∧ var.fixed = false) := by
  induction l with
  | nil => intro s uh; simp
  | cons e t ih =>
    intro s uh
    simp only [List.foldl_cons]
    rw [ih]
    by_cases hf : e.2.fixed = true
    · simp only [hf, if_true, List.mem_cons]
      constructor
      · rintro (h | ⟨var, hv, hvf⟩)
        · exact Or.inl h
        · exact Or.inr ⟨var, Or.inr hv, hvf⟩
      · rintro (h | ⟨var, hv | hv, hvf⟩)
        · exact Or.inl h
        · exfalso
          rw [← hv] at hf
          simp only at hf
          rw [hf] at hvf
          exact Bool.noConfusion hvf
        · exact Or.inr ⟨var, hv, hvf⟩
    · simp only [hf, Bool.false_eq_true, if_false, contains_mapSet, List.mem_cons]
      constructor
      · rintro ((h | h) | ⟨var, hv, hvf⟩)
        · refine Or.inr ⟨e.2, Or.inl ?_, by simpa using hf⟩
          rw [h]
        · exact Or.inl h
        · exact Or.inr ⟨var, Or.inr hv, hvf⟩
      · rintro (h | ⟨var, hv | hv, hvf⟩)
        · exact Or.inl (Or.inr h)
        · left; left
          rw [← hv]
        · exact Or.inr ⟨var, hv, hvf⟩

theorem assignVarStarts_contains (patch : MGPatch) (uh : Nat) :
    Contains (MGPatchDepthsOptimizerInternalEigen.assignVarStarts patch).1 uh = true ↔
      ∃ var, (uh, var) ∈ patch.uhs ∧ var.fixed = false := by
  unfold MGPatchDepthsOptimizerInternalEigen.assignVarStarts
  rw [assignVarStarts_contains_aux]
  simp [contains_nil]

theorem eigen_initialise_fields (geo : Geometry) (self data : MGPatchDepthsOptimizerInternalEigen)
    (mg : MixedGraph) (patch : MGPatch) (vps : List Vec3) (uw : Bool)
    (h : self.initialise geo mg patch vps uw = some data) :
    data.useWeights = self.useWeights ∧
    data.uh2varStartPosition = (MGPatchDepthsOptimizerInternalEigen.assignVarStarts patch).1 := by
  unfold MGPatchDepthsOptimizerInternalEigen.initialise at h
  simp only [Option.bind_eq_bind, Option.bind_eq_some, pure, Option.some.injEq] at h
  obtain ⟨⟨bh2cons, applied, consNum⟩, -, eq1, -, eq2, -, rfl⟩ := h
  exact ⟨rfl, rfl⟩

theorem eigen_create_spec (geo : Geometry) (ind : Bool) (mg : MixedGraph) (patch : MGPatch)
    (vps : List Vec3) (uw : Bool) (opt : MGPatchDepthsOptimizer)
    (h : MGPatchDepthsOptimizer.create geo ind mg patch vps uw Algorithm.EigenSparseQR = some opt) :
    ∃ data, opt = { internal := OptimizerInternal.eigen data, patch := patch } ∧
      (MGPatchDepthsOptimizerInternalEigen.fresh ind).initialise geo mg patch vps uw = some data := by
  unfold MGPatchDepthsOptimizer.create at h
  simp only [Option.bind_eq_bind, Option.bind_eq_some, pure, Option.some.injEq] at h
  obtain ⟨data, hd, rfl⟩ := h
  exact ⟨data, rfl, hd⟩

theorem mapM_option_forall₂ {α β : Type} (f : α → Option β) :
    ∀ (l : List α) (l' : List β), l.mapM f = some l' →
      List.Forall₂ (fun a b => f a = some b) l l' := by
  intro l
  induction l with
  | nil =>
    intro l' h
    simp only [List.mapM_nil, pure, Option.some.injEq] at h
    subst h
    exact List.Forall₂.nil
  | cons a t ih =>
    intro l' h
    simp only [List.mapM_cons, Option.bind_eq_bind, Option.bind_eq_some, pure,
      Option.some.injEq] at h
    obtain ⟨b, hb, t', ht, rfl⟩ := h
    exact List.Forall₂.cons hb (ih t' ht)

theorem mapM_range_get (X : List ℚ) (start n : Nat) (vars : List ℚ)
    (h : (List.range n).mapM (fun i => X.get? (start + i)) = some vars) :
    vars.length = n ∧ ∀ i, i < n → vars.get? i = X.get? (start + i) := by
  have hf := mapM_option_forall₂ _ _ _ h
  have hlen := hf.length_eq
  simp only [List.length_range] at hlen
  refine ⟨hlen.symm, ?_⟩
  intro i hi
  have := hf.get (by simpa using hi) (by rw [← hlen]; exact hi)
  simp only [List.get_eq_getElem, List.getElem_range] at this
  rw [this, List.get?_eq_getElem?, List.getElem?_eq_getElem (by rw [← hlen]; exact hi)]

theorem writeBack_spec (uh2var : List (Nat × Nat)) (X : List ℚ)
    (uhv uhv' : MGUnaryHandle × MGUnaryVariable)
    (h : MGPatchDepthsOptimizerInternalEigen.writeBack uh2var X uhv = some uhv') :
    uhv'.1 = uhv.1 ∧ uhv'.2.fixed = uhv.2.fixed ∧
    (Contains uh2var uhv.1 = false → uhv' = uhv) ∧
    (Contains uh2var uhv.1 = true → ∃ start, mapAt uh2var uhv.1 = some start ∧
      uhv'.2.vars.length = uhv.2.vars.length ∧
      ∀ i, i < uhv.2.vars.length → uhv'.2.vars.get? i = X.get? (start + i)) := by
  unfold MGPatchDepthsOptimizerInternalEigen.writeBack at h
  by_cases hc : Contains uh2var uhv.1 = true
  · simp only [hc, Bool.not_true, Bool.false_eq_true, if_false, Option.bind_eq_bind,
      Option.bind_eq_some, Option.some.injEq] at h
    obtain ⟨start, hs, vars, hv, rfl⟩ := h
    obtain ⟨h1, h2⟩ := mapM_range_get X start _ vars hv
    exact ⟨rfl, rfl, fun hf => by simp [hc] at hf, fun _ => ⟨start, hs, h1, h2⟩⟩
  · simp only [hc, Bool.not_false, if_true, Option.some.injEq] at h
    subst h
    exact ⟨rfl, rfl, fun _ => rfl, fun hf => absurd hf hc⟩

section EigenSystem

open MGPatchDepthsOptimizerInternalEigen

theorem insert_fresh (M : SparseMatrix) (r c : Nat) (v : ℚ) (hr : r < M.rows) (hc : c < M.cols)
    (hfree : ∀ e ∈ M.entries, ¬ (e.1 = r ∧ e.2.1 = c)) :
    M.insert r c v = some { M with entries := M.entries ++ [(r, c, v)] } := by
  unfold SparseMatrix.insert
  have : M.entries.all (fun e => !(e.1 == r && e.2.1 == c)) = true := by
    rw [List.all_eq_true]
    intro e he
    have := hfree e he
    simp only [Bool.not_eq_true', Bool.and_eq_false_imp, beq_iff_eq, beq_eq_false_iff_ne]
    intro h1 h2
    exact this ⟨h1, h2⟩
  rw [if_pos ⟨hr, hc, this⟩]

theorem insertCoeffs_three (A : SparseMatrix) (eid : Nat) (s c0 c1 c2 : ℚ)
    (hr : eid < A.rows) (hc : A.cols = 3) (hfree : ∀ e ∈ A.entries, e.1 ≠ eid) :
    insertCoeffs A eid 0 s [c0, c1, c2] = some { A with entries :=
      A.entries ++ [(eid, 0, s * c0), (eid, 1, s * c1), (eid, 2, s * c2)] } := by
  unfold insertCoeffs
  have hr3 : List.range [c0, c1, c2].length = [0, 1, 2] := rfl
  rw [hr3]
  simp only [List.foldlM_cons, List.foldlM_nil, Option.bind_eq_bind, Nat.zero_add]
  rw [insert_fresh A eid 0 _ hr (by rw [hc]; decide) (fun e he h => hfree e he h.1)]
  simp only [Option.some_bind]
  rw [insert_fresh { A with entries := A.entries ++ [(eid, 0, s * [c0, c1, c2].getD 0 0)] }
    eid 1 _ hr (by simp only [hc]; decide) (by
    intro e he h
    simp only [List.mem_append, List.mem_singleton] at he
    rcases he with he | he
    · exact hfree e he h.1
    · rw [he] at h; simp at h)]
  simp only [Option.some_bind]
  rw [insert_fresh { A with entries := (A.entries ++ [(eid, 0, s * [c0, c1, c2].getD 0 0)]) ++
      [(eid, 1, s * [c0, c1, c2].getD 1 0)] }
    eid 2 _ hr (by simp only [hc]; decide) (by
    intro e he h
    simp only [List.mem_append, List.mem_singleton] at he
    rcases he with (he | he) | he
    · exact hfree e he h.1
    · rw [he] at h; simp at h
    · rw [he] at h; simp at h)]
  simp [pure]

/-- The row written for one anchor when the front end is fixed and the back end is free. -/
theorem writeAnchorEquation_front_fixed (geo : Geometry) (vps : List Vec3) (w : ℚ)
    (rf rg : MGUnary) (varf varg : MGUnaryVariable) (eq : Equations) (a : Vec3)
    (p0 p1 p2 : ℚ)
    (htf : rf.type = MGUnaryType.Region) (htg : rg.type = MGUnaryType.Region)
    (hpf : varf.vars = [p0, p1, p2])
    (hB : eq.eid < eq.B.length) (hWr : eq.eid < eq.W.rows) (hWc : eq.eid < eq.W.cols)
    (hAr : eq.eid < eq.A.rows) (hAc : eq.A.cols = 3)
    (hWf : ∀ e ∈ eq.W.entries, e.1 ≠ eq.eid) (hAf : ∀ e ∈ eq.A.entries, e.1 ≠ eq.eid) :
    writeAnchorEquation geo vps w rf rg varf varg none (some 0) eq a = some
      { A := { eq.A with entries := eq.A.entries ++
          [(eq.eid, 0, -1 * a.1), (eq.eid, 1, -1 * a.2.1), (eq.eid, 2, -1 * a.2.2)] },
        W := { eq.W with entries := eq.W.entries ++ [(eq.eid, eq.eid, w)] },
        B := eq.B.set eq.eid (-(p0 * a.1 + p1 * a.2.1 + p2 * a.2.2)),
        eid := eq.eid + 1 } := by
  unfold writeAnchorEquation
  have hv : varf.inverseDepthAtDirection geo a rf vps =
      some (p0 * a.1 + p1 * a.2.1 + p2 * a.2.2) := by
    simp [MGUnaryVariable.inverseDepthAtDirection, htf, hpf]
  have hcoef : varg.variableCoeffsForInverseDepthAtDirection geo a rg vps =
      [a.1, a.2.1, a.2.2] := by
    simp [MGUnaryVariable.variableCoeffsForInverseDepthAtDirection, htg]
  simp only [vecSet, hB, if_true, Option.bind_eq_bind, Option.some_bind,
    insert_fresh eq.W eq.eid eq.eid w hWr hWc (fun e he h => hWf e he h.1), hv,
    List.length_set, pure, hcoef, insertCoeffs_three eq.A eq.eid (-1) a.1 a.2.1 a.2.2 hAr hAc hAf,
    List.set_set]

/-- The row written for one anchor when the front end is free and the back end is fixed. -/
theorem writeAnchorEquation_back_fixed (geo : Geometry) (vps : List Vec3) (w : ℚ)
    (rf rg : MGUnary) (varf varg : MGUnaryVariable) (eq : Equations) (a : Vec3)
    (p0 p1 p2 : ℚ)
    (htf : rf.type = MGUnaryType.Region) (htg : rg.type = MGUnaryType.Region)
    (hpf : varf.vars = [p0, p1, p2])
    (hB : eq.eid < eq.B.length) (hWr : eq.eid < eq.W.rows) (hWc : eq.eid < eq.W.cols)
    (hAr : eq.eid < eq.A.rows) (hAc : eq.A.cols = 3)
    (hWf : ∀ e ∈ eq.W.entries, e.1 ≠ eq.eid) (hAf : ∀ e ∈ eq.A.entries, e.1 ≠ eq.eid) :
    writeAnchorEquation geo vps w rg rf varg varf (some 0) none eq a = some
      { A := { eq.A with entries := eq.A.entries ++
          [(eq.eid, 0, 1 * a.1), (eq.eid, 1, 1 * a.2.1), (eq.eid, 2, 1 * a.2.2)] },
        W := { eq.W with entries := eq.W.entries ++ [(eq.eid, eq.eid, w)] },
        B := eq.B.set eq.eid (p0 * a.1 + p1 * a.2.1 + p2 * a.2.2),
        eid := eq.eid + 1 } := by
  unfold writeAnchorEquation
  have hv : varf.inverseDepthAtDirection geo a rf vps =
      some (p0 * a.1 + p1 * a.2.1 + p2 * a.2.2) := by
    simp [MGUnaryVariable.inverseDepthAtDirection, htf, hpf]
  have hcoef : varg.variableCoeffsForInverseDepthAtDirection geo a rg vps =
      [a.1, a.2.1, a.2.2] := by
    simp [MGUnaryVariable.variableCoeffsForInverseDepthAtDirection, htg]
  simp only [vecSet, hB, if_true, Option.bind_eq_bind, Option.some_bind,
    insert_fresh eq.W eq.eid eq.eid w hWr hWc (fun e he h => hWf e he h.1), hv,
    List.length_set, pure, hcoef, insertCoeffs_three eq.A eq.eid 1 a.1 a.2.1 a.2.2 hAr hAc hAf,
    List.set_set]

theorem writeThreeAnchors_front_fixed (geo : Geometry) (vps : List Vec3) (w : ℚ)
    (rf rg : MGUnary) (varf varg : MGUnaryVariable) (a1 a2 a3 : Vec3) (p0 p1 p2 : ℚ)
    (htf : rf.type = MGUnaryType.Region) (htg : rg.type = MGUnaryType.Region)
    (hpf : varf.vars = [p0, p1, p2]) :
    [a1, a2, a3].foldlM (writeAnchorEquation geo vps w rf rg varf varg none (some 0))
      { A := SparseMatrix.resize 3 3, W := SparseMatrix.resize 3 3, B := List.replicate 3 0,
        eid := 0 } = some
      { A := { rows := 3, cols := 3, entries :=
          [(0, 0, -1 * a1.1), (0, 1, -1 * a1.2.1), (0, 2, -1 * a1.2.2),
           (1, 0, -1 * a2.1), (1, 1, -1 * a2.2.1), (1, 2, -1 * a2.2.2),
           (2, 0, -1 * a3.1), (2, 1, -1 * a3.2.1), (2, 2, -1 * a3.2.2)] },
        W := { rows := 3, cols := 3, entries := [(0, 0, w), (1, 1, w), (2, 2, w)] },
        B := [-(p0 * a1.1 + p1 * a1.2.1 + p2 * a1.2.2), -(p0 * a2.1 + p1 * a2.2.1 + p2 * a2.2.2),
          -(p0 * a3.1 + p1 * a3.2.1 + p2 * a3.2.2)],
        eid := 3 } := by
  have hrep : List.replicate 3 (0 : ℚ) = [0, 0, 0] := rfl
  simp only [List.foldlM_cons, List.foldlM_nil, Option.bind_eq_bind, hrep, SparseMatrix.resize]
  rw [writeAnchorEquation_front_fixed geo vps w rf rg varf varg _ a1 p0 p1 p2 htf htg hpf
    (by simp) (by simp) (by simp) (by simp) rfl (by simp) (by simp)]
  simp only [Option.some_bind, List.nil_append, List.set_cons_zero, Nat.zero_add]
  rw [writeAnchorEquation_front_fixed geo vps w rf rg varf varg _ a2 p0 p1 p2 htf htg hpf
    (by simp) (by simp) (by simp) (by simp) rfl (by simp) (by simp)]
  simp only [Option.some_bind, List.cons_append, List.nil_append, List.set_cons_succ,
    List.set_cons_zero, Nat.reduceAdd]
  rw [writeAnchorEquation_front_fixed geo vps w rf rg varf varg _ a3 p0 p1 p2 htf htg hpf
    (by simp) (by simp) (by simp) (by simp) rfl (by simp) (by simp)]
  simp [pure]

theorem writeThreeAnchors_back_fixed (geo : Geometry) (vps : List Vec3) (w : ℚ)
    (rf rg : MGUnary) (varf varg : MGUnaryVariable) (a1 a2 a3 : Vec3) (p0 p1 p2 : ℚ)
    (htf : rf.type = MGUnaryType.Region) (htg : rg.type = MGUnaryType.Region)
    (hpf : varf.vars = [p0, p1, p2]) :
    [a1, a2, a3].foldlM (writeAnchorEquation geo vps w rg rf varg varf (some 0) none)
      { A := SparseMatrix.resize 3 3, W := SparseMatrix.resize 3 3, B := List.replicate 3 0,
        eid := 0 } = some
      { A := { rows := 3, cols := 3, entries :=
          [(0, 0, 1 * a1.1), (0, 1, 1 * a1.2.1), (0, 2, 1 * a1.2.2),
           (1, 0, 1 * a2.1), (1, 1, 1 * a2.2.1), (1, 2, 1 * a2.2.2),
           (2, 0, 1 * a3.1), (2, 1, 1 * a3.2.1), (2, 2, 1 * a3.2.2)] },
        W := { rows := 3, cols := 3, entries := [(0, 0, w), (1, 1, w), (2, 2, w)] },
        B := [p0 * a1.1 + p1 * a1.2.1 + p2 * a1.2.2, p0 * a2.1 + p1 * a2.2.1 + p2 * a2.2.2,
          p0 * a3.1 + p1 * a3.2.1 + p2 * a3.2.2],
        eid := 3 } := by
  have hrep : List.replicate 3 (0 : ℚ) = [0, 0, 0] := rfl
  simp only [List.foldlM_cons, List.foldlM_nil, Option.bind_eq_bind, hrep, SparseMatrix.resize]
  rw [writeAnchorEquation_back_fixed geo vps w rf rg varf varg _ a1 p0 p1 p2 htf htg hpf
    (by simp) (by simp) (by simp) (by simp) rfl (by simp) (by simp)]
  simp only [Option.some_bind, List.nil_append, List.set_cons_zero, Nat.zero_add]
  rw [writeAnchorEquation_back_fixed geo vps w rf rg varf varg _ a2 p0 p1 p2 htf htg hpf
    (by simp) (by simp) (by simp) (by simp) rfl (by simp) (by simp)]
  simp only [Option.some_bind, List.cons_append, List.nil_append, List.set_cons_succ,
    List.set_cons_zero, Nat.reduceAdd]
  rw [writeAnchorEquation_back_fixed geo vps w rf rg varf varg _ a3 p0 p1 p2 htf htg hpf
    (by simp) (by simp) (by simp) (by simp) rfl (by simp) (by simp)]
  simp [pure]

theorem eigen_two_node_initialise (geo : Geometry) (ind : Bool) (mg : MixedGraph)
    (patch : MGPatch) (vps : List Vec3) (uw : Bool) (f g bh : Nat)
    (varf varg : MGUnaryVariable) (rf rg : MGUnary) (b : MGBinary) (a1 a2 a3 : Vec3)
    (p0 p1 p2 : ℚ)
    (hstarts : assignVarStarts patch = ([(g, 0)], 3, true))
    (hbhs : patch.bhs = [(bh, { enabled := true })])
    (hmf : mapAt patch.uhs f = some varf) (hmg : mapAt patch.uhs g = some varg)
    (hne : f ≠ g) (hl : mg.lowers bh = some (f, g) ∨ mg.lowers bh = some (g, f))
    (hrf : mg.dataU f = some rf) (hrg : mg.dataU g = some rg)
    (htf : rf.type = MGUnaryType.Region) (htg : rg.type = MGUnaryType.Region)
    (hb : mg.dataB bh = some b)
    (hanch : NecessaryAnchorsForBinary geo mg bh = some [a1, a2, a3])
    (hpf : varf.vars = [p0, p1, p2]) :
    ∃ s : ℚ, (s = 1 ∨ s = -1) ∧
    (fresh ind).initialise geo mg patch vps uw = some
      { A := { rows := 3, cols := 3, entries :=
          [(0, 0, s * a1.1), (0, 1, s * a1.2.1), (0, 2, s * a1.2.2),
           (1, 0, s * a2.1), (1, 1, s * a2.2.1), (1, 2, s * a2.2.2),
           (2, 0, s * a3.1), (2, 1, s * a3.2.1), (2, 2, s * a3.2.2)] },
        W := { rows := 3, cols := 3, entries := [(0, 0, b.weight), (1, 1, b.weight),
          (2, 2, b.weight)] },
        B := [s * (p0 * a1.1 + p1 * a1.2.1 + p2 * a1.2.2),
          s * (p0 * a2.1 + p1 * a2.2.1 + p2 * a2.2.2),
          s * (p0 * a3.1 + p1 * a3.2.1 + p2 * a3.2.2)],
        useWeights := ind, uh2varStartPosition := [(g, 0)], bh2consStartPosition := [(bh, 0)],
        appliedBinaryAnchors := [(bh, [a1, a2, a3])] } := by
  have hgf : ¬ g = f := fun e => hne e.symm
  have hcf : Contains [(g, 0)] f = false := by simp [Contains, mapAt, hgf]
  have hcg : Contains [(g, 0)] g = true := by simp [Contains, mapAt]
  have hmf' : mapAt [(g, 0)] f = none := by simp [mapAt, hgf]
  have hmg' : mapAt [(g, 0)] g = some 0 := by simp [mapAt]
  have hap : mapAt [(bh, [a1, a2, a3])] bh = some [a1, a2, a3] := by simp [mapAt]
  rcases hl with hl | hl
  · refine ⟨-1, Or.inr rfl, ?_⟩
    simp only [initialise, hstarts, countConstraints, hbhs, List.foldlM_cons, List.foldlM_nil,
      Bool.not_true, Bool.false_eq_true, if_false, hl, Option.bind_eq_bind, Option.some_bind,
      hcf, hcg, Bool.not_false, Bool.true_and, Bool.and_false, hanch, pure, mapSet,
      List.length_cons, List.length_nil, Nat.zero_add, Nat.reduceAdd, writeBinaryEquations,
      hrf, hrg, hmf, hmg, hb, hap, hmf', hmg', fresh, if_true,
      writeThreeAnchors_front_fixed geo vps b.weight rf rg varf varg a1 a2 a3 p0 p1 p2 htf htg
        hpf]
    simp
  · refine ⟨1, Or.inl rfl, ?_⟩
    simp only [initialise, hstarts, countConstraints, hbhs, List.foldlM_cons, List.foldlM_nil,
      Bool.not_true, Bool.false_eq_true, if_false, hl, Option.bind_eq_bind, Option.some_bind,
      hcf, hcg, Bool.not_false, Bool.true_and, Bool.and_true, Bool.and_false, hanch, pure, mapSet,
      List.length_cons, List.length_nil, Nat.zero_add, Nat.reduceAdd, writeBinaryEquations,
      hrf, hrg, hmf, hmg, hb, hap, hmf', hmg', fresh, if_true,
      writeThreeAnchors_back_fixed geo vps b.weight rf rg varf varg a1 a2 a3 p0 p1 p2 htf htg
        hpf]
    simp

theorem dot_cramer (a1 a2 a3 : Vec3) (d0 d1 d2 : ℚ) (hdet : det3 a1 a2 a3 ≠ 0)
    (h1 : dot a1 (d0, d1, d2) = 0) (h2 : dot a2 (d0, d1, d2) = 0)
    (h3 : dot a3 (d0, d1, d2) = 0) : d0 = 0 ∧ d1 = 0 ∧ d2 = 0 := by
  obtain ⟨a, b, c⟩ := a1
  obtain ⟨d, e, f⟩ := a2
  obtain ⟨g, h, i⟩ := a3
  simp only [det3, dot, cross] at hdet h1 h2 h3
  have e0 : (a * (e * i - f * h) + b * (f * g - d * i) + c * (d * h - e * g)) * d0 = 0 := by
    linear_combination (e * i - f * h) * h1 + (c * h - b * i) * h2 + (b * f - c * e) * h3
  have e1 : (a * (e * i - f * h) + b * (f * g - d * i) + c * (d * h - e * g)) * d1 = 0 := by
    linear_combination (f * g - d * i) * h1 + (a * i - c * g) * h2 + (c * d - a * f) * h3
  have e2 : (a * (e * i - f * h) + b * (f * g - d * i) + c * (d * h - e * g)) * d2 = 0 := by
    linear_combination (d * h - e * g) * h1 + (b * g - a * h) * h2 + (a * e - b * d) * h3
  exact ⟨(mul_eq_zero.1 e0).resolve_left hdet, (mul_eq_zero.1 e1).resolve_left hdet,
    (mul_eq_zero.1 e2).resolve_left hdet⟩

/-- A system of three rows, each a non-zero multiple of "the inverse depth at the anchor equals
that of the parameters `p`", with linearly independent anchors: `p` is its only solution and
the only vector with zero residual. -/
theorem agreement_of_rows (M : SparseMatrix) (b : List ℚ) (a1 a2 a3 : Vec3)
    (p0 p1 p2 c : ℚ) (hc : c ≠ 0) (hrows : M.rows = 3) (hcols : M.cols = 3)
    (h0 : ∀ x0 x1 x2, M.rowDot 0 [x0, x1, x2] - b.getD 0 0 =
      c * (dot a1 (x0, x1, x2) - dot a1 (p0, p1, p2)))
    (h1 : ∀ x0 x1 x2, M.rowDot 1 [x0, x1, x2] - b.getD 1 0 =
      c * (dot a2 (x0, x1, x2) - dot a2 (p0, p1, p2)))
    (h2 : ∀ x0 x1 x2, M.rowDot 2 [x0, x1, x2] - b.getD 2 0 =
      c * (dot a3 (x0, x1, x2) - dot a3 (p0, p1, p2)))
    (hdet : det3 a1 a2 a3 ≠ 0) :
    Solves M b [p0, p1, p2] ∧ (∀ x, Solves M b x → x = [p0, p1, p2]) ∧
    residual M b [p0, p1, p2] = 0 ∧
    (∀ x, x.length = M.cols → residual M b x ≤ 0 → x = [p0, p1, p2]) := by
  have hr3 : List.range 3 = [0, 1, 2] := rfl
  have hres : ∀ x0 x1 x2, residual M b [x0, x1, x2] =
      (c * (dot a1 (x0, x1, x2) - dot a1 (p0, p1, p2))) ^ 2 +
      (c * (dot a2 (x0, x1, x2) - dot a2 (p0, p1, p2))) ^ 2 +
      (c * (dot a3 (x0, x1, x2) - dot a3 (p0, p1, p2))) ^ 2 := by
    intro x0 x1 x2
    simp only [residual, hrows, hr3, List.map_cons, List.map_nil, List.sum_cons, List.sum_nil,
      h0, h1, h2]
    ring
  have hzero : ∀ x0 x1 x2,
      dot a1 (x0, x1, x2) - dot a1 (p0, p1, p2) = 0 →
      dot a2 (x0, x1, x2) - dot a2 (p0, p1, p2) = 0 →
      dot a3 (x0, x1, x2) - dot a3 (p0, p1, p2) = 0 →
      [x0, x1, x2] = [p0, p1, p2] := by
    intro x0 x1 x2 e1 e2 e3
    obtain ⟨z0, z1, z2⟩ := dot_cramer a1 a2 a3 (x0 - p0) (x1 - p1) (x2 - p2) hdet
      (by simp only [dot] at e1 ⊢; linear_combination e1)
      (by simp only [dot] at e2 ⊢; linear_combination e2)
      (by simp only [dot] at e3 ⊢; linear_combination e3)
    rw [sub_eq_zero.1 z0, sub_eq_zero.1 z1, sub_eq_zero.1 z2]
  refine ⟨⟨by simp [hcols], ?_⟩, ?_, ?_, ?_⟩
  · intro r hr
    rw [hrows] at hr
    have hcases : r = 0 ∨ r = 1 ∨ r = 2 := by omega
    rcases hcases with rfl | rfl | rfl
    · have := h0 p0 p1 p2; simp only [sub_self, mul_zero] at this; exact sub_eq_zero.1 this
    · have := h1 p0 p1 p2; simp only [sub_self, mul_zero] at this; exact sub_eq_zero.1 this
    · have := h2 p0 p1 p2; simp only [sub_self, mul_zero] at this; exact sub_eq_zero.1 this
  · rintro x ⟨hlen, hsol⟩
    rw [hcols] at hlen
    obtain ⟨x0, x1, x2, rfl⟩ := List.length_eq_three.1 hlen
    have s0 := hsol 0 (by rw [hrows]; decide)
    have s1 := hsol 1 (by rw [hrows]; decide)
    have s2 := hsol 2 (by rw [hrows]; decide)
    apply hzero
    · have := h0 x0 x1 x2; rw [s0, sub_self] at this
      exact (mul_eq_zero.1 this.symm).resolve_left hc
    · have := h1 x0 x1 x2; rw [s1, sub_self] at this
      exact (mul_eq_zero.1 this.symm).resolve_left hc
    · have := h2 x0 x1 x2; rw [s2, sub_self] at this
      exact (mul_eq_zero.1 this.symm).resolve_left hc
  · rw [hres]; simp
  · intro x hlen hle
    rw [hcols] at hlen
    obtain ⟨x0, x1, x2, rfl⟩ := List.length_eq_three.1 hlen
    rw [hres] at hle
    have n1 := sq_nonneg (c * (dot a1 (x0, x1, x2) - dot a1 (p0, p1, p2)))
    have n2 := sq_nonneg (c * (dot a2 (x0, x1, x2) - dot a2 (p0, p1, p2)))
    have n3 := sq_nonneg (c * (dot a3 (x0, x1, x2) - dot a3 (p0, p1, p2)))
    have z1 : (c * (dot a1 (x0, x1, x2) - dot a1 (p0, p1, p2))) ^ 2 = 0 := by linarith
    have z2 : (c * (dot a2 (x0, x1, x2) - dot a2 (p0, p1, p2))) ^ 2 = 0 := by linarith
    have z3 : (c * (dot a3 (x0, x1, x2) - dot a3 (p0, p1, p2))) ^ 2 = 0 := by linarith
    apply hzero
    · exact (mul_eq_zero.1 (pow_eq_zero_iff (by decide) |>.1 z1)).resolve_left hc
    · exact (mul_eq_zero.1 (pow_eq_zero_iff (by decide) |>.1 z2)).resolve_left hc
    · exact (mul_eq_zero.1 (pow_eq_zero_iff (by decide) |>.1 z3)).resolve_left hc

/-- The rows of the unweighted and of the row-scaled system of the two-region patch. -/
theorem two_node_rows (s w : ℚ) (a1 a2 a3 : Vec3) (p0 p1 p2 : ℚ) (A W : SparseMatrix)
    (B : List ℚ)
    (hA : A = { rows := 3, cols := 3, entries :=
          [(0, 0, s * a1.1), (0, 1, s * a1.2.1), (0, 2, s * a1.2.2),
           (1, 0, s * a2.1), (1, 1, s * a2.2.1), (1, 2, s * a2.2.2),
           (2, 0, s * a3.1), (2, 1, s * a3.2.1), (2, 2, s * a3.2.2)] })
    (hW : W = { rows := 3, cols := 3, entries := [(0, 0, w), (1, 1, w), (2, 2, w)] })
    (hB : B = [s * (p0 * a1.1 + p1 * a1.2.1 + p2 * a1.2.2),
          s * (p0 * a2.1 + p1 * a2.2.1 + p2 * a2.2.2),
          s * (p0 * a3.1 + p1 * a3.2.1 + p2 * a3.2.2)]) :
    (∀ x0 x1 x2, A.rowDot 0 [x0, x1, x2] - B.getD 0 0 =
      s * (dot a1 (x0, x1, x2) - dot a1 (p0, p1, p2))) ∧
    (∀ x0 x1 x2, A.rowDot 1 [x0, x1, x2] - B.getD 1 0 =
      s * (dot a2 (x0, x1, x2) - dot a2 (p0, p1, p2))) ∧
    (∀ x0 x1 x2, A.rowDot 2 [x0, x1, x2] - B.getD 2 0 =
      s * (dot a3 (x0, x1, x2) - dot a3 (p0, p1, p2))) ∧
    (W.mul A).rows = 3 ∧ (W.mul A).cols = 3 ∧
    (∀ x0 x1 x2, (W.mul A).rowDot 0 [x0, x1, x2] - (W.mulVec B).getD 0 0 =
      (w * s) * (dot a1 (x0, x1, x2) - dot a1 (p0, p1, p2))) ∧
    (∀ x0 x1 x2, (W.mul A).rowDot 1 [x0, x1, x2] - (W.mulVec B).getD 1 0 =
      (w * s) * (dot a2 (x0, x1, x2) - dot a2 (p0, p1, p2))) ∧
    (∀ x0 x1 x2, (W.mul A).rowDot 2 [x0, x1, x2] - (W.mulVec B).getD 2 0 =
      (w * s) * (dot a3 (x0, x1, x2) - dot a3 (p0, p1, p2))) := by
  subst hA hW hB
  have hr3 : List.range 3 = [0, 1, 2] := rfl
  refine ⟨?_, ?_, ?_, rfl, rfl, ?_, ?_, ?_⟩
  · intro x0 x1 x2
    simp [SparseMatrix.rowDot, dot]
    ring
  · intro x0 x1 x2
    simp [SparseMatrix.rowDot, dot]
    ring
  · intro x0 x1 x2
    simp [SparseMatrix.rowDot, dot]
    ring
  · intro x0 x1 x2
    simp [SparseMatrix.rowDot, SparseMatrix.mul, SparseMatrix.mulVec, hr3, dot]
    ring
  · intro x0 x1 x2
    simp [SparseMatrix.rowDot, SparseMatrix.mul, SparseMatrix.mulVec, hr3, dot]
    ring
  · intro x0 x1 x2
    simp [SparseMatrix.rowDot, SparseMatrix.mul, SparseMatrix.mulVec, hr3, dot]
    ring

theorem writeBack_two_nodes (f g : Nat) (varf varg : MGUnaryVariable) (p0 p1 p2 : ℚ)
    (hne : f ≠ g) (hpg : varg.vars.length = 3)
    (uhs : List (MGUnaryHandle × MGUnaryVariable))
    (hu : uhs = [(f, varf), (g, varg)] ∨ uhs = [(g, varg), (f, varf)]) :
    ∃ uhs', uhs.mapM (writeBack [(g, 0)] [p0, p1, p2]) = some uhs' ∧
      mapAt uhs' f = some varf ∧
      mapAt uhs' g = some { varg with vars := [p0, p1, p2] } := by
  have hgf : ¬ g = f := fun e => hne e.symm
  have hwf : writeBack [(g, 0)] [p0, p1, p2] (f, varf) = some (f, varf) := by
    simp [writeBack, Contains, mapAt, hgf]
  have hr3 : List.range 3 = [0, 1, 2] := rfl
  have hm3 : [0, 1, 2].mapM (fun i => [p0, p1, p2].get? (0 + i)) = some [p0, p1, p2] := by
    simp only [List.mapM_cons, List.mapM_nil]
    rfl
  have hcg : Contains [(g, 0)] g = true := by simp [Contains, mapAt]
  have hmg : mapAt [(g, 0)] g = some 0 := by simp [mapAt]
  have hwg : writeBack [(g, 0)] [p0, p1, p2] (g, varg) =
      some (g, { varg with vars := [p0, p1, p2] }) := by
    simp only [writeBack, hcg, Bool.not_true, Bool.false_eq_true, if_false, hmg,
      Option.bind_eq_bind, Option.some_bind, hpg, hr3, hm3]
  rcases hu with rfl | rfl
  · refine ⟨[(f, varf), (g, { varg with vars := [p0, p1, p2] })], ?_, ?_, ?_⟩
    · simp only [List.mapM_cons, List.mapM_nil, hwf, hwg, Option.bind_eq_bind,
        Option.some_bind, pure]
    · simp [mapAt]
    · simp [mapAt, hne]
  · refine ⟨[(g, { varg with vars := [p0, p1, p2] }), (f, varf)], ?_, ?_, ?_⟩
    · simp only [List.mapM_cons, List.mapM_nil, hwf, hwg, Option.bind_eq_bind,
        Option.some_bind, pure]
    · simp [mapAt, hgf]
    · simp [mapAt]

theorem overlap_systems_differ (ind uw : Bool) (data : MGPatchDepthsOptimizerInternalEigen)
    (h : (fresh ind).initialise exGeometry overlapGraph overlapPatch [] uw = some data) :
    data.W.mul data.A ≠ data.A ∧ data.W.mulVec data.B ≠ data.B := by
  obtain ⟨s, hs, hinit⟩ := eigen_two_node_initialise exGeometry ind overlapGraph overlapPatch []
    uw 0 1 0 { vars := [0, 0, 1], fixed := true } { vars := [1, 1, 1], fixed := false }
    exUnary exUnary exOverlap (1, 0, 0) (0, 1, 0) (0, 0, 1) 0 0 1 (by decide) rfl rfl rfl
    (by decide) (Or.inl rfl) rfl rfl rfl rfl rfl (by decide) rfl
  rw [hinit] at h
  simp only [Option.some.injEq] at h
  subst h
  have hs0 : s ≠ 0 := by rcases hs with rfl | rfl <;> norm_num
  constructor
  · intro hcontra
    have := congrArg (fun M => (M.entries.map (fun e => e.2.2)).headD 0) hcontra
    simp [SparseMatrix.mul, exOverlap] at this
    exact hs0 (by linarith)
  · intro hcontra
    have := congrArg (fun B => B.getD 2 0) hcontra
    simp [SparseMatrix.mulVec, exOverlap, List.range_succ] at this
    exact hs0 (by linarith)

end EigenSystem

theorem residual_nonneg (M : SparseMatrix) (b x : List ℚ) : 0 ≤ residual M b x := by
  unfold residual
  apply List.sum_nonneg
  intro t ht
  obtain ⟨r, -, rfl⟩ := List.mem_map.1 ht
  exact sq_nonneg _

theorem checkingSolver_leastSquares (x0 : List ℚ) : (checkingSolver x0).LeastSquares := by
  intro M b x hx
  simp only [checkingSolver] at hx
  split at hx
  · rename_i hcond
    simp only [Option.some.injEq] at hx
    subst hx
    refine ⟨hcond.1, ?_⟩
    intro y _
    have hzero : residual M b x0 = 0 := by
      unfold residual
      apply List.sum_eq_zero
      intro t ht
      obtain ⟨r, hr, rfl⟩ := List.mem_map.1 ht
      have := List.all_eq_true.1 hcond.2 r hr
      simp only [beq_iff_eq] at this
      rw [this]
      simp
    rw [hzero]
    exact residual_nonneg M b y
  · simp at hx

theorem checkingSolver_solve (x0 : List ℚ) (M : SparseMatrix) (b : List ℚ)
    (h : Solves M b x0) : ((checkingSolver x0).solve M b).isSome = true := by
  simp only [checkingSolver]
  rw [if_pos]
  · rfl
  · refine ⟨h.1, ?_⟩
    rw [List.all_eq_true]
    intro r hr
    simp only [beq_iff_eq]
    exact h.2 r (by simpa using hr)

/-! ## Depth optimizer: linear programming -/

theorem collectAnchors_empty (geo : Geometry) (mg : MixedGraph) (patch : MGPatch)
    (applied r : List (MGBinaryHandle × List Vec3))
    (h : MGPatchDepthsOptimizerInternalMosek.collectAnchors geo mg patch [] applied = some r) :
    r = applied := by
  unfold MGPatchDepthsOptimizerInternalMosek.collectAnchors at h
  refine foldlM_inv _ (fun s => s = applied) ?_ patch.bhs applied r rfl h
  intro s bhv s' hs hstep
  subst hs
  by_cases hen : bhv.2.enabled = true
  · simp only [hen, Bool.not_true, Bool.false_eq_true, if_false, contains_nil, Bool.not_false,
      Bool.and_self, if_true, Option.bind_eq_bind, Option.bind_eq_some, pure,
      Option.some.injEq] at hstep
    obtain ⟨_, _, _, _, _, _, rfl⟩ := hstep
    rfl
  · simp only [hen, Bool.not_false, if_true, pure, Option.some.injEq] at hstep
    exact hstep.symm

theorem foldl_keep {α β : Type} (l : List β) (acc : α) :
    l.foldl (fun (a : α) (_ : β) => a) acc = acc := by
  induction l with
  | nil => rfl
  | cons b t ih => simp

theorem strongNeighbors_nil (mg : MixedGraph) (patch : MGPatch) (uh : Nat) :
    MGPatchDepthsOptimizerInternalMosek.strongNeighbors mg patch [] uh = [] := by
  unfold MGPatchDepthsOptimizerInternalMosek.strongNeighbors
  have hf : (fun (neighbors : List Nat) (bh : Nat) =>
      if !Contains ([] : List (MGBinaryHandle × List Vec3)) bh then neighbors
      else if ((mapAt ([] : List (MGBinaryHandle × List Vec3)) bh).getD []).length != 3
        then neighbors
      else if !Contains patch.uhs uh then neighbors
      else neighbors ++ [mg.anotherUh bh uh]) = (fun (neighbors : List Nat) (_ : Nat) =>
        neighbors) := by
    funext neighbors bh
    simp [contains_nil]
  rw [hf]
  exact foldl_keep _ _

theorem recordCC_singletons :
    ∀ (calls : List (Nat × Nat)) (acc : List (Nat × List Nat) × List (Nat × Nat)),
      (calls.map Prod.snd).Nodup → (∀ c ∈ calls, c.2 ∉ mapKeys acc.1) →
      (∀ cc ∈ acc.1, ∃ uh, cc.2 = [uh]) →
      ∀ cc ∈ (calls.foldl MGPatchDepthsOptimizerInternalMosek.recordCC acc).1,
        ∃ uh, cc.2 = [uh] := by
  intro calls
  induction calls with
  | nil => intro acc _ _ hs; simpa using hs
  | cons c t ih =>
    intro acc hnd hdisj hs
    simp only [List.foldl_cons]
    have hc : c.2 ∉ mapKeys acc.1 := hdisj c (List.mem_cons_self _ _)
    have hnone : mapAt acc.1 c.2 = none := by
      cases hm : mapAt acc.1 c.2 with
      | none => rfl
      | some v =>
        exact absurd ((contains_iff_mem_keys _ _).1 ((contains_eq_true_iff _ _).2 ⟨v, hm⟩)) hc
    simp only [List.map_cons, List.nodup_cons] at hnd
    apply ih
    · exact hnd.2
    · intro d hd
      simp only [MGPatchDepthsOptimizerInternalMosek.recordCC, mem_mapKeys_mapSet, not_or]
      refine ⟨?_, hdisj d (List.mem_cons_of_mem _ hd)⟩
      intro e
      exact hnd.1 (e ▸ List.mem_map.2 ⟨d, hd, rfl⟩)
    · intro cc hcc
      simp only [MGPatchDepthsOptimizerInternalMosek.recordCC, hnone, Option.getD_none,
        List.nil_append] at hcc
      rw [mapSet_of_not_mem _ _ _ hc] at hcc
      rcases List.mem_append.1 hcc with hcc | hcc
      · exact hs cc hcc
      · simp only [List.mem_singleton] at hcc
        exact ⟨c.1, by rw [hcc]⟩

theorem spreadAll_singletons (ccs : List (Nat × List Nat))
    (hs : ∀ cc ∈ ccs, ∃ uh, cc.2 = [uh]) (s s' : MGPatch × List (MGUnaryHandle × Bool))
    (h : MGPatchDepthsOptimizerInternalMosek.spreadAll ccs s = some s') : s'.1 = s.1 := by
  unfold MGPatchDepthsOptimizerInternalMosek.spreadAll at h
  refine foldlM_inv_mem _ (fun t => t.1 = s.1) ccs s s' ?_ rfl h
  intro t cc t' hcc ht hstep
  obtain ⟨uh, huh⟩ := hs cc hcc
  simp only [Option.bind_eq_bind, Option.bind_eq_some] at hstep
  obtain ⟨r, hr, hsp⟩ := hstep
  rw [huh] at hr hsp
  simp only [MGPatchDepthsOptimizerInternalMosek.sumFixed, List.foldlM_cons, List.foldlM_nil,
    Option.bind_eq_bind, Option.bind_eq_some, pure] at hr
  obtain ⟨acc, ⟨uhVar, hvar, hacc⟩, hr⟩ := hr
  simp only [Option.some.injEq] at hr
  subst hr
  unfold MGPatchDepthsOptimizerInternalMosek.spreadFixed at hsp
  by_cases hfx : uhVar.fixed = true
  · simp only [hfx, if_true, Option.bind_eq_some, Option.some.injEq] at hacc
    obtain ⟨v0, -, v1, -, v2, -, rfl⟩ := hacc
    simp only [zero_add, Nat.add_eq_zero, one_ne_zero, and_false, if_false, List.foldlM_cons,
      List.foldlM_nil, Option.bind_eq_bind, Option.bind_eq_some, pure, Option.some.injEq] at hsp
    obtain ⟨t1, ⟨uhVar', hvar', rfl⟩, rfl⟩ := hsp
    rw [hvar] at hvar'
    cases hvar'
    simp only [hfx, Bool.not_true, Bool.false_eq_true, if_false]
    exact ht
  · simp only [hfx, Bool.false_eq_true, if_false, Option.some.injEq] at hacc
    subst hacc
    simp only [if_true, pure, Option.some.injEq] at hsp
    subst hsp
    exact ht

/-- The counting loop of the linear-programming `initialise` on a table whose recorded anchor
lists are all empty: they stay empty and no constraint row is counted. -/
theorem mosek_countLoop_empty (mg : MixedGraph) (uhFixed : List (MGUnaryHandle × Bool)) :
    ∀ (l : List (MGBinaryHandle × MGBinaryVariable))
      (s s' : List (MGBinaryHandle × Nat) × List (MGBinaryHandle × List Vec3) × Nat),
      l.foldlM (fun (s : List (MGBinaryHandle × Nat) × List (MGBinaryHandle × List Vec3) × Nat)
          bhv =>
        if !bhv.2.enabled then pure s
        else do
          let ends ← mg.lowers bhv.1
          let _u1 ← mg.dataU ends.1
          let _u2 ← mg.dataU ends.2
          let u1IsFixed ← mapAt uhFixed ends.1
          let u2IsFixed ← mapAt uhFixed ends.2
          if u1IsFixed && u2IsFixed then pure s
          else
            let anchors := (mapAt s.2.1 bhv.1).getD []
            pure (mapSet s.1 bhv.1 s.2.2, mapSet s.2.1 bhv.1 anchors, s.2.2 + anchors.length))
        s = some s' →
      (∀ bh anchors, mapAt s.2.1 bh = some anchors → anchors = []) → s.2.2 = 0 →
      (∀ bh anchors, mapAt s'.2.1 bh = some anchors → anchors = []) ∧ s'.2.2 = 0 := by
  intro l
  induction l with
  | nil =>
    intro s s' h h1 h2
    simp only [List.foldlM_nil, pure, Option.some.injEq] at h
    subst h
    exact ⟨h1, h2⟩
  | cons bhv t ih =>
    intro s s' h h1 h2
    simp only [List.foldlM_cons, Option.bind_eq_bind, Option.bind_eq_some] at h
    obtain ⟨s1, hstep, hrest⟩ := h
    refine ih s1 s' hrest ?_ ?_
    · by_cases hen : bhv.2.enabled = true
      · simp only [hen, Bool.not_true, Bool.false_eq_true, if_false, Option.bind_eq_some,
          pure] at hstep
        obtain ⟨ends, -, u1, -, u2, -, f1, -, f2, -, hs1⟩ := hstep
        split at hs1
        · simp only [Option.some.injEq] at hs1
          subst hs1
          exact h1
        · simp only [Option.some.injEq] at hs1
          subst hs1
          intro bh anchors hm
          simp only [mapAt_mapSet] at hm
          split at hm
          · simp only [Option.some.injEq] at hm
            subst hm
            cases hg : mapAt s.2.1 bhv.1 with
            | none => rfl
            | some a => simp only [Option.getD_some]; exact h1 _ _ hg
          · exact h1 bh anchors hm
      · simp only [hen, Bool.not_false, if_true, pure, Option.some.injEq] at hstep
        subst hstep
        exact h1
    · by_cases hen : bhv.2.enabled = true
      · simp only [hen, Bool.not_true, Bool.false_eq_true, if_false, Option.bind_eq_some,
          pure] at hstep
        obtain ⟨ends, -, u1, -, u2, -, f1, -, f2, -, hs1⟩ := hstep
        split at hs1
        · simp only [Option.some.injEq] at hs1
          subst hs1
          exact h2
        · simp only [Option.some.injEq] at hs1
          subst hs1
          simp only
          cases hg : mapAt s.2.1 bhv.1 with
          | none => simp [h2]
          | some a => simp [h1 _ _ hg, h2]
      · simp only [hen, Bool.not_false, if_true, pure, Option.some.injEq] at hstep
        subst hstep
        exact h2

/-- The construction with the linear-programming algorithm leaves the patch as it was, records
no anchor for any binary handle and counts no constraint row. -/
theorem mosek_initialise_patch (geo : Geometry) (mg : MixedGraph) (patch : MGPatch)
    (vps : List Vec3) (uw : Bool) (r : MGPatchDepthsOptimizerInternalMosek × MGPatch)
    (h : MGPatchDepthsOptimizerInternalMosek.initialise geo
      MGPatchDepthsOptimizerInternalMosek.fresh mg patch vps uw = some r) :
    r.2 = patch ∧
    (∀ bh anchors, mapAt r.1.appliedBinaryAnchors bh = some anchors → anchors = []) ∧
    r.1.consNum = 0 := by
  unfold MGPatchDepthsOptimizerInternalMosek.initialise at h
  simp only [Option.bind_eq_bind, Option.bind_eq_some, pure, Option.some.injEq] at h
  obtain ⟨applied, happ, ⟨ccNum, calls⟩, hcc, ⟨patch1, uhFixed1⟩, hspread, ⟨uh2var, varNum⟩, -,
    ⟨bh2cons, applied2, consNum⟩, hcount, rfl⟩ := h
  have happ' := collectAnchors_empty geo mg patch _ applied happ
  simp only [MGPatchDepthsOptimizerInternalMosek.fresh] at happ'
  subst happ'
  have hnb : MGPatchDepthsOptimizerInternalMosek.strongNeighbors mg patch [] = fun _ => [] := by
    funext uh
    exact strongNeighbors_nil mg patch uh
  simp only at hcc hspread hcount
  rw [hnb] at hcc
  unfold ConnectedComponents at hcc
  obtain ⟨hinv, -, -, -⟩ := ccLoop_spec (fun _ => []) (by intro x y hy; simp at hy)
    _ _ [] 0 [] (ccNum, calls) rfl
    ⟨by simp, by simp, by simp, by simp, by simp⟩ hcc
  simp only at hinv
  have hreach : ∀ x y, Relation.ReflTransGen (NbRel (fun _ => [])) x y → x = y := by
    intro x y hxy
    induction hxy with
    | refl => rfl
    | tail _ hbc _ => simp [NbRel] at hbc
  have hinj : ∀ c ∈ calls, ∀ d ∈ calls, c.2 = d.2 → c = d := by
    intro c hc d hd hcd
    exact Prod.ext (hreach _ _ ((hinv.same c hc d hd).1 hcd)) hcd
  have hnd : (calls.map Prod.snd).Nodup :=
    List.Nodup.map_on hinj (List.Nodup.of_map _ hinv.nodup)
  have hsing := recordCC_singletons calls
    (MGPatchDepthsOptimizerInternalMosek.fresh.uhCCs,
      MGPatchDepthsOptimizerInternalMosek.fresh.uhCCIds) hnd
    (by intro c _; simp [MGPatchDepthsOptimizerInternalMosek.fresh, mapKeys])
    (by intro cc hcc; simp [MGPatchDepthsOptimizerInternalMosek.fresh] at hcc)
  have := spreadAll_singletons _ hsing _ _ hspread
  unfold MGPatchDepthsOptimizerInternalMosek.countConstraints at hcount
  obtain ⟨c1, c2⟩ := mosek_countLoop_empty mg uhFixed1 patch1.bhs _ _ hcount
    (by intro bh anchors hm; simp [mapAt] at hm) rfl
  simp only at c1 c2
  exact ⟨this, c1, by simp only; rw [c2]⟩

/-! ## Claims on the depth optimizer -/

/-- C6: running the least-squares optimizer (construction, then `optimize`) on a patch with one
entry per node changes no binary binding, no handle and no `fixed` flag, and leaves the
parameters of every fixed node as they were; when `optimize` returns false the patch is as it
was; when it returns true, parameter `i` of each non-fixed node is entry `start(node) + i` of
the vector the solver returned, and its number of parameters is unchanged. -/
theorem eigen_optimize_frame (geo : Geometry) (solver : SparseQR) (ind : Bool)
    (mg : MixedGraph) (patch : MGPatch) (vps : List Vec3) (useWeights : Bool)
    (opt : MGPatchDepthsOptimizer) (b : Bool) (patch' : MGPatch)
    (hwf : KeysNodup patch.uhs)
    (hc : MGPatchDepthsOptimizer.create geo ind mg patch vps useWeights
      Algorithm.EigenSparseQR = some opt)
    (ho : opt.optimize solver = some (b, patch')) :
    patch'.bhs = patch.bhs ∧
    List.Forall₂ (fun old new => new.1 = old.1 ∧ new.2.fixed = old.2.fixed ∧
      (old.2.fixed = true → new.2.vars = old.2.vars)) patch.uhs patch'.uhs ∧
    (b = false → patch' = patch) ∧
    (b = true → ∃ data X, opt.internal = OptimizerInternal.eigen data ∧
      solver.solve data.solvedMatrix data.solvedRhs = some X ∧
      List.Forall₂ (fun old new => old.2.fixed = false →
        ∃ start, mapAt data.uh2varStartPosition old.1 = some start ∧
          new.2.vars.length = old.2.vars.length ∧
          ∀ i, i < old.2.vars.length → new.2.vars.get? i = X.get? (start + i))
        patch.uhs patch'.uhs) := by
  obtain ⟨data, rfl, hd⟩ := eigen_create_spec geo ind mg patch vps useWeights opt hc
  obtain ⟨-, hstarts⟩ := eigen_initialise_fields geo _ data mg patch vps useWeights hd
  have hsame : List.Forall₂ (fun (old new : MGUnaryHandle × MGUnaryVariable) =>
      new.1 = old.1 ∧ new.2.fixed = old.2.fixed ∧
      (old.2.fixed = true → new.2.vars = old.2.vars)) patch.uhs patch.uhs :=
    List.forall₂_same.2 (fun _ _ => ⟨rfl, rfl, fun _ => rfl⟩)
  simp only [MGPatchDepthsOptimizer.optimize, MGPatchDepthsOptimizerInternalEigen.optimize] at ho
  by_cases hcomp : solver.compute data.solvedMatrix = true
  · simp only [hcomp, Bool.not_true, Bool.false_eq_true, if_false] at ho
    cases hX : solver.solve data.solvedMatrix data.solvedRhs with
    | none =>
      simp only [hX, Option.some.injEq, Prod.mk.injEq] at ho
      obtain ⟨rfl, rfl⟩ := ho
      exact ⟨rfl, hsame, fun _ => rfl, fun h => Bool.noConfusion h⟩
    | some X =>
      simp only [hX, Option.bind_eq_bind, Option.bind_eq_some, Option.some.injEq,
        Prod.mk.injEq] at ho
      obtain ⟨uhs, hm, rfl, rfl⟩ := ho
      have hf := mapM_option_forall₂ _ _ _ hm
      have hfixed : ∀ old ∈ patch.uhs, old.2.fixed = true →
          Contains data.uh2varStartPosition old.1 = false := by
        intro old hold hfx
        rw [hstarts]
        by_contra hcon
        rw [Bool.not_eq_false] at hcon
        obtain ⟨var, hv, hvf⟩ := (assignVarStarts_contains patch old.1).1 hcon
        have h1 := mapAt_eq_some_of_mem patch.uhs hwf old.1 old.2 hold
        have h2 := mapAt_eq_some_of_mem patch.uhs hwf old.1 var hv
        rw [h1] at h2
        cases h2
        rw [hfx] at hvf
        exact Bool.noConfusion hvf
      have hfree : ∀ old ∈ patch.uhs, old.2.fixed = false →
          Contains data.uh2varStartPosition old.1 = true := by
        intro old hold hfx
        rw [hstarts]
        exact (assignVarStarts_contains patch old.1).2 ⟨old.2, hold, hfx⟩
      refine ⟨rfl, ?_, fun h => Bool.noConfusion h, fun _ => ⟨data, X, rfl, hX, ?_⟩⟩
      · rw [List.forall₂_iff_get] at hf ⊢
        refine ⟨hf.1, ?_⟩
        intro i h1 h2
        obtain ⟨e1, e2, e3, -⟩ := writeBack_spec _ _ _ _ (hf.2 i h1 h2)
        refine ⟨e1, e2, ?_⟩
        intro hfx
        rw [e3 (hfixed _ (List.get_mem _ _ _) hfx)]
      · rw [List.forall₂_iff_get] at hf ⊢
        refine ⟨hf.1, ?_⟩
        intro i h1 h2 hfx
        obtain ⟨-, -, -, e4⟩ := writeBack_spec _ _ _ _ (hf.2 i h1 h2)
        exact e4 (hfree _ (List.get_mem _ _ _) hfx)
  · simp only [hcomp, Bool.not_false, if_true, Option.some.injEq, Prod.mk.injEq] at ho
    obtain ⟨rfl, rfl⟩ := ho
    exact ⟨rfl, hsame, fun _ => rfl, fun h => Bool.noConfusion h⟩

/-- C6 on the two-region patch with node 0 fixed: the run succeeds, node 0 keeps its
parameters, node 1 receives the returned vector. -/
theorem eigen_optimize_frame_witness :
    KeysNodup overlapPatch.uhs ∧
    ∃ opt b patch',
      MGPatchDepthsOptimizer.create exGeometry true overlapGraph overlapPatch [] false
        Algorithm.EigenSparseQR = some opt ∧
      opt.optimize (constantSolver [5, 6, 7]) = some (b, patch') ∧
      b = true ∧ mapAt patch'.uhs 1 = some { vars := [5, 6, 7], fixed := false } ∧
      patch'.bhs = overlapPatch.bhs ∧
      List.Forall₂ (fun old new => new.1 = old.1 ∧ new.2.fixed = old.2.fixed ∧
        (old.2.fixed = true → new.2.vars = old.2.vars)) overlapPatch.uhs patch'.uhs ∧
      (b = false → patch' = overlapPatch) ∧
      (b = true → ∃ data X, opt.internal = OptimizerInternal.eigen data ∧
        (constantSolver [5, 6, 7]).solve data.solvedMatrix data.solvedRhs = some X ∧
        List.Forall₂ (fun old new => old.2.fixed = false →
          ∃ start, mapAt data.uh2varStartPosition old.1 = some start ∧
            new.2.vars.length = old.2.vars.length ∧
            ∀ i, i < old.2.vars.length → new.2.vars.get? i = X.get? (start + i))
          overlapPatch.uhs patch'.uhs) := by
  have hnd : KeysNodup overlapPatch.uhs := by unfold KeysNodup; decide
  obtain ⟨opt, hopt⟩ := Option.isSome_iff_exists.1 (by decide :
    (MGPatchDepthsOptimizer.create exGeometry true overlapGraph overlapPatch [] false
      Algorithm.EigenSparseQR).isSome = true)
  have hrun : opt.optimize (constantSolver [5, 6, 7]) = some (true,
      { uhs := [(0, { vars := [0, 0, 1], fixed := true }),
          (1, { vars := [5, 6, 7], fixed := false })], bhs := overlapPatch.bhs }) := by
    obtain ⟨data, rfl, hd⟩ := eigen_create_spec _ _ _ _ _ _ opt hopt
    obtain ⟨-, hs⟩ := eigen_initialise_fields _ _ data _ _ _ _ hd
    have hs' : data.uh2varStartPosition = [(1, 0)] := by rw [hs]; decide
    simp only [MGPatchDepthsOptimizer.optimize, MGPatchDepthsOptimizerInternalEigen.optimize,
      constantSolver, hs', Bool.not_true, Bool.false_eq_true, if_false]
    decide
  exact ⟨hnd, opt, true, _, hopt, hrun, rfl, by decide,
    eigen_optimize_frame exGeometry (constantSolver [5, 6, 7]) true overlapGraph overlapPatch []
      false opt true _ hnd hopt hrun⟩

/-- C7: for either algorithm and every patch, whenever `optimize` returns false the patch is
exactly what it was before the optimizer was constructed (node bindings and edge bindings). -/
theorem optimize_failure_leaves_patch (geo : Geometry) (solver : SparseQR) (ind : Bool)
    (mg : MixedGraph) (patch : MGPatch) (vps : List Vec3) (useWeights : Bool)
    (alg : Algorithm) (opt : MGPatchDepthsOptimizer) (patch' : MGPatch)
    (hc : MGPatchDepthsOptimizer.create geo ind mg patch vps useWeights alg = some opt)
    (ho : opt.optimize solver = some (false, patch')) :
    patch' = patch := by
  cases alg with
  | EigenSparseQR =>
    obtain ⟨data, rfl, -⟩ := eigen_create_spec geo ind mg patch vps useWeights opt hc
    simp only [MGPatchDepthsOptimizer.optimize, MGPatchDepthsOptimizerInternalEigen.optimize]
      at ho
    by_cases hcomp : solver.compute data.solvedMatrix = true
    · simp only [hcomp, Bool.not_true, Bool.false_eq_true, if_false] at ho
      cases hX : solver.solve data.solvedMatrix data.solvedRhs with
      | none =>
        simp only [hX, Option.some.injEq, Prod.mk.injEq, true_and] at ho
        exact ho.symm
      | some X =>
        simp only [hX, Option.bind_eq_bind, Option.bind_eq_some, Option.some.injEq,
          Prod.mk.injEq, Bool.true_eq_false, false_and, and_false, exists_false] at ho
    · simp only [hcomp, Bool.not_false, if_true, Option.some.injEq, Prod.mk.injEq,
        true_and] at ho
      exact ho.symm
  | MosekLinearProgramming =>
    unfold MGPatchDepthsOptimizer.create at hc
    simp only [Option.bind_eq_bind, Option.bind_eq_some, pure, Option.some.injEq] at hc
    obtain ⟨r, hr, rfl⟩ := hc
    obtain ⟨hp, -⟩ := mosek_initialise_patch geo mg patch vps useWeights r hr
    simp only [MGPatchDepthsOptimizer.optimize, MGPatchDepthsOptimizerInternalMosek.optimize,
      Option.some.injEq, Prod.mk.injEq, true_and] at ho
    rw [← ho, hp]

/-- C7 on the two-region patch: the linear-programming optimizer, and the least-squares
optimizer with a solver whose `compute` fails, both return false and leave the patch as it
was. -/
theorem optimize_failure_leaves_patch_witness :
    (∃ opt patch',
      MGPatchDepthsOptimizer.create exGeometry true overlapGraph overlapPatch [] true
        Algorithm.MosekLinearProgramming = some opt ∧
      opt.optimize failingSolver = some (false, patch') ∧ patch' = overlapPatch) ∧
    (∃ opt patch',
      MGPatchDepthsOptimizer.create exGeometry true overlapGraph overlapPatch [] true
        Algorithm.EigenSparseQR = some opt ∧
      opt.optimize failingSolver = some (false, patch') ∧ patch' = overlapPatch) := by
  constructor
  · obtain ⟨opt, hopt⟩ := Option.isSome_iff_exists.1 (by decide :
      (MGPatchDepthsOptimizer.create exGeometry true overlapGraph overlapPatch [] true
        Algorithm.MosekLinearProgramming).isSome = true)
    have hrun : opt.optimize failingSolver = some (false, opt.patch) := by
      have hc := hopt
      unfold MGPatchDepthsOptimizer.create at hc
      simp only [Option.bind_eq_bind, Option.bind_eq_some, pure, Option.some.injEq] at hc
      obtain ⟨r, -, rfl⟩ := hc
      rfl
    exact ⟨opt, opt.patch, hopt, hrun,
      optimize_failure_leaves_patch exGeometry failingSolver true overlapGraph overlapPatch []
        true Algorithm.MosekLinearProgramming opt opt.patch hopt hrun⟩
  · obtain ⟨opt, hopt⟩ := Option.isSome_iff_exists.1 (by decide :
      (MGPatchDepthsOptimizer.create exGeometry true overlapGraph overlapPatch [] true
        Algorithm.EigenSparseQR).isSome = true)
    have hrun : opt.optimize failingSolver = some (false, opt.patch) := by
      obtain ⟨data, rfl, -⟩ := eigen_create_spec _ _ _ _ _ _ opt hopt
      rfl
    exact ⟨opt, opt.patch, hopt, hrun,
      optimize_failure_leaves_patch exGeometry failingSolver true overlapGraph overlapPatch []
        true Algorithm.EigenSparseQR opt opt.patch hopt hrun⟩

section TwoRegion

open MGPatchDepthsOptimizerInternalEigen

/-- C8: a patch of two region nodes `f` (fixed, parameters `p`) and `g` (free) joined by one
enabled edge of positive weight whose necessary anchors are three linearly independent
directions. The optimizer is constructed, the assembled system `(A, B)` and the system handed
to the solver have exactly one solution each, and after an `optimize` that returns true (with a
least-squares solver) the free region's inverse depth at each of the three anchors is the
fixed region's at the same anchor; the fixed region is untouched. -/
theorem two_region_agreement (geo : Geometry) (solver : SparseQR) (ind : Bool)
    (mg : MixedGraph) (patch : MGPatch) (vps : List Vec3) (uw : Bool) (f g bh : Nat)
    (varf varg : MGUnaryVariable) (rf rg : MGUnary) (b : MGBinary) (a1 a2 a3 : Vec3)
    (p0 p1 p2 : ℚ)
    (hsolver : solver.LeastSquares)
    (hu : patch.uhs = [(f, varf), (g, varg)] ∨ patch.uhs = [(g, varg), (f, varf)])
    (hbhs : patch.bhs = [(bh, { enabled := true })])
    (hne : f ≠ g) (hl : mg.lowers bh = some (f, g) ∨ mg.lowers bh = some (g, f))
    (hrf : mg.dataU f = some rf) (hrg : mg.dataU g = some rg)
    (htf : rf.type = MGUnaryType.Region) (htg : rg.type = MGUnaryType.Region)
    (hfix : varf.fixed = true) (hfree : varg.fixed = false)
    (hpf : varf.vars = [p0, p1, p2]) (hpg : varg.vars.length = 3)
    (hb : mg.dataB bh = some b) (hw : 0 < b.weight)
    (hanch : NecessaryAnchorsForBinary geo mg bh = some [a1, a2, a3])
    (hind : det3 a1 a2 a3 ≠ 0) :
    ∃ opt data,
      MGPatchDepthsOptimizer.create geo ind mg patch vps uw Algorithm.EigenSparseQR = some opt ∧
      opt.internal = OptimizerInternal.eigen data ∧
      (∃! x, Solves data.A data.B x) ∧
      (∃! x, Solves data.solvedMatrix data.solvedRhs x) ∧
      Solves data.solvedMatrix data.solvedRhs [p0, p1, p2] ∧
      (solver.compute data.solvedMatrix = true →
        (solver.solve data.solvedMatrix data.solvedRhs).isSome = true →
        ∃ patch', opt.optimize solver = some (true, patch')) ∧
      ∀ patch', opt.optimize solver = some (true, patch') →
        mapAt patch'.uhs f = some varf ∧
        ∃ varg', mapAt patch'.uhs g = some varg' ∧
          ∀ a ∈ [a1, a2, a3], ∃ d,
            varg'.inverseDepthAtDirection geo a rg vps = some d ∧
            varf.inverseDepthAtDirection geo a rf vps = some d := by
  have hgf : ¬ g = f := fun e => hne e.symm
  have hstarts : assignVarStarts patch = ([(g, 0)], 3, true) := by
    rcases hu with h | h <;> simp [assignVarStarts, h, hfix, hfree, mapSet, hpg]
  have hmf : mapAt patch.uhs f = some varf := by
    rcases hu with h | h <;> simp [h, mapAt, hgf]
  have hmg : mapAt patch.uhs g = some varg := by
    rcases hu with h | h <;> simp [h, mapAt, hne]
  obtain ⟨s, hs, hinit⟩ := eigen_two_node_initialise geo ind mg patch vps uw f g bh varf varg
    rf rg b a1 a2 a3 p0 p1 p2 hstarts hbhs hmf hmg hne hl hrf hrg htf htg hb hanch hpf
  have hs0 : s ≠ 0 := by rcases hs with rfl | rfl <;> norm_num
  have hw0 : b.weight ≠ 0 := ne_of_gt hw
  obtain ⟨data, hd⟩ : ∃ data, (fresh ind).initialise geo mg patch vps uw = some data :=
    ⟨_, hinit⟩
  have hdeq := Option.some.inj (hd.symm.trans hinit)
  have hA := congrArg MGPatchDepthsOptimizerInternalEigen.A hdeq
  have hW := congrArg MGPatchDepthsOptimizerInternalEigen.W hdeq
  have hB := congrArg MGPatchDepthsOptimizerInternalEigen.B hdeq
  have hU := congrArg MGPatchDepthsOptimizerInternalEigen.useWeights hdeq
  have hS := congrArg MGPatchDepthsOptimizerInternalEigen.uh2varStartPosition hdeq
  simp only at hA hW hB hU hS
  obtain ⟨r0, r1, r2, wr, wc, w0, w1, w2⟩ := two_node_rows s b.weight a1 a2 a3 p0 p1 p2
    data.A data.W data.B hA hW hB
  have hrows : data.A.rows = 3 := by rw [hA]
  have hcols : data.A.cols = 3 := by rw [hA]
  obtain ⟨u1, u2, u3, u4⟩ := agreement_of_rows data.A data.B a1 a2 a3 p0 p1 p2 s hs0 hrows hcols
    r0 r1 r2 hind
  obtain ⟨v1, v2, v3, v4⟩ := agreement_of_rows (data.W.mul data.A) (data.W.mulVec data.B)
    a1 a2 a3 p0 p1 p2 (b.weight * s) (mul_ne_zero hw0 hs0) wr wc w0 w1 w2 hind
  have hcreate : MGPatchDepthsOptimizer.create geo ind mg patch vps uw Algorithm.EigenSparseQR =
      some { internal := OptimizerInternal.eigen data, patch := patch } := by
    simp only [MGPatchDepthsOptimizer.create, hd, Option.bind_eq_bind, Option.some_bind, pure]
  have hsolved : (∃! x, Solves data.solvedMatrix data.solvedRhs x) ∧
      Solves data.solvedMatrix data.solvedRhs [p0, p1, p2] ∧
      ∀ X, solver.solve data.solvedMatrix data.solvedRhs = some X → X = [p0, p1, p2] := by
    cases ind with
    | false =>
      have e1 : data.solvedMatrix = data.A := by simp [solvedMatrix, hU]
      have e2 : data.solvedRhs = data.B := by simp [solvedRhs, hU]
      rw [e1, e2]
      refine ⟨⟨[p0, p1, p2], u1, u2⟩, u1, ?_⟩
      intro X hX
      obtain ⟨hlen, hmin⟩ := hsolver _ _ X hX
      have := hmin [p0, p1, p2] (by rw [hcols]; rfl)
      rw [u3] at this
      exact u4 X hlen this
    | true =>
      have e1 : data.solvedMatrix = data.W.mul data.A := by simp [solvedMatrix, hU]
      have e2 : data.solvedRhs = data.W.mulVec data.B := by simp [solvedRhs, hU]
      rw [e1, e2]
      refine ⟨⟨[p0, p1, p2], v1, v2⟩, v1, ?_⟩
      intro X hX
      obtain ⟨hlen, hmin⟩ := hsolver _ _ X hX
      have := hmin [p0, p1, p2] (by rw [wc]; rfl)
      rw [v3] at this
      exact v4 X hlen this
  obtain ⟨uhs', hm, e1, e2⟩ := writeBack_two_nodes f g varf varg p0 p1 p2 hne hpg patch.uhs hu
  have hrun : ∀ X, solver.compute data.solvedMatrix = true →
      solver.solve data.solvedMatrix data.solvedRhs = some X →
      MGPatchDepthsOptimizer.optimize solver
        { internal := OptimizerInternal.eigen data, patch := patch } =
        some (true, { patch with uhs := uhs' }) := by
    intro X hcomp hX
    have hXp := hsolved.2.2 X hX
    subst hXp
    simp only [MGPatchDepthsOptimizer.optimize, MGPatchDepthsOptimizerInternalEigen.optimize,
      hcomp, Bool.not_true, Bool.false_eq_true, if_false, hX, hS, hm, Option.bind_eq_bind,
      Option.some_bind]
  refine ⟨_, data, hcreate, rfl, ⟨[p0, p1, p2], u1, u2⟩, hsolved.1, hsolved.2.1, ?_, ?_⟩
  · intro hcomp hsome
    obtain ⟨X, hX⟩ := Option.isSome_iff_exists.1 hsome
    exact ⟨_, hrun X hcomp hX⟩
  · intro patch' hopt
    have hcomp : solver.compute data.solvedMatrix = true := by
      by_contra hc
      simp [MGPatchDepthsOptimizer.optimize, MGPatchDepthsOptimizerInternalEigen.optimize, hc]
        at hopt
    cases hX : solver.solve data.solvedMatrix data.solvedRhs with
    | none =>
      simp [MGPatchDepthsOptimizer.optimize, MGPatchDepthsOptimizerInternalEigen.optimize,
        hcomp, hX] at hopt
    | some X =>
      rw [hrun X hcomp hX] at hopt
      simp only [Option.some.injEq, Prod.mk.injEq, true_and] at hopt
      subst hopt
      refine ⟨e1, _, e2, ?_⟩
      intro a _
      refine ⟨p0 * a.1 + p1 * a.2.1 + p2 * a.2.2, ?_, ?_⟩
      · simp [MGUnaryVariable.inverseDepthAtDirection, htg]
      · simp [MGUnaryVariable.inverseDepthAtDirection, htf, hpf]

/-- C8 on the two-region patch with node 0 fixed to the plane `z = 1` and the three axis
directions as anchors: the run succeeds and the free region agrees with the fixed one. -/
theorem two_region_agreement_witness :
    (checkingSolver [0, 0, 1]).LeastSquares ∧
    0 < exOverlap.weight ∧ det3 (1, 0, 0) (0, 1, 0) (0, 0, 1) ≠ 0 ∧
    NecessaryAnchorsForBinary exGeometry overlapGraph 0 =
      some [(1, 0, 0), (0, 1, 0), (0, 0, 1)] ∧
    ∃ opt data patch',
      MGPatchDepthsOptimizer.create exGeometry true overlapGraph overlapPatch [] true
        Algorithm.EigenSparseQR = some opt ∧
      opt.internal = OptimizerInternal.eigen data ∧
      (∃! x, Solves data.A data.B x) ∧
      (∃! x, Solves data.solvedMatrix data.solvedRhs x) ∧
      opt.optimize (checkingSolver [0, 0, 1]) = some (true, patch') ∧
      mapAt patch'.uhs 0 = some { vars := [0, 0, 1], fixed := true } ∧
      ∃ varg', mapAt patch'.uhs 1 = some varg' ∧
        ∀ a ∈ [((1 : ℚ), (0 : ℚ), (0 : ℚ)), (0, 1, 0), (0, 0, 1)], ∃ d,
          varg'.inverseDepthAtDirection exGeometry a exUnary [] = some d ∧
          MGUnaryVariable.inverseDepthAtDirection exGeometry { vars := [0, 0, 1], fixed := true }
            a exUnary [] = some d := by
  have hw : 0 < exOverlap.weight := by norm_num [exOverlap]
  have hdet : det3 (1, 0, 0) (0, 1, 0) (0, 0, 1) ≠ 0 := by norm_num [det3, dot, cross]
  have hanch : NecessaryAnchorsForBinary exGeometry overlapGraph 0 =
      some [(1, 0, 0), (0, 1, 0), (0, 0, 1)] := by decide
  obtain ⟨opt, data, h1, h2, h3, h4, h5, h6, h7⟩ := two_region_agreement exGeometry
    (checkingSolver [0, 0, 1]) true overlapGraph overlapPatch [] true 0 1 0
    { vars := [0, 0, 1], fixed := true } { vars := [1, 1, 1], fixed := false } exUnary exUnary
    exOverlap (1, 0, 0) (0, 1, 0) (0, 0, 1) 0 0 1 (checkingSolver_leastSquares _)
    (Or.inl rfl) rfl (by decide) (Or.inl rfl) rfl rfl rfl rfl rfl rfl rfl rfl rfl hw hanch hdet
  obtain ⟨patch', hp⟩ := h6 rfl (checkingSolver_solve _ _ _ h5)
  obtain ⟨e1, e2⟩ := h7 patch' hp
  exact ⟨checkingSolver_leastSquares _, hw, hdet, hanch, opt, data, patch', h1, h2, h3, h4, hp,
    e1, e2⟩

end TwoRegion

/-- C9, the code at the failing input: the argument `useWeights` of the constructor has no
effect on the least-squares optimizer (both values give the same object), and the system it
solves follows the uninitialised member instead. On the two-region patch whose edge has weight
2: constructed with `useWeights = false` while the member holds `true`, it solves the
row-scaled system `(W A, W B)`, which is not `(A, B)`; constructed with `useWeights = true`
while the member holds `false`, it solves the unweighted system `(A, B)`, which is not
`(W A, W B)`. -/
theorem eigen_useWeights_argument_ignored :
    (∀ geo ind mg patch vps,
      MGPatchDepthsOptimizer.create geo ind mg patch vps true Algorithm.EigenSparseQR =
        MGPatchDepthsOptimizer.create geo ind mg patch vps false Algorithm.EigenSparseQR) ∧
    (∃ opt data,
      MGPatchDepthsOptimizer.create exGeometry true overlapGraph overlapPatch [] false
        Algorithm.EigenSparseQR = some opt ∧
      opt.internal = OptimizerInternal.eigen data ∧
      data.solvedMatrix = data.W.mul data.A ∧ data.solvedRhs = data.W.mulVec data.B ∧
      data.solvedMatrix ≠ data.A ∧ data.solvedRhs ≠ data.B) ∧
    (∃ opt data,
      MGPatchDepthsOptimizer.create exGeometry false overlapGraph overlapPatch [] true
        Algorithm.EigenSparseQR = some opt ∧
      opt.internal = OptimizerInternal.eigen data ∧
      data.solvedMatrix = data.A ∧ data.solvedRhs = data.B ∧
      data.solvedMatrix ≠ data.W.mul data.A ∧ data.solvedRhs ≠ data.W.mulVec data.B) := by
  refine ⟨fun _ _ _ _ _ => rfl, ?_, ?_⟩
  · obtain ⟨opt, hopt⟩ := Option.isSome_iff_exists.1 (by decide :
      (MGPatchDepthsOptimizer.create exGeometry true overlapGraph overlapPatch [] false
        Algorithm.EigenSparseQR).isSome = true)
    obtain ⟨data, rfl, hd⟩ := eigen_create_spec _ _ _ _ _ _ opt hopt
    have h2 : data.useWeights = true := (eigen_initialise_fields _ _ data _ _ _ _ hd).1
    have hm : data.solvedMatrix = data.W.mul data.A := by
      simp [MGPatchDepthsOptimizerInternalEigen.solvedMatrix, h2]
    have hr : data.solvedRhs = data.W.mulVec data.B := by
      simp [MGPatchDepthsOptimizerInternalEigen.solvedRhs, h2]
    obtain ⟨d1, d2⟩ := overlap_systems_differ _ _ data hd
    exact ⟨_, data, hopt, rfl, hm, hr, by rw [hm]; exact d1, by rw [hr]; exact d2⟩
  · obtain ⟨opt, hopt⟩ := Option.isSome_iff_exists.1 (by decide :
      (MGPatchDepthsOptimizer.create exGeometry false overlapGraph overlapPatch [] true
        Algorithm.EigenSparseQR).isSome = true)
    obtain ⟨data, rfl, hd⟩ := eigen_create_spec _ _ _ _ _ _ opt hopt
    have h2 : data.useWeights = false := (eigen_initialise_fields _ _ data _ _ _ _ hd).1
    have hm : data.solvedMatrix = data.A := by
      simp [MGPatchDepthsOptimizerInternalEigen.solvedMatrix, h2]
    have hr : data.solvedRhs = data.B := by
      simp [MGPatchDepthsOptimizerInternalEigen.solvedRhs, h2]
    obtain ⟨d1, d2⟩ := overlap_systems_differ _ _ data hd
    exact ⟨_, data, hopt, rfl, hm, hr, by rw [hm]; exact Ne.symm d1, by rw [hr]; exact Ne.symm d2⟩

/-! ## Minimality of the spanning tree -/

theorem insertSorted_pairwise (lt : Nat → Nat → Bool) (S : List Nat)
    (hS : StrictTotalOn lt S) (e : Nat) (he : e ∈ S) :
    ∀ l : List Nat, (∀ a ∈ l, a ∈ S) → l.Pairwise (fun a b => lt b a = false) →
      (insertSorted lt e l).Pairwise (fun a b => lt b a = false) := by
  obtain ⟨hirr, htr, -⟩ := hS
  intro l
  induction l with
  | nil => intro _ _; simp [insertSorted]
  | cons a t ih =>
    intro hl hp
    have haS : a ∈ S := hl a (List.mem_cons_self _ _)
    have htS : ∀ b ∈ t, b ∈ S := fun b hb => hl b (List.mem_cons_of_mem _ hb)
    rw [List.pairwise_cons] at hp
    unfold insertSorted
    by_cases hea : lt e a = true
    · rw [if_pos hea]
      have hae : lt a e = false := by
        by_contra h
        have h' : lt a e = true := by simpa using h
        have := htr e he a haS e he hea h'
        rw [hirr e he] at this
        exact Bool.false_ne_true this
      refine List.pairwise_cons.2 ⟨?_, List.pairwise_cons.2 hp⟩
      intro b hb
      rcases List.mem_cons.1 hb with rfl | hb
      · exact hae
      · by_contra h
        have h' : lt b e = true := by simpa using h
        have hbS := htS b hb
        have := htr b hbS e he a haS h' hea
        rw [hp.1 b hb] at this
        exact Bool.false_ne_true this
    · rw [if_neg hea]
      have hea' : lt e a = false := by simpa using hea
      refine List.pairwise_cons.2 ⟨?_, ih htS hp.2⟩
      intro b hb
      have := (insertSorted_perm lt e t).mem_iff.1 hb
      rcases List.mem_cons.1 this with rfl | hb'
      · exact hea'
      · exact hp.1 b hb'

theorem sortBy_pairwise (lt : Nat → Nat → Bool) (S : List Nat) (hS : StrictTotalOn lt S) :
    ∀ l : List Nat, (∀ a ∈ l, a ∈ S) →
      (sortBy lt l).Pairwise (fun a b => lt b a = false) := by
  intro l
  induction l with
  | nil => intro _; simp [sortBy]
  | cons a t ih =>
    intro hl
    have : sortBy lt (a :: t) = insertSorted lt a (sortBy lt t) := rfl
    rw [this]
    apply insertSorted_pairwise lt S hS a (hl a (List.mem_cons_self _ _))
    · intro b hb
      exact hl b (List.mem_cons_of_mem _ ((sortBy_perm lt t).mem_iff.1 hb))
    · exact ih (fun b hb => hl b (List.mem_cons_of_mem _ hb))

theorem reach_add_edge (ends : Nat → Nat × Nat) (S : List Nat) (e : Nat) (x y : Nat)
    (h : Relation.ReflTransGen (ListLink ends (S ++ [e])) x y) :
    Relation.ReflTransGen (ListLink ends S) x y ∨
    (Relation.ReflTransGen (ListLink ends S) x (ends e).1 ∧
      Relation.ReflTransGen (ListLink ends S) (ends e).2 y) ∨
    (Relation.ReflTransGen (ListLink ends S) x (ends e).2 ∧
      Relation.ReflTransGen (ListLink ends S) (ends e).1 y) := by
  induction h with
  | refl => exact Or.inl Relation.ReflTransGen.refl
  | @tail m y _ hl ih =>
    obtain ⟨t, ht, hty⟩ := hl
    rcases List.mem_append.1 ht with htS | hte
    · have hlink : ListLink ends S m y := ⟨t, htS, hty⟩
      rcases ih with h1 | ⟨h1, h2⟩ | ⟨h1, h2⟩
      · exact Or.inl (h1.tail hlink)
      · exact Or.inr (Or.inl ⟨h1, h2.tail hlink⟩)
      · exact Or.inr (Or.inr ⟨h1, h2.tail hlink⟩)
    · have hte' : t = e := by simpa using hte
      subst hte'
      rcases hty with hty | hty
      · rw [hty]
        simp only
        rcases ih with h1 | ⟨h1, _⟩ | ⟨h1, h2⟩
        · exact Or.inr (Or.inl ⟨by simpa [hty] using h1, Relation.ReflTransGen.refl⟩)
        · exact Or.inr (Or.inl ⟨by simpa [hty] using h1, Relation.ReflTransGen.refl⟩)
        · left
          rw [hty] at h1
          exact h1
      · rw [hty]
        simp only
        rcases ih with h1 | ⟨h1, h2⟩ | ⟨h1, _⟩
        · exact Or.inr (Or.inr ⟨by simpa [hty] using h1, Relation.ReflTransGen.refl⟩)
        · left
          rw [hty] at h1
          exact h1
        · exact Or.inr (Or.inr ⟨by simpa [hty] using h1, Relation.ReflTransGen.refl⟩)

theorem reach_same_id (ends : Nat → Nat × Nat) (ids : List (Nat × Nat)) (out : List Nat)
    (hC : ∀ t ∈ out, mapGetD ids (ends t).1 = mapGetD ids (ends t).2) (x y : Nat)
    (h : Relation.ReflTransGen (ListLink ends out) x y) : mapGetD ids x = mapGetD ids y := by
  induction h with
  | refl => rfl
  | @tail m y _ hl ih =>
    obtain ⟨t, ht, hty⟩ := hl
    have := hC t ht
    rcases hty with hty | hty
    · rw [hty] at this
      exact ih.trans this
    · rw [hty] at this
      exact ih.trans this.symm

theorem kruskalLoop_minimal (ends : Nat → Nat × Nat) (lt : Nat → Nat → Bool) (V : List Nat) :
    ∀ (es : List Nat) (ids : List (Nat × Nat)) (out : List Nat),
      mapKeys ids = V →
      (∀ e ∈ es, (ends e).1 ∈ V ∧ (ends e).2 ∈ V) →
      (∀ x ∈ V, ∀ y ∈ V, mapGetD ids x = mapGetD ids y →
        Relation.ReflTransGen (ListLink ends out) x y) →
      (∀ t ∈ out, (ends t).1 ∈ V ∧ (ends t).2 ∈ V ∧
        mapGetD ids (ends t).1 = mapGetD ids (ends t).2) →
      (∀ k ∈ out, ¬ Relation.ReflTransGen (ListLink ends (out.filter (fun t => t != k)))
        (ends k).1 (ends k).2) →
      es.Pairwise (fun a b => lt b a = false) →
      (∀ t ∈ out, ∀ e ∈ es, lt e t = false) →
      es.Nodup → (∀ e ∈ es, e ∉ out) →
      (∀ k ∈ kruskalLoop ends es ids out,
        ¬ Relation.ReflTransGen
          (ListLink ends ((kruskalLoop ends es ids out).filter (fun t => t != k)))
          (ends k).1 (ends k).2) ∧
      (∀ e ∈ es, e ∉ kruskalLoop ends es ids out →
        ∃ T0 : List Nat, (∀ t ∈ T0, t ∈ kruskalLoop ends es ids out ∧ lt e t = false) ∧
          Relation.ReflTransGen (ListLink ends T0) (ends e).1 (ends e).2) := by
  intro es
  induction es with
  | nil =>
    intro ids out _ _ _ _ hF _ _ _ _
    simp only [kruskalLoop]
    exact ⟨hF, by simp⟩
  | cons e rest ih =>
    intro ids out hk hends hs hC hF hsorted hbefore hnd hdisj
    obtain ⟨ha, hb⟩ := hends e (List.mem_cons_self _ _)
    have hrest : ∀ e' ∈ rest, (ends e').1 ∈ V ∧ (ends e').2 ∈ V :=
      fun e' he' => hends e' (List.mem_cons_of_mem _ he')
    rw [List.pairwise_cons] at hsorted
    rw [List.nodup_cons] at hnd
    by_cases hne : mapGetD ids (ends e).1 = mapGetD ids (ends e).2
    · have hT : kruskalLoop ends (e :: rest) ids out = kruskalLoop ends rest ids out := by
        simp only [kruskalLoop, hne, ne_eq, not_true_eq_false, if_false]
      rw [hT]
      obtain ⟨h1, h2⟩ := ih ids out hk hrest hs hC hF hsorted.2
        (fun t ht e' he' => hbefore t ht e' (List.mem_cons_of_mem _ he')) hnd.2
        (fun e' he' => hdisj e' (List.mem_cons_of_mem _ he'))
      refine ⟨h1, ?_⟩
      intro e2 he2 hnot
      rcases List.mem_cons.1 he2 with rfl | he2
      · obtain ⟨kept, hkept, -⟩ := kruskalLoop_sublist ends rest ids out
        refine ⟨out, ?_, hs _ ha _ hb hne⟩
        intro t ht
        exact ⟨by rw [hkept]; exact List.mem_append_left _ ht,
          hbefore t ht _ (List.mem_cons_self _ _)⟩
      · exact h2 e2 he2 hnot
    · have hT : kruskalLoop ends (e :: rest) ids out =
          kruskalLoop ends rest (mergeSets ids (mapGetD ids (ends e).1)
            (mapGetD ids (ends e).2)) (out ++ [e]) := by
        simp only [kruskalLoop, ne_eq, hne, not_false_eq_true, if_true]
      rw [hT]
      have hlab : ∀ v ∈ V, mapGetD (mergeSets ids (mapGetD ids (ends e).1)
          (mapGetD ids (ends e).2)) v =
          if mapGetD ids v = mapGetD ids (ends e).2 then mapGetD ids (ends e).1
          else mapGetD ids v :=
        fun v hv => mapGetD_mergeSets ids _ _ v (hk ▸ hv)
      have hlink : ListLink ends (out ++ [e]) (ends e).1 (ends e).2 :=
        ⟨e, by simp, Or.inl rfl⟩
      have hlink' : ListLink ends (out ++ [e]) (ends e).2 (ends e).1 :=
        ⟨e, by simp, Or.inr rfl⟩
      have hold : ∀ x ∈ V, ∀ y ∈ V, mapGetD ids x = mapGetD ids y →
          Relation.ReflTransGen (ListLink ends (out ++ [e])) x y :=
        fun x hx y hy h => listLink_mono ends out _ (fun a ha => List.mem_append_left _ ha) x y
          (hs x hx y hy h)
      have hnoreach : ¬ Relation.ReflTransGen (ListLink ends out) (ends e).1 (ends e).2 :=
        fun h => hne (reach_same_id ends ids out (fun t ht => (hC t ht).2.2) _ _ h)
      have heout : e ∉ out := hdisj e (List.mem_cons_self _ _)
      obtain ⟨h1, h2⟩ := ih
        (mergeSets ids (mapGetD ids (ends e).1) (mapGetD ids (ends e).2)) (out ++ [e])
        (by rw [mapKeys_mergeSets]; exact hk) hrest
        (by
          intro x hx y hy hxy
          rw [hlab x hx, hlab y hy] at hxy
          by_cases hxb : mapGetD ids x = mapGetD ids (ends e).2
          · by_cases hyb : mapGetD ids y = mapGetD ids (ends e).2
            · exact hold x hx y hy (hxb.trans hyb.symm)
            · rw [if_pos hxb, if_neg hyb] at hxy
              exact ((hold x hx _ hb hxb).trans (Relation.ReflTransGen.single hlink')).trans
                (hold _ ha y hy hxy)
          · by_cases hyb : mapGetD ids y = mapGetD ids (ends e).2
            · rw [if_neg hxb, if_pos hyb] at hxy
              exact ((hold x hx _ ha hxy).trans (Relation.ReflTransGen.single hlink)).trans
                (hold _ hb y hy hyb.symm)
            · rw [if_neg hxb, if_neg hyb] at hxy
              exact hold x hx y hy hxy)
        (by
          intro t ht
          rcases List.mem_append.1 ht with ht | ht
          · obtain ⟨c1, c2, c3⟩ := hC t ht
            refine ⟨c1, c2, ?_⟩
            rw [hlab _ c1, hlab _ c2, c3]
          · have : t = e := by simpa using ht
            subst this
            refine ⟨ha, hb, ?_⟩
            rw [hlab _ ha, hlab _ hb, if_neg hne, if_pos rfl])
        (by
          intro k hkmem
          rw [List.filter_append]
          rcases List.mem_append.1 hkmem with hko | hke
          · have hke : e ≠ k := fun h => heout (h ▸ hko)
            have hf : [e].filter (fun t => t != k) = [e] := by simp [hke]
            rw [hf]
            intro hr
            rcases reach_add_edge ends _ e _ _ hr with h | ⟨h1, h2⟩ | ⟨h1, h2⟩
            · exact hF k hko h
            · apply hnoreach
              have hsub : ∀ a ∈ out.filter (fun t => t != k), a ∈ out :=
                fun a ha => (List.mem_filter.1 ha).1
              have r1 := listLink_mono ends _ out hsub _ _ h1
              have r2 := listLink_mono ends _ out hsub _ _ h2
              have hk' : ListLink ends out (ends k).2 (ends k).1 := ⟨k, hko, Or.inr rfl⟩
              exact (listLink_reach_symm ends out _ _
                ((r2.trans (Relation.ReflTransGen.single hk')).trans r1))
            · apply hnoreach
              have hsub : ∀ a ∈ out.filter (fun t => t != k), a ∈ out :=
                fun a ha => (List.mem_filter.1 ha).1
              have r1 := listLink_mono ends _ out hsub _ _ h1
              have r2 := listLink_mono ends _ out hsub _ _ h2
              have hk' : ListLink ends out (ends k).2 (ends k).1 := ⟨k, hko, Or.inr rfl⟩
              exact (r2.trans (Relation.ReflTransGen.single hk')).trans r1
          · have : k = e := by simpa using hke
            subst this
            have hf : [k].filter (fun t => t != k) = [] := by simp
            rw [hf, List.append_nil]
            intro hr
            exact hnoreach (listLink_mono ends _ out
              (fun a ha => (List.mem_filter.1 ha).1) _ _ hr))
        hsorted.2
        (by
          intro t ht e' he'
          rcases List.mem_append.1 ht with ht | ht
          · exact hbefore t ht e' (List.mem_cons_of_mem _ he')
          · have : t = e := by simpa using ht
            subst this
            exact hsorted.1 e' he')
        hnd.2
        (by
          intro e' he' hmem
          rcases List.mem_append.1 hmem with h | h
          · exact hdisj e' (List.mem_cons_of_mem _ he') h
          · have : e' = e := by simpa using h
            subst this
            exact hnd.1 he')
      refine ⟨h1, ?_⟩
      intro e2 he2 hnot
      rcases List.mem_cons.1 he2 with rfl | he2
      · exfalso
        obtain ⟨kept, hkept, -⟩ := kruskalLoop_sublist ends rest
          (mergeSets ids (mapGetD ids (ends e2).1) (mapGetD ids (ends e2).2)) (out ++ [e2])
        apply hnot
        rw [hkept]
        simp
      · exact h2 e2 he2 hnot

theorem walk_reach (ends : Nat → Nat × Nat) (S : List Nat) :
    ∀ (p : List Nat) (x y : Nat), IsWalk ends p x y → (∀ t ∈ p, t ∈ S) →
      Relation.ReflTransGen (ListLink ends S) x y := by
  intro p
  induction p with
  | nil =>
    intro x y h _
    rw [show x = y from h]
  | cons e p ih =>
    intro x y h hS
    obtain ⟨z, hz, hw⟩ := h
    have hl : ListLink ends S x z := ⟨e, hS e (List.mem_cons_self _ _), hz⟩
    exact Relation.ReflTransGen.head hl (ih z y hw (fun t ht => hS t (List.mem_cons_of_mem _ ht)))

theorem walk_split (ends : Nat → Nat × Nat) :
    ∀ (p : List Nat) (x y e' : Nat), IsWalk ends p x y → e' ∈ p →
      ∃ p1 p2 a b, p = p1 ++ e' :: p2 ∧ IsWalk ends p1 x a ∧
        (ends e' = (a, b) ∨ ends e' = (b, a)) ∧ IsWalk ends p2 b y := by
  intro p
  induction p with
  | nil => intro x y e' _ h; simp at h
  | cons e p ih =>
    intro x y e' h hmem
    obtain ⟨z, hz, hw⟩ := h
    by_cases hee : e' = e
    · subst hee
      exact ⟨[], p, x, z, rfl, rfl, hz, hw⟩
    · have hmem' : e' ∈ p := by
        rcases List.mem_cons.1 hmem with h | h
        · exact absurd h hee
        · exact h
      obtain ⟨p1, p2, a, b, hp, h1, h2, h3⟩ := ih z y e' hw hmem'
      exact ⟨e :: p1, p2, a, b, by rw [hp]; rfl, ⟨z, hz, h1⟩, h2, h3⟩

theorem minimumSpanningTree_cycle (ends : Nat → Nat × Nat) (V E : List Nat)
    (cmp : Nat → Nat → Bool)
    (hE : ∀ e ∈ E, (ends e).1 ∈ V ∧ (ends e).2 ∈ V) (hnd : E.Nodup)
    (hcmp : StrictTotalOn cmp E) (e : Nat) (he : e ∈ E)
    (hdis : e ∉ MinimumSpanningTree V E ends cmp) (p : List Nat) (hp : p.Nodup)
    (hpT : ∀ t ∈ p, t ∈ MinimumSpanningTree V E ends cmp)
    (hw : IsWalk ends p (ends e).1 (ends e).2) : ∀ e' ∈ p, cmp e e' = false := by
  have hperm := sortBy_perm cmp E
  have hk : mapKeys (V.zip (List.range V.length)) = V := by
    unfold mapKeys
    exact List.map_fst_zip _ _ (by simp)
  obtain ⟨hF, hD⟩ := kruskalLoop_minimal ends cmp V (sortBy cmp E)
    (V.zip (List.range V.length)) [] hk
    (fun e he => hE e (hperm.mem_iff.1 he))
    (by
      intro x hx y hy hxy
      rw [initial_ids_inj V x y hx hy hxy])
    (by simp) (by simp)
    (sortBy_pairwise cmp E hcmp E (fun a ha => ha))
    (by simp) (hperm.nodup_iff.2 hnd) (by simp)
  have hF' : ∀ k ∈ MinimumSpanningTree V E ends cmp,
      ¬ Relation.ReflTransGen
        (ListLink ends ((MinimumSpanningTree V E ends cmp).filter (fun t => t != k)))
        (ends k).1 (ends k).2 := hF
  have hD' : ∀ e ∈ sortBy cmp E, e ∉ MinimumSpanningTree V E ends cmp →
      ∃ T0 : List Nat, (∀ t ∈ T0, t ∈ MinimumSpanningTree V E ends cmp ∧ cmp e t = false) ∧
        Relation.ReflTransGen (ListLink ends T0) (ends e).1 (ends e).2 := hD
  intro e' he'
  by_contra hlt
  have hlt' : cmp e e' = true := by simpa using hlt
  obtain ⟨T0, hT0, hreach⟩ := hD' e (hperm.mem_iff.2 he) hdis
  have hsub : ∀ t ∈ T0, t ∈ (MinimumSpanningTree V E ends cmp).filter (fun t => t != e') := by
    intro t ht
    obtain ⟨h1, h2⟩ := hT0 t ht
    refine List.mem_filter.2 ⟨h1, ?_⟩
    simp only [bne_iff_ne, ne_eq]
    intro hte
    rw [hte, hlt'] at h2
    exact Bool.noConfusion h2
  have hr := listLink_mono ends T0 _ hsub _ _ hreach
  obtain ⟨p1, p2, a, b, hpe, hw1, hab, hw2⟩ := walk_split ends p _ _ e' hw he'
  rw [hpe] at hp hpT
  have hnd1 : e' ∉ p1 := by
    intro h
    have := List.nodup_append.1 hp
    exact this.2.2 h (List.mem_cons_self _ _)
  have hnd2 : e' ∉ p2 := by
    have := List.nodup_append.1 hp
    exact (List.nodup_cons.1 this.2.1).1
  have hs1 : ∀ t ∈ p1, t ∈ (MinimumSpanningTree V E ends cmp).filter (fun t => t != e') := by
    intro t ht
    refine List.mem_filter.2 ⟨hpT t (List.mem_append_left _ ht), ?_⟩
    simp only [bne_iff_ne, ne_eq]
    intro hte
    exact hnd1 (hte ▸ ht)
  have hs2 : ∀ t ∈ p2, t ∈ (MinimumSpanningTree V E ends cmp).filter (fun t => t != e') := by
    intro t ht
    refine List.mem_filter.2
      ⟨hpT t (List.mem_append_right _ (List.mem_cons_of_mem _ ht)), ?_⟩
    simp only [bne_iff_ne, ne_eq]
    intro hte
    exact hnd2 (hte ▸ ht)
  have r1 := walk_reach ends _ p1 _ _ hw1 hs1
  have r2 := walk_reach ends _ p2 _ _ hw2 hs2
  have hab' : Relation.ReflTransGen
      (ListLink ends ((MinimumSpanningTree V E ends cmp).filter (fun t => t != e'))) a b :=
    ((listLink_reach_symm ends _ _ _ r1).trans hr).trans (listLink_reach_symm ends _ _ _ r2)
  have hmemT : e' ∈ MinimumSpanningTree V E ends cmp :=
    hpT e' (List.mem_append_right _ (List.mem_cons_self _ _))
  rcases hab with hab | hab
  · apply hF' e' hmemT
    rw [hab]
    exact hab'
  · apply hF' e' hmemT
    rw [hab]
    exact listLink_reach_symm ends _ _ _ hab'

theorem mstPatch_contains (mg : MixedGraph) (patch : MGPatch) (compareBh : Nat → Nat → Bool)
    (mst : MGPatch) (h : MinimumSpanningTreePatch mg patch compareBh = some mst) (bh : Nat) :
    Contains mst.bhs bh = true ↔
      bh ∈ MinimumSpanningTree (mapKeys patch.uhs) (mapKeys patch.bhs) mg.lowersD compareBh := by
  have hmem := minimumSpanningTree_subset mg.lowersD (mapKeys patch.uhs) (mapKeys patch.bhs)
    compareBh
  obtain ⟨m, hm, hget, -⟩ := foldlM_rebind patch.bhs
    (MinimumSpanningTree (mapKeys patch.uhs) (mapKeys patch.bhs) mg.lowersD compareBh) []
    (fun bh hbh => (contains_iff_mem_keys _ _).2 (hmem bh hbh))
  unfold MinimumSpanningTreePatch at h
  simp only [Option.bind_eq_bind, Option.bind_eq_some, pure, Option.some.injEq] at h
  obtain ⟨m', hm', rfl⟩ := h
  have hmm : some m = some m' := hm.symm.trans hm'
  simp only [Option.some.injEq] at hmm
  subst hmm
  simp only [Contains, hget bh]
  constructor
  · intro hc
    by_contra hn
    rw [if_neg hn] at hc
    simp [mapAt] at hc
  · intro hin
    rw [if_pos hin]
    exact (contains_iff_mem_keys _ _).2 (hmem bh hin)

/-- C11: on a connected patch that satisfies Invariant A, with a comparator that is a strict
total order on the bound binary handles, `MinimumSpanningTreePatch` returns a spanning tree
(all nodes, one handle fewer than nodes, connected) that is minimum under the comparator:
every discarded handle compares no lower than each retained handle on a tree path that joins
its two ends. -/
theorem mstPatch_minimum (mg : MixedGraph) (patch : MGPatch)
    (compareBh : Nat → Nat → Bool) (hwf : patch.WF) (hA : InvariantA mg patch)
    (hB : NodesConnected mg patch) (hcmp : StrictTotalOn compareBh (mapKeys patch.bhs)) :
    ∃ mst, MinimumSpanningTreePatch mg patch compareBh = some mst ∧
      mst.uhs = patch.uhs ∧ mst.bhs.length = patch.uhs.length - 1 ∧ NodesConnected mg mst ∧
      ∀ bh, Contains patch.bhs bh = true → Contains mst.bhs bh = false →
        ∀ path, IsTreePath mg mst path (mg.lowersD bh).1 (mg.lowersD bh).2 →
          ∀ bh' ∈ path, compareBh bh bh' = false := by
  obtain ⟨mst, h1, h2, -, h4, -, -, h7⟩ := mstPatch_spec mg patch compareBh hwf hA hB
  refine ⟨mst, h1, h2, h4, h7, ?_⟩
  intro bh hin hout path hpath
  have hE : ∀ e ∈ mapKeys patch.bhs,
      (mg.lowersD e).1 ∈ mapKeys patch.uhs ∧ (mg.lowersD e).2 ∈ mapKeys patch.uhs := by
    intro e he
    obtain ⟨ends, hl, h1, h2⟩ := hA e ((contains_iff_mem_keys _ _).2 he)
    rw [lowersD_of_lowers mg e ends hl]
    exact ⟨(contains_iff_mem_keys _ _).1 h1, (contains_iff_mem_keys _ _).1 h2⟩
  have hc := mstPatch_contains mg patch compareBh mst h1
  apply minimumSpanningTree_cycle mg.lowersD (mapKeys patch.uhs) (mapKeys patch.bhs) compareBh
    hE hwf.2 hcmp bh ((contains_iff_mem_keys _ _).1 hin)
  · intro hmem
    rw [(hc bh).2 hmem] at hout
    exact Bool.noConfusion hout
  · exact hpath.1
  · intro t ht
    exact (hc t).1 (hpath.2.1 t ht)
  · exact hpath.2.2

/-- C11 on the triangle with the order of the handle numbers: handle 2 (ends 0 and 2) is
discarded, the tree path between its ends is the walk over handles 0 and 1, and handle 2 compares
lower than neither. -/
theorem mstPatch_minimum_witness :
    trianglePatch.WF ∧ InvariantA triangleGraph trianglePatch ∧
    NodesConnected triangleGraph trianglePatch ∧
    StrictTotalOn (fun a b => decide (a < b)) (mapKeys trianglePatch.bhs) ∧
    MinimumSpanningTreePatch triangleGraph trianglePatch (fun a b => decide (a < b)) =
      some triangleTree ∧
    Contains trianglePatch.bhs 2 = true ∧ Contains triangleTree.bhs 2 = false ∧
    IsTreePath triangleGraph triangleTree [0, 1] 0 2 ∧
    ∀ bh' ∈ [0, 1], (fun a b => decide (a < b)) 2 bh' = false := by
  obtain ⟨mst, h1, -, -, -, h5⟩ := mstPatch_minimum triangleGraph trianglePatch
    (fun a b => decide (a < b)) trianglePatch_wf trianglePatch_invariantA
    trianglePatch_connected (lt_strictTotalOn _)
  have hval : MinimumSpanningTreePatch triangleGraph trianglePatch (fun a b => decide (a < b)) =
      some triangleTree := by decide
  have hm : mst = triangleTree := by
    rw [hval] at h1
    exact (Option.some.inj h1).symm
  subst hm
  have hpath : IsTreePath triangleGraph triangleTree [0, 1] 0 2 :=
    ⟨by decide, by decide, ⟨1, Or.inl rfl, ⟨2, Or.inl rfl, rfl⟩⟩⟩
  exact ⟨trianglePatch_wf, trianglePatch_invariantA, trianglePatch_connected,
    lt_strictTotalOn _, hval, by decide, by decide, hpath,
    h5 2 (by decide) (by decide) [0, 1] hpath⟩

/-! ## Claims on `SplitPatch`, the star patch and the validators -/

theorem nbRel_patchNeighbors (mg : MixedGraph) (patch : MGPatch) (useBh : Nat → Bool) :
    NbRel (patchNeighbors mg patch useBh) = AcceptedPatchLink mg patch useBh := by
  funext x y
  exact propext (mem_patchNeighbors mg patch useBh x y)

/-- C12: for every patch that satisfies Invariant A and every predicate on binary handles, the
patches that `SplitPatch` returns bind every node of the input patch in exactly one of them,
bind every node to the binding it has in the input patch, and two nodes of the input patch are
bound in the same returned patch exactly when a chain of binary handles bound in the input
patch and accepted by the predicate joins them. -/
theorem splitPatch_nodes_partition (mg : MixedGraph) (patch : MGPatch) (useBh : Nat → Bool)
    (hA : InvariantA mg patch) (ps : List MGPatch)
    (h : SplitPatch mg patch useBh = some ps) :
    (∀ v, Contains patch.uhs v = true →
      ∃! i, ∃ p, ps.get? i = some p ∧ Contains p.uhs v = true) ∧
    (∀ i p v, ps.get? i = some p → Contains p.uhs v = true →
      Contains patch.uhs v = true ∧ mapAt p.uhs v = mapAt patch.uhs v) ∧
    (∀ x y, Contains patch.uhs x = true → Contains patch.uhs y = true →
      ((∃ i p, ps.get? i = some p ∧ Contains p.uhs x = true ∧ Contains p.uhs y = true) ↔
        Relation.ReflTransGen (AcceptedPatchLink mg patch useBh) x y)) := by
  obtain ⟨ccNum, calls, hinv, hkeys, hlen, -, hget⟩ := splitPatch_spec mg patch useBh hA ps h
  have hcont : ∀ i p v, ps.get? i = some p → (Contains p.uhs v = true ↔ (v, i) ∈ calls) := by
    intro i p v hp
    unfold Contains
    rw [(hget i p hp).1 v]
    by_cases hj : (v, i) ∈ calls
    · simp only [hj, if_true, iff_true]
      exact (hkeys v).1 (List.mem_map.2 ⟨(v, i), hj, rfl⟩)
    · simp [hj]
  refine ⟨?_, ?_, ?_⟩
  · intro v hv
    obtain ⟨c, hc, hc1⟩ := List.mem_map.1 ((hkeys v).2 hv)
    have hmem : (v, c.2) ∈ calls := by rw [← hc1]; exact hc
    obtain ⟨p, hp⟩ := get?_of_lt ps c.2 (by rw [hlen]; exact hinv.lt c hc)
    refine ⟨c.2, ⟨p, hp, (hcont _ p v hp).2 hmem⟩, ?_⟩
    rintro j ⟨q, hq, hcq⟩
    exact mem_unique_cid calls hinv.nodup v j c.2 ((hcont j q v hq).1 hcq) hmem
  · intro i p v hp hc
    have hj := (hcont i p v hp).1 hc
    refine ⟨(hkeys v).1 (List.mem_map.2 ⟨(v, i), hj, rfl⟩), ?_⟩
    rw [(hget i p hp).1 v, if_pos hj]
  · intro x y hx _
    rw [← nbRel_patchNeighbors]
    constructor
    · rintro ⟨i, p, hp, hcx, hcy⟩
      have h1 := (hcont i p x hp).1 hcx
      have h2 := (hcont i p y hp).1 hcy
      exact (hinv.same (x, i) h1 (y, i) h2).1 rfl
    · intro hr
      obtain ⟨c, hc, hc1⟩ := List.mem_map.1 ((hkeys x).2 hx)
      have hmem : (x, c.2) ∈ calls := by rw [← hc1]; exact hc
      have hmem' := cc_reach_same _ ccNum calls hinv x y c.2 hmem hr
      obtain ⟨p, hp⟩ := get?_of_lt ps c.2 (by rw [hlen]; exact hinv.lt c hc)
      exact ⟨c.2, p, hp, (hcont _ p x hp).2 hmem, (hcont _ p y hp).2 hmem'⟩

/-- C12 on the triangle, split by the predicate that accepts handle 0 only: nodes 0 and 1 share
a patch, node 2 is alone. -/
theorem splitPatch_nodes_partition_witness :
    InvariantA triangleGraph trianglePatch ∧
    ∃ ps, SplitPatch triangleGraph trianglePatch (fun bh => bh == 0) = some ps ∧
      ps.length = 2 ∧
      (∀ v, Contains trianglePatch.uhs v = true →
        ∃! i, ∃ p, ps.get? i = some p ∧ Contains p.uhs v = true) ∧
      (∀ i p v, ps.get? i = some p → Contains p.uhs v = true →
        Contains trianglePatch.uhs v = true ∧ mapAt p.uhs v = mapAt trianglePatch.uhs v) ∧
      (∀ x y, Contains trianglePatch.uhs x = true → Contains trianglePatch.uhs y = true →
        ((∃ i p, ps.get? i = some p ∧ Contains p.uhs x = true ∧ Contains p.uhs y = true) ↔
          Relation.ReflTransGen (AcceptedPatchLink triangleGraph trianglePatch
            (fun bh => bh == 0)) x y)) := by
  have hval : SplitPatch triangleGraph trianglePatch (fun bh => bh == 0) =
      some [{ uhs := [(0, { vars := [], fixed := false }), (1, { vars := [], fixed := false })],
              bhs := [(0, { enabled := true })] },
            { uhs := [(2, { vars := [], fixed := false })], bhs := [] }] := by decide
  exact ⟨trianglePatch_invariantA, _, hval, rfl,
    splitPatch_nodes_partition triangleGraph trianglePatch (fun bh => bh == 0)
      trianglePatch_invariantA _ hval⟩

theorem triangleTree_enabled_connected : NodesConnectedEnabled triangleGraph triangleTree := by
  have l01 : EnabledPatchLink triangleGraph triangleTree 0 1 :=
    ⟨0, (0, 1), { enabled := true }, rfl, rfl, rfl, Or.inl ⟨rfl, rfl⟩⟩
  have l10 : EnabledPatchLink triangleGraph triangleTree 1 0 :=
    ⟨0, (0, 1), { enabled := true }, rfl, rfl, rfl, Or.inr ⟨rfl, rfl⟩⟩
  have l12 : EnabledPatchLink triangleGraph triangleTree 1 2 :=
    ⟨1, (1, 2), { enabled := true }, rfl, rfl, rfl, Or.inl ⟨rfl, rfl⟩⟩
  have l21 : EnabledPatchLink triangleGraph triangleTree 2 1 :=
    ⟨1, (1, 2), { enabled := true }, rfl, rfl, rfl, Or.inr ⟨rfl, rfl⟩⟩
  have hcases : ∀ v, Contains triangleTree.uhs v = true → v = 0 ∨ v = 1 ∨ v = 2 := by
    intro v hv
    by_contra hn
    push_neg at hn
    simp [triangleTree, trianglePatch, Contains, mapAt, Ne.symm hn.1, Ne.symm hn.2.1,
      Ne.symm hn.2.2] at hv
  have hto : ∀ v, Contains triangleTree.uhs v = true →
      Relation.ReflTransGen (EnabledPatchLink triangleGraph triangleTree) 0 v ∧
      Relation.ReflTransGen (EnabledPatchLink triangleGraph triangleTree) v 0 := by
    intro v hv
    rcases hcases v hv with rfl | rfl | rfl
    · exact ⟨Relation.ReflTransGen.refl, Relation.ReflTransGen.refl⟩
    · exact ⟨Relation.ReflTransGen.single l01, Relation.ReflTransGen.single l10⟩
    · exact ⟨(Relation.ReflTransGen.single l01).tail l12,
        (Relation.ReflTransGen.single l21).tail l10⟩
  intro x y hx hy
  exact (hto x hx).2.trans (hto y hy).1

/-- C13, the code at the failing input: the spanning tree of the triangle (handles 0 and 1 kept,
handle 2 discarded) satisfies Invariants A and B and covers only part of the graph; the last loop
of `SplitPatch` runs over the handles of the graph, handle 2 has both ends in one component, and
`patch.bhs.at(2)` throws. -/
theorem splitPatch_throws_on_partial_patch :
    MinimumSpanningTreePatch triangleGraph trianglePatch (fun a b => decide (a < b)) =
      some triangleTree ∧
    triangleTree.WF ∧ InvariantA triangleGraph triangleTree ∧
    NodesConnectedEnabled triangleGraph triangleTree ∧
    Contains triangleTree.bhs 2 = false ∧
    SplitPatch triangleGraph triangleTree (fun _ => true) = none := by
  refine ⟨by decide, ⟨by unfold KeysNodup; decide, by unfold KeysNodup; decide⟩, ?_,
    triangleTree_enabled_connected, by decide,
    by decide⟩
  apply invariantA_of_valid
  · decide
  · decide

/-- C14, the code at the failing input: around node 0 of the two-region graph, with a unary table
that binds node 0 to `([0,0,1], fixed)` and node 1 to `([1,1,1], free)`, the star patch binds the
opposite end, node 1, to the entry of node 0 (`unaryVars.at(uh)`), not to its own entry. -/
theorem makeStar_binds_centre_entry :
    MakeStarPatchAroundUnary overlapGraph 0 overlapPatch.uhs overlapPatch.bhs =
      some { uhs := [(0, { vars := [0, 0, 1], fixed := true }),
                     (1, { vars := [0, 0, 1], fixed := true })],
             bhs := [(0, { enabled := true })] } ∧
    mapAt overlapPatch.uhs 1 = some { vars := [1, 1, 1], fixed := false } ∧
    (∀ p, MakeStarPatchAroundUnary overlapGraph 0 overlapPatch.uhs overlapPatch.bhs = some p →
      mapAt p.uhs 1 ≠ mapAt overlapPatch.uhs 1) := by
  refine ⟨by decide, by decide, ?_⟩
  intro p hp
  have hval : MakeStarPatchAroundUnary overlapGraph 0 overlapPatch.uhs overlapPatch.bhs =
      some { uhs := [(0, { vars := [0, 0, 1], fixed := true }),
                     (1, { vars := [0, 0, 1], fixed := true })],
             bhs := [(0, { enabled := true })] } := by decide
  rw [hval] at hp
  have := Option.some.inj hp
  subst this
  decide

/-- C15: for every graph and every patch whose bound binary handles are handles of the graph,
`BinaryHandlesAreValidInPatch` returns true if and only if every binary handle bound in the
patch has both its ends bound in the patch (Invariant A). -/
theorem binaryHandlesAreValidInPatch_iff (mg : MixedGraph) (patch : MGPatch)
    (hlt : ∀ bh ∈ mapKeys patch.bhs, bh < mg.binaries.length) :
    BinaryHandlesAreValidInPatch mg patch = true ↔
      ∀ bh, Contains patch.bhs bh = true →
        ∃ ends, mg.lowers bh = some ends ∧ Contains patch.uhs ends.1 = true ∧
          Contains patch.uhs ends.2 = true := by
  constructor
  · exact invariantA_of_valid mg patch hlt
  · intro hA
    unfold BinaryHandlesAreValidInPatch
    rw [List.all_eq_true]
    intro bhv hmem
    have hk : bhv.1 ∈ mapKeys patch.bhs := List.mem_map.2 ⟨bhv, hmem, rfl⟩
    obtain ⟨ends, he, h1, h2⟩ := hA bhv.1 ((contains_iff_mem_keys _ _).2 hk)
    rw [lowersD_of_lowers mg bhv.1 ends he, h1, h2]
    rfl

/-- C15 on the triangle: the full patch is valid and the validator says so; the patch that binds
handle 0 without its end 1 is not valid and the validator returns false. -/
theorem binaryHandlesAreValidInPatch_iff_witness :
    (∀ bh ∈ mapKeys trianglePatch.bhs, bh < triangleGraph.binaries.length) ∧
    BinaryHandlesAreValidInPatch triangleGraph trianglePatch = true ∧
    (∀ bh, Contains trianglePatch.bhs bh = true →
      ∃ ends, triangleGraph.lowers bh = some ends ∧ Contains trianglePatch.uhs ends.1 = true ∧
        Contains trianglePatch.uhs ends.2 = true) ∧
    (∀ bh ∈ mapKeys danglingPatch.bhs, bh < triangleGraph.binaries.length) ∧
    BinaryHandlesAreValidInPatch triangleGraph danglingPatch = false ∧
    ¬ (∀ bh, Contains danglingPatch.bhs bh = true →
      ∃ ends, triangleGraph.lowers bh = some ends ∧ Contains danglingPatch.uhs ends.1 = true ∧
        Contains danglingPatch.uhs ends.2 = true) :=
  ⟨by decide, by decide,
    (binaryHandlesAreValidInPatch_iff triangleGraph trianglePatch (by decide)).1 (by decide),
    by decide, by decide,
    fun h => absurd ((binaryHandlesAreValidInPatch_iff triangleGraph danglingPatch
      (by decide)).2 h) (by decide)⟩

theorem boundNeighbors_eq (mg : MixedGraph) (patch : MGPatch) (uh : Nat) :
    boundNeighbors mg patch uh = patchNeighbors mg patch (fun _ => true) uh := by
  unfold boundNeighbors patchNeighbors
  congr 1
  funext neighbors bh
  by_cases h : Contains patch.bhs bh = true <;> simp [h]

theorem nbRel_boundNeighbors (mg : MixedGraph) (patch : MGPatch) :
    NbRel (boundNeighbors mg patch) = PatchLink mg patch := by
  funext x y
  apply propext
  unfold NbRel
  rw [boundNeighbors_eq, mem_patchNeighbors]
  constructor
  · rintro ⟨bh, ends, h1, -, h3, h4⟩
    exact ⟨bh, ends, h1, h3, h4⟩
  · rintro ⟨bh, ends, h1, h3, h4⟩
    exact ⟨bh, ends, h1, rfl, h3, h4⟩

theorem mapAt_foldl_set_false (l : List (Nat × MGUnaryVariable)) :
    ∀ (acc : List (Nat × Bool)) (k : Nat),
      mapAt (l.foldl (fun (visited : List (Nat × Bool)) uhv => mapSet visited uhv.1 false) acc) k
        = if k ∈ mapKeys l then some false else mapAt acc k := by
  induction l with
  | nil => intro acc k; simp [mapKeys]
  | cons e t ih =>
    intro acc k
    simp only [List.foldl_cons, ih, mapAt_mapSet, mapKeys, List.map_cons, List.mem_cons]
    by_cases h1 : k ∈ List.map Prod.fst t
    · simp [h1, mapKeys]
    · by_cases h2 : e.1 = k
      · simp [h2, mapKeys]
      · have : ¬ k = e.1 := fun h => h2 h.symm
        simp [h1, h2, this, mapKeys]

theorem mapAt_foldl_set_true (l : List Nat) :
    ∀ (acc : List (Nat × Bool)) (k : Nat),
      mapAt (l.foldl (fun (visited : List (Nat × Bool)) uh => mapSet visited uh true) acc) k
        = if k ∈ l then some true else mapAt acc k := by
  induction l with
  | nil => intro acc k; simp
  | cons e t ih =>
    intro acc k
    simp only [List.foldl_cons, ih, mapAt_mapSet, List.mem_cons]
    by_cases h1 : k ∈ t
    · simp [h1]
    · by_cases h2 : e = k
      · simp [h2]
      · have : ¬ k = e := fun h => h2 h.symm
        simp [h1, h2, this]

theorem keysNodup_foldl_mapSet {α : Type} (f : α → Nat) (b : Bool) (l : List α) :
    ∀ (acc : List (Nat × Bool)), KeysNodup acc →
      KeysNodup (l.foldl (fun (visited : List (Nat × Bool)) a => mapSet visited (f a) b) acc) := by
  induction l with
  | nil => intro acc h; exact h
  | cons e t ih =>
    intro acc h
    exact ih _ (keysNodup_mapSet acc (f e) b h)

theorem unariesAreConnected_spec (mg : MixedGraph) (patch : MGPatch) (hwf : mg.WF)
    (hnodes : ∀ v ∈ mapKeys patch.uhs, v < mg.unaries.length) :
    ∃ b, UnariesAreConnectedInPatch mg patch = some b ∧
      (b = true ↔ NodesConnected mg patch) := by
  cases hu : patch.uhs with
  | nil =>
    refine ⟨true, ?_, ?_⟩
    · simp [UnariesAreConnectedInPatch, hu, BreadthFirstSearch, mapKeys]
    · simp only [true_iff]
      intro x y hx
      rw [hu] at hx
      exact absurd hx (by simp [Contains, mapAt])
  | cons e rest =>
    have hkeys : mapKeys patch.uhs = e.1 :: mapKeys rest := by rw [hu]; rfl
    have hr : e.1 < mg.unaries.length := hnodes e.1 (by rw [hkeys]; exact List.mem_cons_self _ _)
    have hnb : ∀ x, ∀ y ∈ boundNeighbors mg patch x, y < mg.unaries.length := by
      intro x y hy
      rw [boundNeighbors_eq, mem_patchNeighbors] at hy
      obtain ⟨bh, ends, -, -, he, h⟩ := hy
      have := lowers_lt_of_wf mg hwf bh ends he
      rcases h with h | h
      · rw [← h.2]; exact this.2
      · rw [← h.2]; exact this.1
    have hsome := bfs_isSome (boundNeighbors mg patch) mg.unaries.length hnb
      (mg.unaries.length + 1) [e.1] [e.1] [] (by simp) (by simpa using hr) (by simp)
    obtain ⟨res, hres⟩ := Option.isSome_iff_exists.1 hsome
    obtain ⟨out, hout, -, hclosed, hreach, hmem⟩ := bfs_spec (boundNeighbors mg patch) [] e.1
      (mg.unaries.length + 1) [e.1] [e.1] [] res (by simp) (by simp) (by simp)
      (by
        intro x hx
        have : x = e.1 := by simpa using hx
        rw [this])
      hres
    simp only [List.nil_append] at hout hclosed hmem
    have hrout : e.1 ∈ out := hmem e.1 (by simp)
    have hcall : BreadthFirstSearch (mg.unaries.length + 1) (mapKeys patch.uhs)
        (boundNeighbors mg patch) = some out := by
      rw [hkeys]
      simp only [BreadthFirstSearch, hres, Option.map_some', hout]
    have hval : UnariesAreConnectedInPatch mg patch = some
        ((out.foldl (fun (visited : List (Nat × Bool)) uh => mapSet visited uh true)
          (patch.uhs.foldl (fun (visited : List (Nat × Bool)) uhv =>
            mapSet visited uhv.1 false) [])).all (fun v => v.2)) := by
      simp only [UnariesAreConnectedInPatch, hcall, Option.bind_eq_bind, Option.some_bind, pure]
    have hget : ∀ k, mapAt (out.foldl (fun (visited : List (Nat × Bool)) uh =>
          mapSet visited uh true)
          (patch.uhs.foldl (fun (visited : List (Nat × Bool)) uhv =>
            mapSet visited uhv.1 false) [])) k =
        if k ∈ out then some true else if k ∈ mapKeys patch.uhs then some false else none := by
      intro k
      rw [mapAt_foldl_set_true, mapAt_foldl_set_false]
      rfl
    have hnd : KeysNodup (out.foldl (fun (visited : List (Nat × Bool)) uh =>
          mapSet visited uh true)
          (patch.uhs.foldl (fun (visited : List (Nat × Bool)) uhv =>
            mapSet visited uhv.1 false) [])) :=
      keysNodup_foldl_mapSet (fun uh => uh) true out _
        (keysNodup_foldl_mapSet (fun uhv : Nat × MGUnaryVariable => uhv.1) false patch.uhs []
          (by simp [KeysNodup, mapKeys]))
    have hall : (out.foldl (fun (visited : List (Nat × Bool)) uh => mapSet visited uh true)
          (patch.uhs.foldl (fun (visited : List (Nat × Bool)) uhv =>
            mapSet visited uhv.1 false) [])).all (fun v => v.2) = true ↔
        ∀ k ∈ mapKeys patch.uhs, k ∈ out := by
      rw [List.all_eq_true]
      constructor
      · intro h k hk
        by_contra hno
        have hm := hget k
        rw [if_neg hno, if_pos hk] at hm
        have := h (k, false) (mem_of_mapAt_eq_some _ k false hm)
        exact Bool.false_ne_true this
      · intro h kv hkv
        have hm := mapAt_eq_some_of_mem _ hnd kv.1 kv.2 hkv
        rw [hget kv.1] at hm
        by_cases h1 : kv.1 ∈ out
        · rw [if_pos h1] at hm
          exact (Option.some.inj hm).symm
        · rw [if_neg h1] at hm
          by_cases h2 : kv.1 ∈ mapKeys patch.uhs
          · exact absurd (h kv.1 h2) h1
          · rw [if_neg h2] at hm
            exact Option.noConfusion hm
    have hsymm : ∀ x y, y ∈ boundNeighbors mg patch x → x ∈ boundNeighbors mg patch y := by
      intro x y h
      rw [boundNeighbors_eq] at h ⊢
      exact patchNeighbors_symm mg patch _ x y h
    refine ⟨_, hval, ?_⟩
    rw [hall]
    constructor
    · intro h x y hx hy
      have hx' := hreach x (h x ((contains_iff_mem_keys _ _).1 hx))
      have hy' := hreach y (h y ((contains_iff_mem_keys _ _).1 hy))
      have := (reach_symm _ hsymm _ _ hx').trans hy'
      rw [nbRel_boundNeighbors] at this
      exact this
    · intro h k hk
      have hrk := h e.1 k
        ((contains_iff_mem_keys _ _).2 (by rw [hkeys]; exact List.mem_cons_self _ _))
        ((contains_iff_mem_keys _ _).2 hk)
      rw [← nbRel_boundNeighbors] at hrk
      exact reach_closed (boundNeighbors mg patch) (· ∈ out) hclosed e.1 k hrk hrout

/-- C16 as stated fails: the two-node patch whose only binary handle is bound disabled satisfies
Invariant A, its nodes are two components under the enabled handles, and
`UnariesAreConnectedInPatch` returns true. -/
theorem unariesAreConnected_ignores_enabled :
    InvariantA twoNodeGraph disabledEdgePatch ∧
    ¬ NodesConnectedEnabled twoNodeGraph disabledEdgePatch ∧
    UnariesAreConnectedInPatch twoNodeGraph disabledEdgePatch = some true := by
  refine ⟨?_, ?_, by decide⟩
  · apply invariantA_of_valid
    · decide
    · decide
  · intro h
    have h01 := h 0 1 (by decide) (by decide)
    rcases Relation.ReflTransGen.cases_head h01 with h | ⟨c, hc, -⟩
    · exact absurd h (by decide)
    · exact no_enabledPatchLink_disabled 0 c hc

/-- C16 (amended): on a well-formed graph, for every patch of graph nodes,
`UnariesAreConnectedInPatch` returns, and it returns true if and only if the nodes of the patch
are a single connected component under the binary handles bound in the patch, enabled or not;
it returns false when they fall into two or more such components. -/
theorem unariesAreConnected_iff (mg : MixedGraph) (patch : MGPatch) (hwf : mg.WF)
    (hnodes : ∀ v ∈ mapKeys patch.uhs, v < mg.unaries.length) (_hA : InvariantA mg patch) :
    ∃ b, UnariesAreConnectedInPatch mg patch = some b ∧
      (b = true ↔ NodesConnected mg patch) ∧
      (b = false ↔ ∃ x y, Contains patch.uhs x = true ∧ Contains patch.uhs y = true ∧
        ¬ Relation.ReflTransGen (PatchLink mg patch) x y) := by
  obtain ⟨b, hb, hiff⟩ := unariesAreConnected_spec mg patch hwf hnodes
  refine ⟨b, hb, hiff, ?_⟩
  constructor
  · intro hf
    by_contra hno
    have : NodesConnected mg patch := by
      intro x y hx hy
      by_contra hxy
      exact hno ⟨x, y, hx, hy, hxy⟩
    rw [hiff.2 this] at hf
    exact Bool.noConfusion hf
  · rintro ⟨x, y, hx, hy, hxy⟩
    cases hbv : b with
    | false => rfl
    | true => exact absurd (hiff.1 hbv x y hx hy) hxy

/-- C16 (amended) on the triangle: the full patch is connected and the validator returns true;
with handle 0 alone node 2 is cut off and the validator returns false. -/
theorem unariesAreConnected_iff_witness :
    triangleGraph.WF ∧
    (∀ v ∈ mapKeys trianglePatch.uhs, v < triangleGraph.unaries.length) ∧
    InvariantA triangleGraph trianglePatch ∧
    (∀ v ∈ mapKeys splitTrianglePatch.uhs, v < triangleGraph.unaries.length) ∧
    InvariantA triangleGraph splitTrianglePatch ∧
    UnariesAreConnectedInPatch triangleGraph trianglePatch = some true ∧
    NodesConnected triangleGraph trianglePatch ∧
    UnariesAreConnectedInPatch triangleGraph splitTrianglePatch = some false ∧
    ¬ NodesConnected triangleGraph splitTrianglePatch := by
  have hA2 : InvariantA triangleGraph splitTrianglePatch := by
    apply invariantA_of_valid
    · decide
    · decide
  obtain ⟨b1, h1, h1t, -⟩ := unariesAreConnected_iff triangleGraph trianglePatch (by decide)
    (by decide) trianglePatch_invariantA
  obtain ⟨b2, h2, h2t, -⟩ := unariesAreConnected_iff triangleGraph splitTrianglePatch (by decide)
    (by decide) hA2
  have e1 : UnariesAreConnectedInPatch triangleGraph trianglePatch = some true := by decide
  have e2 : UnariesAreConnectedInPatch triangleGraph splitTrianglePatch = some false := by decide
  rw [e1] at h1
  rw [e2] at h2
  have hb1 : b1 = true := (Option.some.inj h1).symm
  have hb2 : b2 = false := (Option.some.inj h2).symm
  refine ⟨by decide, by decide, trianglePatch_invariantA, by decide, hA2, e1, h1t.1 hb1, e2, ?_⟩
  intro hc
  rw [h2t.2 hc] at hb2
  exact Bool.noConfusion hb2

/-! ## Claims on the inverse-depth model, the importance ratios and the equations -/

theorem coeffs_length (geo : Geometry) (self : MGUnaryVariable) (d : Vec3) (unary : MGUnary)
    (vps : List Vec3) :
    (self.variableCoeffsForInverseDepthAtDirection geo d unary vps).length =
      paramCount unary.type := by
  unfold MGUnaryVariable.variableCoeffsForInverseDepthAtDirection paramCount
  cases unary.type <;> rfl

theorem inverseDepth_dot (geo : Geometry) (self : MGUnaryVariable) (d : Vec3) (unary : MGUnary)
    (vps : List Vec3) (hlen : self.vars.length = paramCount unary.type) :
    self.inverseDepthAtDirection geo d unary vps =
      some (listDot (self.variableCoeffsForInverseDepthAtDirection geo d unary vps) self.vars) := by
  unfold MGUnaryVariable.inverseDepthAtDirection
    MGUnaryVariable.variableCoeffsForInverseDepthAtDirection
  unfold paramCount at hlen
  cases ht : unary.type with
  | Region =>
    rw [ht] at hlen
    simp only at hlen
    match hv : self.vars, hlen with
    | [a, b, c], _ =>
      simp only [List.get?_cons_zero, List.get?_cons_succ, Option.bind_eq_bind,
        Option.some_bind, pure, listDot, List.zip_cons_cons, List.zip_nil_right, List.map_cons,
        List.map_nil, List.sum_cons, List.sum_nil, Option.some.injEq]
      ring
  | Line =>
    rw [ht] at hlen
    simp only at hlen
    match hv : self.vars, hlen with
    | [a], _ =>
      simp only [List.get?_cons_zero, Option.bind_eq_bind,
        Option.some_bind, pure, listDot, List.zip_cons_cons, List.zip_nil_right, List.map_cons,
        List.map_nil, List.sum_cons, List.sum_nil, Option.some.injEq]
      ring

/-- C17: for every unary element (region or line), every binding with the parameter count of
its kind and every direction `d`, `inverseDepthAtDirection(d)` is the dot product of
`variableCoeffsForInverseDepthAtDirection(d)` with the parameters; the coefficient vector has as
many entries as the parameter vector (3 for a region, 1 for a line) and is the same for every
binding (it does not depend on the parameter values); for a region it is the three coordinates
of `d`. -/
theorem inverseDepth_linear (geo : Geometry) (self : MGUnaryVariable) (d : Vec3)
    (unary : MGUnary) (vps : List Vec3) (hlen : self.vars.length = paramCount unary.type) :
    self.inverseDepthAtDirection geo d unary vps =
      some (listDot (self.variableCoeffsForInverseDepthAtDirection geo d unary vps) self.vars) ∧
    (self.variableCoeffsForInverseDepthAtDirection geo d unary vps).length = self.vars.length ∧
    (unary.type = MGUnaryType.Region → self.vars.length = 3) ∧
    (unary.type = MGUnaryType.Line → self.vars.length = 1) ∧
    (∀ other : MGUnaryVariable,
      other.variableCoeffsForInverseDepthAtDirection geo d unary vps =
        self.variableCoeffsForInverseDepthAtDirection geo d unary vps) ∧
    (unary.type = MGUnaryType.Region →
      self.variableCoeffsForInverseDepthAtDirection geo d unary vps = [d.1, d.2.1, d.2.2]) := by
  refine ⟨inverseDepth_dot geo self d unary vps hlen, ?_, ?_, ?_, fun _ => rfl, ?_⟩
  · rw [coeffs_length, hlen]
  · intro ht
    rw [hlen, ht]
    rfl
  · intro ht
    rw [hlen, ht]
    rfl
  · intro ht
    unfold MGUnaryVariable.variableCoeffsForInverseDepthAtDirection
    rw [ht]

/-- C17 on a region bound to the plane `z = 1` and on a line bound to inverse centre depth 2,
both at the direction `(1, 0, 0)`. -/
theorem inverseDepth_linear_witness :
    ({ vars := [0, 0, 1], fixed := true } : MGUnaryVariable).vars.length =
      paramCount exUnary.type ∧
    MGUnaryVariable.inverseDepthAtDirection exGeometry { vars := [0, 0, 1], fixed := true }
      (1, 0, 0) exUnary [] =
      some (listDot (MGUnaryVariable.variableCoeffsForInverseDepthAtDirection exGeometry
        { vars := [0, 0, 1], fixed := true } (1, 0, 0) exUnary []) [0, 0, 1]) ∧
    MGUnaryVariable.variableCoeffsForInverseDepthAtDirection exGeometry
      { vars := [0, 0, 1], fixed := true } (1, 0, 0) exUnary [] = [1, 0, 0] ∧
    ({ vars := [2], fixed := false } : MGUnaryVariable).vars.length = paramCount exLine.type ∧
    MGUnaryVariable.inverseDepthAtDirection exGeometry { vars := [2], fixed := false }
      (1, 0, 0) exLine [(0, 0, 1)] =
      some (listDot (MGUnaryVariable.variableCoeffsForInverseDepthAtDirection exGeometry
        { vars := [2], fixed := false } (1, 0, 0) exLine [(0, 0, 1)]) [2]) :=
  ⟨rfl,
    (inverseDepth_linear exGeometry { vars := [0, 0, 1], fixed := true } (1, 0, 0) exUnary []
      rfl).1,
    (inverseDepth_linear exGeometry { vars := [0, 0, 1], fixed := true } (1, 0, 0) exUnary []
      rfl).2.2.2.2.2 rfl,
    rfl,
    (inverseDepth_linear exGeometry { vars := [2], fixed := false } (1, 0, 0) exLine [(0, 0, 1)]
      rfl).1⟩

theorem buildMixedGraph_overlap :
    BuildMixedGraph overlapGraph [] = some (overlapGraph, [(0, { enabled := true })]) := by
  have hs : unaryWeightSums overlapGraph = some [8, 8] := by
    simp [unaryWeightSums, overlapGraph, vecModify, MGBinary.anchorWeight, exOverlap]
    norm_num
  have h8 : exOverlap.anchorWeight = 8 := by
    simp [MGBinary.anchorWeight, exOverlap]
    norm_num
  have hb : ({ exOverlap with importanceRatioInRelatedUnaries :=
      (exOverlap.anchorWeight / 8, exOverlap.anchorWeight / 8) } : MGBinary) = exOverlap := by
    rw [h8]
    simp [exOverlap]
  have hbin : overlapGraph.binaries = [(exOverlap, (0, 1))] := rfl
  unfold BuildMixedGraph
  rw [hs]
  simp only [Option.bind_eq_bind, Option.some_bind, hbin,
    List.mapM_cons, List.mapM_nil, List.get?_cons_zero, List.get?_cons_succ, pure, hb]
  rfl

/-- C18, the code at the failing input: for one view with one region and no relation the graph
has one node and no binary element; `BuildMixedGraph` returns it unchanged, and the importance
ratios of the binary elements around node 0 sum to `0` (the empty sum), not to `1`, and not
within `0.01` of `1` as the debug assertion of the function demands for every node. On the
two-region graph the same pass gives both ratios of the only binary element the value 1, and
the sum at each node is 1. -/
theorem importance_ratios_of_isolated_node :
    BuildMixedGraph isolatedRegionGraph [] = some (isolatedRegionGraph, []) ∧
    importanceRatioSum isolatedRegionGraph 0 = 0 ∧
    importanceRatioSum isolatedRegionGraph 0 ≠ 1 ∧
    ¬ |importanceRatioSum isolatedRegionGraph 0 - 1| ≤ 1 / 100 ∧
    BuildMixedGraph overlapGraph [] = some (overlapGraph, [(0, { enabled := true })]) ∧
    importanceRatioSum overlapGraph 0 = 1 ∧ importanceRatioSum overlapGraph 1 = 1 := by
  have h0 : importanceRatioSum isolatedRegionGraph 0 = 0 := by decide
  refine ⟨by decide, h0, ?_, ?_, buildMixedGraph_overlap, ?_, ?_⟩
  · rw [h0]; norm_num
  · rw [h0]; norm_num
  · have hu : overlapGraph.uppers 0 = [0] := by decide
    have hg : overlapGraph.binaries[0]? = some (exOverlap, (0, 1)) := rfl
    simp [importanceRatioSum, hu, hg, exOverlap]
  · have hu : overlapGraph.uppers 1 = [0] := by decide
    have hg : overlapGraph.binaries[0]? = some (exOverlap, (0, 1)) := rfl
    simp [importanceRatioSum, hu, hg, exOverlap]

/-! ## The rows of the least-squares system -/

section RowEquations

open MGPatchDepthsOptimizerInternalEigen

theorem insert_spec (M M' : SparseMatrix) (r c : Nat) (v : ℚ) (h : M.insert r c v = some M') :
    M'.entries = M.entries ++ [(r, c, v)] ∧ M'.rows = M.rows ∧ M'.cols = M.cols := by
  unfold SparseMatrix.insert at h
  split at h
  · simp only [Option.some.injEq] at h
    subst h
    exact ⟨rfl, rfl, rfl⟩
  · exact Option.noConfusion h

theorem insertCoeffs_spec_aux (eid start : Nat) (sign : ℚ) (coeffs : List ℚ) :
    ∀ (is : List Nat) (A A' : SparseMatrix),
      is.foldlM (fun (A : SparseMatrix) i =>
        A.insert eid (start + i) (sign * coeffs.getD i 0)) A = some A' →
      A'.entries = A.entries ++ is.map (fun i => (eid, start + i, sign * coeffs.getD i 0)) := by
  intro is
  induction is with
  | nil =>
    intro A A' h
    simp only [List.foldlM_nil, pure, Option.some.injEq] at h
    subst h
    simp
  | cons i t ih =>
    intro A A' h
    simp only [List.foldlM_cons, Option.bind_eq_bind, Option.bind_eq_some] at h
    obtain ⟨A1, h1, h2⟩ := h
    rw [ih A1 A' h2, (insert_spec A A1 _ _ _ h1).1]
    simp

theorem insertCoeffs_spec (A A' : SparseMatrix) (eid start : Nat) (sign : ℚ) (coeffs : List ℚ)
    (h : insertCoeffs A eid start sign coeffs = some A') :
    A'.entries = A.entries ++
      (List.range coeffs.length).map (fun i => (eid, start + i, sign * coeffs.getD i 0)) :=
  insertCoeffs_spec_aux eid start sign coeffs _ A A' h

theorem entriesDot_append (E1 E2 : List (Nat × Nat × ℚ)) (x : List ℚ) :
    entriesDot (E1 ++ E2) x = entriesDot E1 x + entriesDot E2 x := by
  simp [entriesDot]

theorem vecSet_spec (B B' : List ℚ) (i : Nat) (v : ℚ) (h : vecSet B i v = some B') :
    i < B.length ∧ B'.length = B.length ∧ B'.getD i 0 = v ∧
      ∀ r, r ≠ i → B'.getD r 0 = B.getD r 0 := by
  unfold vecSet at h
  split at h
  · rename_i hlt
    simp only [Option.some.injEq] at h
    subst h
    refine ⟨hlt, by simp, ?_, ?_⟩
    · simp [List.getD_eq_getElem?_getD, List.getElem?_set, hlt]
    · intro r hr
      have : ¬ i = r := fun e => hr e.symm
      simp [List.getD_eq_getElem?_getD, List.getElem?_set, this]
  · exact Option.noConfusion h

/-- The coefficients that `insertCoeffs` writes for an end of a relation, applied to a candidate
vector, are the inverse depth of that end read from its slice of the candidate. -/
theorem coeffs_entries_dot (geo : Geometry) (vps : List Vec3) (uVar : MGUnaryVariable)
    (u : MGUnary) (a : Vec3) (eid start : Nat) (sign : ℚ) (x : List ℚ)
    (hlen : uVar.vars.length = paramCount u.type) :
    ∃ d, MGUnaryVariable.inverseDepthAtDirection geo
        { uVar with vars := sliceOf x start uVar.vars.length } a u vps = some d ∧
      entriesDot ((List.range
        (uVar.variableCoeffsForInverseDepthAtDirection geo a u vps).length).map
          (fun i => (eid, start + i,
            sign * (uVar.variableCoeffsForInverseDepthAtDirection geo a u vps).getD i 0))) x =
        sign * d := by
  unfold paramCount at hlen
  unfold MGUnaryVariable.inverseDepthAtDirection
    MGUnaryVariable.variableCoeffsForInverseDepthAtDirection
  cases ht : u.type with
  | Region =>
    rw [ht] at hlen
    simp only at hlen
    rw [hlen]
    refine ⟨_, rfl, ?_⟩
    simp [entriesDot, List.range_succ, sliceOf]
    ring
  | Line =>
    rw [ht] at hlen
    simp only at hlen
    rw [hlen]
    refine ⟨_, rfl, ?_⟩
    simp [entriesDot, List.range_succ, sliceOf]
    ring

theorem filter_row_lt (E : List (Nat × Nat × ℚ)) (eid r : Nat) (h : ∀ e ∈ E, e.1 < eid)
    (hr : eid ≤ r) : E.filter (fun e => e.1 == r) = [] := by
  rw [List.filter_eq_nil_iff]
  intro e he
  have := h e he
  simp only [beq_iff_eq]
  omega

theorem filter_row_same (N : List (Nat × Nat × ℚ)) (eid : Nat) (h : ∀ e ∈ N, e.1 = eid) :
    N.filter (fun e => e.1 == eid) = N := by
  rw [List.filter_eq_self]
  intro e he
  simp [h e he]

theorem filter_row_other (N : List (Nat × Nat × ℚ)) (eid r : Nat) (h : ∀ e ∈ N, e.1 = eid)
    (hr : r ≠ eid) : N.filter (fun e => e.1 == r) = [] := by
  rw [List.filter_eq_nil_iff]
  intro e he
  simp only [beq_iff_eq, h e he]
  exact fun e => hr e.symm

theorem coeff_rows (eid start : Nat) (sign : ℚ) (coeffs : List ℚ) :
    ∀ e ∈ (List.range coeffs.length).map (fun i => (eid, start + i, sign * coeffs.getD i 0)),
      e.1 = eid := by
  intro e he
  obtain ⟨i, -, rfl⟩ := List.mem_map.1 he
  rfl

/-- What one call of `writeAnchorEquation` adds to the system. -/
theorem writeAnchorEquation_entries (geo : Geometry) (vps : List Vec3) (weight : ℚ)
    (u1 u2 : MGUnary) (u1Var u2Var : MGUnaryVariable) (uh2var : List (MGUnaryHandle × Nat))
    (ends : Nat × Nat) (eq eq' : Equations) (a : Vec3)
    (hnot : ¬ (mapAt uh2var ends.1 = none ∧ mapAt uh2var ends.2 = none))
    (h : writeAnchorEquation geo vps weight u1 u2 u1Var u2Var (mapAt uh2var ends.1)
      (mapAt uh2var ends.2) eq a = some eq') :
    ∃ (N : List (Nat × Nat × ℚ)) (bval : ℚ),
      eq'.A.entries = eq.A.entries ++ N ∧
      eq'.W.entries = eq.W.entries ++ [(eq.eid, eq.eid, weight)] ∧
      eq'.eid = eq.eid + 1 ∧ eq'.B.getD eq.eid 0 = bval ∧
      (∀ r, r ≠ eq.eid → eq'.B.getD r 0 = eq.B.getD r 0) ∧
      (∀ e ∈ N, e.1 = eq.eid) ∧
      (((mapAt uh2var ends.1).isSome = true → u1Var.vars.length = paramCount u1.type) →
      ((mapAt uh2var ends.2).isSome = true → u2Var.vars.length = paramCount u2.type) →
      ∀ x : List ℚ, ∃ d1 d2,
        candidateInverseDepth geo vps uh2var x ends.1 u1 u1Var a = some d1 ∧
        candidateInverseDepth geo vps uh2var x ends.2 u2 u2Var a = some d2 ∧
        entriesDot N x - bval = d1 - d2) := by
  unfold writeAnchorEquation at h
  simp only [Option.bind_eq_bind, Option.bind_eq_some] at h
  obtain ⟨B0, hB0, W', hW', h⟩ := h
  obtain ⟨hlt, -, hB0v, hB0o⟩ := vecSet_spec _ _ _ _ hB0
  have hWe := (insert_spec _ _ _ _ _ hW').1
  cases hs1 : mapAt uh2var ends.1 with
  | none =>
    cases hs2 : mapAt uh2var ends.2 with
    | none => exact absurd ⟨hs1, hs2⟩ hnot
    | some s2 =>
      rw [hs1, hs2] at h
      simp only [Option.bind_eq_bind, Option.bind_eq_some, pure, Option.some.injEq,
        Prod.exists, Prod.mk.injEq] at h
      obtain ⟨A1, B1, ⟨inv1, hinv1, B1', hB1', hA1, hB1⟩, A2, B2, ⟨A2', hA2', hA2, hB2⟩, rfl⟩ := h
      subst hA1 hB1 hA2 hB2
      obtain ⟨-, -, hB1v, hB1o⟩ := vecSet_spec _ _ _ _ hB1'
      have hAe := insertCoeffs_spec _ _ _ _ _ _ hA2'
      refine ⟨_, -inv1, hAe, hWe, rfl, hB1v, ?_, coeff_rows _ _ _ _, ?_⟩
      · intro r hr
        simp only
        rw [hB1o r hr, hB0o r hr]
      · intro hc1 hc2 x
        obtain ⟨d2, hd2, hdot⟩ := coeffs_entries_dot geo vps u2Var u2 a eq.eid s2 (-1) x
          (hc2 rfl)
        refine ⟨inv1, d2, ?_, ?_, ?_⟩
        · simp only [candidateInverseDepth, hs1]
          exact hinv1
        · simp only [candidateInverseDepth, hs2]
          exact hd2
        · rw [hdot]
          ring
  | some s1 =>
    cases hs2 : mapAt uh2var ends.2 with
    | none =>
      rw [hs1, hs2] at h
      simp only [Option.bind_eq_bind, Option.bind_eq_some, pure, Option.some.injEq,
        Prod.exists, Prod.mk.injEq] at h
      obtain ⟨A1, B1, ⟨A1', hA1', hA1, hB1⟩, A2, B2, ⟨inv2, hinv2, B2', hB2', hA2, hB2⟩, rfl⟩ := h
      subst hA1 hB1 hA2 hB2
      obtain ⟨-, -, hB2v, hB2o⟩ := vecSet_spec _ _ _ _ hB2'
      have hAe := insertCoeffs_spec _ _ _ _ _ _ hA1'
      refine ⟨_, inv2, hAe, hWe, rfl, hB2v, ?_, coeff_rows _ _ _ _, ?_⟩
      · intro r hr
        simp only
        rw [hB2o r hr, hB0o r hr]
      · intro hc1 hc2 x
        obtain ⟨d1, hd1, hdot⟩ := coeffs_entries_dot geo vps u1Var u1 a eq.eid s1 1 x
          (hc1 rfl)
        refine ⟨d1, inv2, ?_, ?_, ?_⟩
        · simp only [candidateInverseDepth, hs1]
          exact hd1
        · simp only [candidateInverseDepth, hs2]
          exact hinv2
        · rw [hdot]
          ring
    | some s2 =>
      rw [hs1, hs2] at h
      simp only [Option.bind_eq_bind, Option.bind_eq_some, pure, Option.some.injEq,
        Prod.exists, Prod.mk.injEq] at h
      obtain ⟨A1, B1, ⟨A1', hA1', hA1, hB1⟩, A2, B2, ⟨A2', hA2', hA2, hB2⟩, rfl⟩ := h
      subst hA1 hB1 hA2 hB2
      have hAe1 := insertCoeffs_spec _ _ _ _ _ _ hA1'
      have hAe2 := insertCoeffs_spec _ _ _ _ _ _ hA2'
      rw [hAe1, List.append_assoc] at hAe2
      refine ⟨_, 0, hAe2, hWe, rfl, hB0v, ?_, ?_, ?_⟩
      · intro r hr
        exact hB0o r hr
      · intro e he
        rcases List.mem_append.1 he with he | he
        · exact coeff_rows _ _ _ _ e he
        · exact coeff_rows _ _ _ _ e he
      · intro hc1 hc2 x
        obtain ⟨d1, hd1, hdot1⟩ := coeffs_entries_dot geo vps u1Var u1 a eq.eid s1 1 x
          (hc1 rfl)
        obtain ⟨d2, hd2, hdot2⟩ := coeffs_entries_dot geo vps u2Var u2 a eq.eid s2 (-1) x
          (hc2 rfl)
        refine ⟨d1, d2, ?_, ?_, ?_⟩
        · simp only [candidateInverseDepth, hs1]
          exact hd1
        · simp only [candidateInverseDepth, hs2]
          exact hd2
        · rw [entriesDot_append, hdot1, hdot2]
          ring

theorem writeAnchorEquation_row (geo : Geometry) (vps : List Vec3) (weight : ℚ)
    (u1 u2 : MGUnary) (u1Var u2Var : MGUnaryVariable) (uh2var : List (MGUnaryHandle × Nat))
    (ends : Nat × Nat) (eq eq' : Equations) (a : Vec3)
    (hA : ∀ e ∈ eq.A.entries, e.1 < eq.eid) (hW : ∀ e ∈ eq.W.entries, e.1 < eq.eid)
    (hnot : ¬ (mapAt uh2var ends.1 = none ∧ mapAt uh2var ends.2 = none))
    (h : writeAnchorEquation geo vps weight u1 u2 u1Var u2Var (mapAt uh2var ends.1)
      (mapAt uh2var ends.2) eq a = some eq') :
    eq'.eid = eq.eid + 1 ∧
    (∀ e ∈ eq'.A.entries, e.1 < eq'.eid) ∧ (∀ e ∈ eq'.W.entries, e.1 < eq'.eid) ∧
    (∀ r, r < eq.eid → eq'.row r = eq.row r) ∧
    (((mapAt uh2var ends.1).isSome = true → u1Var.vars.length = paramCount u1.type) →
    ((mapAt uh2var ends.2).isSome = true → u2Var.vars.length = paramCount u2.type) →
    RowEquation geo vps uh2var weight ends u1 u2 u1Var u2Var a eq.eid (eq'.row eq.eid)) := by
  obtain ⟨N, bval, hAe, hWe, heid, hBv, hBo, hN, hx⟩ :=
    writeAnchorEquation_entries geo vps weight u1 u2 u1Var u2Var uh2var ends eq eq' a hnot h
  refine ⟨heid, ?_, ?_, ?_, ?_⟩
  · intro e he
    rw [hAe] at he
    rw [heid]
    rcases List.mem_append.1 he with he | he
    · exact Nat.lt_succ_of_lt (hA e he)
    · rw [hN e he]; exact Nat.lt_succ_self _
  · intro e he
    rw [hWe] at he
    rw [heid]
    rcases List.mem_append.1 he with he | he
    · exact Nat.lt_succ_of_lt (hW e he)
    · have : e = (eq.eid, eq.eid, weight) := by simpa using he
      rw [this]; exact Nat.lt_succ_self _
  · intro r hr
    have hne : r ≠ eq.eid := Nat.ne_of_lt hr
    unfold Equations.row
    rw [hAe, hWe, List.filter_append, List.filter_append, filter_row_other N eq.eid r hN hne,
      filter_row_other [(eq.eid, eq.eid, weight)] eq.eid r (by simp) hne, hBo r hne]
    simp
  · intro hc1 hc2
    refine ⟨?_, ?_⟩
    · unfold Equations.row
      rw [hWe, List.filter_append, filter_row_lt eq.W.entries eq.eid eq.eid hW (Nat.le_refl _),
        filter_row_same [(eq.eid, eq.eid, weight)] eq.eid (by simp)]
      exact rfl
    · intro x
      obtain ⟨d1, d2, h1, h2, h3⟩ := hx hc1 hc2 x
      refine ⟨d1, d2, h1, h2, ?_⟩
      unfold Equations.row
      simp only
      rw [hAe, List.filter_append, filter_row_lt eq.A.entries eq.eid eq.eid hA (Nat.le_refl _),
        filter_row_same N eq.eid hN, List.nil_append, hBv]
      exact h3

theorem rowEquation_congr (geo : Geometry) (vps : List Vec3)
    (uh2var : List (MGUnaryHandle × Nat)) (weight : ℚ) (ends : Nat × Nat) (u1 u2 : MGUnary)
    (u1Var u2Var : MGUnaryVariable) (a : Vec3) (r : Nat)
    (row row' : List (Nat × Nat × ℚ) × List (Nat × Nat × ℚ) × ℚ) (he : row' = row)
    (h : RowEquation geo vps uh2var weight ends u1 u2 u1Var u2Var a r row) :
    RowEquation geo vps uh2var weight ends u1 u2 u1Var u2Var a r row' := by
  rw [he]; exact h

/-- The rows that the loop over the anchors of one relation writes. -/
theorem writeAnchors_rows (geo : Geometry) (vps : List Vec3) (weight : ℚ)
    (u1 u2 : MGUnary) (u1Var u2Var : MGUnaryVariable) (uh2var : List (MGUnaryHandle × Nat))
    (ends : Nat × Nat)
    (hnot : ¬ (mapAt uh2var ends.1 = none ∧ mapAt uh2var ends.2 = none)) :
    ∀ (anchors : List Vec3) (eq eq' : Equations),
      (∀ e ∈ eq.A.entries, e.1 < eq.eid) → (∀ e ∈ eq.W.entries, e.1 < eq.eid) →
      anchors.foldlM (writeAnchorEquation geo vps weight u1 u2 u1Var u2Var
        (mapAt uh2var ends.1) (mapAt uh2var ends.2)) eq = some eq' →
      eq'.eid = eq.eid + anchors.length ∧
      (∀ e ∈ eq'.A.entries, e.1 < eq'.eid) ∧ (∀ e ∈ eq'.W.entries, e.1 < eq'.eid) ∧
      (∀ r, r < eq.eid → eq'.row r = eq.row r) ∧
      (((mapAt uh2var ends.1).isSome = true → u1Var.vars.length = paramCount u1.type) →
      ((mapAt uh2var ends.2).isSome = true → u2Var.vars.length = paramCount u2.type) →
      ∀ k a, anchors.get? k = some a →
        RowEquation geo vps uh2var weight ends u1 u2 u1Var u2Var a (eq.eid + k)
          (eq'.row (eq.eid + k))) := by
  intro anchors
  induction anchors with
  | nil =>
    intro eq eq' hA hW h
    simp only [List.foldlM_nil, pure, Option.some.injEq] at h
    subst h
    exact ⟨rfl, hA, hW, fun _ _ => rfl, by simp⟩
  | cons a0 rest ih =>
    intro eq eq' hA hW h
    simp only [List.foldlM_cons, Option.bind_eq_bind, Option.bind_eq_some] at h
    obtain ⟨eq1, h1, h2⟩ := h
    obtain ⟨e1, a1, w1, f1, r1⟩ := writeAnchorEquation_row geo vps weight u1 u2 u1Var u2Var
      uh2var ends eq eq1 a0 hA hW hnot h1
    obtain ⟨e2, a2, w2, f2, r2⟩ := ih eq1 eq' a1 w1 h2
    refine ⟨by rw [e2, e1, List.length_cons]; omega, a2, w2, ?_, ?_⟩
    · intro r hr
      rw [f2 r (by rw [e1]; omega), f1 r hr]
    · intro hc1 hc2 k a hk
      cases k with
      | zero =>
        simp only [List.get?_cons_zero, Option.some.injEq] at hk
        subst hk
        exact rowEquation_congr _ _ _ _ _ _ _ _ _ _ _ _ _
          (f2 eq.eid (by rw [e1]; exact Nat.lt_succ_self _)) (r1 hc1 hc2)
      | succ k =>
        simp only [List.get?_cons_succ] at hk
        have := r2 hc1 hc2 k a hk
        rw [e1] at this
        have he : eq.eid + (k + 1) = eq.eid + 1 + k := by omega
        rw [he]
        exact this

theorem countConstraints_eq (geo : Geometry) (mg : MixedGraph) (patch : MGPatch)
    (uh2var : List (MGUnaryHandle × Nat)) (hasFixedUnary : Bool) :
    countConstraints geo mg patch uh2var hasFixedUnary =
      patch.bhs.foldlM (countStep geo mg uh2var) ([], [], if !hasFixedUnary then 1 else 0) :=
  rfl

theorem writeBinaryEquations_eq (geo : Geometry) (mg : MixedGraph) (patch : MGPatch)
    (vps : List Vec3) (uh2var : List (MGUnaryHandle × Nat))
    (applied : List (MGBinaryHandle × List Vec3)) (eq : Equations) :
    writeBinaryEquations geo mg patch vps uh2var applied eq =
      patch.bhs.foldlM (writeStep geo mg patch vps uh2var applied) eq :=
  rfl

theorem contains_false_iff {β : Type} (m : List (Nat × β)) (k : Nat) :
    Contains m k = false ↔ mapAt m k = none := by
  unfold Contains
  cases mapAt m k <;> simp

theorem countStep_spec (geo : Geometry) (mg : MixedGraph)
    (uh2var : List (MGUnaryHandle × Nat))
    (s s1 : List (MGBinaryHandle × Nat) × List (MGBinaryHandle × List Vec3) × Nat)
    (bhv : MGBinaryHandle × MGBinaryVariable)
    (h : countStep geo mg uh2var s bhv = some s1) :
    (s1 = s ∧ (bhv.2.enabled = false ∨ ∃ ends, mg.lowers bhv.1 = some ends ∧
      mapAt uh2var ends.1 = none ∧ mapAt uh2var ends.2 = none)) ∨
    (bhv.2.enabled = true ∧ ∃ ends anchors, mg.lowers bhv.1 = some ends ∧
      ¬ (mapAt uh2var ends.1 = none ∧ mapAt uh2var ends.2 = none) ∧
      NecessaryAnchorsForBinary geo mg bhv.1 = some anchors ∧
      s1 = (mapSet s.1 bhv.1 s.2.2, mapSet s.2.1 bhv.1 anchors, s.2.2 + anchors.length)) := by
  unfold countStep at h
  by_cases hen : bhv.2.enabled = true
  · simp only [hen, Bool.not_true, Bool.false_eq_true, if_false, Option.bind_eq_bind,
      Option.bind_eq_some] at h
    obtain ⟨ends, hl, h⟩ := h
    by_cases hfix : (!Contains uh2var ends.1 && !Contains uh2var ends.2) = true
    · rw [if_pos hfix] at h
      simp only [pure, Option.some.injEq] at h
      simp only [Bool.and_eq_true, Bool.not_eq_true', contains_false_iff] at hfix
      exact Or.inl ⟨h.symm, Or.inr ⟨ends, hl, hfix⟩⟩
    · rw [if_neg hfix] at h
      simp only [pure, Option.bind_eq_some, Option.some.injEq] at h
      obtain ⟨anchors, ha, h⟩ := h
      simp only [Bool.and_eq_true, Bool.not_eq_true', contains_false_iff] at hfix
      exact Or.inr ⟨hen, ends, anchors, hl, hfix, ha, h.symm⟩
  · have hen' : bhv.2.enabled = false := by simpa using hen
    simp only [hen', Bool.not_false, if_true, pure, Option.some.injEq] at h
    exact Or.inl ⟨h.symm, Or.inl hen'⟩

theorem writeStep_spec (geo : Geometry) (mg : MixedGraph) (patch : MGPatch) (vps : List Vec3)
    (uh2var : List (MGUnaryHandle × Nat)) (applied : List (MGBinaryHandle × List Vec3))
    (eq eq1 : Equations) (bhv : MGBinaryHandle × MGBinaryVariable)
    (h : writeStep geo mg patch vps uh2var applied eq bhv = some eq1) :
    (eq1 = eq ∧ (bhv.2.enabled = false ∨ ∃ ends, mg.lowers bhv.1 = some ends ∧
      mapAt uh2var ends.1 = none ∧ mapAt uh2var ends.2 = none)) ∨
    (bhv.2.enabled = true ∧ ∃ ends u1 u2 u1Var u2Var b anchors, mg.lowers bhv.1 = some ends ∧
      ¬ (mapAt uh2var ends.1 = none ∧ mapAt uh2var ends.2 = none) ∧
      mg.dataU ends.1 = some u1 ∧ mg.dataU ends.2 = some u2 ∧
      mapAt patch.uhs ends.1 = some u1Var ∧ mapAt patch.uhs ends.2 = some u2Var ∧
      mg.dataB bhv.1 = some b ∧ mapAt applied bhv.1 = some anchors ∧
      anchors.foldlM (writeAnchorEquation geo vps b.weight u1 u2 u1Var u2Var
        (mapAt uh2var ends.1) (mapAt uh2var ends.2)) eq = some eq1) := by
  unfold writeStep at h
  by_cases hen : bhv.2.enabled = true
  · simp only [hen, Bool.not_true, Bool.false_eq_true, if_false, Option.bind_eq_bind,
      Option.bind_eq_some] at h
    obtain ⟨ends, hl, u1, hu1, u2, hu2, h⟩ := h
    by_cases hfix : (!Contains uh2var ends.1 && !Contains uh2var ends.2) = true
    · rw [if_pos hfix] at h
      simp only [pure, Option.some.injEq] at h
      simp only [Bool.and_eq_true, Bool.not_eq_true', contains_false_iff] at hfix
      exact Or.inl ⟨h.symm, Or.inr ⟨ends, hl, hfix⟩⟩
    · rw [if_neg hfix] at h
      simp only [Option.bind_eq_some] at h
      obtain ⟨u1Var, h1, u2Var, h2, b, hb, anchors, ha, h⟩ := h
      simp only [Bool.and_eq_true, Bool.not_eq_true', contains_false_iff] at hfix
      exact Or.inr ⟨hen, ends, u1, u2, u1Var, u2Var, b, anchors, hl, hfix, hu1, hu2, h1, h2,
        hb, ha, h⟩
  · have hen' : bhv.2.enabled = false := by simpa using hen
    simp only [hen', Bool.not_false, if_true, pure, Option.some.injEq] at h
    exact Or.inl ⟨h.symm, Or.inl hen'⟩

theorem countLoop_frame (geo : Geometry) (mg : MixedGraph)
    (uh2var : List (MGUnaryHandle × Nat)) :
    ∀ (l : List (MGBinaryHandle × MGBinaryVariable))
      (s s' : List (MGBinaryHandle × Nat) × List (MGBinaryHandle × List Vec3) × Nat),
      l.foldlM (countStep geo mg uh2var) s = some s' →
      ∀ k, k ∉ l.map Prod.fst →
        mapAt s'.1 k = mapAt s.1 k ∧ mapAt s'.2.1 k = mapAt s.2.1 k := by
  intro l
  induction l with
  | nil =>
    intro s s' h k _
    simp only [List.foldlM_nil, pure, Option.some.injEq] at h
    subst h
    exact ⟨rfl, rfl⟩
  | cons bhv rest ih =>
    intro s s' h k hk
    simp only [List.foldlM_cons, Option.bind_eq_bind, Option.bind_eq_some] at h
    obtain ⟨s1, h1, h2⟩ := h
    simp only [List.map_cons, List.mem_cons, not_or] at hk
    obtain ⟨f1, f2⟩ := ih s1 s' h2 k hk.2
    rw [f1, f2]
    rcases countStep_spec geo mg uh2var s s1 bhv h1 with ⟨rfl, -⟩ | ⟨-, ends, anchors, -, -, -, rfl⟩
    · exact ⟨rfl, rfl⟩
    · have hne : ¬ bhv.1 = k := fun e => hk.1 e.symm
      simp only [mapAt_mapSet, hne, if_false]
      exact ⟨trivial, trivial⟩

theorem countLoop_applied (geo : Geometry) (mg : MixedGraph)
    (uh2var : List (MGUnaryHandle × Nat)) :
    ∀ (l : List (MGBinaryHandle × MGBinaryVariable))
      (s s' : List (MGBinaryHandle × Nat) × List (MGBinaryHandle × List Vec3) × Nat),
      l.foldlM (countStep geo mg uh2var) s = some s' → (l.map Prod.fst).Nodup →
      ∀ bhv ∈ l, bhv.2.enabled = true → ∀ ends, mg.lowers bhv.1 = some ends →
        ¬ (mapAt uh2var ends.1 = none ∧ mapAt uh2var ends.2 = none) →
        mapAt s'.2.1 bhv.1 = NecessaryAnchorsForBinary geo mg bhv.1 := by
  intro l
  induction l with
  | nil => intro s s' _ _ bhv hb; simp at hb
  | cons bhv0 rest ih =>
    intro s s' h hnd bhv hmem hen ends hl hnot
    simp only [List.foldlM_cons, Option.bind_eq_bind, Option.bind_eq_some] at h
    obtain ⟨s1, h1, h2⟩ := h
    simp only [List.map_cons, List.nodup_cons] at hnd
    rcases List.mem_cons.1 hmem with rfl | hmem
    · rcases countStep_spec geo mg uh2var s s1 bhv h1 with
        ⟨-, hd | ⟨ends', hl', hboth⟩⟩ | ⟨-, ends', anchors, -, -, ha, rfl⟩
      · rw [hd] at hen
        exact Bool.noConfusion hen
      · rw [hl] at hl'
        have := Option.some.inj hl'
        subst this
        exact absurd hboth hnot
      · rw [(countLoop_frame geo mg uh2var rest _ s' h2 bhv.1 hnd.1).2, ha]
        simp only [mapAt_mapSet, if_true]
    · exact ih s1 s' h2 hnd.2 bhv hmem hen ends hl hnot

/-- The rows that the two loops over the binary handles agree on: the first row recorded for a
handle by the counting loop is where the writing loop puts the equations of its anchors. -/
theorem binaryLoops_rows (geo : Geometry) (mg : MixedGraph) (patch : MGPatch) (vps : List Vec3)
    (uh2var : List (MGUnaryHandle × Nat)) (applied : List (MGBinaryHandle × List Vec3)) :
    ∀ (l : List (MGBinaryHandle × MGBinaryVariable))
      (s s' : List (MGBinaryHandle × Nat) × List (MGBinaryHandle × List Vec3) × Nat)
      (eq eq' : Equations),
      l.foldlM (countStep geo mg uh2var) s = some s' →
      l.foldlM (writeStep geo mg patch vps uh2var applied) eq = some eq' →
      s.2.2 = eq.eid →
      (∀ e ∈ eq.A.entries, e.1 < eq.eid) → (∀ e ∈ eq.W.entries, e.1 < eq.eid) →
      (l.map Prod.fst).Nodup →
      (∀ bhv ∈ l, bhv.2.enabled = true → ∀ ends, mg.lowers bhv.1 = some ends →
        ¬ (mapAt uh2var ends.1 = none ∧ mapAt uh2var ends.2 = none) →
        mapAt applied bhv.1 = NecessaryAnchorsForBinary geo mg bhv.1) →
      s'.2.2 = eq'.eid ∧
      (∀ e ∈ eq'.A.entries, e.1 < eq'.eid) ∧ (∀ e ∈ eq'.W.entries, e.1 < eq'.eid) ∧
      eq.eid ≤ eq'.eid ∧
      (∀ r, r < eq.eid → eq'.row r = eq.row r) ∧
      ∀ bhv ∈ l, bhv.2.enabled = true →
        ∀ ends u1 u2 u1Var u2Var b anchors, mg.lowers bhv.1 = some ends →
          ¬ (mapAt uh2var ends.1 = none ∧ mapAt uh2var ends.2 = none) →
          mg.dataU ends.1 = some u1 → mg.dataU ends.2 = some u2 →
          mapAt patch.uhs ends.1 = some u1Var → mapAt patch.uhs ends.2 = some u2Var →
          mg.dataB bhv.1 = some b → NecessaryAnchorsForBinary geo mg bhv.1 = some anchors →
          ∃ start, mapAt s'.1 bhv.1 = some start ∧
            (((mapAt uh2var ends.1).isSome = true → u1Var.vars.length = paramCount u1.type) →
             ((mapAt uh2var ends.2).isSome = true → u2Var.vars.length = paramCount u2.type) →
             ∀ k a, anchors.get? k = some a →
               RowEquation geo vps uh2var b.weight ends u1 u2 u1Var u2Var a (start + k)
                 (eq'.row (start + k))) := by
  intro l
  induction l with
  | nil =>
    intro s s' eq eq' hc hw hse hA hW _ _
    simp only [List.foldlM_nil, pure, Option.some.injEq] at hc hw
    subst hc hw
    exact ⟨hse, hA, hW, Nat.le_refl _, fun _ _ => rfl, by simp⟩
  | cons bhv0 rest ih =>
    intro s s' eq eq' hc hw hse hA hW hnd happ
    simp only [List.foldlM_cons, Option.bind_eq_bind, Option.bind_eq_some] at hc hw
    obtain ⟨s1, hc1, hc2⟩ := hc
    obtain ⟨eq1, hw1, hw2⟩ := hw
    simp only [List.map_cons, List.nodup_cons] at hnd
    have happ' : ∀ bhv ∈ rest, bhv.2.enabled = true → ∀ ends, mg.lowers bhv.1 = some ends →
        ¬ (mapAt uh2var ends.1 = none ∧ mapAt uh2var ends.2 = none) →
        mapAt applied bhv.1 = NecessaryAnchorsForBinary geo mg bhv.1 :=
      fun bhv hb => happ bhv (List.mem_cons_of_mem _ hb)
    rcases countStep_spec geo mg uh2var s s1 bhv0 hc1 with
      ⟨hs1, hinact⟩ | ⟨hen, ends, anchors, hl, hnot, hanch, hs1⟩
    · -- the handle is skipped by both loops
      have heq1 : eq1 = eq := by
        rcases writeStep_spec geo mg patch vps uh2var applied eq eq1 bhv0 hw1 with
          ⟨h, -⟩ | ⟨hen, ends, _, _, _, _, _, _, hl, hnot, -⟩
        · exact h
        · rcases hinact with hd | ⟨ends', hl', hboth⟩
          · rw [hd] at hen
            exact Bool.noConfusion hen
          · rw [hl] at hl'
            have := Option.some.inj hl'
            subst this
            exact absurd hboth hnot
      subst hs1 heq1
      obtain ⟨c1, c2, c3, c4, c5, c6⟩ := ih s1 s' eq1 eq' hc2 hw2 hse hA hW hnd.2 happ'
      refine ⟨c1, c2, c3, c4, c5, ?_⟩
      intro bhv hmem hen ends u1 u2 u1Var u2Var b anchors hl hnot hu1 hu2 hv1 hv2 hb hanch
      rcases List.mem_cons.1 hmem with rfl | hmem
      · exfalso
        rcases hinact with hd | ⟨ends', hl', hboth⟩
        · rw [hd] at hen
          exact Bool.noConfusion hen
        · rw [hl] at hl'
          have := Option.some.inj hl'
          subst this
          exact hnot hboth
      · exact c6 bhv hmem hen ends u1 u2 u1Var u2Var b anchors hl hnot hu1 hu2 hv1 hv2 hb hanch
    · -- the handle gets rows
      have hmemA := happ bhv0 (List.mem_cons_self _ _) hen ends hl hnot
      rcases writeStep_spec geo mg patch vps uh2var applied eq eq1 bhv0 hw1 with
        ⟨-, hd | ⟨ends', hl', hboth⟩⟩ |
        ⟨-, ends', u1', u2', u1Var', u2Var', b', anchors', hl', -, hu1', hu2', hv1', hv2', hb',
          ha', hfold⟩
      · rw [hd] at hen
        exact Bool.noConfusion hen
      · rw [hl] at hl'
        have := Option.some.inj hl'
        subst this
        exact absurd hboth hnot
      · rw [hl] at hl'
        have := Option.some.inj hl'
        subst this
        rw [hmemA, hanch] at ha'
        have := Option.some.inj ha'
        subst this
        obtain ⟨e1, a1, w1, f1, r1⟩ := writeAnchors_rows geo vps b'.weight u1' u2' u1Var'
          u2Var' uh2var ends hnot anchors eq eq1 hA hW hfold
        have hse1 : s1.2.2 = eq1.eid := by
          rw [hs1, e1]
          simp only
          rw [hse]
        obtain ⟨c1, c2, c3, c4, c5, c6⟩ := ih s1 s' eq1 eq' hc2 hw2 hse1 a1 w1 hnd.2 happ'
        refine ⟨c1, c2, c3, by omega, ?_, ?_⟩
        · intro r hr
          rw [c5 r (by omega), f1 r hr]
        · intro bhv hmem hen2 ends2 u1 u2 u1Var u2Var b anchors2 hl2 hnot2 hu1 hu2 hv1 hv2 hb
            hanch2
          rcases List.mem_cons.1 hmem with rfl | hmem
          · rw [hl] at hl2
            have := Option.some.inj hl2
            subst this
            rw [hanch] at hanch2
            have := Option.some.inj hanch2
            subst this
            rw [hu1'] at hu1
            rw [hu2'] at hu2
            rw [hv1'] at hv1
            rw [hv2'] at hv2
            rw [hb'] at hb
            have t1 := Option.some.inj hu1
            have t2 := Option.some.inj hu2
            have t3 := Option.some.inj hv1
            have t4 := Option.some.inj hv2
            have t5 := Option.some.inj hb
            subst t1 t2 t3 t4 t5
            refine ⟨s.2.2, ?_, ?_⟩
            · rw [(countLoop_frame geo mg uh2var rest s1 s' hc2 bhv.1 hnd.1).1, hs1]
              simp only [mapAt_mapSet, if_true]
            · intro hp1 hp2 k a hk
              have hklt : k < anchors.length := by
                by_contra hge
                rw [List.get?_eq_none.2 (Nat.le_of_not_lt hge)] at hk
                exact Option.noConfusion hk
              rw [hse]
              exact rowEquation_congr _ _ _ _ _ _ _ _ _ _ _ _ _
                (c5 (eq.eid + k) (by omega)) (r1 hp1 hp2 k a hk)
          · exact c6 bhv hmem hen2 ends2 u1 u2 u1Var u2Var b anchors2 hl2 hnot2 hu1 hu2 hv1 hv2
              hb hanch2

theorem writeScaleEquation_below (geo : Geometry) (mg : MixedGraph) (patch : MGPatch)
    (vps : List Vec3) (uh2var : List (MGUnaryHandle × Nat)) (eq eq1 : Equations)
    (hA : ∀ e ∈ eq.A.entries, e.1 < eq.eid) (hW : ∀ e ∈ eq.W.entries, e.1 < eq.eid)
    (h : writeScaleEquation geo mg patch vps uh2var eq = some eq1) :
    eq1.eid = eq.eid + 1 ∧ (∀ e ∈ eq1.A.entries, e.1 < eq1.eid) ∧
      (∀ e ∈ eq1.W.entries, e.1 < eq1.eid) := by
  unfold writeScaleEquation at h
  simp only [Option.bind_eq_bind, Option.bind_eq_some, pure, Option.some.injEq] at h
  obtain ⟨uhv, -, u, -, start, -, A', hA', B', -, W', hW', rfl⟩ := h
  have hAe := insertCoeffs_spec _ _ _ _ _ _ hA'
  have hWe := (insert_spec _ _ _ _ _ hW').1
  refine ⟨rfl, ?_, ?_⟩
  · intro e he
    simp only at he ⊢
    rw [hAe] at he
    rcases List.mem_append.1 he with he | he
    · exact Nat.lt_succ_of_lt (hA e he)
    · rw [coeff_rows _ _ _ _ e he]; exact Nat.lt_succ_self _
  · intro e he
    simp only at he ⊢
    rw [hWe] at he
    rcases List.mem_append.1 he with he | he
    · exact Nat.lt_succ_of_lt (hW e he)
    · have : e = (eq.eid, eq.eid, 1) := by simpa using he
      rw [this]; exact Nat.lt_succ_self _

theorem startPosition_isSome_iff (patch : MGPatch) (hnd : KeysNodup patch.uhs) (uh : Nat)
    (uVar : MGUnaryVariable) (hv : mapAt patch.uhs uh = some uVar) :
    (mapAt (assignVarStarts patch).1 uh).isSome = true ↔ uVar.fixed = false := by
  have := assignVarStarts_contains patch uh
  unfold Contains at this
  rw [this]
  constructor
  · rintro ⟨var, hmem, hf⟩
    have := mapAt_eq_some_of_mem patch.uhs hnd uh var hmem
    rw [hv] at this
    rw [Option.some.inj this]
    exact hf
  · intro hf
    exact ⟨uVar, mem_of_mapAt_eq_some _ _ _ hv, hf⟩

/-- C20: after the least-squares `initialise` has returned, for every enabled binary handle of
the patch with at least one non-fixed end and every necessary anchor `a` of it (the `k`-th),
the row `start(bh) + k` of the assembled system satisfies, for every candidate parameter vector
`x`, `A_r . x - B_r = invDepth(end 1, a) - invDepth(end 2, a)`, where a non-fixed end (one with
a start position) reads its parameters from its slice of `x` and a fixed end reads its stored
parameters; the weight stored for the row is the weight of the relation. Non-fixed ends carry
the parameter count of their kind. (With equal ends, both non-fixed, `A.insert` collides and
`initialise` does not return.) -/
theorem eigen_row_equation (geo : Geometry) (ind : Bool) (mg : MixedGraph) (patch : MGPatch)
    (vps : List Vec3) (uw : Bool) (data : MGPatchDepthsOptimizerInternalEigen)
    (hwf : patch.WF)
    (hinit : (fresh ind).initialise geo mg patch vps uw = some data)
    (bh : MGBinaryHandle) (bv : MGBinaryVariable) (hbv : mapAt patch.bhs bh = some bv)
    (hen : bv.enabled = true)
    (ends : MGUnaryHandle × MGUnaryHandle) (hl : mg.lowers bh = some ends)
    (u1 u2 : MGUnary) (hu1 : mg.dataU ends.1 = some u1) (hu2 : mg.dataU ends.2 = some u2)
    (u1Var u2Var : MGUnaryVariable) (hv1 : mapAt patch.uhs ends.1 = some u1Var)
    (hv2 : mapAt patch.uhs ends.2 = some u2Var)
    (hfree : u1Var.fixed = false ∨ u2Var.fixed = false)
    (hp1 : u1Var.fixed = false → u1Var.vars.length = paramCount u1.type)
    (hp2 : u2Var.fixed = false → u2Var.vars.length = paramCount u2.type)
    (b : MGBinary) (hb : mg.dataB bh = some b)
    (anchors : List Vec3) (ha : NecessaryAnchorsForBinary geo mg bh = some anchors)
    (k : Nat) (a : Vec3) (hk : anchors.get? k = some a) :
    ((mapAt data.uh2varStartPosition ends.1).isSome = true ↔ u1Var.fixed = false) ∧
    ((mapAt data.uh2varStartPosition ends.2).isSome = true ↔ u2Var.fixed = false) ∧
    mapAt data.appliedBinaryAnchors bh = some anchors ∧
    ∃ start, mapAt data.bh2consStartPosition bh = some start ∧
      data.W.entries.filter (fun e => e.1 == start + k) = [(start + k, start + k, b.weight)] ∧
      ∀ x : List ℚ, ∃ d1 d2,
        candidateInverseDepth geo vps data.uh2varStartPosition x ends.1 u1 u1Var a = some d1 ∧
        candidateInverseDepth geo vps data.uh2varStartPosition x ends.2 u2 u2Var a = some d2 ∧
        data.A.rowDot (start + k) x - data.B.getD (start + k) 0 = d1 - d2 := by
  have hi1 := startPosition_isSome_iff patch hwf.1 ends.1 u1Var hv1
  have hi2 := startPosition_isSome_iff patch hwf.1 ends.2 u2Var hv2
  have hnot : ¬ (mapAt (assignVarStarts patch).1 ends.1 = none ∧
      mapAt (assignVarStarts patch).1 ends.2 = none) := by
    rintro ⟨n1, n2⟩
    rcases hfree with hf | hf
    · have := hi1.2 hf
      rw [n1] at this
      exact Bool.noConfusion this
    · have := hi2.2 hf
      rw [n2] at this
      exact Bool.noConfusion this
  have hmem : (bh, bv) ∈ patch.bhs := mem_of_mapAt_eq_some _ _ _ hbv
  unfold initialise at hinit
  simp only [Option.bind_eq_bind, Option.bind_eq_some, pure, Option.some.injEq] at hinit
  obtain ⟨⟨bh2cons, applied, consNum⟩, hcount, eq1, hscale, eq2, hwrite, rfl⟩ := hinit
  simp only
  rw [countConstraints_eq] at hcount
  rw [writeBinaryEquations_eq] at hwrite
  have happ := countLoop_applied geo mg (assignVarStarts patch).1 patch.bhs _ _ hcount hwf.2
  have heq1 : eq1.eid = (if !(assignVarStarts patch).2.2 then 1 else 0) ∧
      (∀ e ∈ eq1.A.entries, e.1 < eq1.eid) ∧ (∀ e ∈ eq1.W.entries, e.1 < eq1.eid) := by
    by_cases hfx : (assignVarStarts patch).2.2 = true
    · simp only [hfx, Bool.not_true, Bool.false_eq_true, if_false, Option.some.injEq]
        at hscale ⊢
      subst hscale
      exact ⟨rfl, by simp [SparseMatrix.resize], by simp [SparseMatrix.resize]⟩
    · have hfx' : (assignVarStarts patch).2.2 = false := by simpa using hfx
      simp only [hfx', Bool.not_false, if_true] at hscale ⊢
      obtain ⟨e1, e2, e3⟩ := writeScaleEquation_below geo mg patch vps _ _ eq1
        (by simp [SparseMatrix.resize]) (by simp [SparseMatrix.resize]) hscale
      exact ⟨by rw [e1], e2, e3⟩
  obtain ⟨-, -, -, -, -, hrows⟩ := binaryLoops_rows geo mg patch vps (assignVarStarts patch).1
    applied patch.bhs _ _ eq1 eq2 hcount hwrite heq1.1.symm heq1.2.1 heq1.2.2 hwf.2
    (fun bhv hb hen' ends' hl' hnot' => happ bhv hb hen' ends' hl' hnot')
  obtain ⟨start, hstart, hrow⟩ := hrows (bh, bv) hmem hen ends u1 u2 u1Var u2Var b anchors hl
    hnot hu1 hu2 hv1 hv2 hb ha
  obtain ⟨hw, hx⟩ := hrow (fun h => hp1 (hi1.1 h)) (fun h => hp2 (hi2.1 h)) k a hk
  refine ⟨hi1, hi2, ?_, start, hstart, hw, hx⟩
  have := happ (bh, bv) hmem hen ends hl hnot
  simp only at this
  rw [this, ha]

/-- C20 on the two-region patch (node 0 fixed to the plane `z = 1`, node 1 free, one enabled
overlap relation of weight 2): the row of its first anchor `(1, 0, 0)`. -/
theorem eigen_row_equation_witness :
    overlapPatch.WF ∧
    NecessaryAnchorsForBinary exGeometry overlapGraph 0 =
      some [(1, 0, 0), (0, 1, 0), (0, 0, 1)] ∧
    ∃ data, (fresh true).initialise exGeometry overlapGraph overlapPatch [] true = some data ∧
      mapAt data.uh2varStartPosition 0 = none ∧
      (mapAt data.uh2varStartPosition 1).isSome = true ∧
      ∃ start, mapAt data.bh2consStartPosition 0 = some start ∧
        data.W.entries.filter (fun e => e.1 == start + 0) =
          [(start + 0, start + 0, exOverlap.weight)] ∧
        ∀ x : List ℚ, ∃ d1 d2,
          candidateInverseDepth exGeometry [] data.uh2varStartPosition x 0 exUnary
            { vars := [0, 0, 1], fixed := true } (1, 0, 0) = some d1 ∧
          candidateInverseDepth exGeometry [] data.uh2varStartPosition x 1 exUnary
            { vars := [1, 1, 1], fixed := false } (1, 0, 0) = some d2 ∧
          data.A.rowDot (start + 0) x - data.B.getD (start + 0) 0 = d1 - d2 := by
  have hwf : overlapPatch.WF := ⟨by unfold KeysNodup; decide, by unfold KeysNodup; decide⟩
  have hanch : NecessaryAnchorsForBinary exGeometry overlapGraph 0 =
      some [(1, 0, 0), (0, 1, 0), (0, 0, 1)] := by decide
  obtain ⟨data, hdata⟩ := Option.isSome_iff_exists.1 (by decide :
    ((fresh true).initialise exGeometry overlapGraph overlapPatch [] true).isSome = true)
  obtain ⟨h1, h2, -, hrow⟩ := eigen_row_equation exGeometry true overlapGraph overlapPatch []
    true data hwf hdata 0 { enabled := true } rfl rfl (0, 1) rfl exUnary exUnary rfl rfl
    { vars := [0, 0, 1], fixed := true } { vars := [1, 1, 1], fixed := false } rfl rfl
    (Or.inr rfl) (fun h => Bool.noConfusion h) (fun _ => rfl) exOverlap rfl
    [(1, 0, 0), (0, 1, 0), (0, 0, 1)] hanch 0 (1, 0, 0) rfl
  refine ⟨hwf, hanch, data, hdata, ?_, h2.2 rfl, hrow⟩
  cases hm : mapAt data.uh2varStartPosition 0 with
  | none => rfl
  | some v =>
    have := h1.1 (by rw [hm]; rfl)
    exact Bool.noConfusion this

end RowEquations

/-! ## The size of the least-squares system: columns, rows and the scale equation -/

section Numbering

open MGPatchDepthsOptimizerInternalEigen

theorem assignVarStarts_aux :
    ∀ (l : List (MGUnaryHandle × MGUnaryVariable))
      (s : List (MGUnaryHandle × Nat) × Nat × Bool),
      (l.map Prod.fst).Nodup →
      (l.foldl (fun (s : List (MGUnaryHandle × Nat) × Nat × Bool) uhv =>
        if uhv.2.fixed then (s.1, s.2.1, true)
        else (mapSet s.1 uhv.1 s.2.1, s.2.1 + uhv.2.vars.length, s.2.2)) s).2.1 =
          s.2.1 + freeParamCount l ∧
      (∀ k, k ∉ l.map Prod.fst →
        mapAt (l.foldl (fun (s : List (MGUnaryHandle × Nat) × Nat × Bool) uhv =>
          if uhv.2.fixed then (s.1, s.2.1, true)
          else (mapSet s.1 uhv.1 s.2.1, s.2.1 + uhv.2.vars.length, s.2.2)) s).1 k =
          mapAt s.1 k) ∧
      (∀ pre uh var post, l = pre ++ (uh, var) :: post →
        mapAt (l.foldl (fun (s : List (MGUnaryHandle × Nat) × Nat × Bool) uhv =>
          if uhv.2.fixed then (s.1, s.2.1, true)
          else (mapSet s.1 uhv.1 s.2.1, s.2.1 + uhv.2.vars.length, s.2.2)) s).1 uh =
          if var.fixed then mapAt s.1 uh else some (s.2.1 + freeParamCount pre)) := by
  intro l
  induction l with
  | nil =>
    intro s _
    refine ⟨by simp [freeParamCount], fun _ _ => rfl, ?_⟩
    intro pre uh var post h
    simp at h
  | cons e t ih =>
    intro s hnd
    simp only [List.map_cons, List.nodup_cons] at hnd
    simp only [List.foldl_cons]
    obtain ⟨h1, h2, h3⟩ := ih (if e.2.fixed then (s.1, s.2.1, true)
      else (mapSet s.1 e.1 s.2.1, s.2.1 + e.2.vars.length, s.2.2)) hnd.2
    refine ⟨?_, ?_, ?_⟩
    · rw [h1]
      by_cases hf : e.2.fixed = true <;> simp [hf, freeParamCount, Nat.add_assoc]
    · intro k hk
      simp only [List.map_cons, List.mem_cons, not_or] at hk
      rw [h2 k hk.2]
      by_cases hf : e.2.fixed = true
      · simp [hf]
      · have hne : ¬ e.1 = k := fun h => hk.1 h.symm
        simp [hf, mapAt_mapSet, hne]
    · intro pre uh var post hl
      cases pre with
      | nil =>
        simp only [List.nil_append, List.cons.injEq] at hl
        obtain ⟨rfl, rfl⟩ := hl
        rw [h2 _ hnd.1]
        by_cases hf : var.fixed = true
        · simp [hf]
        · simp [hf, mapAt_mapSet, freeParamCount]
      | cons p pre' =>
        simp only [List.cons_append, List.cons.injEq] at hl
        obtain ⟨rfl, rfl⟩ := hl
        rw [h3 pre' uh var post rfl]
        have hne : ¬ e.1 = uh := by
          intro h
          apply hnd.1
          rw [h]
          simp
        by_cases hf : var.fixed = true
        · by_cases hp : e.2.fixed = true
          · simp [hf, hp]
          · simp [hf, hp, mapAt_mapSet, hne]
        · by_cases hp : e.2.fixed = true
          · simp [hf, hp, freeParamCount]
          · simp [hf, hp, freeParamCount, Nat.add_assoc]

theorem freeParamCount_append (a b : List (MGUnaryHandle × MGUnaryVariable)) :
    freeParamCount (a ++ b) = freeParamCount a + freeParamCount b := by
  simp [freeParamCount]

theorem freeParamCount_cons (e : MGUnaryHandle × MGUnaryVariable)
    (t : List (MGUnaryHandle × MGUnaryVariable)) :
    freeParamCount (e :: t) = (if e.2.fixed then 0 else e.2.vars.length) + freeParamCount t := by
  simp [freeParamCount]

theorem freeParamCount_cover :
    ∀ (l : List (MGUnaryHandle × MGUnaryVariable)) (i : Nat), i < freeParamCount l →
      ∃ pre uh var post, l = pre ++ (uh, var) :: post ∧ var.fixed = false ∧
        freeParamCount pre ≤ i ∧ i < freeParamCount pre + var.vars.length := by
  intro l
  induction l with
  | nil => intro i h; simp [freeParamCount] at h
  | cons e t ih =>
    intro i h
    rw [freeParamCount_cons] at h
    by_cases hf : e.2.fixed = true
    · simp only [hf, if_true, Nat.zero_add] at h
      obtain ⟨pre, uh, var, post, hl, hv, h1, h2⟩ := ih i h
      refine ⟨e :: pre, uh, var, post, by rw [hl]; rfl, hv, ?_, ?_⟩
      · rw [freeParamCount_cons]; simp [hf]; exact h1
      · rw [freeParamCount_cons]; simp [hf]; exact h2
    · have hf' : e.2.fixed = false := by simpa using hf
      simp only [hf', Bool.false_eq_true, if_false] at h
      by_cases hi : i < e.2.vars.length
      · exact ⟨[], e.1, e.2, t, rfl, hf', by simp [freeParamCount], by
          simpa [freeParamCount] using hi⟩
      · obtain ⟨pre, uh, var, post, hl, hv, h1, h2⟩ := ih (i - e.2.vars.length) (by omega)
        refine ⟨e :: pre, uh, var, post, by rw [hl]; rfl, hv, ?_, ?_⟩
        · rw [freeParamCount_cons]; simp only [hf', Bool.false_eq_true, if_false]; omega
        · rw [freeParamCount_cons]; simp only [hf', Bool.false_eq_true, if_false]; omega

theorem split_two {α : Type} (l : List α) (a b : α) (ha : a ∈ l) (hb : b ∈ l) (hne : a ≠ b) :
    (∃ pre mid post, l = pre ++ a :: (mid ++ b :: post)) ∨
    (∃ pre mid post, l = pre ++ b :: (mid ++ a :: post)) := by
  obtain ⟨pre, post, hl⟩ := List.append_of_mem ha
  rw [hl] at hb
  rcases List.mem_append.1 hb with hb | hb
  · obtain ⟨p1, p2, hp⟩ := List.append_of_mem hb
    right
    exact ⟨p1, p2, post, by rw [hl, hp]; simp⟩
  · rcases List.mem_cons.1 hb with hb | hb
    · exact absurd hb.symm hne
    · obtain ⟨p1, p2, hp⟩ := List.append_of_mem hb
      left
      exact ⟨pre, p1, p2, by rw [hl, hp]⟩

/-- The numbering of lines 940-957: `varNum` is the number of parameters of the non-fixed nodes,
fixed nodes get no start position, and the ranges of the non-fixed nodes are disjoint, lie below
`varNum` and cover it. -/
theorem assignVarStarts_ranges (patch : MGPatch) (hnd : KeysNodup patch.uhs) :
    (assignVarStarts patch).2.1 = freeParamCount patch.uhs ∧
    (∀ uh var, (uh, var) ∈ patch.uhs → var.fixed = true →
      mapAt (assignVarStarts patch).1 uh = none) ∧
    (∀ uh, Contains patch.uhs uh = false → mapAt (assignVarStarts patch).1 uh = none) ∧
    (∀ uh var, (uh, var) ∈ patch.uhs → var.fixed = false →
      ∃ start, mapAt (assignVarStarts patch).1 uh = some start ∧
        start + var.vars.length ≤ (assignVarStarts patch).2.1) ∧
    (∀ uh1 var1 uh2 var2 s1 s2, (uh1, var1) ∈ patch.uhs → (uh2, var2) ∈ patch.uhs →
      uh1 ≠ uh2 → var1.fixed = false → var2.fixed = false →
      mapAt (assignVarStarts patch).1 uh1 = some s1 →
      mapAt (assignVarStarts patch).1 uh2 = some s2 →
      s1 + var1.vars.length ≤ s2 ∨ s2 + var2.vars.length ≤ s1) ∧
    (∀ i, i < (assignVarStarts patch).2.1 →
      ∃ uh var start, (uh, var) ∈ patch.uhs ∧ var.fixed = false ∧
        mapAt (assignVarStarts patch).1 uh = some start ∧
        start ≤ i ∧ i < start + var.vars.length) := by
  obtain ⟨h1, h2, h3⟩ := assignVarStarts_aux patch.uhs ([], 0, false) hnd
  have hpos : ∀ pre uh var post, patch.uhs = pre ++ (uh, var) :: post →
      mapAt (assignVarStarts patch).1 uh =
        if var.fixed then none else some (freeParamCount pre) := by
    intro pre uh var post hl
    have := h3 pre uh var post hl
    simp only [Nat.zero_add] at this
    exact this
  have hnum : (assignVarStarts patch).2.1 = freeParamCount patch.uhs := by
    have := h1
    simp only [Nat.zero_add] at this
    exact this
  refine ⟨hnum, ?_, ?_, ?_, ?_, ?_⟩
  · intro uh var hmem hf
    obtain ⟨pre, post, hl⟩ := List.append_of_mem hmem
    rw [hpos pre uh var post hl, if_pos hf]
  · intro uh hc
    have hk : uh ∉ patch.uhs.map Prod.fst := by
      intro h
      have := (contains_iff_mem_keys patch.uhs uh).2 h
      rw [hc] at this
      exact Bool.noConfusion this
    exact h2 uh hk
  · intro uh var hmem hf
    obtain ⟨pre, post, hl⟩ := List.append_of_mem hmem
    refine ⟨freeParamCount pre, ?_, ?_⟩
    · rw [hpos pre uh var post hl, hf]
      rfl
    · rw [hnum, hl, freeParamCount_append, freeParamCount_cons]
      simp only [hf, Bool.false_eq_true, if_false]
      omega
  · intro uh1 var1 uh2 var2 s1 s2 hm1 hm2 hne hf1 hf2 hs1 hs2
    have hne' : (uh1, var1) ≠ (uh2, var2) := fun h => hne (congrArg Prod.fst h)
    rcases split_two patch.uhs _ _ hm1 hm2 hne' with ⟨pre, mid, post, hl⟩ | ⟨pre, mid, post, hl⟩
    · have e1 := hpos pre uh1 var1 _ hl
      have e2 := hpos (pre ++ (uh1, var1) :: mid) uh2 var2 post (by rw [hl]; simp)
      rw [hs1, hf1] at e1
      rw [hs2, hf2, freeParamCount_append, freeParamCount_cons] at e2
      simp only [Bool.false_eq_true, if_false, Option.some.injEq, hf1] at e1 e2
      left
      omega
    · have e2 := hpos pre uh2 var2 _ hl
      have e1 := hpos (pre ++ (uh2, var2) :: mid) uh1 var1 post (by rw [hl]; simp)
      rw [hs2, hf2] at e2
      rw [hs1, hf1, freeParamCount_append, freeParamCount_cons] at e1
      simp only [Bool.false_eq_true, if_false, Option.some.injEq, hf2] at e1 e2
      right
      omega
  · intro i hi
    rw [hnum] at hi
    obtain ⟨pre, uh, var, post, hl, hv, c1, c2⟩ := freeParamCount_cover patch.uhs i hi
    refine ⟨uh, var, freeParamCount pre, by rw [hl]; simp, hv, ?_, c1, c2⟩
    rw [hpos pre uh var post hl, hv]
    rfl

end Numbering

section RowCount

open MGPatchDepthsOptimizerInternalEigen

theorem insertCoeffs_shape_aux (eid start : Nat) (sign : ℚ) (coeffs : List ℚ) :
    ∀ (is : List Nat) (A A' : SparseMatrix),
      is.foldlM (fun (A : SparseMatrix) i =>
        A.insert eid (start + i) (sign * coeffs.getD i 0)) A = some A' →
      A'.rows = A.rows ∧ A'.cols = A.cols := by
  intro is
  induction is with
  | nil =>
    intro A A' h
    simp only [List.foldlM_nil, pure, Option.some.injEq] at h
    subst h
    exact ⟨rfl, rfl⟩
  | cons i t ih =>
    intro A A' h
    simp only [List.foldlM_cons, Option.bind_eq_bind, Option.bind_eq_some] at h
    obtain ⟨A1, h1, h2⟩ := h
    obtain ⟨-, r1, c1⟩ := insert_spec A A1 _ _ _ h1
    obtain ⟨r2, c2⟩ := ih A1 A' h2
    exact ⟨r2.trans r1, c2.trans c1⟩

theorem insertCoeffs_shape (A A' : SparseMatrix) (eid start : Nat) (sign : ℚ)
    (coeffs : List ℚ) (h : insertCoeffs A eid start sign coeffs = some A') :
    A'.rows = A.rows ∧ A'.cols = A.cols :=
  insertCoeffs_shape_aux eid start sign coeffs _ A A' h

/-- The shape of a system under construction and the rows written so far: `W` has one
coefficient per written row, in order. -/
theorem writeAnchorEquation_shape (geo : Geometry) (vps : List Vec3) (weight : ℚ)
    (u1 u2 : MGUnary) (u1Var u2Var : MGUnaryVariable) (s1 s2 : Option Nat)
    (eq eq' : Equations) (a : Vec3)
    (h : writeAnchorEquation geo vps weight u1 u2 u1Var u2Var s1 s2 eq a = some eq') :
    eq'.A.rows = eq.A.rows ∧ eq'.A.cols = eq.A.cols ∧ eq'.B.length = eq.B.length ∧
    eq'.eid = eq.eid + 1 ∧
    eq'.W.entries.map (fun e => e.1) = eq.W.entries.map (fun e => e.1) ++ [eq.eid] := by
  unfold writeAnchorEquation at h
  simp only [Option.bind_eq_bind, Option.bind_eq_some] at h
  obtain ⟨B0, hB0, W', hW', h⟩ := h
  obtain ⟨-, hlen0, -, -⟩ := vecSet_spec _ _ _ _ hB0
  have hWe := (insert_spec _ _ _ _ _ hW').1
  have hWm : W'.entries.map (fun e => e.1) = eq.W.entries.map (fun e => e.1) ++ [eq.eid] := by
    rw [hWe]; simp
  cases s1 with
  | none =>
    cases s2 with
    | none =>
      simp only [Option.bind_eq_bind, Option.bind_eq_some, pure, Option.some.injEq,
        Prod.exists, Prod.mk.injEq] at h
      obtain ⟨A1, B1, ⟨inv1, -, B1', hB1', hA1, hB1⟩, A2, B2,
        ⟨inv2, -, B2', hB2', hA2, hB2⟩, rfl⟩ := h
      subst hA1 hB1 hA2 hB2
      obtain ⟨-, l1, -, -⟩ := vecSet_spec _ _ _ _ hB1'
      obtain ⟨-, l2, -, -⟩ := vecSet_spec _ _ _ _ hB2'
      exact ⟨rfl, rfl, by simp only; rw [l2, l1, hlen0], rfl, hWm⟩
    | some s2 =>
      simp only [Option.bind_eq_bind, Option.bind_eq_some, pure, Option.some.injEq,
        Prod.exists, Prod.mk.injEq] at h
      obtain ⟨A1, B1, ⟨inv1, -, B1', hB1', hA1, hB1⟩, A2, B2, ⟨A2', hA2', hA2, hB2⟩, rfl⟩ := h
      subst hA1 hB1 hA2 hB2
      obtain ⟨-, l1, -, -⟩ := vecSet_spec _ _ _ _ hB1'
      obtain ⟨r, c⟩ := insertCoeffs_shape _ _ _ _ _ _ hA2'
      exact ⟨r, c, by simp only; rw [l1, hlen0], rfl, hWm⟩
  | some s1 =>
    cases s2 with
    | none =>
      simp only [Option.bind_eq_bind, Option.bind_eq_some, pure, Option.some.injEq,
        Prod.exists, Prod.mk.injEq] at h
      obtain ⟨A1, B1, ⟨A1', hA1', hA1, hB1⟩, A2, B2, ⟨inv2, -, B2', hB2', hA2, hB2⟩, rfl⟩ := h
      subst hA1 hB1 hA2 hB2
      obtain ⟨-, l2, -, -⟩ := vecSet_spec _ _ _ _ hB2'
      obtain ⟨r, c⟩ := insertCoeffs_shape _ _ _ _ _ _ hA1'
      exact ⟨r, c, by simp only; rw [l2, hlen0], rfl, hWm⟩
    | some s2 =>
      simp only [Option.bind_eq_bind, Option.bind_eq_some, pure, Option.some.injEq,
        Prod.exists, Prod.mk.injEq] at h
      obtain ⟨A1, B1, ⟨A1', hA1', hA1, hB1⟩, A2, B2, ⟨A2', hA2', hA2, hB2⟩, rfl⟩ := h
      subst hA1 hB1 hA2 hB2
      obtain ⟨r1, c1⟩ := insertCoeffs_shape _ _ _ _ _ _ hA1'
      obtain ⟨r2, c2⟩ := insertCoeffs_shape _ _ _ _ _ _ hA2'
      exact ⟨r2.trans r1, c2.trans c1, hlen0, rfl, hWm⟩

theorem writeAnchors_shape (geo : Geometry) (vps : List Vec3) (weight : ℚ)
    (u1 u2 : MGUnary) (u1Var u2Var : MGUnaryVariable) (s1 s2 : Option Nat) :
    ∀ (anchors : List Vec3) (eq eq' : Equations),
      anchors.foldlM (writeAnchorEquation geo vps weight u1 u2 u1Var u2Var s1 s2) eq =
        some eq' →
      eq'.A.rows = eq.A.rows ∧ eq'.A.cols = eq.A.cols ∧ eq'.B.length = eq.B.length ∧
      eq'.eid = eq.eid + anchors.length ∧
      eq'.W.entries.map (fun e => e.1) =
        eq.W.entries.map (fun e => e.1) ++ List.range' eq.eid anchors.length := by
  intro anchors
  induction anchors with
  | nil =>
    intro eq eq' h
    simp only [List.foldlM_nil, pure, Option.some.injEq] at h
    subst h
    exact ⟨rfl, rfl, rfl, rfl, by simp⟩
  | cons a0 rest ih =>
    intro eq eq' h
    simp only [List.foldlM_cons, Option.bind_eq_bind, Option.bind_eq_some] at h
    obtain ⟨eq1, h1, h2⟩ := h
    obtain ⟨a1, a2, a3, a4, a5⟩ := writeAnchorEquation_shape _ _ _ _ _ _ _ _ _ _ _ _ h1
    obtain ⟨b1, b2, b3, b4, b5⟩ := ih eq1 eq' h2
    refine ⟨b1.trans a1, b2.trans a2, b3.trans a3, by rw [b4, a4, List.length_cons]; omega, ?_⟩
    rw [b5, a5, a4, List.length_cons, List.range'_succ]
    simp

theorem writeLoop_shape (geo : Geometry) (mg : MixedGraph) (patch : MGPatch) (vps : List Vec3)
    (uh2var : List (MGUnaryHandle × Nat)) (applied : List (MGBinaryHandle × List Vec3)) :
    ∀ (l : List (MGBinaryHandle × MGBinaryVariable)) (eq eq' : Equations),
      l.foldlM (writeStep geo mg patch vps uh2var applied) eq = some eq' →
      eq'.A.rows = eq.A.rows ∧ eq'.A.cols = eq.A.cols ∧ eq'.B.length = eq.B.length ∧
      eq'.W.entries.map (fun e => e.1) =
        eq.W.entries.map (fun e => e.1) ++ List.range' eq.eid (eq'.eid - eq.eid) ∧
      eq.eid ≤ eq'.eid := by
  intro l
  induction l with
  | nil =>
    intro eq eq' h
    simp only [List.foldlM_nil, pure, Option.some.injEq] at h
    subst h
    exact ⟨rfl, rfl, rfl, by simp, Nat.le_refl _⟩
  | cons bhv rest ih =>
    intro eq eq' h
    simp only [List.foldlM_cons, Option.bind_eq_bind, Option.bind_eq_some] at h
    obtain ⟨eq1, h1, h2⟩ := h
    obtain ⟨b1, b2, b3, b4, b5⟩ := ih eq1 eq' h2
    rcases writeStep_spec geo mg patch vps uh2var applied eq eq1 bhv h1 with
      ⟨rfl, -⟩ | ⟨-, ends, u1, u2, u1Var, u2Var, b, anchors, -, -, -, -, -, -, -, -, hfold⟩
    · exact ⟨b1, b2, b3, b4, b5⟩
    · obtain ⟨a1, a2, a3, a4, a5⟩ := writeAnchors_shape _ _ _ _ _ _ _ _ _ _ _ _ hfold
      refine ⟨b1.trans a1, b2.trans a2, b3.trans a3, ?_, by omega⟩
      rw [b4, a5, List.append_assoc]
      congr 1
      have happ := List.range'_append eq.eid anchors.length (eq'.eid - eq1.eid) 1
      simp only [Nat.one_mul] at happ
      rw [← a4] at happ
      rw [happ]
      congr 1
      omega

theorem edgeRowCountOn_cons (geo : Geometry) (mg : MixedGraph) (free : MGUnaryHandle → Bool)
    (bhv : MGBinaryHandle × MGBinaryVariable) (l : List (MGBinaryHandle × MGBinaryVariable)) :
    edgeRowCountOn geo mg free (bhv :: l) =
      (if bhv.2.enabled then
        match mg.lowers bhv.1 with
        | some ends =>
            if free ends.1 || free ends.2 then
              ((NecessaryAnchorsForBinary geo mg bhv.1).getD []).length
            else 0
        | none => 0
      else 0) + edgeRowCountOn geo mg free l := by
  unfold edgeRowCountOn
  simp only [List.map_cons, List.sum_cons]

/-- The counting loop adds, for every enabled handle with a non-fixed end, the number of its
necessary anchors; every counted row lies in the range of one such handle; a handle that is
disabled or has two fixed ends gets no start position. -/
theorem countLoop_total (geo : Geometry) (mg : MixedGraph)
    (uh2var : List (MGUnaryHandle × Nat)) :
    ∀ (l : List (MGBinaryHandle × MGBinaryVariable))
      (s s' : List (MGBinaryHandle × Nat) × List (MGBinaryHandle × List Vec3) × Nat),
      l.foldlM (countStep geo mg uh2var) s = some s' → (l.map Prod.fst).Nodup →
      s'.2.2 = s.2.2 + edgeRowCountOn geo mg (Contains uh2var) l ∧
      (∀ r, s.2.2 ≤ r → r < s'.2.2 → ∃ bhv ∈ l, ∃ start anchors, bhv.2.enabled = true ∧
        mapAt s'.1 bhv.1 = some start ∧ mapAt s'.2.1 bhv.1 = some anchors ∧
        NecessaryAnchorsForBinary geo mg bhv.1 = some anchors ∧
        start ≤ r ∧ r < start + anchors.length) ∧
      (∀ bhv ∈ l, (bhv.2.enabled = false ∨ ∃ ends, mg.lowers bhv.1 = some ends ∧
          mapAt uh2var ends.1 = none ∧ mapAt uh2var ends.2 = none) →
        mapAt s'.1 bhv.1 = mapAt s.1 bhv.1) := by
  intro l
  induction l with
  | nil =>
    intro s s' h _
    simp only [List.foldlM_nil, pure, Option.some.injEq] at h
    subst h
    refine ⟨by simp [edgeRowCountOn], ?_, ?_⟩
    · intro r h1 h2; omega
    · intro bhv hb; simp at hb
  | cons bhv0 rest ih =>
    intro s s' h hnd
    simp only [List.foldlM_cons, Option.bind_eq_bind, Option.bind_eq_some] at h
    obtain ⟨s1, h1, h2⟩ := h
    simp only [List.map_cons, List.nodup_cons] at hnd
    obtain ⟨t1, t2, t3⟩ := ih s1 s' h2 hnd.2
    obtain ⟨f1, f2⟩ := countLoop_frame geo mg uh2var rest s1 s' h2 bhv0.1 hnd.1
    rw [edgeRowCountOn_cons]
    rcases countStep_spec geo mg uh2var s s1 bhv0 h1 with
      ⟨rfl, hd | ⟨ends, hl, hn1, hn2⟩⟩ | ⟨hen, ends, anchors, hl, hnot, ha, rfl⟩
    · refine ⟨by rw [t1, hd]; simp, ?_, ?_⟩
      · intro r hr1 hr2
        obtain ⟨bhv, hm, rest'⟩ := t2 r hr1 hr2
        exact ⟨bhv, List.mem_cons_of_mem _ hm, rest'⟩
      · intro bhv hm hin
        rcases List.mem_cons.1 hm with rfl | hm
        · exact f1
        · exact t3 bhv hm hin
    · refine ⟨?_, ?_, ?_⟩
      · rw [t1, hl]
        simp only [(contains_false_iff uh2var ends.1).2 hn1,
          (contains_false_iff uh2var ends.2).2 hn2]
        simp
      · intro r hr1 hr2
        obtain ⟨bhv, hm, rest'⟩ := t2 r hr1 hr2
        exact ⟨bhv, List.mem_cons_of_mem _ hm, rest'⟩
      · intro bhv hm hin
        rcases List.mem_cons.1 hm with rfl | hm
        · exact f1
        · exact t3 bhv hm hin
    · have hfree : (Contains uh2var ends.1 || Contains uh2var ends.2) = true := by
        by_contra hc
        simp only [Bool.or_eq_true, not_or, Bool.not_eq_true] at hc
        exact hnot ⟨(contains_false_iff uh2var ends.1).1 hc.1,
          (contains_false_iff uh2var ends.2).1 hc.2⟩
      refine ⟨?_, ?_, ?_⟩
      · rw [t1, hl, hen]
        simp only [hfree, if_true, ha, Option.getD_some]
        omega
      · intro r hr1 hr2
        by_cases hlt : r < s.2.2 + anchors.length
        · refine ⟨bhv0, List.mem_cons_self _ _, s.2.2, anchors, hen, ?_, ?_, ha, hr1, hlt⟩
          · rw [f1]; simp only [mapAt_mapSet, if_true]
          · rw [f2]; simp only [mapAt_mapSet, if_true]
        · obtain ⟨bhv, hm, rest'⟩ := t2 r (by simp only; omega) hr2
          exact ⟨bhv, List.mem_cons_of_mem _ hm, rest'⟩
      · intro bhv hm hin
        rcases List.mem_cons.1 hm with rfl | hm
        · exfalso
          rcases hin with hd | ⟨ends', hl', hboth⟩
          · rw [hd] at hen; exact Bool.noConfusion hen
          · rw [hl] at hl'
            have := Option.some.inj hl'
            subst this
            exact hnot hboth
        · rw [t3 bhv hm hin]
          have hne : ¬ bhv0.1 = bhv.1 := by
            intro e
            exact hnd.1 (e ▸ List.mem_map_of_mem Prod.fst hm)
          simp only [mapAt_mapSet, hne, if_false]

theorem assignVarStarts_hasFixed_aux (l : List (MGUnaryHandle × MGUnaryVariable)) :
    ∀ (s : List (MGUnaryHandle × Nat) × Nat × Bool),
      (l.foldl (fun (s : List (MGUnaryHandle × Nat) × Nat × Bool) uhv =>
        if uhv.2.fixed then (s.1, s.2.1, true)
        else (mapSet s.1 uhv.1 s.2.1, s.2.1 + uhv.2.vars.length, s.2.2)) s).2.2 =
      (s.2.2 || l.any (fun uhv => uhv.2.fixed)) := by
  induction l with
  | nil => intro s; simp
  | cons e t ih =>
    intro s
    simp only [List.foldl_cons, List.any_cons]
    rw [ih]
    by_cases hf : e.2.fixed = true
    · simp [hf]
    · have hf' : e.2.fixed = false := by simpa using hf
      simp [hf']

/-- The flag `hasFixedUnary` says whether some node of the patch is fixed. -/
theorem assignVarStarts_hasFixed (patch : MGPatch) :
    (assignVarStarts patch).2.2 = patch.uhs.any (fun uhv => uhv.2.fixed) := by
  unfold assignVarStarts
  rw [assignVarStarts_hasFixed_aux]
  simp

/-- The nodes with a start position are the nodes bound non-fixed. -/
theorem contains_starts_eq_isFreeNode (patch : MGPatch) (hnd : KeysNodup patch.uhs)
    (uh : MGUnaryHandle) :
    Contains (assignVarStarts patch).1 uh = isFreeNode patch uh := by
  rw [Bool.eq_iff_iff, assignVarStarts_contains]
  unfold isFreeNode
  constructor
  · rintro ⟨var, hmem, hf⟩
    rw [mapAt_eq_some_of_mem patch.uhs hnd uh var hmem]
    simp [hf]
  · intro h
    cases hm : mapAt patch.uhs uh with
    | none => rw [hm] at h; exact Bool.noConfusion h
    | some v =>
      rw [hm] at h
      exact ⟨v, mem_of_mapAt_eq_some _ _ _ hm, by simpa using h⟩

theorem edgeRowCount_eq (geo : Geometry) (mg : MixedGraph) (patch : MGPatch)
    (hnd : KeysNodup patch.uhs) :
    edgeRowCountOn geo mg (Contains (assignVarStarts patch).1) patch.bhs =
      edgeRowCount geo mg patch := by
  unfold edgeRowCount
  congr 1
  funext uh
  exact contains_starts_eq_isFreeNode patch hnd uh

/-- What `writeScaleEquation` writes: the coefficients of the first node of the patch at its own
centre into `A`, the right-hand side `1` and the weight `1`, all in row `eid`. -/
theorem writeScaleEquation_spec (geo : Geometry) (mg : MixedGraph) (patch : MGPatch)
    (vps : List Vec3) (uh2var : List (MGUnaryHandle × Nat)) (eq eq1 : Equations)
    (h : writeScaleEquation geo mg patch vps uh2var eq = some eq1) :
    ∃ uhv u start, patch.uhs.head? = some uhv ∧ mg.dataU uhv.1 = some u ∧
      mapAt uh2var uhv.1 = some start ∧
      eq1.A.entries = eq.A.entries ++
        (List.range (uhv.2.variableCoeffsForInverseDepthAtDirection geo u.normalizedCenter u
            vps).length).map (fun i => (eq.eid, start + i,
          1 * (uhv.2.variableCoeffsForInverseDepthAtDirection geo u.normalizedCenter u
            vps).getD i 0)) ∧
      eq1.W.entries = eq.W.entries ++ [(eq.eid, eq.eid, 1)] ∧
      eq1.B.getD eq.eid 0 = 1 ∧
      eq1.A.rows = eq.A.rows ∧ eq1.A.cols = eq.A.cols ∧ eq1.B.length = eq.B.length ∧
      eq1.eid = eq.eid + 1 := by
  unfold writeScaleEquation at h
  simp only [Option.bind_eq_bind, Option.bind_eq_some, pure, Option.some.injEq] at h
  obtain ⟨uhv, h1, u, h2, start, h3, A', hA', B', hB', W', hW', rfl⟩ := h
  obtain ⟨r, c⟩ := insertCoeffs_shape _ _ _ _ _ _ hA'
  obtain ⟨-, bl, bv, -⟩ := vecSet_spec _ _ _ _ hB'
  exact ⟨uhv, u, start, h1, h2, h3, insertCoeffs_spec _ _ _ _ _ _ hA',
    (insert_spec _ _ _ _ _ hW').1, bv, r, c, bl, rfl⟩

/-- The system that the least-squares `initialise` assembles: its size, the rows written, the
scale row, and the binary handle that every other row belongs to. -/
theorem eigen_initialise_system (geo : Geometry) (self data : MGPatchDepthsOptimizerInternalEigen)
    (mg : MixedGraph) (patch : MGPatch) (vps : List Vec3) (uw : Bool) (hwf : patch.WF)
    (hinit : self.initialise geo mg patch vps uw = some data) :
    data.A.rows = (if (assignVarStarts patch).2.2 then 0 else 1) + edgeRowCount geo mg patch ∧
    data.A.cols = (assignVarStarts patch).2.1 ∧
    data.B.length = data.A.rows ∧
    data.W.entries.map (fun e => e.1) = List.range data.A.rows ∧
    (∀ r, (if (assignVarStarts patch).2.2 then 0 else 1) ≤ r → r < data.A.rows →
      ∃ bhv ∈ patch.bhs, ∃ start anchors, bhv.2.enabled = true ∧
        mapAt data.bh2consStartPosition bhv.1 = some start ∧
        mapAt data.appliedBinaryAnchors bhv.1 = some anchors ∧
        NecessaryAnchorsForBinary geo mg bhv.1 = some anchors ∧
        start ≤ r ∧ r < start + anchors.length) ∧
    (∀ bhv ∈ patch.bhs, (bhv.2.enabled = false ∨ ∃ ends, mg.lowers bhv.1 = some ends ∧
        isFreeNode patch ends.1 = false ∧ isFreeNode patch ends.2 = false) →
      mapAt data.bh2consStartPosition bhv.1 = none) ∧
    ((assignVarStarts patch).2.2 = false →
      ∃ uhv u start, patch.uhs.head? = some uhv ∧ mg.dataU uhv.1 = some u ∧
        mapAt data.uh2varStartPosition uhv.1 = some start ∧
        data.A.entries.filter (fun e => e.1 == 0) =
          (List.range (uhv.2.variableCoeffsForInverseDepthAtDirection geo u.normalizedCenter u
            vps).length).map (fun i => (0, start + i,
              (uhv.2.variableCoeffsForInverseDepthAtDirection geo u.normalizedCenter u
                vps).getD i 0)) ∧
        data.W.entries.filter (fun e => e.1 == 0) = [(0, 0, 1)] ∧
        data.B.getD 0 0 = 1) := by
  unfold initialise at hinit
  simp only [Option.bind_eq_bind, Option.bind_eq_some, pure, Option.some.injEq] at hinit
  obtain ⟨⟨bh2cons, applied, consNum⟩, hcount, eq1, hscale, eq2, hwrite, rfl⟩ := hinit
  simp only
  rw [countConstraints_eq] at hcount
  rw [writeBinaryEquations_eq] at hwrite
  have happ := countLoop_applied geo mg (assignVarStarts patch).1 patch.bhs _ _ hcount hwf.2
  obtain ⟨c1, c2, c3⟩ := countLoop_total geo mg (assignVarStarts patch).1 patch.bhs _ _ hcount
    hwf.2
  simp only at c1 c2 c3
  rw [edgeRowCount_eq geo mg patch hwf.1] at c1
  have hcons : consNum = (if (assignVarStarts patch).2.2 then 0 else 1) +
      edgeRowCount geo mg patch := by
    rw [c1]
    cases (assignVarStarts patch).2.2 <;> simp
  have heq1 : eq1.eid = (if !(assignVarStarts patch).2.2 then 1 else 0) ∧
      (∀ e ∈ eq1.A.entries, e.1 < eq1.eid) ∧ (∀ e ∈ eq1.W.entries, e.1 < eq1.eid) ∧
      eq1.A.rows = consNum ∧ eq1.A.cols = (assignVarStarts patch).2.1 ∧
      eq1.B.length = consNum ∧
      eq1.W.entries.map (fun e => e.1) = List.range eq1.eid := by
    by_cases hfx : (assignVarStarts patch).2.2 = true
    · simp only [hfx, Bool.not_true, Bool.false_eq_true, if_false, Option.some.injEq]
        at hscale ⊢
      subst hscale
      exact ⟨rfl, by simp [SparseMatrix.resize], by simp [SparseMatrix.resize], rfl, rfl,
        by simp, by simp [SparseMatrix.resize]⟩
    · have hfx' : (assignVarStarts patch).2.2 = false := by simpa using hfx
      simp only [hfx', Bool.not_false, if_true] at hscale ⊢
      obtain ⟨e1, e2, e3⟩ := writeScaleEquation_below geo mg patch vps _ _ eq1
        (by simp [SparseMatrix.resize]) (by simp [SparseMatrix.resize]) hscale
      obtain ⟨uhv, u, start, -, -, -, -, hW, -, hr, hc, hl, -⟩ :=
        writeScaleEquation_spec geo mg patch vps _ _ eq1 hscale
      refine ⟨by rw [e1], e2, e3, hr, hc, by rw [hl]; simp, ?_⟩
      rw [hW, e1]
      simp [SparseMatrix.resize, List.range_succ]
  obtain ⟨he1, hA1, hW1, hr1, hc1, hl1, hWm1⟩ := heq1
  obtain ⟨b1, -, -, b4, b5, -⟩ := binaryLoops_rows geo mg patch vps (assignVarStarts patch).1
    applied patch.bhs _ _ eq1 eq2 hcount hwrite he1.symm hA1 hW1 hwf.2
    (fun bhv hb hen' ends' hl' hnot' => happ bhv hb hen' ends' hl' hnot')
  simp only at b1
  obtain ⟨s1, s2, s3, s4, -⟩ := writeLoop_shape geo mg patch vps (assignVarStarts patch).1
    applied patch.bhs eq1 eq2 hwrite
  have hrows : eq2.A.rows = (if (assignVarStarts patch).2.2 then 0 else 1) +
      edgeRowCount geo mg patch := by rw [s1, hr1, hcons]
  refine ⟨hrows, by rw [s2, hc1], by rw [s3, hl1, s1, hr1], ?_, ?_, ?_, ?_⟩
  · rw [s4, hWm1, s1, hr1, ← b1]
    have : consNum = eq1.eid + (consNum - eq1.eid) := by omega
    rw [List.range_eq_range', List.range_eq_range']
    conv_rhs => rw [this]
    have happ2 := List.range'_append 0 eq1.eid (consNum - eq1.eid) 1
    simp only [Nat.one_mul, Nat.zero_add] at happ2
    rw [happ2]
    congr 1
    omega
  · intro r hr1' hr2
    rw [hrows, ← hcons] at hr2
    refine c2 r ?_ hr2
    cases hfx : (assignVarStarts patch).2.2
    · rw [hfx] at hr1'; simpa using hr1'
    · simp
  · intro bhv hm hin
    have := c3 bhv hm (by
      rcases hin with hd | ⟨ends, hl, f1, f2⟩
      · exact Or.inl hd
      · refine Or.inr ⟨ends, hl, ?_, ?_⟩
        · rw [← contains_false_iff, contains_starts_eq_isFreeNode patch hwf.1]; exact f1
        · rw [← contains_false_iff, contains_starts_eq_isFreeNode patch hwf.1]; exact f2)
    rw [this]
    rfl
  · intro hfx
    simp only [hfx, Bool.not_false, if_true] at hscale he1
    obtain ⟨uhv, u, start, g1, g2, g3, gA, gW, gB, -⟩ :=
      writeScaleEquation_spec geo mg patch vps _ _ eq1 hscale
    have hrow := b5 0 (by omega)
    unfold Equations.row at hrow
    simp only [Prod.mk.injEq] at hrow
    refine ⟨uhv, u, start, g1, g2, g3, ?_, ?_, ?_⟩
    · rw [hrow.1, gA]
      simp [SparseMatrix.resize]
    · rw [hrow.2.1, gW]
      simp [SparseMatrix.resize]
    · rw [hrow.2.2, gB]

/-- The final value of the row counter `eid` is `consNum`. -/
theorem eigen_final_eid (geo : Geometry) (mg : MixedGraph) (patch : MGPatch) (vps : List Vec3)
    (hwf : patch.WF)
    (s : List (MGBinaryHandle × Nat) × List (MGBinaryHandle × List Vec3) × Nat)
    (eq1 eq2 : Equations)
    (hcount : countConstraints geo mg patch (assignVarStarts patch).1
      (assignVarStarts patch).2.2 = some s)
    (hscale : (if !(assignVarStarts patch).2.2 then
        writeScaleEquation geo mg patch vps (assignVarStarts patch).1
          { A := SparseMatrix.resize s.2.2 (assignVarStarts patch).2.1,
            W := SparseMatrix.resize s.2.2 s.2.2, B := List.replicate s.2.2 0,
            eid := 0 }
      else pure
          { A := SparseMatrix.resize s.2.2 (assignVarStarts patch).2.1,
            W := SparseMatrix.resize s.2.2 s.2.2, B := List.replicate s.2.2 0,
            eid := 0 }) =
        some eq1)
    (hwrite : writeBinaryEquations geo mg patch vps (assignVarStarts patch).1 s.2.1 eq1 =
      some eq2) :
    eq2.eid = s.2.2 := by
  rw [countConstraints_eq] at hcount
  rw [writeBinaryEquations_eq] at hwrite
  have happ := countLoop_applied geo mg (assignVarStarts patch).1 patch.bhs _ _ hcount hwf.2
  have heq1 : eq1.eid = (if !(assignVarStarts patch).2.2 then 1 else 0) ∧
      (∀ e ∈ eq1.A.entries, e.1 < eq1.eid) ∧ (∀ e ∈ eq1.W.entries, e.1 < eq1.eid) := by
    by_cases hfx : (assignVarStarts patch).2.2 = true
    · simp only [hfx, Bool.not_true, Bool.false_eq_true, if_false, Option.some.injEq, pure]
        at hscale ⊢
      subst hscale
      exact ⟨rfl, by simp [SparseMatrix.resize], by simp [SparseMatrix.resize]⟩
    · have hfx' : (assignVarStarts patch).2.2 = false := by simpa using hfx
      simp only [hfx', Bool.not_false, if_true] at hscale ⊢
      obtain ⟨e1, e2, e3⟩ := writeScaleEquation_below geo mg patch vps _ _ eq1
        (by simp [SparseMatrix.resize]) (by simp [SparseMatrix.resize]) hscale
      exact ⟨by rw [e1], e2, e3⟩
  obtain ⟨b1, -⟩ := binaryLoops_rows geo mg patch vps (assignVarStarts patch).1
    s.2.1 patch.bhs _ _ eq1 eq2 hcount hwrite heq1.1.symm heq1.2.1 heq1.2.2 hwf.2
    (fun bhv hb hen' ends' hl' hnot' => happ bhv hb hen' ends' hl' hnot')
  exact b1.symm

/-- C21: when the least-squares `initialise` returns on a patch none of whose nodes is fixed,
the system has exactly one row more than the binary handles ask for: row 0 carries the
inverse-depth coefficients of the first node of the patch at the centre direction of that
node, placed from the start position of that node on, its right-hand side is `1` and its weight
is `1`, and every other row lies in the row range of an enabled binary handle. When some node
is fixed there is no such row: the system has exactly the rows of the binary handles, and every
row lies in the row range of an enabled binary handle. -/
theorem eigen_scale_equation (geo : Geometry) (ind : Bool) (mg : MixedGraph) (patch : MGPatch)
    (vps : List Vec3) (uw : Bool) (data : MGPatchDepthsOptimizerInternalEigen)
    (hwf : patch.WF)
    (hinit : (fresh ind).initialise geo mg patch vps uw = some data) :
    ((∀ uhv ∈ patch.uhs, uhv.2.fixed = false) →
      data.A.rows = 1 + edgeRowCount geo mg patch ∧
      (∃ uhv u start, patch.uhs.head? = some uhv ∧ mg.dataU uhv.1 = some u ∧
        mapAt data.uh2varStartPosition uhv.1 = some start ∧
        data.A.entries.filter (fun e => e.1 == 0) =
          (List.range (uhv.2.variableCoeffsForInverseDepthAtDirection geo u.normalizedCenter u
            vps).length).map (fun i => (0, start + i,
              (uhv.2.variableCoeffsForInverseDepthAtDirection geo u.normalizedCenter u
                vps).getD i 0)) ∧
        data.W.entries.filter (fun e => e.1 == 0) = [(0, 0, 1)] ∧
        data.B.getD 0 0 = 1) ∧
      ∀ r, 1 ≤ r → r < data.A.rows →
        ∃ bhv ∈ patch.bhs, ∃ start anchors, bhv.2.enabled = true ∧
          mapAt data.bh2consStartPosition bhv.1 = some start ∧
          NecessaryAnchorsForBinary geo mg bhv.1 = some anchors ∧
          start ≤ r ∧ r < start + anchors.length) ∧
    ((∃ uhv ∈ patch.uhs, uhv.2.fixed = true) →
      data.A.rows = edgeRowCount geo mg patch ∧
      ∀ r, r < data.A.rows →
        ∃ bhv ∈ patch.bhs, ∃ start anchors, bhv.2.enabled = true ∧
          mapAt data.bh2consStartPosition bhv.1 = some start ∧
          NecessaryAnchorsForBinary geo mg bhv.1 = some anchors ∧
          start ≤ r ∧ r < start + anchors.length) := by
  obtain ⟨h1, -, -, -, h5, -, h7⟩ :=
    eigen_initialise_system geo (fresh ind) data mg patch vps uw hwf hinit
  have hany := assignVarStarts_hasFixed patch
  constructor
  · intro hfree
    have hfx : (assignVarStarts patch).2.2 = false := by
      rw [hany, List.any_eq_false]
      intro uhv hm
      simp [hfree uhv hm]
    rw [hfx] at h1 h5
    simp only [Bool.false_eq_true, if_false] at h1 h5
    refine ⟨h1, h7 hfx, ?_⟩
    intro r hr1 hr2
    obtain ⟨bhv, hm, start, anchors, g1, g2, -, g4, g5, g6⟩ := h5 r hr1 hr2
    exact ⟨bhv, hm, start, anchors, g1, g2, g4, g5, g6⟩
  · rintro ⟨uhv, hm, hf⟩
    have hfx : (assignVarStarts patch).2.2 = true := by
      rw [hany, List.any_eq_true]
      exact ⟨uhv, hm, hf⟩
    rw [hfx] at h1 h5
    simp only [if_true, Nat.zero_add] at h1 h5
    refine ⟨h1, ?_⟩
    intro r hr2
    obtain ⟨bhv, hm, start, anchors, g1, g2, -, g4, g5, g6⟩ := h5 r (Nat.zero_le _) hr2
    exact ⟨bhv, hm, start, anchors, g1, g2, g4, g5, g6⟩

/-- C21 on the two-region patch with both nodes free: four rows, the scale row and the three rows
of the overlap relation. -/
theorem eigen_scale_equation_witness :
    freeOverlapPatch.WF ∧
    ∃ data, (fresh true).initialise exGeometry overlapGraph freeOverlapPatch [] true =
        some data ∧
      data.A.rows = 1 + edgeRowCount exGeometry overlapGraph freeOverlapPatch ∧
      edgeRowCount exGeometry overlapGraph freeOverlapPatch = 3 ∧
      data.A.entries.filter (fun e => e.1 == 0) = [(0, 0, 0), (0, 1, 0), (0, 2, 1)] ∧
      data.W.entries.filter (fun e => e.1 == 0) = [(0, 0, 1)] ∧
      data.B.getD 0 0 = 1 := by
  have hwf : freeOverlapPatch.WF := ⟨by unfold KeysNodup; decide, by unfold KeysNodup; decide⟩
  obtain ⟨data, hdata⟩ := Option.isSome_iff_exists.1 (by decide :
    ((fresh true).initialise exGeometry overlapGraph freeOverlapPatch [] true).isSome = true)
  obtain ⟨hrows, ⟨uhv, u, start, g1, g2, g3, g4, g5, g6⟩, -⟩ :=
    (eigen_scale_equation exGeometry true overlapGraph freeOverlapPatch [] true data hwf
      hdata).1 (by decide)
  have e1 : uhv = (0, { vars := [0, 0, 1], fixed := false }) := (Option.some.inj g1).symm
  subst e1
  have e2 : u = exUnary := (Option.some.inj g2).symm
  subst e2
  have hst := (eigen_initialise_fields exGeometry _ data overlapGraph freeOverlapPatch [] true
    hdata).2
  rw [hst] at g3
  have e3 : start = 0 := (Option.some.inj g3).symm
  subst e3
  refine ⟨hwf, data, hdata, hrows, by decide, ?_, g5, g6⟩
  rw [g4]
  decide

/-- C22: when the least-squares `initialise` returns, the number of rows of the system is
`consNum` = (1 if no node is fixed, else 0) + the sum, over the enabled binary handles of the
patch with at least one non-fixed end, of the number of necessary anchors of the handle; the
rows written are exactly the rows `0, 1, .., consNum - 1`, each once and in this order (`W`
gets one coefficient per written row), so the row counter `eid` ends at `consNum`; a handle
that is disabled or has two fixed ends is given no row range. -/
theorem eigen_row_count (geo : Geometry) (ind : Bool) (mg : MixedGraph) (patch : MGPatch)
    (vps : List Vec3) (uw : Bool) (data : MGPatchDepthsOptimizerInternalEigen)
    (hwf : patch.WF)
    (hinit : (fresh ind).initialise geo mg patch vps uw = some data) :
    data.A.rows = (if patch.uhs.any (fun uhv => uhv.2.fixed) then 0 else 1) +
      edgeRowCount geo mg patch ∧
    data.B.length = data.A.rows ∧
    data.W.entries.map (fun e => e.1) = List.range data.A.rows ∧
    (∀ s eq1 eq2,
      countConstraints geo mg patch (assignVarStarts patch).1 (assignVarStarts patch).2.2 =
        some s →
      (if !(assignVarStarts patch).2.2 then
        writeScaleEquation geo mg patch vps (assignVarStarts patch).1
          { A := SparseMatrix.resize s.2.2 (assignVarStarts patch).2.1,
            W := SparseMatrix.resize s.2.2 s.2.2, B := List.replicate s.2.2 0,
            eid := 0 }
      else pure
          { A := SparseMatrix.resize s.2.2 (assignVarStarts patch).2.1,
            W := SparseMatrix.resize s.2.2 s.2.2, B := List.replicate s.2.2 0,
            eid := 0 }) =
        some eq1 →
      writeBinaryEquations geo mg patch vps (assignVarStarts patch).1 s.2.1 eq1 = some eq2 →
      eq2.eid = s.2.2 ∧ s.2.2 = data.A.rows) ∧
    (∀ bhv ∈ patch.bhs, (bhv.2.enabled = false ∨ ∃ ends, mg.lowers bhv.1 = some ends ∧
        isFreeNode patch ends.1 = false ∧ isFreeNode patch ends.2 = false) →
      mapAt data.bh2consStartPosition bhv.1 = none) := by
  obtain ⟨h1, -, h3, h4, -, h6, -⟩ :=
    eigen_initialise_system geo (fresh ind) data mg patch vps uw hwf hinit
  rw [assignVarStarts_hasFixed] at h1
  refine ⟨h1, h3, h4, ?_, h6⟩
  intro s eq1 eq2 hcount hscale hwrite
  refine ⟨eigen_final_eid geo mg patch vps hwf s eq1 eq2 hcount hscale hwrite, ?_⟩
  unfold initialise at hinit
  simp only [Option.bind_eq_bind, Option.bind_eq_some, pure, Option.some.injEq] at hinit
  obtain ⟨⟨bh2cons, applied, consNum⟩, hcount', eq1', hscale', eq2', hwrite', rfl⟩ := hinit
  rw [hcount] at hcount'
  have hs := Option.some.inj hcount'
  subst hs
  simp only
  obtain ⟨hr, -⟩ := writeLoop_shape geo mg patch vps (assignVarStarts patch).1 applied
    patch.bhs eq1' eq2' (by rw [← writeBinaryEquations_eq]; exact hwrite')
  rw [hr]
  by_cases hfx : (assignVarStarts patch).2.2 = true
  · simp only [hfx, Bool.not_true, Bool.false_eq_true, if_false, Option.some.injEq]
      at hscale'
    subst hscale'
    rfl
  · have hfx' : (assignVarStarts patch).2.2 = false := by simpa using hfx
    simp only [hfx', Bool.not_false, if_true] at hscale'
    obtain ⟨_, _, _, -, -, -, -, -, -, hr', -⟩ :=
      writeScaleEquation_spec geo mg patch vps _ _ eq1' hscale'
    rw [hr']
    rfl

/-- C22 on the two-region patch with node 0 fixed: three rows, those of the three necessary
anchors of the overlap relation. -/
theorem eigen_row_count_witness :
    overlapPatch.WF ∧
    ∃ data, (fresh true).initialise exGeometry overlapGraph overlapPatch [] true = some data ∧
      data.A.rows = 3 ∧ data.B.length = 3 ∧ data.W.entries.map (fun e => e.1) = [0, 1, 2] := by
  have hwf : overlapPatch.WF := ⟨by unfold KeysNodup; decide, by unfold KeysNodup; decide⟩
  obtain ⟨data, hdata⟩ := Option.isSome_iff_exists.1 (by decide :
    ((fresh true).initialise exGeometry overlapGraph overlapPatch [] true).isSome = true)
  obtain ⟨h1, h2, h3, -⟩ := eigen_row_count exGeometry true overlapGraph overlapPatch [] true
    data hwf hdata
  have hc : (if overlapPatch.uhs.any (fun uhv => uhv.2.fixed) then 0 else 1) +
      edgeRowCount exGeometry overlapGraph overlapPatch = 3 := by decide
  rw [hc] at h1
  rw [h1] at h2 h3
  exact ⟨hwf, data, hdata, h1, h2, h3⟩

theorem eigen_initialise_cols (geo : Geometry) (self data : MGPatchDepthsOptimizerInternalEigen)
    (mg : MixedGraph) (patch : MGPatch) (vps : List Vec3) (uw : Bool)
    (hinit : self.initialise geo mg patch vps uw = some data) :
    data.A.cols = (assignVarStarts patch).2.1 := by
  unfold initialise at hinit
  simp only [Option.bind_eq_bind, Option.bind_eq_some, pure, Option.some.injEq] at hinit
  obtain ⟨⟨bh2cons, applied, consNum⟩, -, eq1, hscale, eq2, hwrite, rfl⟩ := hinit
  simp only
  obtain ⟨-, hc, -⟩ := writeLoop_shape geo mg patch vps (assignVarStarts patch).1 applied
    patch.bhs eq1 eq2 (by rw [← writeBinaryEquations_eq]; exact hwrite)
  rw [hc]
  by_cases hfx : (assignVarStarts patch).2.2 = true
  · simp only [hfx, Bool.not_true, Bool.false_eq_true, if_false, Option.some.injEq]
      at hscale
    subst hscale
    rfl
  · have hfx' : (assignVarStarts patch).2.2 = false := by simpa using hfx
    simp only [hfx', Bool.not_false, if_true] at hscale
    obtain ⟨_, _, _, -, -, -, -, -, -, -, hc', -⟩ :=
      writeScaleEquation_spec geo mg patch vps _ _ eq1 hscale
    rw [hc']
    rfl

/-- C23: the variable numbering of the least-squares `initialise`. When it returns on a patch
with one entry per node, the number of columns `varNum` of the system is the total number of
parameters of the non-fixed nodes; a fixed node (and a node outside the patch) receives no start
position; every non-fixed node receives a start position whose range
`[start, start + number of parameters)` lies in `[0, varNum)`; the ranges of two different
non-fixed nodes are disjoint; and every index below `varNum` lies in the range of a non-fixed
node. -/
theorem eigen_variable_numbering (geo : Geometry) (ind : Bool) (mg : MixedGraph)
    (patch : MGPatch) (vps : List Vec3) (uw : Bool)
    (data : MGPatchDepthsOptimizerInternalEigen) (hnd : KeysNodup patch.uhs)
    (hinit : (fresh ind).initialise geo mg patch vps uw = some data) :
    data.A.cols = freeParamCount patch.uhs ∧
    (∀ uh var, (uh, var) ∈ patch.uhs → var.fixed = true →
      mapAt data.uh2varStartPosition uh = none) ∧
    (∀ uh, Contains patch.uhs uh = false → mapAt data.uh2varStartPosition uh = none) ∧
    (∀ uh var, (uh, var) ∈ patch.uhs → var.fixed = false →
      ∃ start, mapAt data.uh2varStartPosition uh = some start ∧
        start + var.vars.length ≤ data.A.cols) ∧
    (∀ uh1 var1 uh2 var2 s1 s2, (uh1, var1) ∈ patch.uhs → (uh2, var2) ∈ patch.uhs →
      uh1 ≠ uh2 → var1.fixed = false → var2.fixed = false →
      mapAt data.uh2varStartPosition uh1 = some s1 →
      mapAt data.uh2varStartPosition uh2 = some s2 →
      s1 + var1.vars.length ≤ s2 ∨ s2 + var2.vars.length ≤ s1) ∧
    (∀ i, i < data.A.cols →
      ∃ uh var start, (uh, var) ∈ patch.uhs ∧ var.fixed = false ∧
        mapAt data.uh2varStartPosition uh = some start ∧
        start ≤ i ∧ i < start + var.vars.length) := by
  rw [eigen_initialise_cols geo _ data mg patch vps uw hinit,
    (eigen_initialise_fields geo _ data mg patch vps uw hinit).2]
  exact assignVarStarts_ranges patch hnd

/-- C23 on a patch of three nodes (node 0 free with three parameters, node 1 fixed, node 2 free
with one parameter): four columns, node 0 starts at 0, node 2 starts at 3, node 1 has no start
position. -/
theorem eigen_variable_numbering_witness :
    KeysNodup numberingPatch.uhs ∧
    ∃ data, (fresh true).initialise exGeometry overlapGraph numberingPatch [] true =
        some data ∧
      data.A.cols = 4 ∧ mapAt data.uh2varStartPosition 1 = none ∧
      (∃ start, mapAt data.uh2varStartPosition 0 = some start ∧ start + 3 ≤ data.A.cols) ∧
      (∃ start, mapAt data.uh2varStartPosition 2 = some start ∧ start + 1 ≤ data.A.cols) := by
  have hnd : KeysNodup numberingPatch.uhs := by unfold KeysNodup; decide
  obtain ⟨data, hdata⟩ := Option.isSome_iff_exists.1 (by decide :
    ((fresh true).initialise exGeometry overlapGraph numberingPatch [] true).isSome = true)
  obtain ⟨h1, h2, -, h4, -⟩ := eigen_variable_numbering exGeometry true overlapGraph
    numberingPatch [] true data hnd hdata
  exact ⟨hnd, data, hdata, h1, h2 1 { vars := [0, 0, 1], fixed := true } (by decide) rfl,
    h4 0 { vars := [1, 1, 1], fixed := false } (by decide) rfl,
    h4 2 { vars := [1], fixed := false } (by decide) rfl⟩

end RowCount

/-! ## The selection of necessary anchors -/

/-- The fold of `maxOffsetAnchor` from any start: the result bounds the start and every visited
anchor, and it is the start or the offset and index of a visited anchor. -/
theorem maxOffset_fold (alignDir : Vec3) (anchors : List Vec3) :
    ∀ (ks : List Nat) (acc : ℚ × Int),
      (∀ k ∈ ks, |dot alignDir (anchors.getD k (0, 0, 0))| ≤
        (ks.foldl (fun (acc : ℚ × Int) k =>
          let dotProd := |dot alignDir (anchors.getD k (0, 0, 0))|
          if dotProd > acc.1 then (dotProd, (k : Int)) else acc) acc).1) ∧
      acc.1 ≤ (ks.foldl (fun (acc : ℚ × Int) k =>
          let dotProd := |dot alignDir (anchors.getD k (0, 0, 0))|
          if dotProd > acc.1 then (dotProd, (k : Int)) else acc) acc).1 ∧
      ((ks.foldl (fun (acc : ℚ × Int) k =>
          let dotProd := |dot alignDir (anchors.getD k (0, 0, 0))|
          if dotProd > acc.1 then (dotProd, (k : Int)) else acc) acc) = acc ∨
        ∃ k ∈ ks, (ks.foldl (fun (acc : ℚ × Int) k =>
          let dotProd := |dot alignDir (anchors.getD k (0, 0, 0))|
          if dotProd > acc.1 then (dotProd, (k : Int)) else acc) acc) =
            (|dot alignDir (anchors.getD k (0, 0, 0))|, (k : Int))) := by
  intro ks
  induction ks with
  | nil => intro acc; simp
  | cons k0 t ih =>
    intro acc
    simp only [List.foldl_cons]
    by_cases hgt : |dot alignDir (anchors.getD k0 (0, 0, 0))| > acc.1
    · simp only [hgt, if_true]
      obtain ⟨i1, i2, i3⟩ := ih (|dot alignDir (anchors.getD k0 (0, 0, 0))|, (k0 : Int))
      simp only at i2
      refine ⟨?_, le_trans (le_of_lt hgt) i2, ?_⟩
      · intro k hk
        rcases List.mem_cons.1 hk with rfl | hk
        · exact i2
        · exact i1 k hk
      · right
        rcases i3 with h | ⟨k, hk, h⟩
        · exact ⟨k0, List.mem_cons_self _ _, h⟩
        · exact ⟨k, List.mem_cons_of_mem _ hk, h⟩
    · simp only [hgt, if_false]
      obtain ⟨i1, i2, i3⟩ := ih acc
      refine ⟨?_, i2, ?_⟩
      · intro k hk
        rcases List.mem_cons.1 hk with rfl | hk
        · exact le_trans (not_lt.1 hgt) i2
        · exact i1 k hk
      · rcases i3 with h | ⟨k, hk, h⟩
        · exact Or.inl h
        · exact Or.inr ⟨k, List.mem_cons_of_mem _ hk, h⟩

/-- The result of the loop over the interior anchors: it bounds the offset of every interior
anchor, and it is `(0, -1)` or the offset and index of an interior anchor. -/
theorem maxOffsetAnchor_spec (alignDir : Vec3) (anchors : List Vec3) :
    (∀ k, 1 ≤ k → k + 1 < anchors.length →
      |dot alignDir (anchors.getD k (0, 0, 0))| ≤ (maxOffsetAnchor alignDir anchors).1) ∧
    (maxOffsetAnchor alignDir anchors = (0, -1) ∨
      ∃ m, 1 ≤ m ∧ m + 1 < anchors.length ∧
        maxOffsetAnchor alignDir anchors = (|dot alignDir (anchors.getD m (0, 0, 0))|, (m : Int))) := by
  obtain ⟨h1, -, h3⟩ := maxOffset_fold alignDir anchors (List.range' 1 (anchors.length - 2))
    (0, -1)
  refine ⟨?_, ?_⟩
  · intro k hk1 hk2
    exact h1 k (by rw [List.mem_range'_1]; omega)
  · rcases h3 with h | ⟨m, hm, h⟩
    · exact Or.inl h
    · rw [List.mem_range'_1] at hm
      exact Or.inr ⟨m, hm.1, by omega, h⟩

/-- C24: for a region-region connection with at least two stored anchors, with `n` the
normalised cross product of the first and the last stored anchor: when every interior anchor
`a_k` has `|n . a_k| ≤ 1e-3` the selection returns `[first, last]`; when some interior anchor
exceeds `1e-3` it returns `[first, a_m, last]` for an interior index `m` whose `|n . a_m|` is
the largest among the interior anchors. -/
theorem necessaryAnchors_connection (geo : Geometry) (mg : MixedGraph) (bh : MGBinaryHandle)
    (b : MGBinary) (hb : mg.dataB bh = some b)
    (ht : b.type = MGBinaryType.RegionRegionConnection)
    (hlen : 2 ≤ b.normalizedAnchors.length) :
    ∃ first last, b.normalizedAnchors.head? = some first ∧
      b.normalizedAnchors.getLast? = some last ∧
      ((∀ k, 1 ≤ k → k + 1 < b.normalizedAnchors.length →
          |dot (geo.normalize (cross first last)) (b.normalizedAnchors.getD k (0, 0, 0))| ≤
            1 / 1000) →
        NecessaryAnchorsForBinary geo mg bh = some [first, last]) ∧
      ((∃ k, 1 ≤ k ∧ k + 1 < b.normalizedAnchors.length ∧
          1 / 1000 <
            |dot (geo.normalize (cross first last)) (b.normalizedAnchors.getD k (0, 0, 0))|) →
        ∃ m, 1 ≤ m ∧ m + 1 < b.normalizedAnchors.length ∧
          NecessaryAnchorsForBinary geo mg bh =
            some [first, b.normalizedAnchors.getD m (0, 0, 0), last] ∧
          ∀ k, 1 ≤ k → k + 1 < b.normalizedAnchors.length →
            |dot (geo.normalize (cross first last)) (b.normalizedAnchors.getD k (0, 0, 0))| ≤
              |dot (geo.normalize (cross first last))
                (b.normalizedAnchors.getD m (0, 0, 0))|) := by
  have hne : b.normalizedAnchors ≠ [] := by
    intro h
    rw [h] at hlen
    simp at hlen
  obtain ⟨first, hfirst⟩ : ∃ first, b.normalizedAnchors.head? = some first := by
    cases hA : b.normalizedAnchors with
    | nil => exact absurd hA hne
    | cons a t => exact ⟨a, rfl⟩
  obtain ⟨last, hlast⟩ : ∃ last, b.normalizedAnchors.getLast? = some last :=
    ⟨b.normalizedAnchors.getLast hne, List.getLast?_eq_getLast _ hne⟩
  obtain ⟨hmax, hres⟩ := maxOffsetAnchor_spec (geo.normalize (cross first last))
    b.normalizedAnchors
  have hN : NecessaryAnchorsForBinary geo mg bh =
      (if (maxOffsetAnchor (geo.normalize (cross first last)) b.normalizedAnchors).1 > 1 / 1000
        then (b.normalizedAnchors.get?
          (maxOffsetAnchor (geo.normalize (cross first last)) b.normalizedAnchors).2.toNat).bind
            (fun mid => some [first, mid, last])
        else some [first, last]) := by
    unfold NecessaryAnchorsForBinary
    simp only [hb, ht, hfirst, hlast, Option.bind_eq_bind, Option.some_bind, pure]
  refine ⟨first, last, hfirst, hlast, ?_, ?_⟩
  · intro hall
    rw [hN]
    have : ¬ (maxOffsetAnchor (geo.normalize (cross first last)) b.normalizedAnchors).1 >
        1 / 1000 := by
      rcases hres with h | ⟨m, hm1, hm2, h⟩
      · rw [h]; norm_num
      · rw [h]; exact not_lt.2 (hall m hm1 hm2)
    rw [if_neg this]
  · rintro ⟨k, hk1, hk2, hk⟩
    have hgt : (maxOffsetAnchor (geo.normalize (cross first last)) b.normalizedAnchors).1 >
        1 / 1000 := lt_of_lt_of_le hk (hmax k hk1 hk2)
    rcases hres with h | ⟨m, hm1, hm2, h⟩
    · rw [h] at hgt
      norm_num at hgt
    · refine ⟨m, hm1, hm2, ?_, ?_⟩
      · rw [hN, if_pos hgt, h]
        simp only [Int.toNat_ofNat]
        have hm : m < b.normalizedAnchors.length := by omega
        rw [List.get?_eq_getElem?, List.getElem?_eq_getElem hm]
        simp [List.getD_eq_getElem?_getD, List.getElem?_eq_getElem hm]
      · intro k' h1 h2
        have := hmax k' h1 h2
        rw [h] at this
        exact this

/-- C24 on the kinked connection: the interior anchor `(0, 0, 1)` has offset 1 from the plane
through `(1, 0, 0)` and `(0, 1, 0)`, and the selection returns all three anchors. -/
theorem necessaryAnchors_connection_witness :
    kinkedGraph.dataB 0 = some kinkedConnection ∧
    kinkedConnection.type = MGBinaryType.RegionRegionConnection ∧
    2 ≤ kinkedConnection.normalizedAnchors.length ∧
    NecessaryAnchorsForBinary exGeometry kinkedGraph 0 =
      some [(1, 0, 0), (0, 0, 1), (0, 1, 0)] := by
  obtain ⟨first, last, h1, h2, -, h4⟩ := necessaryAnchors_connection exGeometry kinkedGraph 0
    kinkedConnection rfl rfl (by decide)
  have e1 : first = (1, 0, 0) := (Option.some.inj h1).symm
  have e2 : last = (0, 1, 0) := (Option.some.inj h2).symm
  subst e1 e2
  obtain ⟨m, hm1, hm2, hm, -⟩ := h4 ⟨1, Nat.le_refl 1, by decide, by
    simp [kinkedConnection, exGeometry, dot, cross]; norm_num⟩
  have hm' : m = 1 := by
    have : kinkedConnection.normalizedAnchors.length = 3 := rfl
    omega
  subst hm'
  exact ⟨rfl, rfl, by decide, hm⟩

theorem sampledOverlap_anchors :
    sampledOverlap.normalizedAnchors =
      [(-2/3, -2/3, 1/3), (3/5, 0, 4/5), (-2/3, -2/3, 1/3), (0, 3/5, 4/5)] := by
  simp [sampledOverlap, overlapAnchors, sampleCorner, belowMin, aboveMax, dot]
  norm_num

/-- The overlap relation returns the first three stored anchors in stored order, and nothing
when fewer than three are stored. -/
theorem necessaryAnchors_overlap_eq (geo : Geometry) (mg : MixedGraph) (bh : MGBinaryHandle)
    (b : MGBinary) (hb : mg.dataB bh = some b)
    (ht : b.type = MGBinaryType.RegionRegionOverlapping) :
    NecessaryAnchorsForBinary geo mg bh =
      if 3 ≤ b.normalizedAnchors.length then some (b.normalizedAnchors.take 3) else none := by
  unfold NecessaryAnchorsForBinary
  simp only [hb, ht, Option.bind_eq_bind, Option.some_bind, pure]
  cases hA : b.normalizedAnchors with
  | nil => simp
  | cons a0 t0 =>
    cases t0 with
    | nil => simp
    | cons a1 t1 =>
      cases t1 with
      | nil => simp
      | cons a2 t2 => simp

/-- C25 fails as stated: the overlap relation sampled from the corners `(-2/3, -2/3, 1/3)`,
`(3/5, 0, 4/5)` and `(0, 3/5, 4/5)` stores the first corner twice (it has both the least `x`
and the least `y` projection); the selection returns the first three stored anchors, which are
linearly dependent, although the stored anchors contain three linearly independent
directions. -/
theorem overlap_selection_dependent :
    sampledOverlapGraph.dataB 0 = some sampledOverlap ∧
    sampledOverlap.type = MGBinaryType.RegionRegionOverlapping ∧
    sampledOverlap.normalizedAnchors =
      [(-2/3, -2/3, 1/3), (3/5, 0, 4/5), (-2/3, -2/3, 1/3), (0, 3/5, 4/5)] ∧
    NecessaryAnchorsForBinary exGeometry sampledOverlapGraph 0 =
      some [(-2/3, -2/3, 1/3), (3/5, 0, 4/5), (-2/3, -2/3, 1/3)] ∧
    det3 (-2/3, -2/3, 1/3) (3/5, 0, 4/5) (-2/3, -2/3, 1/3) = 0 ∧
    det3 (-2/3, -2/3, 1/3) (3/5, 0, 4/5) (0, 3/5, 4/5) ≠ 0 := by
  refine ⟨rfl, rfl, sampledOverlap_anchors, ?_, ?_, ?_⟩
  · rw [necessaryAnchors_overlap_eq exGeometry sampledOverlapGraph 0 sampledOverlap rfl rfl,
      sampledOverlap_anchors]
    rfl
  · simp [det3, dot, cross]
    norm_num
  · simp [det3, dot, cross]
    norm_num

/-- C25, amended: for a region-region overlap relation with at least three stored anchors the
selection returns exactly three anchors, the first three stored anchors in stored order, so
every returned anchor is a stored anchor and the returned anchors are linearly independent
exactly when the first three stored anchors are. -/
theorem necessaryAnchors_overlap (geo : Geometry) (mg : MixedGraph) (bh : MGBinaryHandle)
    (b : MGBinary) (hb : mg.dataB bh = some b)
    (ht : b.type = MGBinaryType.RegionRegionOverlapping)
    (hlen : 3 ≤ b.normalizedAnchors.length) :
    ∃ a0 a1 a2, b.normalizedAnchors.get? 0 = some a0 ∧ b.normalizedAnchors.get? 1 = some a1 ∧
      b.normalizedAnchors.get? 2 = some a2 ∧
      NecessaryAnchorsForBinary geo mg bh = some [a0, a1, a2] ∧
      [a0, a1, a2] = b.normalizedAnchors.take 3 ∧
      (∀ a ∈ [a0, a1, a2], a ∈ b.normalizedAnchors) := by
  have hN := necessaryAnchors_overlap_eq geo mg bh b hb ht
  rw [if_pos hlen] at hN
  cases hA : b.normalizedAnchors with
  | nil => rw [hA] at hlen; simp at hlen
  | cons a0 t0 =>
    cases t0 with
    | nil => rw [hA] at hlen; simp at hlen
    | cons a1 t1 =>
      cases t1 with
      | nil => rw [hA] at hlen; simp at hlen
      | cons a2 t2 =>
        rw [hA] at hN
        refine ⟨a0, a1, a2, rfl, rfl, rfl, hN, rfl, ?_⟩
        intro a ha
        simp only [List.mem_cons, List.mem_singleton, List.not_mem_nil, or_false] at ha
        rcases ha with rfl | rfl | rfl <;> simp

/-- The amended C25 on the two-region graph: the overlap relation stores four anchors and the
selection returns the first three. -/
theorem necessaryAnchors_overlap_witness :
    overlapGraph.dataB 0 = some exOverlap ∧
    exOverlap.type = MGBinaryType.RegionRegionOverlapping ∧
    3 ≤ exOverlap.normalizedAnchors.length ∧
    NecessaryAnchorsForBinary exGeometry overlapGraph 0 =
      some [(1, 0, 0), (0, 1, 0), (0, 0, 1)] := by
  obtain ⟨a0, a1, a2, h0, h1, h2, hN, -⟩ := necessaryAnchors_overlap exGeometry overlapGraph 0
    exOverlap rfl rfl (by decide)
  have e0 : a0 = (1, 0, 0) := (Option.some.inj h0).symm
  have e1 : a1 = (0, 1, 0) := (Option.some.inj h1).symm
  have e2 : a2 = (0, 0, 1) := (Option.some.inj h2).symm
  subst e0 e1 e2
  exact ⟨rfl, rfl, by decide, hN⟩

/-- C26: for a line-line intersection or incidence the selection returns the stored anchor list
unchanged, and for a region-line connection with a non-empty anchor list it returns exactly two
anchors, the first and the last stored anchor, in that order. -/
theorem necessaryAnchors_lines (geo : Geometry) (mg : MixedGraph) (bh : MGBinaryHandle)
    (b : MGBinary) (hb : mg.dataB bh = some b) :
    ((b.type = MGBinaryType.LineLineIntersection ∨ b.type = MGBinaryType.LineLineIncidence) →
      NecessaryAnchorsForBinary geo mg bh = some b.normalizedAnchors) ∧
    (b.type = MGBinaryType.RegionLineConnection → b.normalizedAnchors ≠ [] →
      ∃ first last, b.normalizedAnchors.head? = some first ∧
        b.normalizedAnchors.getLast? = some last ∧
        NecessaryAnchorsForBinary geo mg bh = some [first, last]) := by
  constructor
  · intro ht
    unfold NecessaryAnchorsForBinary
    rcases ht with ht | ht <;> simp only [hb, ht, Option.bind_eq_bind, Option.some_bind, pure]
  · intro ht hne
    obtain ⟨first, hfirst⟩ : ∃ first, b.normalizedAnchors.head? = some first := by
      cases hA : b.normalizedAnchors with
      | nil => exact absurd hA hne
      | cons a t => exact ⟨a, rfl⟩
    refine ⟨first, b.normalizedAnchors.getLast hne, hfirst,
      List.getLast?_eq_getLast _ hne, ?_⟩
    unfold NecessaryAnchorsForBinary
    simp only [hb, ht, hfirst, List.getLast?_eq_getLast _ hne, Option.bind_eq_bind,
      Option.some_bind, pure]

/-- C26 on a region and two lines: the incidence of the lines returns its three anchors, the
contact of the region with a line returns the first and the last of its three anchors. -/
theorem necessaryAnchors_lines_witness :
    contactGraph.dataB 0 = some exIncidence ∧
    NecessaryAnchorsForBinary exGeometry contactGraph 0 =
      some [(1, 0, 0), (0, 0, 1), (0, 1, 0)] ∧
    contactGraph.dataB 1 = some exContact ∧
    ∃ first last, exContact.normalizedAnchors.head? = some first ∧
      exContact.normalizedAnchors.getLast? = some last ∧
      NecessaryAnchorsForBinary exGeometry contactGraph 1 = some [first, last] :=
  ⟨rfl, (necessaryAnchors_lines exGeometry contactGraph 0 exIncidence rfl).1 (Or.inr rfl),
    rfl, (necessaryAnchors_lines exGeometry contactGraph 1 exContact rfl).2 rfl
      (by decide)⟩

/-! ## The anchors sampled for a cross-view overlap relation -/

/-- C29, the code at a failing input: with the axes `x = (1, 0, 0)` and `y = (0, 1, 0)`, the
corners `(3/5, 0, 4/5)`, `(0, 0, 1)`, `(-3/5, 0, 4/5)` of the one region and `(0, 3/5, 4/5)`
of the other, the stored anchor 1 is the corner `(0, 3/5, 4/5)`, whose projection onto `x` is
`0`, although the corner `(3/5, 0, 4/5)` has the projection `3/5`: a corner that sets a new
minimum is never compared with the maximum. -/
theorem overlapAnchors_misses_maximum :
    overlapAnchors (1, 0, 0) (0, 1, 0) (0, 0, 2)
        [(3/5, 0, 4/5), (0, 0, 1), (-3/5, 0, 4/5)] [(0, 3/5, 4/5)] =
      [(-3/5, 0, 4/5), (0, 3/5, 4/5), (3/5, 0, 4/5), (0, 3/5, 4/5)] ∧
    dot (0, 3/5, 4/5) (1, 0, 0) = 0 ∧
    dot (3/5, 0, 4/5) (1, 0, 0) = 3/5 := by
  refine ⟨?_, ?_, ?_⟩
  · simp [overlapAnchors, sampleCorner, belowMin, aboveMax, dot]
    norm_num
  · simp [dot]
  · simp [dot]

theorem belowMin_some (d m : ℚ) : belowMin d (some m) = true ↔ d < m := by
  simp [belowMin]

theorem sampleCorner_anchor0 (x y : Vec3) (s : OverlapSamples) (a : Vec3)
    (hlen : s.anchors.length = 4) :
    (sampleCorner x y s a).anchors.length = 4 ∧
    (sampleCorner x y s a).anchors.get? 0 =
      (if belowMin (dot a x) s.minx then some a else s.anchors.get? 0) ∧
    (sampleCorner x y s a).minx =
      (if belowMin (dot a x) s.minx then some (dot a x) else s.minx) ∧
    (sampleCorner x y s a).anchors.get? 2 =
      (if belowMin (dot a y) s.miny then some a else s.anchors.get? 2) ∧
    (sampleCorner x y s a).miny =
      (if belowMin (dot a y) s.miny then some (dot a y) else s.miny) := by
  obtain ⟨anchors, minx, miny, maxx, maxy⟩ := s
  simp only at hlen
  match anchors, hlen with
  | [a0, a1, a2, a3], _ =>
    unfold sampleCorner
    simp only
    by_cases h1 : belowMin (dot a x) minx = true <;>
    by_cases h2 : aboveMax (dot a x) maxx = true <;>
    by_cases h3 : belowMin (dot a y) miny = true <;>
    by_cases h4 : aboveMax (dot a y) maxy = true <;>
    simp [h1, h2, h3, h4]

theorem sampleCorner_minTracked (x y : Vec3) (visited : List Vec3) (s : OverlapSamples)
    (a : Vec3) (h : MinTracked x y visited s) :
    MinTracked x y (visited ++ [a]) (sampleCorner x y s a) := by
  obtain ⟨hlen, hnil, hcons⟩ := h
  obtain ⟨l', g0, m0, g2, m2⟩ := sampleCorner_anchor0 x y s a hlen
  refine ⟨l', fun h => absurd h (by simp), fun _ => ?_⟩
  by_cases hv : visited = []
  · obtain ⟨n1, n2⟩ := hnil hv
    subst hv
    rw [n1] at g0 m0
    rw [n2] at g2 m2
    simp only [belowMin, if_true] at g0 m0 g2 m2
    exact ⟨⟨a, by simp, g0, m0, by simp⟩, ⟨a, by simp, g2, m2, by simp⟩⟩
  · obtain ⟨⟨b, hb, hb0, hbm, hbmin⟩, ⟨c, hc, hc2, hcm, hcmin⟩⟩ := hcons hv
    constructor
    · rw [hbm] at g0 m0
      by_cases hlt : dot a x < dot b x
      · rw [if_pos ((belowMin_some _ _).2 hlt)] at g0 m0
        refine ⟨a, by simp, g0, m0, ?_⟩
        intro c' hc'
        rcases List.mem_append.1 hc' with h | h
        · exact le_trans (le_of_lt hlt) (hbmin c' h)
        · simp only [List.mem_singleton] at h
          rw [h]
      · rw [if_neg (fun h => hlt ((belowMin_some _ _).1 h))] at g0 m0
        refine ⟨b, List.mem_append_left _ hb, by rw [g0, hb0], by rw [m0], ?_⟩
        intro c' hc'
        rcases List.mem_append.1 hc' with h | h
        · exact hbmin c' h
        · simp only [List.mem_singleton] at h
          rw [h]
          exact not_lt.1 hlt
    · rw [hcm] at g2 m2
      by_cases hlt : dot a y < dot c y
      · rw [if_pos ((belowMin_some _ _).2 hlt)] at g2 m2
        refine ⟨a, by simp, g2, m2, ?_⟩
        intro c' hc'
        rcases List.mem_append.1 hc' with h | h
        · exact le_trans (le_of_lt hlt) (hcmin c' h)
        · simp only [List.mem_singleton] at h
          rw [h]
      · rw [if_neg (fun h => hlt ((belowMin_some _ _).1 h))] at g2 m2
        refine ⟨c, List.mem_append_left _ hc, by rw [g2, hc2], by rw [m2], ?_⟩
        intro c' hc'
        rcases List.mem_append.1 hc' with h | h
        · exact hcmin c' h
        · simp only [List.mem_singleton] at h
          rw [h]
          exact not_lt.1 hlt

theorem foldl_sampleCorner_minTracked (x y : Vec3) :
    ∀ (corners visited : List Vec3) (s : OverlapSamples), MinTracked x y visited s →
      MinTracked x y (visited ++ corners) (corners.foldl (sampleCorner x y) s) := by
  intro corners
  induction corners with
  | nil => intro visited s h; simpa using h
  | cons a t ih =>
    intro visited s h
    have := ih (visited ++ [a]) _ (sampleCorner_minTracked x y visited s a h)
    simpa using this

/-- The minima are tracked as intended: when the two regions have a corner, the stored anchors
0 and 2 are corners of the two regions that attain the minimum of the projection onto `x` and
onto `y` over all corners of both regions. -/
theorem overlapAnchors_minima (x y z : Vec3) (corners1 corners2 : List Vec3)
    (hne : corners1 ++ corners2 ≠ []) :
    (∃ a ∈ corners1 ++ corners2, (overlapAnchors x y z corners1 corners2).get? 0 = some a ∧
      ∀ c ∈ corners1 ++ corners2, dot a x ≤ dot c x) ∧
    (∃ a ∈ corners1 ++ corners2, (overlapAnchors x y z corners1 corners2).get? 2 = some a ∧
      ∀ c ∈ corners1 ++ corners2, dot a y ≤ dot c y) := by
  have h0 : MinTracked x y []
      { anchors := List.replicate 4 z, minx := none, miny := none, maxx := none,
        maxy := none } :=
    ⟨by simp, fun _ => ⟨rfl, rfl⟩, fun h => absurd rfl h⟩
  have h1 := foldl_sampleCorner_minTracked x y corners1 [] _ h0
  have h2 := foldl_sampleCorner_minTracked x y corners2 _ _ h1
  simp only [List.nil_append] at h2
  obtain ⟨-, -, hcons⟩ := h2
  obtain ⟨⟨a, ha, ha0, -, hamin⟩, ⟨b, hb, hb2, -, hbmin⟩⟩ := hcons hne
  exact ⟨⟨a, ha, ha0, hamin⟩, ⟨b, hb, hb2, hbmin⟩⟩

/-! ## Merging of the angle spans of colinear lines -/

/-- C30, the code at a failing input: of the two spans `(0, 3/2)` and `(1/2, 1)`, each with
`from ≤ to` and already in ascending order of start, the second lies inside the first; the sweep
sets `curTo` to the end `1` of the second span and returns the single span `(0, 1)`, which
does not contain the angle `5/4` of the first input span. -/
theorem merge_drops_covered_angle :
    (∀ s ∈ [((0 : ℚ), (3/2 : ℚ)), (1/2, 1)], s.1 ≤ s.2) ∧
    mergeLineAngleSegments [(0, 3/2), (1/2, 1)] = some [(0, 1)] ∧
    ((0 : ℚ) ≤ 5/4 ∧ (5/4 : ℚ) ≤ 3/2) ∧
    ¬ ∃ m ∈ [((0 : ℚ), (1 : ℚ))], m.1 ≤ 5/4 ∧ 5/4 ≤ m.2 := by
  refine ⟨?_, ?_, ?_, ?_⟩
  · intro s hs
    simp only [List.mem_cons, List.mem_singleton, List.not_mem_nil, or_false] at hs
    rcases hs with rfl | rfl <;> norm_num
  · have hsort : [((0 : ℚ), (3/2 : ℚ)), (1/2, 1)].insertionSort (fun a1 a2 => ¬ a2.1 < a1.1) =
        [(0, 3/2), (1/2, 1)] := by
      simp [List.insertionSort, List.orderedInsert]
    unfold mergeLineAngleSegments
    simp only [hsort]
    simp [sweepStep, pushSpan, M_PI]
    norm_num
  · norm_num
  · simp
    norm_num

theorem pushSpan_ordered (merged : List (ℚ × ℚ)) (curFrom curTo : ℚ)
    (ho : SpansOrdered merged) (hb : ∀ m ∈ merged, m.2 < curFrom) (hle : curFrom ≤ curTo) :
    SpansOrdered (pushSpan merged curFrom curTo) ∧
    ∀ m ∈ pushSpan merged curFrom curTo, m.2 ≤ curTo := by
  obtain ⟨hp, hs⟩ := ho
  have hmid1 : curFrom ≤ (curFrom + curTo) / 2 := by linarith
  have hmid2 : (curFrom + curTo) / 2 ≤ curTo := by linarith
  unfold pushSpan
  split
  · refine ⟨⟨?_, ?_⟩, ?_⟩
    · rw [List.pairwise_append]
      refine ⟨hp, by simp, ?_⟩
      intro a ha b hb'
      simp only [List.mem_cons, List.mem_singleton, List.not_mem_nil, or_false] at hb'
      rcases hb' with rfl | rfl
      · exact le_of_lt (hb a ha)
      · exact le_trans (le_of_lt (hb a ha)) hmid1
    · intro m hm
      rcases List.mem_append.1 hm with h | h
      · exact hs m h
      · simp only [List.mem_cons, List.mem_singleton, List.not_mem_nil, or_false] at h
        rcases h with rfl | rfl
        · exact hmid1
        · exact hmid2
    · intro m hm
      rcases List.mem_append.1 hm with h | h
      · exact le_trans (le_of_lt (hb m h)) hle
      · simp only [List.mem_cons, List.mem_singleton, List.not_mem_nil, or_false] at h
        rcases h with rfl | rfl
        · exact hmid2
        · exact le_refl _
  · refine ⟨⟨?_, ?_⟩, ?_⟩
    · rw [List.pairwise_append]
      refine ⟨hp, by simp, ?_⟩
      intro a ha b hb'
      simp only [List.mem_singleton] at hb'
      subst hb'
      exact le_of_lt (hb a ha)
    · intro m hm
      rcases List.mem_append.1 hm with h | h
      · exact hs m h
      · simp only [List.mem_singleton] at h
        subst h
        exact hle
    · intro m hm
      rcases List.mem_append.1 hm with h | h
      · exact le_trans (le_of_lt (hb m h)) hle
      · simp only [List.mem_singleton] at h
        subst h
        exact le_refl _

theorem sweep_ordered :
    ∀ (l : List (ℚ × ℚ)) (s : List (ℚ × ℚ) × ℚ × ℚ),
      l.Pairwise (fun a b => a.1 ≤ b.1) →
      (∀ a ∈ l, a.1 ≤ a.2) → (∀ a ∈ l, s.2.1 ≤ a.1) →
      SpansOrdered s.1 → (∀ m ∈ s.1, m.2 < s.2.1) → s.2.1 ≤ s.2.2 →
      SpansOrdered (l.foldl sweepStep s).1 ∧
      (∀ m ∈ (l.foldl sweepStep s).1, m.2 < (l.foldl sweepStep s).2.1) ∧
      (l.foldl sweepStep s).2.1 ≤ (l.foldl sweepStep s).2.2 := by
  intro l
  induction l with
  | nil => intro s _ _ _ ho hb hle; exact ⟨ho, hb, hle⟩
  | cons a t ih =>
    intro s hsorted hw hlow ho hb hle
    rw [List.pairwise_cons] at hsorted
    simp only [List.foldl_cons]
    have hwa := hw a (List.mem_cons_self _ _)
    have hla := hlow a (List.mem_cons_self _ _)
    by_cases hc : a.1 ≤ s.2.2
    · have hstep : sweepStep s a = (s.1, s.2.1, a.2) := by
        unfold sweepStep; rw [if_pos hc]
      rw [hstep]
      exact ih _ hsorted.2 (fun b hb' => hw b (List.mem_cons_of_mem _ hb'))
        (fun b hb' => hlow b (List.mem_cons_of_mem _ hb')) ho hb (le_trans hla hwa)
    · have hstep : sweepStep s a = (pushSpan s.1 s.2.1 s.2.2, a.1, a.2) := by
        unfold sweepStep; rw [if_neg hc]
      rw [hstep]
      obtain ⟨p1, p2⟩ := pushSpan_ordered s.1 s.2.1 s.2.2 ho hb hle
      refine ih _ hsorted.2 (fun b hb' => hw b (List.mem_cons_of_mem _ hb')) ?_ p1 ?_ hwa
      · intro b hb'
        exact hsorted.1 b hb'
      · intro m hm
        exact lt_of_le_of_lt (p2 m hm) (not_le.1 hc)

/-- What the code does satisfy of the merge: on a non-empty list of spans with `from ≤ to` the
sort-and-sweep step returns, and the merged spans are in ascending order and overlap at most in
end points. -/
theorem mergeLineAngleSegments_ordered (lineAngleSegments : List (ℚ × ℚ))
    (hne : lineAngleSegments ≠ []) (hw : ∀ a ∈ lineAngleSegments, a.1 ≤ a.2) :
    ∃ merged, mergeLineAngleSegments lineAngleSegments = some merged ∧ SpansOrdered merged := by
  have hperm := List.perm_insertionSort (fun (a1 a2 : ℚ × ℚ) => ¬ a2.1 < a1.1)
    lineAngleSegments
  haveI : IsTotal (ℚ × ℚ) (fun a1 a2 => ¬ a2.1 < a1.1) :=
    ⟨fun a b => by
      rcases le_total a.1 b.1 with h | h
      · exact Or.inl (not_lt.2 h)
      · exact Or.inr (not_lt.2 h)⟩
  haveI : IsTrans (ℚ × ℚ) (fun a1 a2 => ¬ a2.1 < a1.1) :=
    ⟨fun a b c h1 h2 => not_lt.2 (le_trans (not_lt.1 h1) (not_lt.1 h2))⟩
  have hsorted := List.sorted_insertionSort (fun (a1 a2 : ℚ × ℚ) => ¬ a2.1 < a1.1)
    lineAngleSegments
  have hw' : ∀ a ∈ lineAngleSegments.insertionSort (fun a1 a2 => ¬ a2.1 < a1.1),
      a.1 ≤ a.2 := fun a ha => hw a (hperm.mem_iff.1 ha)
  unfold mergeLineAngleSegments
  cases hs : lineAngleSegments.insertionSort (fun a1 a2 => ¬ a2.1 < a1.1) with
  | nil =>
    have := hperm.length_eq
    rw [hs] at this
    exact absurd (List.length_eq_zero.1 this.symm) hne
  | cons front rest =>
    rw [hs] at hsorted hw'
    have hsorted' : (front :: rest).Pairwise (fun a b => a.1 ≤ b.1) :=
      List.Pairwise.imp (fun h => not_lt.1 h) hsorted
    have hlow : ∀ a ∈ front :: rest, front.1 ≤ a.1 := by
      intro a ha
      rcases List.mem_cons.1 ha with rfl | h
      · exact le_refl _
      · exact (List.pairwise_cons.1 hsorted').1 a h
    obtain ⟨o1, o2, o3⟩ := sweep_ordered (front :: rest) ([], front.1, front.2) hsorted' hw'
      hlow ⟨List.Pairwise.nil, by simp⟩ (by simp) (hw' front (List.mem_cons_self _ _))
    refine ⟨_, rfl, ?_⟩
    exact (pushSpan_ordered _ _ _ o1 o2 o3).1

/-! ## The binary handles of the patches returned by SplitPatch -/

/-- C27: where `SplitPatch` puts a binary handle of the patch depends on the components of its
two ends only, whatever the predicate says about the handle. When `SplitPatch` returns on a
patch that satisfies Invariant A, a binary handle bound in the patch is bound, with its
binding, in every returned patch that holds both its ends; it is bound only in such a patch;
and it is in no returned patch exactly when no returned patch holds both its ends. -/
theorem splitPatch_edges_by_component (mg : MixedGraph) (patch : MGPatch)
    (useBh : MGBinaryHandle → Bool) (hA : InvariantA mg patch) (ps : List MGPatch)
    (h : SplitPatch mg patch useBh = some ps)
    (bh : MGBinaryHandle) (bv : MGBinaryVariable) (ends : MGUnaryHandle × MGUnaryHandle)
    (hbv : mapAt patch.bhs bh = some bv) (hl : mg.lowers bh = some ends) :
    (∀ i p, ps.get? i = some p → Contains p.uhs ends.1 = true →
      Contains p.uhs ends.2 = true → mapAt p.bhs bh = some bv) ∧
    (∀ i p, ps.get? i = some p → (mapAt p.bhs bh).isSome = true →
      Contains p.uhs ends.1 = true ∧ Contains p.uhs ends.2 = true) ∧
    ((∀ i p, ps.get? i = some p → mapAt p.bhs bh = none) ↔
      ¬ ∃ i p, ps.get? i = some p ∧ Contains p.uhs ends.1 = true ∧
        Contains p.uhs ends.2 = true) := by
  obtain ⟨ccNum, calls, hinv, hkeys, -, -, hps⟩ := splitPatch_spec mg patch useBh hA ps h
  have hnd : KeysNodup calls := hinv.nodup
  have hcb : Contains patch.bhs bh = true := by unfold Contains; rw [hbv]; rfl
  obtain ⟨ends', hl', hc1, hc2⟩ := hA bh hcb
  rw [hl] at hl'
  have he := Option.some.inj hl'
  subst he
  have hmem : ∀ (v : Nat) (i : Nat) (p : MGPatch), ps.get? i = some p →
      Contains p.uhs v = true → mapGetD calls v = i := by
    intro v i p hp hc
    have hu := (hps i p hp).1 v
    by_cases hin : (v, i) ∈ calls
    · unfold mapGetD
      rw [mapAt_eq_some_of_mem calls hnd v i hin]
      rfl
    · rw [if_neg hin] at hu
      unfold Contains at hc
      rw [hu] at hc
      exact Bool.noConfusion hc
  have hin : ∀ (v : Nat) (i : Nat) (p : MGPatch), ps.get? i = some p →
      Contains patch.uhs v = true → mapGetD calls v = i → Contains p.uhs v = true := by
    intro v i p hp hc hg
    have hu := (hps i p hp).1 v
    have hk : v ∈ calls.map Prod.fst := (hkeys v).2 hc
    obtain ⟨c, hcm, hcv⟩ := List.mem_map.1 hk
    have hci : c = (v, i) := by
      have h1 := mapAt_eq_some_of_mem calls hnd c.1 c.2 hcm
      rw [hcv] at h1
      unfold mapGetD at hg
      rw [h1] at hg
      simp only [Option.getD_some] at hg
      exact Prod.ext hcv hg
    rw [hci] at hcm
    rw [if_pos hcm] at hu
    unfold Contains at hc ⊢
    rw [hu]
    exact hc
  have h1 : ∀ i p, ps.get? i = some p → Contains p.uhs ends.1 = true →
      Contains p.uhs ends.2 = true → mapAt p.bhs bh = some bv := by
    intro i p hp c1 c2
    have hb := (hps i p hp).2 bh
    rw [if_pos ⟨ends, hl, by rw [hmem _ i p hp c1, hmem _ i p hp c2], hmem _ i p hp c1⟩] at hb
    rw [hb, hbv]
  have h2 : ∀ i p, ps.get? i = some p → (mapAt p.bhs bh).isSome = true →
      Contains p.uhs ends.1 = true ∧ Contains p.uhs ends.2 = true := by
    intro i p hp hs
    have hb := (hps i p hp).2 bh
    by_cases hcond : ∃ ends', mg.lowers bh = some ends' ∧
        mapGetD calls ends'.1 = mapGetD calls ends'.2 ∧ mapGetD calls ends'.1 = i
    · obtain ⟨ends', hl'', e1, e2⟩ := hcond
      rw [hl] at hl''
      have he := Option.some.inj hl''
      subst he
      exact ⟨hin _ i p hp hc1 e2, hin _ i p hp hc2 (e1 ▸ e2)⟩
    · rw [if_neg hcond] at hb
      rw [hb] at hs
      exact Bool.noConfusion hs
  refine ⟨h1, h2, ?_, ?_⟩
  · rintro hall ⟨i, p, hp, c1, c2⟩
    have := h1 i p hp c1 c2
    rw [hall i p hp] at this
    exact Option.noConfusion this
  · intro hno i p hp
    cases hm : mapAt p.bhs bh with
    | none => rfl
    | some v =>
      exact absurd ⟨i, p, hp, h2 i p hp (by rw [hm]; rfl)⟩ hno

/-- C27 on the triangle, split by the predicate that rejects handle 2 = (0, 2): handles 0 and 1
put the three nodes in one component, and the rejected handle 2 is in the returned patch. -/
theorem splitPatch_edges_by_component_witness :
    InvariantA triangleGraph trianglePatch ∧
    (fun bh => bh != 2) 2 = false ∧
    ∃ ps, SplitPatch triangleGraph trianglePatch (fun bh => bh != 2) = some ps ∧
      ∃ p, ps.get? 0 = some p ∧ Contains p.uhs 0 = true ∧ Contains p.uhs 2 = true ∧
        mapAt p.bhs 2 = some { enabled := true } := by
  have hval : SplitPatch triangleGraph trianglePatch (fun bh => bh != 2) =
      some [trianglePatch] := by decide
  exact ⟨trianglePatch_invariantA, rfl, _, hval, trianglePatch, rfl, rfl, rfl,
    (splitPatch_edges_by_component triangleGraph trianglePatch (fun bh => bh != 2)
      trianglePatch_invariantA _ hval 2 { enabled := true } (0, 2) rfl rfl).1 0 trianglePatch
      rfl rfl rfl⟩

/-! ## The optimizer of the linear-programming algorithm -/

section MosekTotal

open MGPatchDepthsOptimizerInternalMosek

theorem foldlM_total {σ α : Type} (f : σ → α → Option σ) (P : σ → Prop) :
    ∀ (l : List α) (s : σ), P s →
      (∀ s a, a ∈ l → P s → ∃ s', f s a = some s' ∧ P s') →
      ∃ s', l.foldlM f s = some s' ∧ P s' := by
  intro l
  induction l with
  | nil => intro s hs _; exact ⟨s, rfl, hs⟩
  | cons a t ih =>
    intro s hs hstep
    obtain ⟨s1, h1, hP1⟩ := hstep s a (List.mem_cons_self _ _) hs
    obtain ⟨s', h', hP'⟩ := ih s1 hP1 (fun s b hb => hstep s b (List.mem_cons_of_mem _ hb))
    exact ⟨s', by simp only [List.foldlM_cons, Option.bind_eq_bind, h1, Option.some_bind, h'],
      hP'⟩

theorem dataU_isSome (mg : MixedGraph) (uh : Nat) (h : uh < mg.unaries.length) :
    ∃ u, mg.dataU uh = some u := by
  unfold MixedGraph.dataU
  exact ⟨mg.unaries[uh], by rw [List.get?_eq_getElem?, List.getElem?_eq_getElem h]⟩

theorem collectAnchors_total (geo : Geometry) (mg : MixedGraph) (patch : MGPatch)
    (hr : MosekReady mg patch) :
    collectAnchors geo mg patch [] [] = some [] := by
  obtain ⟨-, hnodes, hedges, -⟩ := hr
  unfold collectAnchors
  obtain ⟨s', h', hs'⟩ := foldlM_total (fun (applied : List (MGBinaryHandle × List Vec3))
      (bhv : MGBinaryHandle × MGBinaryVariable) =>
    if !bhv.2.enabled then pure applied
    else do
      let ends ← mg.lowers bhv.1
      let _u1 ← mg.dataU ends.1
      let _u2 ← mg.dataU ends.2
      let u1IsFixed := !Contains ([] : List (MGUnaryHandle × Nat)) ends.1
      let u2IsFixed := !Contains ([] : List (MGUnaryHandle × Nat)) ends.2
      if u1IsFixed && u2IsFixed then pure applied
      else do
        let anchors ← NecessaryAnchorsForBinary geo mg bhv.1
        pure (mapSet applied bhv.1 anchors)) (fun s => s = []) patch.bhs [] rfl (by
    intro s bhv hb hs
    subst hs
    by_cases hen : bhv.2.enabled = true
    · obtain ⟨ends, hl, c1, c2⟩ := hedges bhv hb hen
      obtain ⟨u1, hu1⟩ := dataU_isSome mg ends.1
        (hnodes _ ((contains_iff_mem_keys _ _).1 c1))
      obtain ⟨u2, hu2⟩ := dataU_isSome mg ends.2
        (hnodes _ ((contains_iff_mem_keys _ _).1 c2))
      refine ⟨[], ?_, rfl⟩
      simp [hen, hl, hu1, hu2, contains_nil]
    · have hen' : bhv.2.enabled = false := by simpa using hen
      exact ⟨[], by simp [hen'], rfl⟩)
  rw [h', hs']

/-- Without links every root is a component of its own. -/
theorem ccLoop_isolated (f : Nat) :
    ∀ (roots visited : List Nat) (cid : Nat) (calls : List (Nat × Nat)),
      roots.Nodup → (∀ r ∈ roots, r ∉ visited) →
      ccLoop (fun _ => []) (f + 2) roots visited cid calls =
        some (cid + roots.length, calls ++ roots.zip (List.range' cid roots.length)) := by
  intro roots
  induction roots with
  | nil => intro visited cid calls _ _; simp [ccLoop]
  | cons r rest ih =>
    intro visited cid calls hnd hv
    simp only [List.nodup_cons] at hnd
    have hr : r ∉ visited := hv r (List.mem_cons_self _ _)
    have hb : bfs (fun _ => []) (f + 2) [r] (visited ++ [r]) [] =
        some (visited ++ [r], [r]) := by
      simp [bfs]
    rw [ccLoop, if_neg hr, hb]
    simp only
    rw [ih (visited ++ [r]) (cid + 1) _ hnd.2 (by
      intro r' hr' hmem
      rcases List.mem_append.1 hmem with h | h
      · exact hv r' (List.mem_cons_of_mem _ hr') h
      · simp only [List.mem_singleton] at h
        exact hnd.1 (h ▸ hr'))]
    simp only [List.length_cons, List.range'_succ, List.zip_cons_cons, List.map_cons,
      List.map_nil, List.append_assoc, List.singleton_append, Option.some.injEq, Prod.mk.injEq,
      and_true]
    omega

theorem recordCC_fold :
    ∀ (calls : List (Nat × Nat)) (acc : List (Nat × List Nat) × List (Nat × Nat)),
      (calls.map Prod.fst).Nodup → (calls.map Prod.snd).Nodup →
      (∀ c ∈ calls, c.2 ∉ mapKeys acc.1 ∧ c.1 ∉ mapKeys acc.2) →
      calls.foldl recordCC acc =
        (acc.1 ++ calls.map (fun c => (c.2, [c.1])), acc.2 ++ calls) := by
  intro calls
  induction calls with
  | nil => intro acc _ _ _; simp
  | cons c t ih =>
    intro acc h1 h2 hd
    simp only [List.map_cons, List.nodup_cons] at h1 h2
    obtain ⟨d1, d2⟩ := hd c (List.mem_cons_self _ _)
    have hnone : mapAt acc.1 c.2 = none := by
      cases hm : mapAt acc.1 c.2 with
      | none => rfl
      | some v =>
        exact absurd ((contains_iff_mem_keys _ _).1 ((contains_eq_true_iff _ _).2 ⟨v, hm⟩)) d1
    have hstep : recordCC acc c = (acc.1 ++ [(c.2, [c.1])], acc.2 ++ [c]) := by
      unfold recordCC
      rw [hnone, mapSet_of_not_mem _ _ _ d1, mapSet_of_not_mem _ _ _ d2]
      simp
    simp only [List.foldl_cons]
    rw [hstep, ih _ h1.2 h2.2]
    · simp
    · intro d hdm
      obtain ⟨e1, e2⟩ := hd d (List.mem_cons_of_mem _ hdm)
      simp only [mapKeys, List.map_append, List.map_cons, List.map_nil, List.mem_append,
        List.mem_singleton, not_or]
      refine ⟨⟨e1, ?_⟩, ⟨e2, ?_⟩⟩
      · intro e
        exact h2.1 (e ▸ List.mem_map_of_mem Prod.snd hdm)
      · intro e
        exact h1.1 (e ▸ List.mem_map_of_mem Prod.fst hdm)

/-- The component tables of a patch without strong links: node number `i` of the patch is the
only member of component `i`. -/
theorem isolated_tables (roots : List Nat) (hnd : roots.Nodup) :
    (∀ c ∈ roots.zip (List.range' 0 roots.length), c.1 ∈ roots) ∧
    (∀ uh ∈ roots, ∃ i, mapAt (roots.zip (List.range' 0 roots.length)) uh = some i ∧
      mapAt ((roots.zip (List.range' 0 roots.length)).map (fun c => (c.2, [c.1]))) i =
        some [uh]) := by
  have hlen : roots.length = (List.range' 0 roots.length).length := by simp
  have hfst : (roots.zip (List.range' 0 roots.length)).map Prod.fst = roots := by
    rw [List.map_fst_zip]
    simp
  have hsnd : (roots.zip (List.range' 0 roots.length)).map Prod.snd =
      List.range' 0 roots.length := by
    rw [List.map_snd_zip]
    simp
  constructor
  · intro c hc
    rw [← hfst]
    exact List.mem_map_of_mem Prod.fst hc
  · intro uh huh
    rw [← hfst] at huh
    obtain ⟨c, hc, rfl⟩ := List.mem_map.1 huh
    refine ⟨c.2, ?_, ?_⟩
    · exact mapAt_eq_some_of_mem _ (by unfold KeysNodup mapKeys; rw [hfst]; exact hnd) c.1 c.2 hc
    · refine mapAt_eq_some_of_mem _ ?_ c.2 [c.1] (List.mem_map.2 ⟨c, hc, rfl⟩)
      unfold KeysNodup mapKeys
      rw [List.map_map]
      have : (Prod.fst ∘ fun (c : Nat × Nat) => (c.2, [c.1])) = Prod.snd := by
        funext c; rfl
      rw [this, hsnd]
      exact List.nodup_range' 0 roots.length

theorem uhFixed_keys (l : List (MGUnaryHandle × MGUnaryVariable)) :
    ∀ (m : List (MGUnaryHandle × Bool)) (k : Nat),
      Contains (l.foldl (fun (m : List (MGUnaryHandle × Bool)) uhv =>
        mapSet m uhv.1 uhv.2.fixed) m) k = true ↔ (Contains m k = true ∨ k ∈ mapKeys l) := by
  induction l with
  | nil => intro m k; simp [mapKeys]
  | cons e t ih =>
    intro m k
    simp only [List.foldl_cons]
    rw [ih, contains_mapSet]
    simp only [mapKeys, List.map_cons, List.mem_cons]
    tauto

/-- The spreading step on components of one node each runs through, leaves the patch as it is
and keeps an entry of `uhFixed` for every node. -/
theorem spreadAll_total (patch : MGPatch)
    (hfixed : ∀ uhv ∈ patch.uhs, uhv.2.fixed = true → 3 ≤ uhv.2.vars.length)
    (ccs : List (Nat × List Nat))
    (hs : ∀ cc ∈ ccs, ∃ uh, cc.2 = [uh] ∧ Contains patch.uhs uh = true)
    (uhFixed : List (MGUnaryHandle × Bool))
    (hk : ∀ k ∈ mapKeys patch.uhs, Contains uhFixed k = true) :
    ∃ uhFixed', spreadAll ccs (patch, uhFixed) = some (patch, uhFixed') ∧
      ∀ k ∈ mapKeys patch.uhs, Contains uhFixed' k = true := by
  unfold spreadAll
  obtain ⟨s', h', hp, hk'⟩ := foldlM_total (fun (s : MGPatch × List (MGUnaryHandle × Bool))
      (cc : Nat × List MGUnaryHandle) => do
    let r ← sumFixed s.1 cc.2
    spreadFixed r.1 r.2 cc.2 s)
    (fun s => s.1 = patch ∧ ∀ k ∈ mapKeys patch.uhs, Contains s.2 k = true) ccs
    (patch, uhFixed) ⟨rfl, hk⟩ (by
    intro s cc hcc hP
    obtain ⟨hp, hks⟩ := hP
    obtain ⟨uh, huh, hc⟩ := hs cc hcc
    obtain ⟨uhVar, hvar⟩ := (contains_eq_true_iff _ _).1 hc
    have hmem := mem_of_mapAt_eq_some _ _ _ hvar
    obtain ⟨p1, f1⟩ := s
    simp only at hp
    subst hp
    by_cases hfx : uhVar.fixed = true
    · have h3 := hfixed _ hmem hfx
      simp only at h3
      obtain ⟨v0, hv0⟩ : ∃ v, uhVar.vars.get? 0 = some v :=
        ⟨uhVar.vars[0], by rw [List.get?_eq_getElem?, List.getElem?_eq_getElem (by omega)]⟩
      obtain ⟨v1, hv1⟩ : ∃ v, uhVar.vars.get? 1 = some v :=
        ⟨uhVar.vars[1], by rw [List.get?_eq_getElem?, List.getElem?_eq_getElem (by omega)]⟩
      obtain ⟨v2, hv2⟩ : ∃ v, uhVar.vars.get? 2 = some v :=
        ⟨uhVar.vars[2], by rw [List.get?_eq_getElem?, List.getElem?_eq_getElem (by omega)]⟩
      refine ⟨(p1, mapSet f1 uh true), ?_, rfl, ?_⟩
      · rw [List.get?_eq_getElem?] at hv0 hv1 hv2
        simp [huh, sumFixed, spreadFixed, hvar, hfx, hv0, hv1, hv2]
      · intro k hkm
        exact (contains_mapSet _ _ _ _).2 (Or.inr (hks k hkm))
    · have hfx' : uhVar.fixed = false := by simpa using hfx
      refine ⟨(p1, f1), ?_, rfl, hks⟩
      simp [huh, sumFixed, spreadFixed, hvar, hfx'])
  obtain ⟨p', f'⟩ := s'
  simp only at hp
  subst hp
  exact ⟨f', h', hk'⟩

theorem assignVarStarts_total (patch : MGPatch) (uhFixed : List (MGUnaryHandle × Bool))
    (uhCCs : List (Nat × List MGUnaryHandle)) (uhCCIds : List (MGUnaryHandle × Nat))
    (hk : ∀ k ∈ mapKeys patch.uhs, Contains uhFixed k = true)
    (hcc : ∀ uh ∈ mapKeys patch.uhs, ∃ i, mapAt uhCCIds uh = some i ∧
      mapAt uhCCs i = some [uh]) :
    ∃ r, assignVarStarts patch uhFixed uhCCs uhCCIds = some r := by
  unfold assignVarStarts
  obtain ⟨s', h', -⟩ := foldlM_total (fun (s : List (MGUnaryHandle × Nat) × Nat)
      (uhv : MGUnaryHandle × MGUnaryVariable) => do
    let isFixed ← mapAt uhFixed uhv.1
    if isFixed then pure s
    else do
      let ccId ← mapAt uhCCIds uhv.1
      let cc ← mapAt uhCCs ccId
      let firstUhInThisCC ← cc.head?
      if firstUhInThisCC = uhv.1 then
        pure (mapSet s.1 uhv.1 s.2, s.2 + uhv.2.vars.length)
      else do
        let start ← mapAt s.1 firstUhInThisCC
        pure (mapSet s.1 uhv.1 start, s.2)) (fun _ => True) patch.uhs ([], 0) trivial (by
    intro s uhv hm _
    have hkey : uhv.1 ∈ mapKeys patch.uhs := List.mem_map_of_mem Prod.fst hm
    obtain ⟨b, hb⟩ := (contains_eq_true_iff _ _).1 (hk _ hkey)
    obtain ⟨i, hi1, hi2⟩ := hcc _ hkey
    cases b with
    | true => exact ⟨s, by simp [hb], trivial⟩
    | false =>
      exact ⟨(mapSet s.1 uhv.1 s.2, s.2 + uhv.2.vars.length), by simp [hb, hi1, hi2], trivial⟩)
  exact ⟨s', h'⟩

theorem mosek_countConstraints_total (mg : MixedGraph) (patch : MGPatch)
    (hr : MosekReady mg patch) (uhFixed : List (MGUnaryHandle × Bool))
    (hk : ∀ k ∈ mapKeys patch.uhs, Contains uhFixed k = true)
    (applied : List (MGBinaryHandle × List Vec3)) :
    ∃ r, countConstraints mg patch uhFixed applied = some r := by
  obtain ⟨-, hnodes, hedges, -⟩ := hr
  unfold countConstraints
  obtain ⟨s', h', -⟩ := foldlM_total
    (fun (s : List (MGBinaryHandle × Nat) × List (MGBinaryHandle × List Vec3) × Nat)
      (bhv : MGBinaryHandle × MGBinaryVariable) =>
    if !bhv.2.enabled then pure s
    else do
      let ends ← mg.lowers bhv.1
      let _u1 ← mg.dataU ends.1
      let _u2 ← mg.dataU ends.2
      let u1IsFixed ← mapAt uhFixed ends.1
      let u2IsFixed ← mapAt uhFixed ends.2
      if u1IsFixed && u2IsFixed then pure s
      else
        let anchors := (mapAt s.2.1 bhv.1).getD []
        pure (mapSet s.1 bhv.1 s.2.2, mapSet s.2.1 bhv.1 anchors, s.2.2 + anchors.length))
    (fun _ => True) patch.bhs ([], applied, 0) trivial (by
    intro s bhv hb _
    by_cases hen : bhv.2.enabled = true
    · obtain ⟨ends, hl, c1, c2⟩ := hedges bhv hb hen
      have k1 := (contains_iff_mem_keys _ _).1 c1
      have k2 := (contains_iff_mem_keys _ _).1 c2
      obtain ⟨u1, hu1⟩ := dataU_isSome mg ends.1 (hnodes _ k1)
      obtain ⟨u2, hu2⟩ := dataU_isSome mg ends.2 (hnodes _ k2)
      obtain ⟨b1, hb1⟩ := (contains_eq_true_iff _ _).1 (hk _ k1)
      obtain ⟨b2, hb2⟩ := (contains_eq_true_iff _ _).1 (hk _ k2)
      simp only [hen, Bool.not_true, Bool.false_eq_true, if_false, hl, hu1, hu2, hb1, hb2,
        Option.bind_eq_bind, Option.some_bind, pure]
      split
      · exact ⟨_, rfl, trivial⟩
      · exact ⟨_, rfl, trivial⟩
    · have hen' : bhv.2.enabled = false := by simpa using hen
      exact ⟨s, by simp [hen'], trivial⟩)
  exact ⟨s', h'⟩

theorem connectedComponents_isolated (n : Nat) (roots : List Nat) (hnd : roots.Nodup)
    (hn : ∀ r ∈ roots, r < n) :
    ConnectedComponents (n + 1) roots (fun _ => []) =
      some (roots.length, roots.zip (List.range' 0 roots.length)) := by
  unfold ConnectedComponents
  cases roots with
  | nil => simp [ccLoop]
  | cons r rest =>
    have hpos : 1 ≤ n := by
      have := hn r (List.mem_cons_self _ _)
      omega
    obtain ⟨f, hf⟩ : ∃ f, n + 1 = f + 2 := ⟨n - 1, by omega⟩
    rw [hf, ccLoop_isolated f (r :: rest) [] 0 [] hnd (by intro r' _ h; simp at h)]
    simp

/-- On a ready patch the linear-programming `initialise` returns. -/
theorem mosek_initialise_total (geo : Geometry) (mg : MixedGraph) (patch : MGPatch)
    (vps : List Vec3) (uw : Bool) (hr : MosekReady mg patch) :
    ∃ r, initialise geo fresh mg patch vps uw = some r := by
  have hnd : (mapKeys patch.uhs).Nodup := hr.1
  have hnb : strongNeighbors mg patch [] = fun _ => [] := by
    funext uh
    exact strongNeighbors_nil mg patch uh
  obtain ⟨htab1, htab2⟩ := isolated_tables (mapKeys patch.uhs) hnd
  have hfst : ((mapKeys patch.uhs).zip (List.range' 0 (mapKeys patch.uhs).length)).map
      Prod.fst = mapKeys patch.uhs := by
    rw [List.map_fst_zip]
    simp
  have hsnd : ((mapKeys patch.uhs).zip (List.range' 0 (mapKeys patch.uhs).length)).map
      Prod.snd = List.range' 0 (mapKeys patch.uhs).length := by
    rw [List.map_snd_zip]
    simp
  have hrec := recordCC_fold ((mapKeys patch.uhs).zip (List.range' 0 (mapKeys patch.uhs).length))
    ([], []) (by rw [hfst]; exact hnd) (by rw [hsnd]; exact List.nodup_range' 0 _)
    (by intro c _; simp [mapKeys])
  simp only [List.nil_append] at hrec
  have hk0 : ∀ k ∈ mapKeys patch.uhs,
      Contains (patch.uhs.foldl (fun (m : List (MGUnaryHandle × Bool)) uhv =>
        mapSet m uhv.1 uhv.2.fixed) []) k = true := by
    intro k hk
    exact (uhFixed_keys patch.uhs [] k).2 (Or.inr hk)
  obtain ⟨uhFixed', hspread, hk'⟩ := spreadAll_total patch hr.2.2.2
    (((mapKeys patch.uhs).zip (List.range' 0 (mapKeys patch.uhs).length)).map
      (fun c => (c.2, [c.1])))
    (by
      intro cc hcc
      obtain ⟨c, hc, rfl⟩ := List.mem_map.1 hcc
      exact ⟨c.1, rfl, (contains_iff_mem_keys _ _).2 (htab1 c hc)⟩)
    _ hk0
  obtain ⟨r1, hassign⟩ := assignVarStarts_total patch uhFixed'
    (((mapKeys patch.uhs).zip (List.range' 0 (mapKeys patch.uhs).length)).map
      (fun c => (c.2, [c.1])))
    ((mapKeys patch.uhs).zip (List.range' 0 (mapKeys patch.uhs).length)) hk' htab2
  obtain ⟨r2, hcount⟩ := mosek_countConstraints_total mg patch hr uhFixed' hk' []
  unfold initialise
  simp only [fresh, collectAnchors_total geo mg patch hr, Option.bind_eq_bind, Option.some_bind,
    hnb, connectedComponents_isolated mg.unaries.length (mapKeys patch.uhs) hnd hr.2.1, hrec,
    hspread, hassign, hcount, pure]
  exact ⟨_, rfl⟩

/-- C28: the optimizer built with the linear-programming algorithm. The first loop of its
`initialise` tests the ends against the start-position map while that map is still empty, so it
records nothing. Whenever the construction returns, every anchor list it holds is empty, the
number of constraint rows is 0, the patch is as it was (the spreading step changes no
parameters), and `optimize` returns `false` and leaves the patch unchanged. `optimize` of the
implementation returns `false` on every input. On a ready patch the construction returns. -/
theorem mosek_optimizer_inert (geo : Geometry) (ind : Bool) (mg : MixedGraph) (patch : MGPatch)
    (vps : List Vec3) (uw : Bool) :
    (∀ r, collectAnchors geo mg patch fresh.uh2varStartPosition fresh.appliedBinaryAnchors =
      some r → r = []) ∧
    (∀ opt, MGPatchDepthsOptimizer.create geo ind mg patch vps uw
        Algorithm.MosekLinearProgramming = some opt →
      ∃ data, opt.internal = OptimizerInternal.mosek data ∧
        (∀ bh anchors, mapAt data.appliedBinaryAnchors bh = some anchors → anchors = []) ∧
        data.consNum = 0 ∧ opt.patch = patch ∧
        ∀ solver, opt.optimize solver = some (false, patch)) ∧
    (∀ (data : MGPatchDepthsOptimizerInternalMosek) (p : MGPatch),
      data.optimize p = some (false, p)) ∧
    (MosekReady mg patch →
      ∃ opt, MGPatchDepthsOptimizer.create geo ind mg patch vps uw
        Algorithm.MosekLinearProgramming = some opt) := by
  refine ⟨?_, ?_, fun _ _ => rfl, ?_⟩
  · intro r hr
    exact collectAnchors_empty geo mg patch _ r hr
  · intro opt hc
    unfold MGPatchDepthsOptimizer.create at hc
    simp only [Option.bind_eq_bind, Option.bind_eq_some, pure, Option.some.injEq] at hc
    obtain ⟨r, hr, rfl⟩ := hc
    obtain ⟨h1, h2, h3⟩ := mosek_initialise_patch geo mg patch vps uw r hr
    refine ⟨r.1, rfl, h2, h3, h1, ?_⟩
    intro solver
    simp only [MGPatchDepthsOptimizer.optimize, optimize, h1]
  · intro hready
    obtain ⟨r, hr⟩ := mosek_initialise_total geo mg patch vps uw hready
    refine ⟨{ internal := OptimizerInternal.mosek r.1, patch := r.2 }, ?_⟩
    unfold MGPatchDepthsOptimizer.create
    simp only [hr, Option.bind_eq_bind, Option.some_bind, pure]

/-- C28 on the two-region patch with one enabled overlap relation: the construction returns,
no anchors are recorded for the relation, no constraint row is counted, and `optimize` returns
`false`. -/
theorem mosek_optimizer_inert_witness :
    MosekReady overlapGraph overlapPatch ∧
    ∃ opt data, MGPatchDepthsOptimizer.create exGeometry true overlapGraph overlapPatch [] true
        Algorithm.MosekLinearProgramming = some opt ∧
      opt.internal = OptimizerInternal.mosek data ∧
      (mapAt data.appliedBinaryAnchors 0).getD [] = [] ∧
      data.consNum = 0 ∧ opt.patch = overlapPatch ∧
      opt.optimize failingSolver = some (false, overlapPatch) := by
  have hready : MosekReady overlapGraph overlapPatch := by
    refine ⟨by unfold KeysNodup; decide, by decide, ?_, by decide⟩
    intro bhv hb hen
    have : bhv = (0, { enabled := true }) := by simpa [overlapPatch] using hb
    subst this
    exact ⟨(0, 1), rfl, rfl, rfl⟩
  obtain ⟨-, hfacts, -, htotal⟩ := mosek_optimizer_inert exGeometry true overlapGraph
    overlapPatch [] true
  obtain ⟨opt, hopt⟩ := htotal hready
  obtain ⟨data, h1, h2, h3, h4, h5⟩ := hfacts opt hopt
  refine ⟨hready, opt, data, hopt, h1, ?_, h3, h4, h5 failingSolver⟩
  cases hm : mapAt data.appliedBinaryAnchors 0 with
  | none => rfl
  | some a => rw [h2 0 a hm]; rfl

end MosekTotal

end Panoramix
